import Mathlib

/-! Elemental: verification of selected kernels.

Shallow embeddings of `reflector::Col` (Householder reflector construction),
`ChangeFrontType`, the sequential `LowerForwardMultiply`, `Trr2kNTTT`, `HegstTrueL` and
the local `TwoSidedTrsmLVar5`, followed by the theorems about them. -/

namespace Elemental

/-! ## Complex numbers over an ordered field (`Complex<R>`) -/

/-- The C++ type `Complex<R>`: a pair of a real and an imaginary part. -/
@[ext]
structure Cplx (R : Type) where
  re : R
  im : R
deriving DecidableEq

namespace Cplx

variable {R : Type}

instance instZero [Zero R] : Zero (Cplx R) := ⟨⟨0, 0⟩⟩
instance instOne [Zero R] [One R] : One (Cplx R) := ⟨⟨1, 0⟩⟩
instance instAdd [Add R] : Add (Cplx R) := ⟨fun z w => ⟨z.re + w.re, z.im + w.im⟩⟩
instance instNeg [Neg R] : Neg (Cplx R) := ⟨fun z => ⟨-z.re, -z.im⟩⟩
instance instMul [Add R] [Sub R] [Mul R] : Mul (Cplx R) :=
  ⟨fun z w => ⟨z.re * w.re - z.im * w.im, z.re * w.im + z.im * w.re⟩⟩
instance instStar [Neg R] : Star (Cplx R) := ⟨fun z => ⟨z.re, -z.im⟩⟩

/-- Complex numbers over a commutative ring form a commutative ring. -/
instance instCommRing [CommRing R] : CommRing (Cplx R) :=
  CommRing.ofMinimalAxioms
    (fun a b c => Cplx.ext (add_assoc _ _ _) (add_assoc _ _ _))
    (fun a => Cplx.ext (zero_add _) (zero_add _))
    (fun a => Cplx.ext (neg_add_cancel _) (neg_add_cancel _))
    (fun a b c => Cplx.ext
      (show (a.re * b.re - a.im * b.im) * c.re - (a.re * b.im + a.im * b.re) * c.im
          = a.re * (b.re * c.re - b.im * c.im) - a.im * (b.re * c.im + b.im * c.re) by ring)
      (show (a.re * b.re - a.im * b.im) * c.im + (a.re * b.im + a.im * b.re) * c.re
          = a.re * (b.re * c.im + b.im * c.re) + a.im * (b.re * c.re - b.im * c.im) by ring))
    (fun a b => Cplx.ext
      (show a.re * b.re - a.im * b.im = b.re * a.re - b.im * a.im by ring)
      (show a.re * b.im + a.im * b.re = b.re * a.im + b.im * a.re by ring))
    (fun a => Cplx.ext
      (show (1 : R) * a.re - 0 * a.im = a.re by ring)
      (show (1 : R) * a.im + 0 * a.re = a.im by ring))
    (fun a b c => Cplx.ext
      (show a.re * (b.re + c.re) - a.im * (b.im + c.im)
          = a.re * b.re - a.im * b.im + (a.re * c.re - a.im * c.im) by ring)
      (show a.re * (b.im + c.im) + a.im * (b.re + c.re)
          = a.re * b.im + a.im * b.re + (a.re * c.im + a.im * c.re) by ring))

/-- Conjugation is a ring involution. -/
instance instStarRing [CommRing R] : StarRing (Cplx R) where
  star_involutive := fun a => Cplx.ext rfl (neg_neg _)
  star_mul := fun a b => Cplx.ext
    (show a.re * b.re - a.im * b.im = b.re * a.re - -b.im * -a.im by ring)
    (show -(a.re * b.im + a.im * b.re) = b.re * -a.im + -b.im * a.re by ring)
  star_add := fun a b => Cplx.ext rfl (neg_add _ _)

/-- Conversion `Complex<R>(a)` of a real number. -/
def ofReal [Zero R] (a : R) : Cplx R := ⟨a, 0⟩

/-- The C++ `alpha *= s` for complex `alpha` and real `s`. -/
def mulReal [Mul R] (z : Cplx R) (s : R) : Cplx R := ⟨z.re * s, z.im * s⟩

/-- The C++ `alpha - beta` for complex `alpha` and real `beta`. -/
def subReal [Sub R] (z : Cplx R) (b : R) : Cplx R := ⟨z.re - b, z.im⟩

/-- The C++ `a / z` for real `a` and complex `z`, in exact arithmetic:
`a * conj(z) / |z|^2`. -/
def realDiv [Add R] [Mul R] [Neg R] [Div R] (a : R) (z : Cplx R) : Cplx R :=
  ⟨a * z.re / (z.re * z.re + z.im * z.im), -(a * z.im) / (z.re * z.re + z.im * z.im)⟩

end Cplx

/-! ## Householder reflector construction: `reflector::Col` -/

section Reflector

variable {R : Type} [LinearOrderedField R] {n : Nat}

/-- Modelled from the spec: `Nrm2` of a real vector, the Euclidean norm, through
the square-root function `sqrt` (the norm kernels are not part of the sources).
The all-gather of the local norms followed by `blas::Nrm2` of them is the norm of
the whole distributed vector. -/
def Nrm2 (sqrt : R → R) (x : Fin n → R) : R :=
  sqrt (∑ i, x i * x i)

/-- Modelled from the spec: `Nrm2` of a complex vector, the Euclidean norm. -/
def Nrm2C (sqrt : R → R) (x : Fin n → Cplx R) : R :=
  sqrt (∑ i, ((x i).re * (x i).re + (x i).im * (x i).im))

/-- Modelled from the spec: `lapack::SafeNorm(a,b)`, the Euclidean norm of `(a,b)`. -/
def SafeNorm (sqrt : R → R) (a b : R) : R :=
  sqrt (a * a + b * b)

/-- Modelled from the spec: `lapack::SafeNorm(a,b,c)`, the Euclidean norm of
`(a,b,c)`. -/
def SafeNorm3 (sqrt : R → R) (a b c : R) : R :=
  sqrt (a * a + b * b + c * c)

/-- `Scale( a, x )` on a real vector. -/
def Scale (a : R) (x : Fin n → R) : Fin n → R :=
  fun i => a * x i

/-- `Scale( a, x )` on a complex vector. -/
def ScaleC (a : Cplx R) (x : Fin n → Cplx R) : Fin n → Cplx R :=
  fun i => a * x i

/-- The square-root function is exact on nonnegative numbers. -/
def IsSqrt (sqrt : R → R) : Prop :=
  ∀ a : R, 0 ≤ a → 0 ≤ sqrt a ∧ sqrt a * sqrt a = a

/-- The value `beta` computed by the real `Col` from `alpha` and `x`: the norm of
`[alpha; x]` with the sign opposite to that of `alpha`. -/
def signedNorm (sqrt : R → R) (alpha : R) (x : Fin n → R) : R :=
  if alpha ≤ 0 then SafeNorm sqrt alpha (Nrm2 sqrt x) else -SafeNorm sqrt alpha (Nrm2 sqrt x)

/-- The squared Euclidean norm of a complex vector. -/
def normSqC (x : Fin n → Cplx R) : R :=
  ∑ i, ((x i).re * (x i).re + (x i).im * (x i).im)

/-- The value `beta` computed by the complex `Col` from `alpha` and `x`. -/
def signedNormC (sqrt : R → R) (alpha : Cplx R) (x : Fin n → Cplx R) : R :=
  if alpha.re ≤ 0 then SafeNorm3 sqrt alpha.re alpha.im (Nrm2C sqrt x)
  else -SafeNorm3 sqrt alpha.re alpha.im (Nrm2C sqrt x)

/-- The loop `for( j=0; j<count; ++j ) beta *= safeInv`. -/
def scaleBack (safeInv : R) : Nat → R → R
  | 0, beta => beta
  | count + 1, beta => scaleBack safeInv count (beta * safeInv)

/-- The `do { ... } while( Abs(beta) < safeInv )` loop of the real `Col`, with fuel.
State: `count`, `x`, `alpha`, `beta`. -/
def rescaleLoop (invOfSafeInv safeInv : R) :
    Nat → Nat → (Fin n → R) → R → R → Option (Nat × (Fin n → R) × R × R)
  | 0, _, _, _, _ => none
  | fuel + 1, count, x, alpha, beta =>
    let count := count + 1
    let x := Scale invOfSafeInv x
    let alpha := alpha * invOfSafeInv
    let beta := beta * invOfSafeInv
    if |beta| < safeInv then rescaleLoop invOfSafeInv safeInv fuel count x alpha beta
    else some (count, x, alpha, beta)

/-- The `do { ... } while( Abs(beta) < safeInv )` loop of the complex `Col`. -/
def rescaleLoopC (invOfSafeInv safeInv : R) :
    Nat → Nat → (Fin n → Cplx R) → Cplx R → R → Option (Nat × (Fin n → Cplx R) × Cplx R × R)
  | 0, _, _, _, _ => none
  | fuel + 1, count, x, alpha, beta =>
    let count := count + 1
    let x := ScaleC (Cplx.ofReal invOfSafeInv) x
    let alpha := alpha.mulReal invOfSafeInv
    let beta := beta * invOfSafeInv
    if |beta| < safeInv then rescaleLoopC invOfSafeInv safeInv fuel count x alpha beta
    else some (count, x, alpha, beta)

/-- Outcome of `reflector::Col`: the returned `tau`, and the new contents of `chi`
and `x`. -/
structure ColResult (K : Type) (n : Nat) where
  tau : K
  chi : K
  x : Fin n → K

/-- `reflector::Col` for real data. `safeMin` and `epsilon` are
`lapack::MachineSafeMin` and `lapack::MachineEpsilon`; `fuel` bounds the number of
iterations of the rescaling loop (`none` when it is exhausted). -/
def ColReal (sqrt : R → R) (safeMin epsilon : R) (fuel : Nat) (chi : R) (x : Fin n → R) :
    Option (ColResult R n) :=
  let norm := Nrm2 sqrt x
  if norm = 0 then
    some ⟨2, -chi, x⟩
  else
    let alpha := chi
    let beta := if alpha ≤ 0 then SafeNorm sqrt alpha norm else -SafeNorm sqrt alpha norm
    let one : R := 1
    let safeInv := safeMin / epsilon
    if |beta| < safeInv then
      let invOfSafeInv := one / safeInv
      match rescaleLoop invOfSafeInv safeInv fuel 0 x alpha beta with
      | none => none
      | some (count, x, alpha, _) =>
        let norm := Nrm2 sqrt x
        let beta := if alpha ≤ 0 then SafeNorm sqrt alpha norm else -SafeNorm sqrt alpha norm
        let tau := (beta - alpha) / beta
        let x := Scale (one / (alpha - beta)) x
        let beta := scaleBack safeInv count beta
        some ⟨tau, beta, x⟩
    else
      let tau := (beta - alpha) / beta
      let x := Scale (one / (alpha - beta)) x
      let beta := scaleBack safeInv 0 beta
      some ⟨tau, beta, x⟩

/-- `reflector::Col` for complex data. -/
def ColComplex (sqrt : R → R) (safeMin epsilon : R) (fuel : Nat) (chi : Cplx R)
    (x : Fin n → Cplx R) : Option (ColResult (Cplx R) n) :=
  let norm := Nrm2C sqrt x
  let alpha := chi
  if norm = 0 ∧ alpha.im = 0 then
    some ⟨Cplx.ofReal 2, -chi, x⟩
  else
    let beta :=
      if alpha.re ≤ 0 then SafeNorm3 sqrt alpha.re alpha.im norm
      else -SafeNorm3 sqrt alpha.re alpha.im norm
    let one : R := 1
    let safeInv := safeMin / epsilon
    if |beta| < safeInv then
      let invOfSafeInv := one / safeInv
      match rescaleLoopC invOfSafeInv safeInv fuel 0 x alpha beta with
      | none => none
      | some (count, x, alpha, _) =>
        let norm := Nrm2C sqrt x
        let beta :=
          if alpha.re ≤ 0 then SafeNorm3 sqrt alpha.re alpha.im norm
          else -SafeNorm3 sqrt alpha.re alpha.im norm
        let tau : Cplx R := ⟨(beta - alpha.re) / beta, -alpha.im / beta⟩
        let x := ScaleC (Cplx.realDiv one (alpha.subReal beta)) x
        let beta := scaleBack safeInv count beta
        some ⟨tau, Cplx.ofReal beta, x⟩
    else
      let tau : Cplx R := ⟨(beta - alpha.re) / beta, -alpha.im / beta⟩
      let x := ScaleC (Cplx.realDiv one (alpha.subReal beta)) x
      let beta := scaleBack safeInv 0 beta
      some ⟨tau, Cplx.ofReal beta, x⟩

/-- The reflector `H = I - tau [1; v] [1, v']` for real data. -/
def reflectorReal (tau : R) (v : Fin n → R) : Matrix (Fin (n + 1)) (Fin (n + 1)) R :=
  1 - tau • Matrix.vecMulVec (Matrix.vecCons 1 v) (Matrix.vecCons 1 v)

/-- The reflector `H = I - tau [1; v] [1, v']` for complex data (`v'` is the
conjugate transpose of `v`). -/
def reflectorComplex (tau : Cplx R) (v : Fin n → Cplx R) :
    Matrix (Fin (n + 1)) (Fin (n + 1)) (Cplx R) :=
  1 - tau • Matrix.vecMulVec (Matrix.vecCons 1 v) (star (Matrix.vecCons 1 v))

end Reflector

end Elemental

namespace Elemental

/-! ## Dense matrices -/

/-- The logical contents of a `Matrix<F>` or `DistMatrix<F>`: its height, its width
and its entries (only the entries `(i, j)` with `i < height`, `j < width` are
meaningful). -/
structure Mat (F : Type) where
  height : Nat
  width : Nat
  entry : Nat → Nat → F

/-- The matrix left by `Empty()`: `0 x 0`. -/
def Mat.Empty {F : Type} [Zero F] : Mat F :=
  ⟨0, 0, fun _ _ => 0⟩

/-- A matrix is empty when it is `0 x 0`. -/
def Mat.IsEmpty {F : Type} (A : Mat F) : Prop :=
  A.height = 0 ∧ A.width = 0

instance Mat.decIsEmpty {F : Type} (A : Mat F) : Decidable A.IsEmpty :=
  inferInstanceAs (Decidable (A.height = 0 ∧ A.width = 0))

/-! ## Front types and `ChangeFrontType` -/

/-- The enumeration `SymmFrontType` and the helper functions on it that
`ChangeFrontType` calls. Their declarations are not among the sources, so they are
taken as parameters. -/
structure FrontTypeOps (T : Type) where
  SYMM_1D : T
  SYMM_2D : T
  FrontIs1D : T → Bool
  ConvertTo1D : T → T
  ConvertTo2D : T → T
  AppendSelInv : T → T
  SelInvFactorization : T → Bool

/-- Modelled from the spec: the front types, unfactored symmetric and LDL with the
selective-inversion, intra-pivoting and block variants, each in a 1D and a 2D
layout, under the names the tests use (`LDL_1D`, `LDL_SELINV_2D`, ...). The
declaration of the enumeration is not among the sources. -/
inductive SymmFrontType
  | SYMM_1D | SYMM_2D
  | LDL_1D | LDL_2D
  | LDL_SELINV_1D | LDL_SELINV_2D
  | LDL_INTRAPIV_1D | LDL_INTRAPIV_2D
  | LDL_INTRAPIV_SELINV_1D | LDL_INTRAPIV_SELINV_2D
  | BLOCK_LDL_1D | BLOCK_LDL_2D
  | BLOCK_LDL_INTRAPIV_1D | BLOCK_LDL_INTRAPIV_2D
deriving DecidableEq, Repr

namespace SymmFrontType

/-- Modelled from the spec: `FrontIs1D`, whether a front type is a 1D layout. -/
def FrontIs1D : SymmFrontType → Bool
  | SYMM_1D | LDL_1D | LDL_SELINV_1D | LDL_INTRAPIV_1D | LDL_INTRAPIV_SELINV_1D
  | BLOCK_LDL_1D | BLOCK_LDL_INTRAPIV_1D => true
  | _ => false

/-- Modelled from the spec: `ConvertTo2D`, the 2D layout of a front type. -/
def ConvertTo2D : SymmFrontType → SymmFrontType
  | SYMM_1D | SYMM_2D => SYMM_2D
  | LDL_1D | LDL_2D => LDL_2D
  | LDL_SELINV_1D | LDL_SELINV_2D => LDL_SELINV_2D
  | LDL_INTRAPIV_1D | LDL_INTRAPIV_2D => LDL_INTRAPIV_2D
  | LDL_INTRAPIV_SELINV_1D | LDL_INTRAPIV_SELINV_2D => LDL_INTRAPIV_SELINV_2D
  | BLOCK_LDL_1D | BLOCK_LDL_2D => BLOCK_LDL_2D
  | BLOCK_LDL_INTRAPIV_1D | BLOCK_LDL_INTRAPIV_2D => BLOCK_LDL_INTRAPIV_2D

/-- Modelled from the spec: `ConvertTo1D`, the 1D layout of a front type. -/
def ConvertTo1D : SymmFrontType → SymmFrontType
  | SYMM_1D | SYMM_2D => SYMM_1D
  | LDL_1D | LDL_2D => LDL_1D
  | LDL_SELINV_1D | LDL_SELINV_2D => LDL_SELINV_1D
  | LDL_INTRAPIV_1D | LDL_INTRAPIV_2D => LDL_INTRAPIV_1D
  | LDL_INTRAPIV_SELINV_1D | LDL_INTRAPIV_SELINV_2D => LDL_INTRAPIV_SELINV_1D
  | BLOCK_LDL_1D | BLOCK_LDL_2D => BLOCK_LDL_1D
  | BLOCK_LDL_INTRAPIV_1D | BLOCK_LDL_INTRAPIV_2D => BLOCK_LDL_INTRAPIV_1D

/-- Modelled from the spec: `SelInvFactorization`, whether a front type is a
selective-inversion variant. -/
def SelInvFactorization : SymmFrontType → Bool
  | LDL_SELINV_1D | LDL_SELINV_2D | LDL_INTRAPIV_SELINV_1D | LDL_INTRAPIV_SELINV_2D => true
  | _ => false

/-- Modelled from the spec: `AppendSelInv`, the selective-inversion variant of an
LDL front type (`LDL_SELINV_2D` where there is none). -/
def AppendSelInv : SymmFrontType → SymmFrontType
  | LDL_1D => LDL_SELINV_1D
  | LDL_2D => LDL_SELINV_2D
  | LDL_INTRAPIV_1D => LDL_INTRAPIV_SELINV_1D
  | LDL_INTRAPIV_2D => LDL_INTRAPIV_SELINV_2D
  | _ => LDL_SELINV_2D

/-- The front type operations on the modelled enumeration. -/
def ops : FrontTypeOps SymmFrontType :=
  ⟨SYMM_1D, SYMM_2D, FrontIs1D, ConvertTo1D, ConvertTo2D, AppendSelInv, SelInvFactorization⟩

end SymmFrontType

/-- The fields of one `DistSymmFront<F>` that `ChangeFrontType` reads and writes:
`type`, `L1D`, `L2D`, and `duplicate->L` when `duplicate != nullptr`. -/
structure FrontData (T F : Type) where
  type : T
  L1D : Mat F
  L2D : Mat F
  duplicate : Option (Mat F)

/-- A `DistSymmFront<F>` with the fronts reachable through its `child` link:
`leaf` when `child == nullptr`. -/
inductive DistSymmFront (T F : Type)
  | leaf (d : FrontData T F)
  | node (d : FrontData T F) (child : DistSymmFront T F)

/-- The fields of the front itself. -/
def DistSymmFront.data {T F : Type} : DistSymmFront T F → FrontData T F
  | leaf d => d
  | node d _ => d

/-- The front and every front reachable through the child links. -/
def DistSymmFront.fronts {T F : Type} : DistSymmFront T F → List (FrontData T F)
  | leaf d => [d]
  | node d child => d :: child.fronts

section ChangeFrontType

variable {T F : Type} [DecidableEq T] [Zero F]

/-- The switch to 1D: `L1D.Attach( grid, duplicate->L )` when there is a duplicate,
the redistribution `L1D = L2D` (an entry-preserving copy) otherwise, and then
`L2D.Empty()`. -/
def switchTo1D (d : FrontData T F) : FrontData T F :=
  { d with
    L1D := match d.duplicate with
      | some L => L
      | none => d.L2D
    L2D := Mat.Empty }

/-- The switch to 2D: `L2D.Attach( grid, duplicate->L )` when there is a duplicate,
the redistribution `L2D = L1D` otherwise, and then `L1D.Empty()`. -/
def switchTo2D (d : FrontData T F) : FrontData T F :=
  { d with
    L2D := match d.duplicate with
      | some L => L
      | none => d.L1D
    L1D := Mat.Empty }

/-- `TriangularInverse( LOWER, UNIT, LT )` on the view
`LT = L( IR(0,snSize), IR(0,snSize) )` with `snSize = L.Width()`. The kernel
`TriangularInverse` (size and entries of the block to its new entries) is not
among the sources and is a parameter. -/
def invertTop (TriangularInverse : Nat → (Nat → Nat → F) → Nat → Nat → F) (L : Mat F) :
    Mat F :=
  let snSize := L.width
  let LT := TriangularInverse snSize L.entry
  { L with entry := fun i j => if i < snSize ∧ j < snSize then LT i j else L.entry i j }

/-- The body of `ChangeFrontType` before `front.type = type`, on one front;
`hasChild` is `front.child != nullptr`. The result is `none` when
`LogicError("Unavailable front type change")` is raised. -/
def changeFront (ops : FrontTypeOps T) (TriangularInverse : Nat → (Nat → Nat → F) → Nat → Nat → F)
    (hasChild : Bool) (front : FrontData T F) (type : T) : Option (FrontData T F) :=
  if type = ops.SYMM_1D ∨ type = ops.ConvertTo1D front.type then
    if !ops.FrontIs1D front.type then some (switchTo1D front) else some front
  else if type = ops.SYMM_2D ∨ type = ops.ConvertTo2D front.type then
    if ops.FrontIs1D front.type then some (switchTo2D front) else some front
  else if ops.SelInvFactorization type = true ∧
      ops.ConvertTo2D type = ops.ConvertTo2D (ops.AppendSelInv front.type) then
    -- Switch to 2D as soon as possible
    let front1 :=
      if ops.FrontIs1D front.type && !ops.FrontIs1D type then switchTo2D front else front
    -- Invert the unit-diagonal lower triangle if it is distributed
    let front2 :=
      if hasChild then
        if ops.FrontIs1D front.type && ops.FrontIs1D type then
          { front1 with L1D := invertTop TriangularInverse front1.L1D }
        else
          { front1 with L2D := invertTop TriangularInverse front1.L2D }
      else front1
    -- Switch to 1D as late as possible
    let front3 :=
      if !ops.FrontIs1D front.type && ops.FrontIs1D type then switchTo1D front2 else front2
    some front3
  else
    none

/-- `ChangeFrontType( front, type, recurse )`: the fronts after the call, and the
error raised, if any. -/
def ChangeFrontType (ops : FrontTypeOps T)
    (TriangularInverse : Nat → (Nat → Nat → F) → Nat → Nat → F) :
    DistSymmFront T F → T → Bool → DistSymmFront T F × Option String
  | .leaf d, type, _ =>
    match changeFront ops TriangularInverse false d type with
    | none => (.leaf d, some "Unavailable front type change")
    | some d1 => (.leaf { d1 with type := type }, none)
  | .node d child, type, recurse =>
    match changeFront ops TriangularInverse true d type with
    | none => (.node d child, some "Unavailable front type change")
    | some d1 =>
      if recurse then
        let r := ChangeFrontType ops TriangularInverse child type recurse
        (.node { d1 with type := type } r.1, r.2)
      else
        (.node { d1 with type := type } child, none)

/-- The requested type has a defined transition from the front type `t0`. -/
def Available (ops : FrontTypeOps T) (t0 type : T) : Prop :=
  type = ops.SYMM_1D ∨ type = ops.ConvertTo1D t0 ∨ type = ops.SYMM_2D ∨
    type = ops.ConvertTo2D t0 ∨
    (ops.SelInvFactorization type = true ∧
      ops.ConvertTo2D type = ops.ConvertTo2D (ops.AppendSelInv t0))

/-- The requested type passes one of the first two tests of `ChangeFrontType`,
`type == SYMM_1D || type == ConvertTo1D(front.type)` or
`type == SYMM_2D || type == ConvertTo2D(front.type)`: the call changes the layout at
most and does not invert. -/
def LayoutChange (ops : FrontTypeOps T) (t0 type : T) : Prop :=
  (type = ops.SYMM_1D ∨ type = ops.ConvertTo1D t0) ∨
    (type = ops.SYMM_2D ∨ type = ops.ConvertTo2D t0)

/-- What the names of the helper functions promise about layouts. -/
structure LayoutLaws (ops : FrontTypeOps T) : Prop where
  symm1D : ops.FrontIs1D ops.SYMM_1D = true
  symm2D : ops.FrontIs1D ops.SYMM_2D = false
  to1D : ∀ t, ops.FrontIs1D (ops.ConvertTo1D t) = true
  to2D : ∀ t, ops.FrontIs1D (ops.ConvertTo2D t) = false

end ChangeFrontType

/-- A `2 x 1` unit lower-trapezoidal factor used in the examples. -/
def exampleL : Mat ℚ :=
  ⟨2, 1, fun i j => if i = j then 1 else 1 / 2⟩

/-- A chain of two fronts, both of type `LDL_1D`. -/
def exampleFront : DistSymmFront SymmFrontType ℚ :=
  .node ⟨.LDL_1D, exampleL, Mat.Empty, none⟩ (.leaf ⟨.LDL_1D, exampleL, Mat.Empty, none⟩)

/-- A chain of two fronts of different types: `LDL_1D` above `LDL_SELINV_1D` (the
state reached from `exampleFront` by `ChangeFrontType` on the child alone). -/
def mixedFront : DistSymmFront SymmFrontType ℚ :=
  .node ⟨.LDL_1D, exampleL, Mat.Empty, none⟩
    (.leaf ⟨.LDL_SELINV_1D, exampleL, Mat.Empty, none⟩)

end Elemental

namespace Elemental

/-! ## Sequential multifrontal forward multiply: `LowerForwardMultiply` -/

/-- A node of the sequential elimination tree, with the fields that
`LowerForwardMultiply` uses of the three trees it walks in lock step: `info.size`
and `info.childRelInds` (of `SymmNodeInfo`), `front.L` and `front.work` (of
`SymmFront<F>`), `X.matrix` (of `MatrixNode<F>`), and the children, which the three
trees index alike. -/
inductive SeqNode (F : Type)
  | mk (size : Nat) (childRelInds : List (List Nat)) (L : Mat F) (work : Mat F)
      (X : Mat F) (children : List (SeqNode F))

namespace SeqNode

variable {F : Type}

/-- The field `info.size`. -/
def size : SeqNode F → Nat
  | mk s _ _ _ _ _ => s

/-- The field `info.childRelInds`. -/
def childRelInds : SeqNode F → List (List Nat)
  | mk _ r _ _ _ _ => r

/-- The field `front.L`. -/
def L : SeqNode F → Mat F
  | mk _ _ l _ _ _ => l

/-- The field `front.work`. -/
def work : SeqNode F → Mat F
  | mk _ _ _ w _ _ => w

/-- The field `X.matrix`. -/
def X : SeqNode F → Mat F
  | mk _ _ _ _ x _ => x

/-- The children of the node. -/
def children : SeqNode F → List (SeqNode F)
  | mk _ _ _ _ _ cs => cs

/-- The node with its work buffer replaced. -/
def setWork : SeqNode F → Mat F → SeqNode F
  | mk s r l _ x cs, w => mk s r l w x cs

end SeqNode

section LowerForwardMultiply

variable {F : Type} [AddCommMonoid F]

/-- `W.Update( i, j, alpha )`: add `alpha` to the entry `(i, j)`. -/
def Mat.Update (W : Mat F) (i j : Nat) (alpha : F) : Mat F :=
  { W with entry := fun i1 j1 => if i1 = i ∧ j1 = j then W.entry i1 j1 + alpha else W.entry i1 j1 }

/-- The loop `for( j=0; j<numRHS; ++j ) W.Update( iFront, j, childU.Get(iChild,j) )`. -/
def updateRow (W : Mat F) (iFront : Nat) (childU : Nat → Nat → F) (iChild numRHS : Nat) :
    Mat F :=
  (List.range numRHS).foldl (fun W j => W.Update iFront j (childU iChild j)) W

/-- The update of `W` from one child: with `childU` the view
`childW( IR(childSize,childHeight), IR(0,numRHS) )`, every row `iChild` of `childU`
is added to the row `childRelInds[c][iChild]` of `W`. -/
def childUpdate (W : Mat F) (numRHS : Nat) (childW : Mat F) (childSize : Nat)
    (relInds : List Nat) : Mat F :=
  let childHeight := childW.height
  let childUSize := childHeight - childSize
  let childU := fun i j => childW.entry (childSize + i) j
  (List.range childUSize).foldl
    (fun W iChild =>
      let iFront := relInds.getD iChild 0
      updateRow W iFront childU iChild numRHS) W

/-- The loop over the children `c = 0, ..., numChildren-1`: update `W` from the
work buffer of child `c` with the indices `info.childRelInds[c]`, then empty that
work buffer. The lists are the children and the index lists from position `c` on. -/
def updateFromChildren (W : Mat F) (numRHS : Nat) :
    List (SeqNode F) → List (List Nat) → Mat F × List (SeqNode F)
  | [], _ => (W, [])
  | child :: rest, relInds =>
    let W1 := childUpdate W numRHS child.work child.size (relInds.headD [])
    let r := updateFromChildren W1 numRHS rest relInds.tail
    (r.1, child.setWork Mat.Empty :: r.2)

mutual
/-- `LowerForwardMultiply( info, front, X )` on a sequential node. The kernel
`FrontLowerForwardMultiply( front, W )`, which works on `W` in place, is not among
the sources: it is the parameter `FLFM`, giving the new entries of `W` from
`front.L` and `W`. -/
def LowerForwardMultiply (FLFM : Mat F → Mat F → Nat → Nat → F) :
    SeqNode F → SeqNode F
  | .mk size childRelInds L _ X children =>
    let children1 := LowerForwardMultiplyChildren FLFM children
    -- Set up a workspace
    let numRHS := X.width
    let height := L.height
    let sizeT := min size height
    let W0 : Mat F := ⟨height, numRHS, fun i j => if i < sizeT then X.entry i j else 0⟩
    -- Multiply against this front
    let W1 : Mat F := { W0 with entry := FLFM L W0 }
    -- Update using the children (if they exist)
    let r := updateFromChildren W1 numRHS children1 childRelInds
    -- Store this node's portion of the result
    let X1 : Mat F := ⟨sizeT, numRHS, r.1.entry⟩
    .mk size childRelInds L r.1 X1 r.2
/-- The loop of recursive calls `LowerForwardMultiply( *info.children[c], ... )`. -/
def LowerForwardMultiplyChildren (FLFM : Mat F → Mat F → Nat → Nat → F) :
    List (SeqNode F) → List (SeqNode F)
  | [] => []
  | child :: rest => LowerForwardMultiply FLFM child :: LowerForwardMultiplyChildren FLFM rest
end

/-- The matrix `[X; 0]` of height `h`: `X` on top of zero rows. -/
def stackZero (X : Mat F) (h : Nat) : Mat F :=
  ⟨h, X.width, fun i j => if i < X.height then X.entry i j else 0⟩

/-- The work buffer of child `c` in a list of children (`0 x 0` out of range). -/
def workAt (cs : List (SeqNode F)) (c : Nat) : Mat F :=
  (cs.map SeqNode.work).getD c Mat.Empty

/-- The size of child `c` in a list of children. -/
def sizeAt (cs : List (SeqNode F)) (c : Nat) : Nat :=
  (cs.map SeqNode.size).getD c 0

end LowerForwardMultiply

/-- A stand-in for the front kernel in the examples: `W := L W`, with the columns of
`L` beyond its width taken as zero. -/
def exampleKernel : Mat ℚ → Mat ℚ → Nat → Nat → ℚ :=
  fun L W i j => ∑ k in Finset.range L.width, L.entry i k * W.entry k j

/-- A leaf of the example tree: size 1, front height 3, one right-hand side. -/
def exampleLeaf : SeqNode ℚ :=
  .mk 1 [] ⟨3, 1, fun _ _ => 1⟩ Mat.Empty ⟨1, 1, fun _ _ => 5⟩ []

/-- The factor of the root of the example tree. -/
def exampleRootL : Mat ℚ :=
  ⟨2, 2, fun _ _ => 1⟩

/-- The right-hand side at the root of the example tree. -/
def exampleRootX : Mat ℚ :=
  ⟨2, 1, fun i _ => i⟩

/-- An example tree: a root of size 2 and front height 2 over `exampleLeaf`, whose
two update rows go to rows 0 and 1 of the root. -/
def exampleRoot : SeqNode ℚ :=
  .mk 2 [[0, 1]] exampleRootL Mat.Empty exampleRootX [exampleLeaf]

end Elemental

namespace Elemental

/-! ## Blocked level-3 kernels -/

/-- The enumeration `Orientation`. -/
inductive Orientation
  | NORMAL | TRANSPOSE | ADJOINT
deriving DecidableEq, Repr

/-- The enumeration `UpperOrLower`. -/
inductive UpperOrLower
  | LOWER | UPPER
deriving DecidableEq, Repr

/-- The entry `(i, j)` lies in the `uplo` triangle, diagonal included. -/
def inTriangle (uplo : UpperOrLower) (i j : Nat) : Prop :=
  match uplo with
  | .LOWER => j ≤ i
  | .UPPER => i ≤ j

instance inTriangle.dec (uplo : UpperOrLower) (i j : Nat) : Decidable (inTriangle uplo i j) := by
  cases uplo <;> unfold inTriangle <;> infer_instance

section Trr2k

variable {F : Type} [CommRing F] [StarRing F]

/-- The matrix `op(A)` for an orientation: `A`, its transpose or its adjoint. -/
def Mat.orient (o : Orientation) (A : Mat F) : Mat F :=
  match o with
  | .NORMAL => A
  | .TRANSPOSE => ⟨A.width, A.height, fun i j => A.entry j i⟩
  | .ADJOINT => ⟨A.width, A.height, fun i j => star (A.entry j i)⟩

/-- `Transpose( A, B, conjugate )`: the transpose of `A`, conjugated when `conjugate`
is set. -/
def Transpose (A : Mat F) (conjugate : Bool) : Mat F :=
  ⟨A.width, A.height, fun i j => if conjugate then star (A.entry j i) else A.entry j i⟩

/-- The view `A( ALL, IR(k,k+nb) )`. -/
def Mat.colRange (A : Mat F) (k nb : Nat) : Mat F :=
  ⟨A.height, nb, fun i l => A.entry i (k + l)⟩

/-- The view `A( IR(k,k+nb), ALL )`. -/
def Mat.rowRange (A : Mat F) (k nb : Nat) : Mat F :=
  ⟨nb, A.width, fun l j => A.entry (k + l) j⟩

/-- Modelled from the spec: `LocalTrr2k`, the exact update
`E := alpha op(A) op(B) + beta op(C) op(D) + gamma E` of the `uplo` triangle of `E`
(diagonal included); the other entries of `E` are not touched. The kernel is not
among the sources. -/
def LocalTrr2k (uplo : UpperOrLower) (orientA orientB orientC orientD : Orientation)
    (alpha : F) (A B : Mat F) (beta : F) (C D : Mat F) (gamma : F) (E : Mat F) : Mat F :=
  { E with
    entry := fun i j =>
      if i < E.height ∧ j < E.width ∧ inTriangle uplo i j then
        alpha * (∑ l in Finset.range (A.orient orientA).width,
            (A.orient orientA).entry i l * (B.orient orientB).entry l j)
          + beta * (∑ l in Finset.range (C.orient orientC).width,
            (C.orient orientC).entry i l * (D.orient orientD).entry l j)
          + gamma * E.entry i j
      else E.entry i j }

/-- The loop `for( Int k=0; k<r; k+=bsize )` of `Trr2kNTTT`, from the index `k` on;
`none` when the fuel runs out. The redistributions (`A1_MC_STAR = A1`, ...) are
entry-preserving copies. -/
def Trr2kNTTTLoop (uplo : UpperOrLower) (orientB orientC orientD : Orientation)
    (alpha : F) (A B : Mat F) (beta : F) (C D : Mat F) (r bsize : Nat) :
    Nat → Nat → Mat F → Option (Mat F)
  | 0, k, E => if k < r then none else some E
  | fuel + 1, k, E =>
    if k < r then
      let nb := min bsize (r - k)
      let A1 := A.colRange k nb
      let B1 := B.colRange k nb
      let C1 := C.rowRange k nb
      let D1 := D.colRange k nb
      let B1Trans := Transpose B1 (orientB == .ADJOINT)
      let D1Trans := Transpose D1 (orientD == .ADJOINT)
      let E1 := LocalTrr2k uplo .NORMAL .NORMAL orientC .NORMAL
        alpha A1 B1Trans beta C1 D1Trans 1 E
      Trr2kNTTTLoop uplo orientB orientC orientD alpha A B beta C D r bsize fuel (k + bsize) E1
    else some E

/-- `Trr2kNTTT`, with `bsize = Blocksize()`. -/
def Trr2kNTTT (uplo : UpperOrLower) (orientB orientC orientD : Orientation)
    (alpha : F) (A B : Mat F) (beta : F) (C D : Mat F) (E : Mat F) (bsize fuel : Nat) :
    Option (Mat F) :=
  let r := A.width
  Trr2kNTTTLoop uplo orientB orientC orientD alpha A B beta C D r bsize fuel 0 E

/-- The right-hand side of the loop invariant of `Trr2kNTTT`: the entries of `E`
once the columns `k, ..., r-1` of `A`, `B`, `D` and rows of `C` have been applied. -/
def trr2kTarget (uplo : UpperOrLower) (orientB orientC orientD : Orientation)
    (alpha : F) (A B : Mat F) (beta : F) (C D : Mat F) (k r : Nat) (E : Mat F) (i j : Nat) : F :=
  if i < E.height ∧ j < E.width ∧ inTriangle uplo i j then
    alpha * (∑ l in Finset.Ico k r, A.entry i l * (B.orient orientB).entry l j)
      + beta * (∑ l in Finset.Ico k r, (C.orient orientC).entry i l * (D.orient orientD).entry l j)
      + E.entry i j
  else E.entry i j

end Trr2k

/-- Example data for `Trr2kNTTT`: `A`, `B`, `D` are `2 x 3`, `C` is `3 x 2`. -/
def exampleA : Mat ℚ := ⟨2, 3, fun i j => i + 2 * j + 1⟩

/-- Example data for `Trr2kNTTT`. -/
def exampleB : Mat ℚ := ⟨2, 3, fun i j => 2 * i + j⟩

/-- Example data for `Trr2kNTTT`. -/
def exampleC : Mat ℚ := ⟨3, 2, fun i j => i * j + 1⟩

/-- Example data for `Trr2kNTTT`. -/
def exampleD : Mat ℚ := ⟨2, 3, fun i j => i + j⟩

/-- Example data for `Trr2kNTTT`: `E` is `2 x 2`. -/
def exampleE : Mat ℚ := ⟨2, 2, fun i j => 10 * i + j⟩

end Elemental

namespace Elemental

/-! ## Views and exact local kernels -/

section Kernels

variable {F : Type} [Field F] [StarRing F]

/-- The entry `(i, j)` of the Hermitian matrix stored in the lower triangle of `A`. -/
def Mat.hermLower (A : Mat F) (i j : Nat) : F :=
  if j ≤ i then A.entry i j else star (A.entry j i)

/-- The entry `(i, j)` of the lower-triangular matrix stored in the lower triangle
of `L`. -/
def Mat.lower (L : Mat F) (i j : Nat) : F :=
  if j ≤ i then L.entry i j else 0

/-- The view of the `h x w` block of `A` whose top-left entry is `(i0, j0)`. -/
def Mat.view (A : Mat F) (i0 j0 h w : Nat) : Mat F :=
  ⟨h, w, fun i j => A.entry (i0 + i) (j0 + j)⟩

/-- The matrix `A` after the block with top-left entry `(i0, j0)` has been
overwritten with `B` (a write through a view, or a redistribution into it). -/
def Mat.setBlock (A : Mat F) (i0 j0 : Nat) (B : Mat F) : Mat F :=
  { A with
    entry := fun i j =>
      if i0 ≤ i ∧ i < i0 + B.height ∧ j0 ≤ j ∧ j < j0 + B.width then B.entry (i - i0) (j - j0)
      else A.entry i j }

/-- The `h x w` matrix that `ResizeTo( h, w )` or `Zeros( X, h, w )` leaves. -/
def Mat.zeros (h w : Nat) : Mat F :=
  ⟨h, w, fun _ _ => 0⟩

/-- Modelled from the spec: `Hemm( LEFT, LOWER, alpha, A, B, beta, C )`, the exact
`C := alpha A B + beta C` with `A` Hermitian, stored in its lower triangle. The
kernel is not among the sources. -/
def HemmLeftLower (alpha : F) (A B : Mat F) (beta : F) (C : Mat F) : Mat F :=
  { C with
    entry := fun i j =>
      alpha * (∑ l in Finset.range A.height, A.hermLower i l * B.entry l j)
        + beta * C.entry i j }

/-- Modelled from the spec: `Hemm( RIGHT, LOWER, alpha, A, B, beta, C )`, the exact
`C := alpha B A + beta C` with `A` Hermitian, stored in its lower triangle. -/
def HemmRightLower (alpha : F) (A B : Mat F) (beta : F) (C : Mat F) : Mat F :=
  { C with
    entry := fun i j =>
      alpha * (∑ l in Finset.range A.height, B.entry i l * A.hermLower l j)
        + beta * C.entry i j }

/-- Modelled from the spec: `Axpy( alpha, X, Y )`, the exact `Y := alpha X + Y`. -/
def Axpy (alpha : F) (X Y : Mat F) : Mat F :=
  { Y with entry := fun i j => alpha * X.entry i j + Y.entry i j }

/-- Modelled from the spec:
`LocalTriangularRank2K( Lower, ConjugateTranspose, ConjugateTranspose, alpha, A1, A2,
B1, B2, beta, C )`, the exact update `C := alpha ( A1' B2 + A2' B1 ) + beta C` of the
lower triangle of `C`. -/
def LocalTriangularRank2KLower (alpha : F) (A1 A2 B1 B2 : Mat F) (beta : F) (C : Mat F) :
    Mat F :=
  { C with
    entry := fun i j =>
      if j ≤ i then
        alpha * ((∑ l in Finset.range A1.height, star (A1.entry l i) * B2.entry l j)
          + ∑ l in Finset.range A2.height, star (A2.entry l i) * B1.entry l j)
          + beta * C.entry i j
      else C.entry i j }

/-- Modelled from the spec:
`LocalTrmm( Left, Lower, ConjugateTranspose, NonUnit, alpha, L, X )`, the exact
`X := alpha L' X` with `L` lower triangular. -/
def LocalTrmmLeftLowerAdjoint (alpha : F) (L X : Mat F) : Mat F :=
  { X with
    entry := fun i j => alpha * ∑ l in Finset.range L.height, star (L.lower l i) * X.entry l j }

/-- Modelled from the spec: `LocalTrmm( Right, Lower, Normal, NonUnit, alpha, L, X )`,
the exact `X := alpha X L` with `L` lower triangular. -/
def LocalTrmmRightLowerNormal (alpha : F) (L X : Mat F) : Mat F :=
  { X with
    entry := fun i j => alpha * ∑ l in Finset.range L.height, X.entry i l * L.lower l j }

/-- Modelled from the spec: `LocalGemm( Normal, Normal, alpha, A, B, beta, C )`, the
exact `C := alpha A B + beta C`. -/
def LocalGemmNormalNormal (alpha : F) (A B : Mat F) (beta : F) (C : Mat F) : Mat F :=
  { C with
    entry := fun i j =>
      alpha * (∑ l in Finset.range A.width, A.entry i l * B.entry l j) + beta * C.entry i j }

/-- Modelled from the spec: `LocalHegst( true, Lower, A, L )`, the exact
`A := L' A L` on the lower triangle of `A`, with `A` Hermitian (stored in its lower
triangle) and `L` lower triangular. -/
def LocalHegstTrueLower (A L : Mat F) : Mat F :=
  { A with
    entry := fun i j =>
      if j ≤ i then
        ∑ p in Finset.range A.height, ∑ q in Finset.range A.height,
          star (L.lower p i) * A.hermLower p q * L.lower q j
      else A.entry i j }

/-! ## `HegstTrueL` -/

/-- One pass of the body of the `while` loop of `HegstTrueL`, with `k = ATL.Height()`
and `nb` the height of `A11`. The redistributions are entry-preserving copies. -/
def HegstTrueLStep (L : Mat F) (n k nb : Nat) (A : Mat F) : Mat F :=
  let L10 := L.view k 0 nb k
  let L11 := L.view k k nb nb
  let A11_Star_Star := A.view k k nb nb
  let L10_Star_VR := L10
  let X10_Star_VR := HemmLeftLower (1 / 2) A11_Star_Star L10_Star_VR 0 (Mat.zeros nb k)
  let A10_Star_VR := A.view k 0 nb k
  let A10_Star_VR := Axpy 1 X10_Star_VR A10_Star_VR
  let A := A.setBlock 0 0
    (LocalTriangularRank2KLower 1 A10_Star_VR L10_Star_VR A10_Star_VR L10_Star_VR 1
      (A.view 0 0 k k))
  let A10_Star_VR := Axpy 1 X10_Star_VR A10_Star_VR
  let L11_Star_Star := L11
  let A10_Star_VR := LocalTrmmLeftLowerAdjoint 1 L11_Star_Star A10_Star_VR
  let A := A.setBlock k 0 A10_Star_VR
  let A21_MC_Star := A.view (k + nb) k (n - (k + nb)) nb
  let A := A.setBlock (k + nb) 0
    (LocalGemmNormalNormal 1 A21_MC_Star L10_Star_VR 1 (A.view (k + nb) 0 (n - (k + nb)) k))
  let A11_Star_Star := LocalHegstTrueLower A11_Star_Star L11_Star_Star
  let A := A.setBlock k k A11_Star_Star
  let A21_VC_Star := A21_MC_Star
  let A21_VC_Star := LocalTrmmRightLowerNormal 1 L11_Star_Star A21_VC_Star
  A.setBlock (k + nb) k A21_VC_Star

/-- The loop `while( ATL.Height() < A.Height() )` of `HegstTrueL`, from
`ATL.Height() = k`; the diagonal block `A11` has `min( bsize, n - k )` rows. The
result is `none` when the fuel runs out. -/
def HegstTrueLLoop (L : Mat F) (n bsize : Nat) : Nat → Nat → Mat F → Option (Mat F)
  | 0, k, A => if k < n then none else some A
  | fuel + 1, k, A =>
    if k < n then
      let nb := min bsize (n - k)
      HegstTrueLLoop L n bsize fuel (k + nb) (HegstTrueLStep L n k nb A)
    else some A

/-- `HegstTrueL( A, L )` with the blocksize `bsize`. -/
def HegstTrueL (A L : Mat F) (bsize fuel : Nat) : Option (Mat F) :=
  HegstTrueLLoop L A.height bsize fuel 0 A

/-- The entry `(i, j)` of `L' A L`, for the Hermitian `A` and the lower-triangular `L`
stored in the lower triangles of `n x n` matrices. -/
def congruenceEntry (A L : Mat F) (n i j : Nat) : F :=
  ∑ p in Finset.range n, ∑ q in Finset.range n,
    star (L.lower p i) * A.hermLower p q * L.lower q j

end Kernels

end Elemental

namespace Elemental

/-! ## `TwoSidedTrsmLVar5` -/

/-- The enumeration `UnitOrNonUnit`. -/
inductive UnitOrNonUnit
  | NON_UNIT | UNIT
deriving DecidableEq, Repr

section TwoSidedTrsm

variable {F : Type} [Field F] [StarRing F]

/-- The entry `(i, j)` of the lower-triangular matrix that a triangular kernel reads
from `L`: its lower triangle, with ones on the diagonal when `diag` is `UNIT`. -/
def Mat.lowerDiag (diag : UnitOrNonUnit) (L : Mat F) (i j : Nat) : F :=
  if j < i then L.entry i j
  else if j = i then (if diag = .UNIT then 1 else L.entry i i)
  else 0

/-- Forward substitution: the rows `0, ..., m-1` of the solution `X` of `l X = b`
for a lower-triangular `l` (the other rows are zero). -/
def forwardSolve (l b : Nat → Nat → F) : Nat → Nat → Nat → F
  | 0, _, _ => 0
  | m + 1, i, j =>
    if i = m then
      (b m j - ∑ p in Finset.range m, l m p * forwardSolve l b m p j) / l m m
    else forwardSolve l b m i j

/-- Modelled from the spec: `Trsm( LEFT, LOWER, NORMAL, diag, alpha, L, X )`, the
exact `X := alpha inv(L) X`, the solution `Y` of `L Y = alpha X`. The kernel is not
among the sources. -/
def TrsmLeftLowerNormal (diag : UnitOrNonUnit) (alpha : F) (L X : Mat F) : Mat F :=
  { X with
    entry := forwardSolve (L.lowerDiag diag) (fun i j => alpha * X.entry i j) L.height }

/-- Modelled from the spec: `Trsm( RIGHT, LOWER, ADJOINT, diag, alpha, L, X )`, the
exact `X := alpha X inv(L)'`, the solution `Y` of `Y L' = alpha X`, that is, of
`L Y' = (alpha X)'`. -/
def TrsmRightLowerAdjoint (diag : UnitOrNonUnit) (alpha : F) (L X : Mat F) : Mat F :=
  { X with
    entry := fun i j =>
      star (forwardSolve (L.lowerDiag diag) (fun p q => star (alpha * X.entry q p)) L.height j i) }

/-- Modelled from the spec: `TwoSidedTrsmLUnb( diag, A, L )`, the exact
`A := inv(L) A inv(L)'` on the lower triangle of `A`, with `A` Hermitian (stored in
its lower triangle): `T` solves `L T = A` and the result `R` solves `R L' = T`. -/
def TwoSidedTrsmLUnb (diag : UnitOrNonUnit) (A L : Mat F) : Mat F :=
  let T := forwardSolve (L.lowerDiag diag) A.hermLower L.height
  let R := fun i j =>
    star (forwardSolve (L.lowerDiag diag) (fun p q => star (T q p)) L.height j i)
  { A with entry := fun i j => if j ≤ i then R i j else A.entry i j }

/-- Modelled from the spec: `Her2k( LOWER, NORMAL, alpha, A, B, beta, C )`, the exact
update `C := alpha A B' + conj(alpha) B A' + beta C` of the lower triangle of `C`. -/
def Her2kLowerNormal (alpha : F) (A B : Mat F) (beta : F) (C : Mat F) : Mat F :=
  { C with
    entry := fun i j =>
      if j ≤ i then
        alpha * (∑ l in Finset.range A.width, A.entry i l * star (B.entry j l))
          + star alpha * (∑ l in Finset.range A.width, B.entry i l * star (A.entry j l))
          + beta * C.entry i j
      else C.entry i j }

/-- One pass of the body of the `while` loop of the local `TwoSidedTrsmLVar5`, with
`k = ATL.Height()` and `nb` the height of `A11`; the views `A11`, `A21`, `A22` alias
the matrix `A`. -/
def TwoSidedTrsmLVar5Step (diag : UnitOrNonUnit) (L : Mat F) (n k nb : Nat) (A : Mat F) :
    Mat F :=
  let L11 := L.view k k nb nb
  let L21 := L.view (k + nb) k (n - (k + nb)) nb
  let L22 := L.view (k + nb) (k + nb) (n - (k + nb)) (n - (k + nb))
  -- A11 := inv(L11) A11 inv(L11)'
  let A := A.setBlock k k (TwoSidedTrsmLUnb diag (A.view k k nb nb) L11)
  -- Y21 := L21 A11
  let Y21 := Mat.zeros (n - (k + nb)) nb
  let Y21 := HemmRightLower 1 (A.view k k nb nb) L21 0 Y21
  -- A21 := A21 inv(L11)'
  let A := A.setBlock (k + nb) k
    (TrsmRightLowerAdjoint diag 1 L11 (A.view (k + nb) k (n - (k + nb)) nb))
  -- A21 := A21 - 1/2 Y21
  let A := A.setBlock (k + nb) k (Axpy (-1 / 2) Y21 (A.view (k + nb) k (n - (k + nb)) nb))
  -- A22 := A22 - (L21 A21' + A21 L21')
  let A := A.setBlock (k + nb) (k + nb)
    (Her2kLowerNormal (-1) L21 (A.view (k + nb) k (n - (k + nb)) nb) 1
      (A.view (k + nb) (k + nb) (n - (k + nb)) (n - (k + nb))))
  -- A21 := A21 - 1/2 Y21
  let A := A.setBlock (k + nb) k (Axpy (-1 / 2) Y21 (A.view (k + nb) k (n - (k + nb)) nb))
  -- A21 := inv(L22) A21
  A.setBlock (k + nb) k
    (TrsmLeftLowerNormal diag 1 L22 (A.view (k + nb) k (n - (k + nb)) nb))

/-- The loop `while( ATL.Height() < A.Height() )` of `TwoSidedTrsmLVar5`, from
`ATL.Height() = k`; the diagonal block `A11` has `min( bsize, n - k )` rows. The
result is `none` when the fuel runs out. -/
def TwoSidedTrsmLVar5Loop (diag : UnitOrNonUnit) (L : Mat F) (n bsize : Nat) :
    Nat → Nat → Mat F → Option (Mat F)
  | 0, k, A => if k < n then none else some A
  | fuel + 1, k, A =>
    if k < n then
      let nb := min bsize (n - k)
      TwoSidedTrsmLVar5Loop diag L n bsize fuel (k + nb) (TwoSidedTrsmLVar5Step diag L n k nb A)
    else some A

/-- The local `TwoSidedTrsmLVar5( diag, A, L )` with the blocksize `bsize`. -/
def TwoSidedTrsmLVar5 (diag : UnitOrNonUnit) (A L : Mat F) (bsize fuel : Nat) :
    Option (Mat F) :=
  TwoSidedTrsmLVar5Loop diag L A.height bsize fuel 0 A

/-- The inverse of the lower-triangular `n x n` matrix `l`, by forward substitution
on the identity. -/
def lowerInverse (l : Nat → Nat → F) (n : Nat) : Nat → Nat → F :=
  forwardSolve l (fun i j => if i = j then 1 else 0) n

/-- The entry `(i, j)` of `inv(L) A inv(L)'`, for the Hermitian `A` and the
lower-triangular `L` stored in the lower triangles of `n x n` matrices. -/
def invCongruenceEntry (A L : Mat F) (n i j : Nat) : F :=
  ∑ p in Finset.range n, ∑ q in Finset.range n,
    lowerInverse L.lower n i p * A.hermLower p q * star (lowerInverse L.lower n j q)

end TwoSidedTrsm

end Elemental

namespace Elemental

/-! ## Auxiliary definitions for the congruence transforms -/

section CongruenceDefs

variable {F : Type} [Field F] [StarRing F]

/-- The temporary `X10 = 1/2 A11 L10` of one pass of `HegstTrueL`, by entries. -/
def hegstX (L : Mat F) (k nb : Nat) (A : Mat F) (m j : Nat) : F :=
  1 / 2 * ∑ q in Finset.range nb, A.hermLower (k + m) (k + q) * L.entry (k + q) j

/-- The entry `(i, j)` of `A L` restricted to the first `k` columns of `A` and rows
of `L`. -/
def partialAL (a l : Nat → Nat → F) (k i j : Nat) : F :=
  ∑ q in Finset.range k, a i q * l q j

/-- The entry `(i, j)` of `L' A L` restricted to the leading `k x k` blocks. -/
def partialLAL (a l : Nat → Nat → F) (k i j : Nat) : F :=
  ∑ p in Finset.range k, star (l p i) * partialAL a l k p j

/-- The loop invariant of `HegstTrueL` at `ATL.Height() = k`, on the lower triangle
of the state `S`: rows below `k` hold `L' A L` of the leading blocks, the rows from
`k` on hold `A L` in the first `k` columns and the original entries elsewhere. -/
def HegstInv (A0 L : Mat F) (n k : Nat) (S : Mat F) : Prop :=
  S.height = n ∧ S.width = n ∧
  ∀ i j, j ≤ i → i < n →
    S.entry i j
      = if i < k then partialLAL A0.hermLower L.lower k i j
        else if j < k then partialAL A0.hermLower L.lower k i j
        else A0.entry i j

/-- A `2 x 2` Hermitian matrix given by its lower triangle (the entry above the
diagonal is junk). -/
def hegstA : Mat ℚ := ⟨2, 2, fun i j => if i = 0 ∧ j = 0 then 2 else if i = 1 ∧ j = 0 then 1
  else if i = 1 ∧ j = 1 then 3 else 77⟩

/-- A `2 x 2` lower-triangular matrix (the entry above the diagonal is junk). -/
def hegstL : Mat ℚ := ⟨2, 2, fun i j => if i = 0 ∧ j = 0 then 1 else if i = 1 ∧ j = 0 then 2
  else if i = 1 ∧ j = 1 then 1 else 55⟩

/-- The hypotheses on a triangular factor: zero above the diagonal and nonzero on the
diagonal, within the first `n` rows. -/
def IsLowerInvertible (l : Nat → Nat → F) (n : Nat) : Prop :=
  (∀ i p, i < p → l i p = 0) ∧ ∀ i, i < n → l i i ≠ 0

/-- The right solve against the adjoint: `Z` with `Z L' = X`. -/
def rightSolveAdjoint (l x : Nat → Nat → F) (n : Nat) (i j : Nat) : F :=
  star (forwardSolve l (fun p q => star (x q p)) n j i)

/-- The exact two-sided solve `R = inv(L) A inv(L)'`: `L T = A`, `R L' = T`. -/
def twoSidedSolve (l a : Nat → Nat → F) (n : Nat) : Nat → Nat → F :=
  rightSolveAdjoint l (forwardSolve l a n) n

/-- The entry `(i, j)` of `L F L'` for `m x m` matrices given by entries. -/
def sandwich (l f : Nat → Nat → F) (m i j : Nat) : F :=
  ∑ p in Finset.range m, ∑ q in Finset.range m, l i p * f p q * star (l j q)

/-- The triangular factor that the kernels read from `L`, from the diagonal position
`k` on. -/
def trailL (diag : UnitOrNonUnit) (L : Mat F) (k i j : Nat) : F :=
  L.lowerDiag diag (k + i) (k + j)

/-- The Hermitian matrix stored in the lower triangle of `S`, from the diagonal
position `k` on. -/
def trailA (S : Mat F) (k i j : Nat) : F :=
  S.hermLower (k + i) (k + j)

/-- The block `A11` after `TwoSidedTrsmLUnb`, as a Hermitian matrix. -/
def lvar5F11 (diag : UnitOrNonUnit) (L : Mat F) (k nb : Nat) (S : Mat F) : Nat → Nat → F :=
  twoSidedSolve (trailL diag L k) (trailA S k) nb

/-- The block `A21 inv(L11)'`. -/
def lvar5Z (diag : UnitOrNonUnit) (L : Mat F) (k nb : Nat) (S : Mat F) : Nat → Nat → F :=
  rightSolveAdjoint (trailL diag L k) (fun r y => S.entry (k + nb + r) (k + y)) nb

/-- The temporary `Y21 = L21 A11`. -/
def lvar5Y (diag : UnitOrNonUnit) (L : Mat F) (k nb : Nat) (S : Mat F) (r y : Nat) : F :=
  ∑ x in Finset.range nb, L.entry (k + nb + r) (k + x) * lvar5F11 diag L k nb S x y

/-- A `2 x 2` Hermitian matrix given by its lower triangle (the entry above the
diagonal is junk). -/
def lvar5A : Mat ℚ := ⟨2, 2, fun i j => if i = 0 ∧ j = 0 then 4 else if i = 1 ∧ j = 0 then 2
  else if i = 1 ∧ j = 1 then 10 else 77⟩

/-- A `2 x 2` lower-triangular matrix with nonzero diagonal (the entry above the
diagonal is junk). -/
def lvar5L : Mat ℚ := ⟨2, 2, fun i j => if i = 0 ∧ j = 0 then 2 else if i = 1 ∧ j = 0 then 1
  else if i = 1 ∧ j = 1 then 3 else 55⟩

end CongruenceDefs

end Elemental

namespace Elemental

section RoundTrip

variable {T : Type}

/-- What the names of `ConvertTo1D` and `ConvertTo2D` promise about converting a type
to the other layout and back: the 1D and the 2D variant of a front type are
converted to each other. -/
structure RoundTripLaws (ops : FrontTypeOps T) : Prop where
  back1D : ∀ t, ops.FrontIs1D t = true → ops.ConvertTo1D (ops.ConvertTo2D t) = t
  back2D : ∀ t, ops.FrontIs1D t = false → ops.ConvertTo2D (ops.ConvertTo1D t) = t

end RoundTrip

end Elemental

namespace Elemental

/-! ## The order of the steps of the sequential `LowerForwardMultiply` -/

section SequentialOrder

variable {F : Type} [AddCommMonoid F]

mutual
/-- The fronts below a node: its children and the fronts below them. -/
def SeqNode.descendants : SeqNode F → List (SeqNode F)
  | .mk _ _ _ _ _ children => SeqNode.descendantsList children
/-- The fronts of a list of subtrees. -/
def SeqNode.descendantsList : List (SeqNode F) → List (SeqNode F)
  | [] => []
  | child :: rest => child :: (SeqNode.descendants child ++ SeqNode.descendantsList rest)
end

/-- The tree at the moment the loop
`for( c=0; c<numChildren; ++c ) LowerForwardMultiply( *info.children[c], ... )`
starts the call on child `c`: the calls on the children before `c` have returned,
nothing else of the node has run. -/
def beforeChild (FLFM : Mat F → Mat F → Nat → Nat → F) : SeqNode F → Nat → SeqNode F
  | .mk size childRelInds L work X children, c =>
    .mk size childRelInds L work X
      (LowerForwardMultiplyChildren FLFM (children.take c) ++ children.drop c)

/-- The work buffer that the order of steps in the words of the specification would
leave at a node, to be compared with `LowerForwardMultiply`: the update rows of the
(processed) children are accumulated into `[X; 0]` first and the front operation is
applied to the sum. -/
def updatesBeforeFront (FLFM : Mat F → Mat F → Nat → Nat → F) : SeqNode F → Mat F
  | .mk size childRelInds L _ X children =>
    let children1 := LowerForwardMultiplyChildren FLFM children
    let numRHS := X.width
    let height := L.height
    let sizeT := min size height
    let W0 : Mat F := ⟨height, numRHS, fun i j => if i < sizeT then X.entry i j else 0⟩
    let r := updateFromChildren W0 numRHS children1 childRelInds
    { r.1 with entry := FLFM L r.1 }

end SequentialOrder

/-- An example tree with two children: a root of size 2 and front height 2 over two
copies of `exampleLeaf`. -/
def exampleFork : SeqNode ℚ :=
  .mk 2 [[0, 1], [0, 1]] exampleRootL Mat.Empty exampleRootX [exampleLeaf, exampleLeaf]

end Elemental

namespace Elemental

/-! ## The distributed overloads of `LowerForwardMultiply`

The distributed matrices are modelled by their global contents on a one-process
grid: there every row and every entry is local, a redistribution or a
`LockedAttach` is an entry-preserving copy, the `k`-th packed item of the send
buffer is the `k`-th item of the receive buffer after `SparseAllToAll`, and
`childRelInds` only selects the destination process. -/

/-- A front of the distributed elimination tree with the fronts reachable through
its `child` link, holding the fields of `DistSymmNodeInfo`, `DistSymmFront<F>` and
of the right-hand side node that the distributed overloads of
`LowerForwardMultiply` use. `dup` is a front with `duplicate != nullptr` (`size` is
`info.size`, `type` is `front.type`, `duplicate` the sequential node behind
`*info.duplicate`, `*front.duplicate`, `*X.duplicate`); `node` is a front without a
duplicate, with `vecRecvInds` the list `info.multiVecMeta.childRecvInds[0]`,
`matRecvInds` the list `X.commMeta.childRecvInds[0]` (of a `DistMatrixNode`, after
`ComputeCommMeta`) and `X` the contents of `X.matrix`. -/
inductive DistNode (T F : Type)
  | dup (size : Nat) (type : T) (work1D work2D : Mat F) (duplicate : SeqNode F)
  | node (size : Nat) (vecRecvInds matRecvInds : List Nat) (type : T) (L1D L2D : Mat F)
      (work1D work2D : Mat F) (X : Mat F) (child : DistNode T F)

namespace DistNode

variable {T F : Type}

/-- The field `info.size`. -/
def size : DistNode T F → Nat
  | dup s _ _ _ _ => s
  | node s _ _ _ _ _ _ _ _ _ => s

/-- The field `front.type`. -/
def type : DistNode T F → T
  | dup _ t _ _ _ => t
  | node _ _ _ t _ _ _ _ _ _ => t

/-- The field `front.work1D`. -/
def work1D : DistNode T F → Mat F
  | dup _ _ w _ _ => w
  | node _ _ _ _ _ _ w _ _ _ => w

/-- The field `front.work2D`. -/
def work2D : DistNode T F → Mat F
  | dup _ _ _ w _ => w
  | node _ _ _ _ _ _ _ w _ _ => w

/-- `childW.Empty()` on `work1D`, and `duplicate->work.Empty()` when the front has a
duplicate. -/
def emptyWork1D [Zero F] : DistNode T F → DistNode T F
  | dup s t _ w2 d => dup s t Mat.Empty w2 (d.setWork Mat.Empty)
  | node s vr mr t l1 l2 _ w2 x c => node s vr mr t l1 l2 Mat.Empty w2 x c

/-- `childW.Empty()` on `work2D`, and `duplicate->work.Empty()` when the front has a
duplicate. -/
def emptyWork2D [Zero F] : DistNode T F → DistNode T F
  | dup s t w1 _ d => dup s t w1 Mat.Empty (d.setWork Mat.Empty)
  | node s vr mr t l1 l2 w1 _ x c => node s vr mr t l1 l2 w1 Mat.Empty x c

/-- Every front without a duplicate has a child of its own front type, here and
below. -/
def Uniform : DistNode T F → Prop
  | dup _ _ _ _ _ => True
  | node _ _ _ t _ _ _ _ _ c => c.type = t ∧ c.Uniform

end DistNode

section DistLowerForwardMultiply

variable {T F : Type} [DecidableEq T] [AddCommMonoid F]

/-- The unpacking loop of the `DistMultiVecNode` overload on one process: the
`k`-th received row (the `k`-th row of `childU`) is added to the row `recvInds[k]`
of `W` by `blas::Axpy( numRHS, F(1), &recvVals[k*numRHS], 1, W.Buffer(recvInds[k],0),
W.LDim() )`. -/
def unpackRows (W : Mat F) (recvInds : List Nat) (childU : Nat → Nat → F) (numRHS : Nat) :
    Mat F :=
  (List.range recvInds.length).foldl
    (fun W k => updateRow W (recvInds.getD k 0) childU k numRHS) W

/-- The unpacking loop of the `DistMatrixNode` overload on one process: for
`k < recvInds.size()/2` the `k`-th received entry, which is the `k`-th entry of
`childU` in the packing order (rows outermost, `localWidth` entries a row), is added
by `W.UpdateLocal( recvInds[2*k+0], recvInds[2*k+1], recvBuf[k] )`. -/
def unpackEntries (W : Mat F) (recvInds : List Nat) (childU : Nat → Nat → F)
    (localWidth : Nat) : Mat F :=
  (List.range (recvInds.length / 2)).foldl
    (fun W k =>
      let iLoc := recvInds.getD (2 * k + 0) 0
      let jLoc := recvInds.getD (2 * k + 1) 0
      W.Update iLoc jLoc (childU (k / localWidth) (k % localWidth))) W

/-- `LowerForwardMultiply( info, front, X )` for a `DistMultiVecNode`: the tree
after the call and the error raised, if any. The sequential kernel `FLFM` and the
distributed kernel `FrontLowerForwardMultiply( front, W )` (the parameter `DFLFM`,
giving the new entries of `W` from `front.type`, `front.L1D`, `front.L2D` and `W`)
are not among the sources. -/
def LowerForwardMultiplyMultiVec (ops : FrontTypeOps T)
    (FLFM : Mat F → Mat F → Nat → Nat → F)
    (DFLFM : T → Mat F → Mat F → Mat F → Nat → Nat → F) :
    DistNode T F → DistNode T F × Option String
  | .dup size type _ work2D duplicate =>
    let duplicate1 := LowerForwardMultiply FLFM duplicate
    -- front.work1D.LockedAttach( W.Height(), W.Width(), grid, 0, 0, W )
    (.dup size type duplicate1.work work2D duplicate1, none)
  | .node size vecRecvInds matRecvInds type L1D L2D work1D work2D X child =>
    if child.type ≠ type then
      (.node size vecRecvInds matRecvInds type L1D L2D work1D work2D X child,
        some "Incompatible front type mixture")
    else
      let r := LowerForwardMultiplyMultiVec ops FLFM DFLFM child
      match r.2 with
      | some e =>
        (.node size vecRecvInds matRecvInds type L1D L2D work1D work2D X r.1, some e)
      | none =>
        let child1 := r.1
        -- Set up a workspace
        let numRHS := X.width
        let frontHeight := if ops.FrontIs1D type then L1D.height else L2D.height
        let sizeT := min size frontHeight
        let W0 : Mat F :=
          ⟨frontHeight, numRHS, fun i j => if i < sizeT then X.entry i j else 0⟩
        let W1 : Mat F := { W0 with entry := DFLFM type L1D L2D W0 }
        -- Pack our child's update
        let childW := child1.work1D
        let childU := fun i j => childW.entry (child1.size + i) j
        let child2 := child1.emptyWork1D
        -- Unpack the child updates
        let W2 := unpackRows W1 vecRecvInds childU numRHS
        -- Unpack the workspace
        let X1 : Mat F := ⟨sizeT, numRHS, W2.entry⟩
        (.node size vecRecvInds matRecvInds type L1D L2D W2 work2D X1 child2, none)

/-- `LowerForwardMultiply( info, front, X )` for a `DistMatrixNode`: the tree after
the call and the error raised, if any (the overload raises none). -/
def LowerForwardMultiplyMatrix (FLFM : Mat F → Mat F → Nat → Nat → F)
    (DFLFM : T → Mat F → Mat F → Mat F → Nat → Nat → F) :
    DistNode T F → DistNode T F × Option String
  | .dup size type work1D _ duplicate =>
    let duplicate1 := LowerForwardMultiply FLFM duplicate
    -- front.work2D.LockedAttach( work.Height(), work.Width(), grid, 0, 0, work )
    (.dup size type work1D duplicate1.work duplicate1, none)
  | .node size vecRecvInds matRecvInds type L1D L2D work1D _ X child =>
    -- Set up a workspace
    let numRHS := X.width
    let frontHeight := L2D.height
    let sizeT := min size frontHeight
    let W0 : Mat F :=
      ⟨frontHeight, numRHS, fun i j => if i < sizeT then X.entry i j else 0⟩
    let W1 : Mat F := { W0 with entry := DFLFM type L1D L2D W0 }
    -- Compute the metadata, pack send data
    let childW := child.work2D
    let childU := fun i j => childW.entry (child.size + i) j
    let localWidth := numRHS
    let child1 := child.emptyWork2D
    -- Unpack the child updates (with an Axpy)
    let W2 := unpackEntries W1 matRecvInds childU localWidth
    -- Store this node's portion of the result
    let X1 : Mat F := ⟨sizeT, numRHS, W2.entry⟩
    (.node size vecRecvInds matRecvInds type L1D L2D work1D W2 X1 child1, none)

end DistLowerForwardMultiply

/-- A leaf front of size 1 and front height 3 whose factor has the entries 2, with
the right-hand side 5 (one column). -/
def distLeaf : SeqNode ℚ :=
  .mk 1 [] ⟨3, 1, fun _ _ => 2⟩ Mat.Empty ⟨1, 1, fun _ _ => 5⟩ []

/-- A stand-in for the distributed front kernel in the examples: `W := L1D W`. -/
def exampleDistKernel : SymmFrontType → Mat ℚ → Mat ℚ → Mat ℚ → Nat → Nat → ℚ :=
  fun _ L1D _ W => exampleKernel L1D W

/-- A distributed chain of two fronts of type `LDL_1D`: a front of size 2 and height
2 over the duplicate of `distLeaf`, whose two update rows go to rows 0 and 1. -/
def exampleDist : DistNode SymmFrontType ℚ :=
  .node 2 [0, 1] [0, 0, 1, 0] .LDL_1D exampleRootL exampleRootL Mat.Empty Mat.Empty
    exampleRootX (.dup 1 .LDL_1D Mat.Empty Mat.Empty distLeaf)

/-- The chain `exampleDist` with the type of the child front changed to `LDL_2D`. -/
def mixedDist : DistNode SymmFrontType ℚ :=
  .node 2 [0, 1] [0, 0, 1, 0] .LDL_1D exampleRootL exampleRootL Mat.Empty Mat.Empty
    exampleRootX (.dup 1 .LDL_2D Mat.Empty Mat.Empty distLeaf)

/-- A chain of three fronts: the two upper fronts have the type `LDL_1D`, the front
with the duplicate has the type `LDL_2D`. -/
def deepMixedDist : DistNode SymmFrontType ℚ :=
  .node 2 [0, 1] [0, 0, 1, 0] .LDL_1D exampleRootL exampleRootL Mat.Empty Mat.Empty
    exampleRootX mixedDist

end Elemental

namespace Elemental

/-! ## The class `Matrix<T>` (`core/matrix.cpp`) -/

namespace elem

/-- Modelled from the spec: the enumeration `ViewType`, whose declaration is not
among the sources, as the three bits that `matrix.cpp` combines with `&`, `|` and
`~`: the view bit (`VIEW`), the fixed-size bit (`OWNER_FIXED`) and the lock bit
(`LOCKED_OWNER`). -/
structure ViewType where
  view : Bool
  fixed : Bool
  locked : Bool
deriving DecidableEq, Repr

namespace ViewType

/-- The value `OWNER`: no bit set. -/
def OWNER : ViewType := ⟨false, false, false⟩
/-- The value `VIEW`. -/
def VIEW : ViewType := ⟨true, false, false⟩
/-- The value `OWNER_FIXED`. -/
def OWNER_FIXED : ViewType := ⟨false, true, false⟩
/-- The value `VIEW_FIXED`. -/
def VIEW_FIXED : ViewType := ⟨true, true, false⟩
/-- The value `LOCKED_OWNER`, used as the mask of the lock bit only. -/
def LOCKED_OWNER : ViewType := ⟨false, false, true⟩
/-- The value `LOCKED_VIEW`. -/
def LOCKED_VIEW : ViewType := ⟨true, false, true⟩
/-- The value `LOCKED_VIEW_FIXED`. -/
def LOCKED_VIEW_FIXED : ViewType := ⟨true, true, true⟩

/-- Bitwise `a & b`. -/
def and (a b : ViewType) : ViewType :=
  ⟨a.view && b.view, a.fixed && b.fixed, a.locked && b.locked⟩
/-- Bitwise `a | b`. -/
def or (a b : ViewType) : ViewType :=
  ⟨a.view || b.view, a.fixed || b.fixed, a.locked || b.locked⟩
/-- Bitwise `~a` (on the three bits). -/
def not (a : ViewType) : ViewType :=
  ⟨!a.view, !a.fixed, !a.locked⟩

end ViewType

/-- Modelled from the spec: `IsOwner( v )`, `( v & VIEW ) == 0`. -/
def IsOwner (v : ViewType) : Bool := decide (v.and .VIEW = .OWNER)
/-- Modelled from the spec: `IsShrinkable( v )`, `( v & OWNER_FIXED ) == 0`. -/
def IsShrinkable (v : ViewType) : Bool := decide (v.and .OWNER_FIXED = .OWNER)
/-- Modelled from the spec: `IsLocked( v )`, `( v & LOCKED_OWNER ) != 0`. -/
def IsLocked (v : ViewType) : Bool := decide (v.and .LOCKED_OWNER ≠ .OWNER)

/-- The outcome of a member function: it returns, it raises `LogicError` with a
message, or its behaviour is undefined (a read or a write through `nullptr`). -/
inductive Result (α : Type)
  | ok (a : α)
  | error (msg : String)
  | undefined

/-- Modelled from the spec: the class `Memory<T>`, not among the sources: the
number of entries it holds and their contents (`none` for no buffer). -/
structure Memory (T : Type) where
  size : Int
  buffer : Option (Int → T)

/-- Modelled from the spec: the `Memory<T>` that holds nothing. -/
def Memory.none {T : Type} : Memory T := ⟨0, Option.none⟩

/-- Modelled from the spec: `memory_.Require( size )`: the buffer is kept when it is
large enough, and replaced by a new one of `size` entries, with the unspecified
contents `alloc size`, when it is not. -/
def Memory.Require {T : Type} (alloc : Int → Int → T) (m : Memory T) (size : Int) : Memory T :=
  if size > m.size then ⟨size, some (alloc size)⟩ else m

/-- What the pointer `data_` points to: nothing, the buffer of `memory_`, or an
attached buffer, given by its contents. -/
inductive Ptr (T : Type)
  | null
  | memory
  | buffer (contents : Int → T)

/-- The members of `Matrix<T>`. -/
structure Matrix (T : Type) where
  viewType_ : ViewType
  height_ : Int
  width_ : Int
  ldim_ : Int
  data_ : Ptr T
  memory_ : Memory T

/-- The functions on scalars that `Matrix<T>` calls (`elem::RealPart`,
`elem::SetRealPart`, ...), with `B` the type `Base<T>`; they are not among the
sources and are parameters. `ofBase` is the conversion of a `Base<T>` to `T`. -/
structure ScalarOps (T B : Type) where
  IsComplex : Bool
  RealPart : T → B
  ImagPart : T → B
  SetRealPart : T → B → T
  SetImagPart : T → B → T
  UpdateRealPart : T → B → T
  UpdateImagPart : T → B → T
  Conj : T → T
  ofBase : B → T

namespace Matrix

variable {T B : Type}

/-- The read `data_[k]`. -/
def load (M : Matrix T) (k : Int) : Option T :=
  match M.data_ with
  | .null => Option.none
  | .memory => M.memory_.buffer.map (fun b => b k)
  | .buffer b => some (b k)

/-- The write `data_[k] = alpha`. -/
def store (M : Matrix T) (k : Int) (alpha : T) : Option (Matrix T) :=
  match M.data_ with
  | .null => Option.none
  | .memory =>
    match M.memory_.buffer with
    | Option.none => Option.none
    | some b =>
      some { M with memory_ := { M.memory_ with
        buffer := some (fun k1 => if k1 = k then alpha else b k1) } }
  | .buffer b => some { M with data_ := .buffer (fun k1 => if k1 = k then alpha else b k1) }

/-- `ComplainIfReal()`. -/
def ComplainIfReal (ops : ScalarOps T B) : Result Unit :=
  if !ops.IsComplex then .error "Called complex-only routine with real data" else .ok ()

/-- `AssertValidDimensions( height, width )`. -/
def AssertValidDimensions (height width : Int) : Result Unit :=
  if height < 0 ∨ width < 0 then .error "Height and width must be non-negative" else .ok ()

/-- `AssertValidDimensions( height, width, ldim )`. -/
def AssertValidDimensionsLDim (height width ldim : Int) : Result Unit :=
  match AssertValidDimensions height width with
  | .ok _ =>
    if ldim < height then .error "Leading dimension must be no less than height"
    else if ldim = 0 then
      .error "Leading dimension cannot be zero (for BLAS compatibility)"
    else .ok ()
  | .error msg => .error msg
  | .undefined => .undefined

/-- `Height()`. -/
def Height (M : Matrix T) : Int := M.height_
/-- `Width()`. -/
def Width (M : Matrix T) : Int := M.width_
/-- `LDim()`. -/
def LDim (M : Matrix T) : Int := M.ldim_
/-- `Owner()`. -/
def Owner (M : Matrix T) : Bool := IsOwner M.viewType_
/-- `Viewing()`. -/
def Viewing (M : Matrix T) : Bool := !IsOwner M.viewType_
/-- `Shrinkable()`. -/
def Shrinkable (M : Matrix T) : Bool := IsShrinkable M.viewType_
/-- `FixedSize()`. -/
def FixedSize (M : Matrix T) : Bool := !IsShrinkable M.viewType_
/-- `Locked()`. -/
def Locked (M : Matrix T) : Bool := IsLocked M.viewType_

/-- Modelled from the spec: `elem::DiagonalLength( height, width, offset )`, the
length of the diagonal `offset` of a `height x width` matrix. -/
def diagonalLength (height width offset : Int) : Int :=
  if offset > 0 then min height (max (width - offset) 0)
  else min (max (height + offset) 0) width

/-- `DiagonalLength( offset )`. -/
def DiagonalLength (M : Matrix T) (offset : Int) : Int :=
  diagonalLength M.height_ M.width_ offset

/-- `AssertValidEntry( i, j )`; the message of the second error, which the source
builds from the indices and the dimensions, is shortened. -/
def AssertValidEntry (M : Matrix T) (i j : Int) : Result Unit :=
  if i < 0 ∨ j < 0 then .error "Indices must be non-negative"
  else if i > M.Height ∨ j > M.Width then .error "Out of bounds"
  else .ok ()

/-- An `Option` as a `Result`: `none` is undefined behaviour. -/
def ofOption {α : Type} : Option α → Result α
  | some a => .ok a
  | Option.none => .undefined

/-! ### Constructors -/

/-- `Matrix( bool fixed )`. -/
def construct (isFixed : Bool) : Matrix T :=
  ⟨if isFixed then .OWNER_FIXED else .OWNER, 0, 0, 1, .null, Memory.none⟩

/-- `Matrix( Int height, Int width, bool fixed )`. -/
def constructSized (debug : Bool) (alloc : Int → Int → T) (height width : Int)
    (isFixed : Bool) : Result (Matrix T) :=
  let viewType := if isFixed then ViewType.OWNER_FIXED else ViewType.OWNER
  let ldim := max height 1
  match (if debug then AssertValidDimensions height width else .ok ()) with
  | .ok _ => .ok ⟨viewType, height, width, ldim, .memory, Memory.none.Require alloc (ldim * width)⟩
  | .error msg => .error msg
  | .undefined => .undefined

/-- `Matrix( Int height, Int width, Int ldim, bool fixed )`. -/
def constructLDim (debug : Bool) (alloc : Int → Int → T) (height width ldim : Int)
    (isFixed : Bool) : Result (Matrix T) :=
  let viewType := if isFixed then ViewType.OWNER_FIXED else ViewType.OWNER
  match (if debug then AssertValidDimensionsLDim height width ldim else .ok ()) with
  | .ok _ => .ok ⟨viewType, height, width, ldim, .memory, Memory.none.Require alloc (ldim * width)⟩
  | .error msg => .error msg
  | .undefined => .undefined

/-- `Matrix( Int height, Int width, const T* buffer, Int ldim, bool fixed )`. -/
def constructLockedView (debug : Bool) (height width : Int) (buffer : Int → T) (ldim : Int)
    (isFixed : Bool) : Result (Matrix T) :=
  let viewType := if isFixed then ViewType.LOCKED_VIEW_FIXED else ViewType.LOCKED_VIEW
  match (if debug then AssertValidDimensionsLDim height width ldim else .ok ()) with
  | .ok _ => .ok ⟨viewType, height, width, ldim, .buffer buffer, Memory.none⟩
  | .error msg => .error msg
  | .undefined => .undefined

/-- `Matrix( Int height, Int width, T* buffer, Int ldim, bool fixed )`. -/
def constructView (debug : Bool) (height width : Int) (buffer : Int → T) (ldim : Int)
    (isFixed : Bool) : Result (Matrix T) :=
  let viewType := if isFixed then ViewType.VIEW_FIXED else ViewType.VIEW
  match (if debug then AssertValidDimensionsLDim height width ldim else .ok ()) with
  | .ok _ => .ok ⟨viewType, height, width, ldim, .buffer buffer, Memory.none⟩
  | .error msg => .error msg
  | .undefined => .undefined

/-- `Matrix( Matrix<T>&& A )`: the new matrix and what is left of `A`. -/
def constructMove (A : Matrix T) : Matrix T × Matrix T :=
  (⟨A.viewType_, A.height_, A.width_, A.ldim_, A.data_, A.memory_⟩,
    { A with data_ := .null, memory_ := Memory.none })

/-- `operator=( Matrix<T>&& A )` with `this != &A`: the matrix and `A` afterwards. -/
def moveAssign (M A : Matrix T) : Matrix T × Matrix T :=
  (⟨A.viewType_, A.height_, A.width_, A.ldim_, A.data_, A.memory_⟩,
    { A with data_ := M.data_, memory_ := M.memory_ })

/-- `ShallowSwap( Matrix<T>& A )`: the matrix and `A` afterwards. -/
def ShallowSwap (M A : Matrix T) : Matrix T × Matrix T :=
  (⟨A.viewType_, A.height_, A.width_, A.ldim_, A.data_, A.memory_⟩,
    ⟨M.viewType_, M.height_, M.width_, M.ldim_, M.data_, M.memory_⟩)

/-! ### Buffers and entries -/

/-- `Buffer()`: the pointer `data_`. -/
def Buffer (debug : Bool) (M : Matrix T) : Result (Ptr T) :=
  if debug && M.Locked then .error "Cannot return non-const buffer of locked Matrix"
  else .ok M.data_

/-- `Buffer( i, j )`: the pointer `&data_[i+j*ldim_]`, as the offset from `data_`. -/
def BufferAt (debug : Bool) (M : Matrix T) (i j : Int) : Result Int :=
  if debug && M.Locked then .error "Cannot return non-const buffer of locked Matrix"
  else .ok (i + j * M.ldim_)

/-- `Get_( i, j )`. -/
def Get_ (M : Matrix T) (i j : Int) : Option T :=
  M.load (i + j * M.ldim_)

/-- The write `Set_( i, j ) = alpha`. -/
def Set_ (M : Matrix T) (i j : Int) (alpha : T) : Option (Matrix T) :=
  M.store (i + j * M.ldim_) alpha

/-- The read-modify-write of the reference `Set_( i, j )`. -/
def modify_ (M : Matrix T) (i j : Int) (f : T → T) : Option (Matrix T) :=
  match M.Get_ i j with
  | Option.none => Option.none
  | some v => M.Set_ i j (f v)

/-- The block `DEBUG_ONLY( AssertValidEntry( i, j ); )` of the read accessors. -/
def readChecks (debug : Bool) (M : Matrix T) (i j : Int) : Result Unit :=
  if debug then M.AssertValidEntry i j else .ok ()

/-- The block `DEBUG_ONLY( AssertValidEntry( i, j ); if( Locked() )
LogicError("Cannot modify data of locked matrices"); )` of the write accessors. -/
def writeChecks (debug : Bool) (M : Matrix T) (i j : Int) : Result Unit :=
  if debug then
    match M.AssertValidEntry i j with
    | .ok _ =>
      if M.Locked then .error "Cannot modify data of locked matrices" else .ok ()
    | .error msg => .error msg
    | .undefined => .undefined
  else .ok ()

/-- `Get( i, j )`. -/
def Get (debug : Bool) (M : Matrix T) (i j : Int) : Result T :=
  match readChecks debug M i j with
  | .ok _ => ofOption (M.Get_ i j)
  | .error msg => .error msg
  | .undefined => .undefined

/-- `GetRealPart( i, j )`. -/
def GetRealPart (ops : ScalarOps T B) (debug : Bool) (M : Matrix T) (i j : Int) : Result B :=
  match readChecks debug M i j with
  | .ok _ => ofOption ((M.Get_ i j).map ops.RealPart)
  | .error msg => .error msg
  | .undefined => .undefined

/-- `GetImagPart( i, j )`. -/
def GetImagPart (ops : ScalarOps T B) (debug : Bool) (M : Matrix T) (i j : Int) : Result B :=
  match readChecks debug M i j with
  | .ok _ => ofOption ((M.Get_ i j).map ops.ImagPart)
  | .error msg => .error msg
  | .undefined => .undefined

/-- `Set( i, j, alpha )`. -/
def Set (debug : Bool) (M : Matrix T) (i j : Int) (alpha : T) : Result (Matrix T) :=
  match writeChecks debug M i j with
  | .ok _ => ofOption (M.Set_ i j alpha)
  | .error msg => .error msg
  | .undefined => .undefined

/-- `SetRealPart( i, j, alpha )`. -/
def SetRealPart (ops : ScalarOps T B) (debug : Bool) (M : Matrix T) (i j : Int) (alpha : B) :
    Result (Matrix T) :=
  match writeChecks debug M i j with
  | .ok _ => ofOption (M.modify_ i j (fun v => ops.SetRealPart v alpha))
  | .error msg => .error msg
  | .undefined => .undefined

/-- `SetImagPart( i, j, alpha )`. -/
def SetImagPart (ops : ScalarOps T B) (debug : Bool) (M : Matrix T) (i j : Int) (alpha : B) :
    Result (Matrix T) :=
  match writeChecks debug M i j with
  | .ok _ =>
    match ComplainIfReal ops with
    | .ok _ => ofOption (M.modify_ i j (fun v => ops.SetImagPart v alpha))
    | .error msg => .error msg
    | .undefined => .undefined
  | .error msg => .error msg
  | .undefined => .undefined

/-- `Update( i, j, alpha )`. -/
def Update [Add T] (debug : Bool) (M : Matrix T) (i j : Int) (alpha : T) : Result (Matrix T) :=
  match writeChecks debug M i j with
  | .ok _ => ofOption (M.modify_ i j (fun v => v + alpha))
  | .error msg => .error msg
  | .undefined => .undefined

/-- `UpdateRealPart( i, j, alpha )`. -/
def UpdateRealPart (ops : ScalarOps T B) (debug : Bool) (M : Matrix T) (i j : Int)
    (alpha : B) : Result (Matrix T) :=
  match writeChecks debug M i j with
  | .ok _ => ofOption (M.modify_ i j (fun v => ops.UpdateRealPart v alpha))
  | .error msg => .error msg
  | .undefined => .undefined

/-- `UpdateImagPart( i, j, alpha )`. -/
def UpdateImagPart (ops : ScalarOps T B) (debug : Bool) (M : Matrix T) (i j : Int)
    (alpha : B) : Result (Matrix T) :=
  match writeChecks debug M i j with
  | .ok _ =>
    match ComplainIfReal ops with
    | .ok _ => ofOption (M.modify_ i j (fun v => ops.UpdateImagPart v alpha))
    | .error msg => .error msg
    | .undefined => .undefined
  | .error msg => .error msg
  | .undefined => .undefined

/-- `MakeReal( i, j )`: `Set( i, j, GetRealPart(i,j) )` after the checks. -/
def MakeReal (ops : ScalarOps T B) (debug : Bool) (M : Matrix T) (i j : Int) :
    Result (Matrix T) :=
  match writeChecks debug M i j with
  | .ok _ =>
    match GetRealPart ops debug M i j with
    | .ok r => Set debug M i j (ops.ofBase r)
    | .error msg => .error msg
    | .undefined => .undefined
  | .error msg => .error msg
  | .undefined => .undefined

/-- `Conjugate( i, j )`: `Set( i, j, elem::Conj(Get(i,j)) )` after the checks. -/
def Conjugate (ops : ScalarOps T B) (debug : Bool) (M : Matrix T) (i j : Int) :
    Result (Matrix T) :=
  match writeChecks debug M i j with
  | .ok _ =>
    match Get debug M i j with
    | .ok v => Set debug M i j (ops.Conj v)
    | .error msg => .error msg
    | .undefined => .undefined
  | .error msg => .error msg
  | .undefined => .undefined

/-! ### The diagonal -/

/-- The block `DEBUG_ONLY( if( d.Height() != DiagonalLength(offset) || d.Width() != 1 )
LogicError("d is not a column-vector of the right length"); )`, for a `d` of any
entry type. -/
def diagonalChecks {D : Type} (debug : Bool) (M : Matrix T) (d : Matrix D) (offset : Int) :
    Result Unit :=
  if debug then
    if d.Height ≠ M.DiagonalLength offset ∨ d.Width ≠ 1 then
      .error "d is not a column-vector of the right length"
    else .ok ()
  else .ok ()

/-- The loop `for( Int k=0; k<diagLength; ++k )` over the diagonal `offset`, with
the body `step` given the matrix so far and the indices `k`, `k+iOff`, `k+jOff`. -/
def diagonalLoop (M : Matrix T) (offset : Int)
    (step : Matrix T → Int → Int → Int → Result (Matrix T)) : Result (Matrix T) :=
  let diagLength := M.DiagonalLength offset
  let iOff := if offset ≥ 0 then 0 else -offset
  let jOff := if offset ≥ 0 then offset else 0
  (List.range diagLength.toNat).foldl
    (fun r k =>
      match r with
      | .ok M1 => step M1 (k : Int) ((k : Int) + iOff) ((k : Int) + jOff)
      | .error msg => .error msg
      | .undefined => .undefined)
    (.ok M)

/-- The body `Set_( k+iOff, k+jOff ) = f( Set_( k+iOff, k+jOff ), d.Get_(k,0) )` of
the loops over the diagonal. -/
def diagonalStep {D : Type} (d : Matrix D) (f : T → D → T) (M1 : Matrix T) (k i j : Int) :
    Result (Matrix T) :=
  match d.Get_ k 0 with
  | Option.none => .undefined
  | some dk => ofOption (M1.modify_ i j (fun v => f v dk))

/-- `SetDiagonal( d, offset )`. -/
def SetDiagonal (debug : Bool) (M : Matrix T) (d : Matrix T) (offset : Int) :
    Result (Matrix T) :=
  match diagonalChecks debug M d offset with
  | .ok _ =>
    diagonalLoop M offset (fun M1 k i j =>
      match d.Get_ k 0 with
      | Option.none => .undefined
      | some dk => ofOption (M1.Set_ i j dk))
  | .error msg => .error msg
  | .undefined => .undefined

/-- `SetRealPartOfDiagonal( d, offset )`. -/
def SetRealPartOfDiagonal (ops : ScalarOps T B) (debug : Bool) (M : Matrix T) (d : Matrix B)
    (offset : Int) : Result (Matrix T) :=
  match diagonalChecks debug M d offset with
  | .ok _ => diagonalLoop M offset (diagonalStep d ops.SetRealPart)
  | .error msg => .error msg
  | .undefined => .undefined

/-- `SetImagPartOfDiagonal( d, offset )`. -/
def SetImagPartOfDiagonal (ops : ScalarOps T B) (debug : Bool) (M : Matrix T) (d : Matrix B)
    (offset : Int) : Result (Matrix T) :=
  match diagonalChecks debug M d offset with
  | .ok _ =>
    match ComplainIfReal ops with
    | .ok _ => diagonalLoop M offset (diagonalStep d ops.SetImagPart)
    | .error msg => .error msg
    | .undefined => .undefined
  | .error msg => .error msg
  | .undefined => .undefined

/-- `UpdateDiagonal( d, offset )`; the entry of `d` is read with the checked
`d.Get(k,0)`. -/
def UpdateDiagonal [Add T] (debug : Bool) (M : Matrix T) (d : Matrix T) (offset : Int) :
    Result (Matrix T) :=
  match diagonalChecks debug M d offset with
  | .ok _ =>
    diagonalLoop M offset (fun M1 k i j =>
      match Get debug d k 0 with
      | .ok dk => ofOption (M1.modify_ i j (fun v => v + dk))
      | .error msg => .error msg
      | .undefined => .undefined)
  | .error msg => .error msg
  | .undefined => .undefined

/-- `UpdateRealPartOfDiagonal( d, offset )`. -/
def UpdateRealPartOfDiagonal (ops : ScalarOps T B) (debug : Bool) (M : Matrix T)
    (d : Matrix B) (offset : Int) : Result (Matrix T) :=
  match diagonalChecks debug M d offset with
  | .ok _ => diagonalLoop M offset (diagonalStep d ops.UpdateRealPart)
  | .error msg => .error msg
  | .undefined => .undefined

/-- `UpdateImagPartOfDiagonal( d, offset )`. -/
def UpdateImagPartOfDiagonal (ops : ScalarOps T B) (debug : Bool) (M : Matrix T)
    (d : Matrix B) (offset : Int) : Result (Matrix T) :=
  match diagonalChecks debug M d offset with
  | .ok _ =>
    match ComplainIfReal ops with
    | .ok _ => diagonalLoop M offset (diagonalStep d ops.UpdateImagPart)
    | .error msg => .error msg
    | .undefined => .undefined
  | .error msg => .error msg
  | .undefined => .undefined

/-! ### Attaching buffers -/

/-- `Control_( height, width, buffer, ldim )`. -/
def Control_ (M : Matrix T) (height width : Int) (buffer : Int → T) (ldim : Int) : Matrix T :=
  { viewType_ := M.viewType_.and ViewType.LOCKED_VIEW.not
    height_ := height
    width_ := width
    ldim_ := ldim
    data_ := .buffer buffer
    memory_ := Memory.none }

/-- `Control( height, width, buffer, ldim )`. -/
def Control (debug : Bool) (M : Matrix T) (height width : Int) (buffer : Int → T)
    (ldim : Int) : Result (Matrix T) :=
  if debug && M.FixedSize then
    .error "Cannot attach a new buffer to a view with fixed size"
  else .ok (M.Control_ height width buffer ldim)

/-- `Attach_( height, width, buffer, ldim )`. -/
def Attach_ (M : Matrix T) (height width : Int) (buffer : Int → T) (ldim : Int) : Matrix T :=
  { viewType_ := (M.viewType_.and ViewType.LOCKED_OWNER.not).or .VIEW
    height_ := height
    width_ := width
    ldim_ := ldim
    data_ := .buffer buffer
    memory_ := Memory.none }

/-- `Attach( height, width, buffer, ldim )`. -/
def Attach (debug : Bool) (M : Matrix T) (height width : Int) (buffer : Int → T)
    (ldim : Int) : Result (Matrix T) :=
  if debug && M.FixedSize then
    .error "Cannot attach a new buffer to a view with fixed size"
  else .ok (M.Attach_ height width buffer ldim)

/-- `LockedAttach_( height, width, buffer, ldim )`. -/
def LockedAttach_ (M : Matrix T) (height width : Int) (buffer : Int → T) (ldim : Int) :
    Matrix T :=
  { viewType_ := M.viewType_.or .VIEW
    height_ := height
    width_ := width
    ldim_ := ldim
    data_ := .buffer buffer
    memory_ := Memory.none }

/-- `LockedAttach( height, width, buffer, ldim )`. -/
def LockedAttach (debug : Bool) (M : Matrix T) (height width : Int) (buffer : Int → T)
    (ldim : Int) : Result (Matrix T) :=
  if debug && M.FixedSize then
    .error "Cannot attach a new buffer to a view with fixed size"
  else .ok (M.LockedAttach_ height width buffer ldim)

/-! ### Utilities -/

/-- `Empty_()`. -/
def Empty_ (M : Matrix T) : Matrix T :=
  { viewType_ := M.viewType_.and ViewType.LOCKED_VIEW.not
    height_ := 0
    width_ := 0
    ldim_ := 1
    data_ := .null
    memory_ := Memory.none }

/-- `Empty()`. -/
def Empty (debug : Bool) (M : Matrix T) : Result (Matrix T) :=
  if debug && M.FixedSize then .error "Cannot empty a fixed-size matrix"
  else .ok M.Empty_

/-- `ResizeTo_( height, width )`. -/
def ResizeTo_ (alloc : Int → Int → T) (M : Matrix T) (height width : Int) : Matrix T :=
  let reallocate : Bool := decide (height > M.ldim_ ∨ width > M.width_)
  let M1 := { M with height_ := height, width_ := width }
  -- Only change the ldim when necessary. Simply 'shrink' our view if possible.
  if reallocate then
    let ldim := max height 1
    { M1 with ldim_ := ldim, memory_ := M1.memory_.Require alloc (ldim * width),
              data_ := .memory }
  else M1

/-- `ResizeTo( height, width )`. -/
def ResizeTo (debug : Bool) (alloc : Int → Int → T) (M : Matrix T) (height width : Int) :
    Result (Matrix T) :=
  if debug then
    match AssertValidDimensions height width with
    | .ok _ =>
      if M.FixedSize ∧ (height ≠ M.height_ ∨ width ≠ M.width_) then
        .error "Cannot change the size of this matrix"
      else if M.Viewing ∧ (height > M.height_ ∨ width > M.width_) then
        .error "Cannot increase the size of this matrix"
      else .ok (M.ResizeTo_ alloc height width)
    | .error msg => .error msg
    | .undefined => .undefined
  else .ok (M.ResizeTo_ alloc height width)

/-- `ResizeTo_( height, width, ldim )`. -/
def ResizeToLDim_ (alloc : Int → Int → T) (M : Matrix T) (height width ldim : Int) :
    Matrix T :=
  let reallocate : Bool := decide (height > M.ldim_ ∨ width > M.width_ ∨ ldim ≠ M.ldim_)
  let M1 := { M with height_ := height, width_ := width }
  if reallocate then
    { M1 with ldim_ := ldim, memory_ := M1.memory_.Require alloc (ldim * width),
              data_ := .memory }
  else M1

/-- `ResizeTo( height, width, ldim )`. -/
def ResizeToLDim (debug : Bool) (alloc : Int → Int → T) (M : Matrix T)
    (height width ldim : Int) : Result (Matrix T) :=
  if debug then
    match AssertValidDimensionsLDim height width ldim with
    | .ok _ =>
      if M.FixedSize ∧ (height ≠ M.height_ ∨ width ≠ M.width_ ∨ ldim ≠ M.ldim_) then
        .error "Cannot change the size of this matrix"
      else if M.Viewing ∧ (height > M.height_ ∨ width > M.width_ ∨ ldim ≠ M.ldim_) then
        .error "Cannot increase the size of this matrix"
      else .ok (M.ResizeToLDim_ alloc height width ldim)
    | .error msg => .error msg
    | .undefined => .undefined
  else .ok (M.ResizeToLDim_ alloc height width ldim)

/-- The loops `for( j<width ) MemCopy( &dst[j*ldim], &src[j*ldimOfA], height )` of
the copy assignment. -/
def copyEntries (M A : Matrix T) : Result (Matrix T) :=
  let height := M.Height
  let width := M.Width
  let ldim := M.LDim
  let ldimOfA := A.LDim
  (List.range width.toNat).foldl
    (fun r j =>
      (List.range height.toNat).foldl
        (fun r i =>
          match r with
          | .ok M1 =>
            match A.load ((j : Int) * ldimOfA + (i : Int)) with
            | Option.none => .undefined
            | some v => ofOption (M1.store ((j : Int) * ldim + (i : Int)) v)
          | .error msg => .error msg
          | .undefined => .undefined)
        r)
    (.ok M)

/-- `operator=( const Matrix<T>& A )`, the copy assignment. -/
def copyAssign (debug : Bool) (alloc : Int → Int → T) (M A : Matrix T) : Result (Matrix T) :=
  if debug && M.Locked then .error "Cannot assign to a locked view"
  else if debug && (decide (M.viewType_ ≠ .OWNER) &&
      decide (A.Height ≠ M.Height ∨ A.Width ≠ M.Width)) then
    .error "Cannot assign to a view of different dimensions"
  else
    match (if M.viewType_ = .OWNER then ResizeTo debug alloc M A.Height A.Width else .ok M) with
    | .ok M1 =>
      match Buffer debug M1 with
      | .ok _ => copyEntries M1 A
      | .error msg => .error msg
      | .undefined => .undefined
    | .error msg => .error msg
    | .undefined => .undefined

/-- `Matrix( const Matrix<T>& A )` with `&A != this`. -/
def constructCopy (debug : Bool) (alloc : Int → Int → T) (A : Matrix T) : Result (Matrix T) :=
  copyAssign debug alloc ⟨.OWNER, 0, 0, 1, .null, Memory.none⟩ A

/-- The class invariant `ldim >= max(height, 1)`. -/
def ValidLDim (M : Matrix T) : Prop :=
  M.ldim_ ≥ max M.height_ 1

/-- A matrix of fixed size satisfies the class invariant. -/
def FixedValid (M : Matrix T) : Prop :=
  M.FixedSize = true → M.ValidLDim

/-- An operation raises an error or leaves the height, the width and the leading
dimension of `M` as they were. -/
def RaisesOrKeeps (M : Matrix T) (r : Result (Matrix T)) : Prop :=
  (∃ msg, r = .error msg) ∨
    ∃ M1, r = .ok M1 ∧ M1.height_ = M.height_ ∧ M1.width_ = M.width_ ∧ M1.ldim_ = M.ldim_

end Matrix

/-- The scalar functions for a real type, here the rationals. -/
def ratOps : ScalarOps ℚ ℚ :=
  ⟨false, fun a => a, fun _ => 0, fun _ b => b, fun a _ => a, fun a b => a + b, fun a _ => a,
    fun a => a, fun b => b⟩

/-- A locked `1 x 1` view of a buffer that holds zeros. -/
def lockedView : Matrix ℚ :=
  ⟨.LOCKED_VIEW, 1, 1, 1, .buffer (fun _ => 0), Memory.none⟩

/-- A `1 x 1` matrix that owns its entry 5. -/
def fiveColumn : Matrix ℚ :=
  ⟨.OWNER, 1, 1, 1, .memory, ⟨1, some (fun _ => 5)⟩⟩

/-- A view of height 1 and width 1 into a buffer with the leading dimension 2. -/
def shortView : Matrix ℚ :=
  ⟨.VIEW, 1, 1, 2, .buffer (fun k => k), Memory.none⟩

/-- A `2 x 2` matrix that owns its buffer, with the entries 0, 1, 2, 3 by columns. -/
def exampleOwner : Matrix ℚ :=
  ⟨.OWNER, 2, 2, 2, .memory, ⟨4, some (fun k => k)⟩⟩

/-- A fixed-size `2 x 2` matrix that owns its buffer. -/
def fixedOwner : Matrix ℚ :=
  ⟨.OWNER_FIXED, 2, 2, 2, .memory, ⟨4, some (fun k => k)⟩⟩

end elem
end Elemental

namespace Elemental

/-! ## The panel of one pass of `TwoSidedTrsmLVar5` -/

section TwoSidedTrsmPanel

variable {F : Type} [Field F] [StarRing F]

/-- The adjoint that `AdjointFrom` leaves. -/
def Mat.adjoint (A : Mat F) : Mat F :=
  ⟨A.width, A.height, fun i j => star (A.entry j i)⟩

/-- Modelled from the spec: `LocalTrr2k( LOWER, alpha, A, B, C, D, beta, E )` as
`LVar5.hpp` calls it, the exact update `E := alpha ( A B + C D ) + beta E` of the
lower triangle of `E`. The kernel is not among the sources. -/
def LocalTrr2kLower (alpha : F) (A B C D : Mat F) (beta : F) (E : Mat F) : Mat F :=
  { E with
    entry := fun i j =>
      if j ≤ i then
        alpha * ((∑ l in Finset.range A.width, A.entry i l * B.entry l j)
          + ∑ l in Finset.range C.width, C.entry i l * D.entry l j)
          + beta * E.entry i j
      else E.entry i j }

/-- One pass of the body of the `while` loop of the distributed `TwoSidedTrsmLVar5`
on a single process, where every redistribution (`L11_STAR_STAR = L11`,
`A21 = A21_VC_STAR`, ...) is an entry-preserving copy; `LocalTwoSidedTrsm` is the
exact kernel `TwoSidedTrsmLUnb` and `LocalTrsm` the exact `Trsm`. -/
def TwoSidedTrsmLVar5DistStep (diag : UnitOrNonUnit) (L : Mat F) (n k nb : Nat) (A : Mat F) :
    Mat F :=
  let L11 := L.view k k nb nb
  let L21 := L.view (k + nb) k (n - (k + nb)) nb
  let L22 := L.view (k + nb) (k + nb) (n - (k + nb)) (n - (k + nb))
  -- A11 := inv(L11) A11 inv(L11)'
  let L11_STAR_STAR := L11
  let A11_STAR_STAR := A.view k k nb nb
  let A11_STAR_STAR := TwoSidedTrsmLUnb diag A11_STAR_STAR L11_STAR_STAR
  let A := A.setBlock k k A11_STAR_STAR
  -- Y21 := L21 A11
  let L21_VC_STAR := L21
  let Y21_VC_STAR := Mat.zeros (n - (k + nb)) nb
  let Y21_VC_STAR := HemmRightLower 1 A11_STAR_STAR L21_VC_STAR 0 Y21_VC_STAR
  let Y21 := Y21_VC_STAR
  -- A21 := A21 inv(L11)'
  let A21_VC_STAR := A.view (k + nb) k (n - (k + nb)) nb
  let A21_VC_STAR := TrsmRightLowerAdjoint diag 1 L11_STAR_STAR A21_VC_STAR
  let A := A.setBlock (k + nb) k A21_VC_STAR
  -- A21 := A21 - 1/2 Y21
  let A := A.setBlock (k + nb) k (Axpy (-1 / 2) Y21 (A.view (k + nb) k (n - (k + nb)) nb))
  -- A22 := A22 - (L21 A21' + A21 L21')
  let A21_MC_STAR := A.view (k + nb) k (n - (k + nb)) nb
  let L21_MC_STAR := L21
  let A21_VC_STAR := A21_MC_STAR
  let A21_VR_STAR := A21_VC_STAR
  let L21_VR_STAR := L21_VC_STAR
  let A21Adj_STAR_MR := A21_VR_STAR.adjoint
  let L21Adj_STAR_MR := L21_VR_STAR.adjoint
  let A := A.setBlock (k + nb) (k + nb)
    (LocalTrr2kLower (-1) L21_MC_STAR A21Adj_STAR_MR A21_MC_STAR L21Adj_STAR_MR 1
      (A.view (k + nb) (k + nb) (n - (k + nb)) (n - (k + nb))))
  -- A21 := A21 - 1/2 Y21
  let A := A.setBlock (k + nb) k (Axpy (-1 / 2) Y21 (A.view (k + nb) k (n - (k + nb)) nb))
  -- A21 := inv(L22) A21
  A.setBlock (k + nb) k
    (TrsmLeftLowerNormal diag 1 L22 (A.view (k + nb) k (n - (k + nb)) nb))

/-- The temporary `Y21 = L21 A11` of one pass: `Hemm` applied to the block `A11`
that `TwoSidedTrsmLUnb` has already transformed. -/
def panelY21 (diag : UnitOrNonUnit) (L : Mat F) (n k nb : Nat) (A : Mat F) : Mat F :=
  HemmRightLower 1
    ((A.setBlock k k (TwoSidedTrsmLUnb diag (A.view k k nb nb) (L.view k k nb nb))).view
      k k nb nb)
    (L.view (k + nb) k (n - (k + nb)) nb) 0 (Mat.zeros (n - (k + nb)) nb)

/-- The panel `Z = A21 inv(L11)'` of one pass. -/
def panelZ21 (diag : UnitOrNonUnit) (L : Mat F) (n k nb : Nat) (A : Mat F) : Mat F :=
  TrsmRightLowerAdjoint diag 1 (L.view k k nb nb) (A.view (k + nb) k (n - (k + nb)) nb)

/-- The panel `Z - c Y21`. -/
def panelMinus (c : F) (diag : UnitOrNonUnit) (L : Mat F) (n k nb : Nat) (A : Mat F) : Mat F :=
  ⟨n - (k + nb), nb,
    fun r y => (panelZ21 diag L n k nb A).entry r y - c * (panelY21 diag L n k nb A).entry r y⟩

end TwoSidedTrsmPanel

end Elemental

namespace Elemental

/-! ## Eigenvectors of a triangular matrix (`TriangEigvecs.cpp`) -/

section TriangEigenvecs

variable {F : Type} [Field F]

/-- Modelled from the spec: `GetDiagonal( A )`, the diagonal of `A` as a column
vector. The routine is not among the sources. -/
def GetDiagonal (A : Mat F) : Mat F :=
  ⟨min A.height A.width, 1, fun i _ => A.entry i i⟩

/-- Modelled from the spec: `ShiftDiagonal( A, alpha )`, which adds `alpha` to every
diagonal entry of `A`. -/
def ShiftDiagonal (A : Mat F) (alpha : F) : Mat F :=
  { A with
    entry := fun i j =>
      if i = j ∧ i < min A.height A.width then A.entry i j + alpha else A.entry i j }

/-- Modelled from the spec: `SetDiagonal( A, d )`, which overwrites the diagonal of
`A` with the column vector `d`. -/
def SetDiagonal (A d : Mat F) : Mat F :=
  { A with
    entry := fun i j =>
      if i = j ∧ i < min A.height A.width then d.entry i 0 else A.entry i j }

/-- Modelled from the spec: `FillDiagonal( A, alpha )`, which sets every diagonal
entry of `A` to `alpha`. -/
def FillDiagonal (A : Mat F) (alpha : F) : Mat F :=
  { A with
    entry := fun i j =>
      if i = j ∧ i < min A.height A.width then alpha else A.entry i j }

/-- Modelled from the spec: `MakeTrapezoidal( UPPER, A, offset )`, which zeroes the
entries of `A` below the diagonal number `offset` (the entries `(i, j)` with
`j < i + offset`). -/
def MakeTrapezoidalUpper (A : Mat F) (offset : Nat) : Mat F :=
  { A with entry := fun i j => if i + offset ≤ j then A.entry i j else 0 }

/-- Modelled from the spec: `LastOffset( n, bsize )`, the first index of the last
block when `n` indices are split into blocks of `bsize`: `n - bsize` when `bsize`
divides `n` (negative for `n = 0`) and `n - n % bsize` otherwise. -/
def LastOffset (n bsize : Int) : Int :=
  if n % bsize = 0 then n - bsize else n - n % bsize

/-- Modelled from the spec: `Gemm( NORMAL, NORMAL, alpha, A, B, beta, C )`, the exact
`C := alpha A B + beta C`. -/
def GemmNormalNormal (alpha : F) (A B : Mat F) (beta : F) (C : Mat F) : Mat F :=
  { C with
    entry := fun i j =>
      alpha * (∑ l in Finset.range A.width, A.entry i l * B.entry l j) + beta * C.entry i j }

/-- Back substitution: the rows `n - m, ..., n - 1` of the solution `x` of `t x = b`
for an upper-triangular `n x n` matrix `t` (the other rows are zero). -/
def backSolve (t : Nat → Nat → F) (b : Nat → F) (n : Nat) : Nat → Nat → F
  | 0, _ => 0
  | m + 1, i =>
    if i = n - (m + 1) then
      (b i - ∑ p in Finset.Ico (i + 1) n, t i p * backSolve t b n m p) / t i i
    else backSolve t b n m i

/-- Modelled from the spec: `blas::Trsv( 'U', 'N', 'N', n, T, ldim, x, 1 )`, the
exact back substitution that overwrites the first `n` entries of `x` with the
solution of `T x = b`. -/
def TrsvUpperNormal (n : Nat) (T : Mat F) (x : Nat → F) : Nat → F :=
  fun i => if i < n then backSolve T.entry x n n i else x i

/-- The matrix `X` after writes through the pointers `V.Buffer(0,j)` of the view `V`
of `X` whose top-left entry is `(i0, j0)`: the rows of the view, and every column
from `j0` on (a column `j` past the width of the view is still a column of `X`). -/
def Mat.writeThrough (X : Mat F) (i0 j0 : Nat) (V : Mat F) : Mat F :=
  { X with
    entry := fun i j =>
      if i0 ≤ i ∧ i < i0 + V.height ∧ j0 ≤ j then V.entry (i - i0) (j - j0) else X.entry i j }

namespace triang_eigvec

/-- `triang_eigvec::UnblockedMultishiftSolve( T, shifts, X )`: the matrices `T` and
`X` after the call, or the error raised. With `debug` the check of
`shifts.Height() != X.Width()` is made; the loop solves the column `X.Buffer(0,j)`
for every `j < shifts.Height()`. -/
def UnblockedMultishiftSolve (debug : Bool) (T shifts X : Mat F) :
    Except String (Mat F × Mat F) :=
  if debug && (shifts.height != X.width) then
    .error "Incompatible number of shifts"
  else
    let diag := GetDiagonal T
    let n := T.height
    let numShifts := shifts.height
    .ok ((List.range numShifts).foldl
      (fun (TX : Mat F × Mat F) j =>
        let T1 := ShiftDiagonal TX.1 (-(shifts.entry j 0))
        let X1 : Mat F :=
          { TX.2 with
            entry := fun i c =>
              if c = j then TrsvUpperNormal n T1 (fun i1 => TX.2.entry i1 j) i
              else TX.2.entry i c }
        (SetDiagonal T1 diag, X1))
      (T, X))

end triang_eigvec

/-- The body of the loop `for( Int k=kLast; k>=0; k-=bsize )` of the local
`TriangEigenvecs`; the views alias `U` and `X`. -/
def TriangEigenvecsStep (debug : Bool) (shifts : Mat F) (m bsize k : Nat) (U X : Mat F) :
    Except String (Mat F × Mat F) :=
  let nb := min bsize (m - k)
  let U11 := U.view k k nb nb
  let X1 := X.view k 0 nb (k + nb)
  match triang_eigvec.UnblockedMultishiftSolve debug U11 shifts X1 with
  | .error msg => .error msg
  | .ok (U11, X1) =>
    let U := U.setBlock k k U11
    let X := X.writeThrough k 0 X1
    let U01 := U.view 0 k k nb
    let X0 := X.view 0 0 k (k + nb)
    let X1 := X.view k 0 nb (k + nb)
    .ok (U, X.setBlock 0 0 (GemmNormalNormal (-1) U01 X1 1 X0))

/-- The loop `for( Int k=kLast; k>=0; k-=bsize )` from the index `k` on; `none` when
the fuel runs out. -/
def TriangEigenvecsLoop (debug : Bool) (shifts : Mat F) (m bsize : Nat) :
    Nat → Int → Mat F → Mat F → Option (Except String (Mat F × Mat F))
  | 0, k, U, X => if 0 ≤ k then none else some (.ok (U, X))
  | fuel + 1, k, U, X =>
    if 0 ≤ k then
      match TriangEigenvecsStep debug shifts m bsize k.toNat U X with
      | .error msg => some (.error msg)
      | .ok (U1, X1) => TriangEigenvecsLoop debug shifts m bsize fuel (k - bsize) U1 X1
    else some (.ok (U, X))

/-- The local `TriangEigenvecs( U, X )` with the blocksize `bsize`: the matrices `U`
and `X` after the call, or the error raised; `none` when the fuel runs out. -/
def TriangEigenvecs (debug : Bool) (bsize fuel : Nat) (U X : Mat F) :
    Option (Except String (Mat F × Mat F)) :=
  let m := X.height
  let kLast := LastOffset m bsize
  let shifts := GetDiagonal U
  -- Make X the strictly upper triangle of U
  let X := U
  let X := MakeTrapezoidalUpper X 1
  match TriangEigenvecsLoop debug shifts m bsize fuel kLast U X with
  | some (.ok (U1, X1)) => some (.ok (U1, FillDiagonal X1 1))
  | r => r

end TriangEigenvecs

/-- The upper-triangular matrix with the rows `1, 1` and `0, 2`. -/
def exampleU : Mat ℚ :=
  ⟨2, 2, fun i j => if i = 0 ∧ j = 0 then 1 else if i = 0 ∧ j = 1 then 1
    else if i = 1 ∧ j = 1 then 2 else 0⟩

end Elemental

namespace Elemental

/-! ## The local accumulation of `Symv` (`Symv/U.hpp`) -/

/-- Modelled from the spec: `PushBlocksizeStack( blocksize )` on the stack of
algorithmic blocksizes, whose top is the current blocksize. The stack is not among
the sources. -/
def PushBlocksizeStack (blocksize : Nat) (stack : List Nat) : List Nat :=
  blocksize :: stack

/-- Modelled from the spec: `PopBlocksizeStack()`. -/
def PopBlocksizeStack (stack : List Nat) : List Nat :=
  stack.tail

/-- Modelled from the spec: `Blocksize()`, the top of the stack. -/
def Blocksize (stack : List Nat) : Nat :=
  stack.head?.getD 0

namespace internal

section Symv

variable {F : Type} [CommRing F] [StarRing F]

/-- Modelled from the spec: `MakeTriangular( UPPER, A )`, which zeroes the entries
of `A` strictly below the diagonal. -/
def MakeTriangularUpper (A : Mat F) : Mat F :=
  { A with entry := fun i j => if i ≤ j then A.entry i j else 0 }

/-- Modelled from the spec: `SetDiagonal( A, alpha )`, which sets every diagonal
entry of `A` to the scalar `alpha`. -/
def SetDiagonal (A : Mat F) (alpha : F) : Mat F :=
  { A with
    entry := fun i j => if i = j ∧ i < min A.height A.width then alpha else A.entry i j }

/-- Modelled from the spec: `LocalGemv( orientation, alpha, A, x, beta, y )` on one
process, the exact `y := alpha op(A) x + beta y`. -/
def LocalGemv (orientation : Orientation) (alpha : F) (A x : Mat F) (beta : F) (y : Mat F) :
    Mat F :=
  { y with
    entry := fun i j =>
      alpha * (∑ l in Finset.range (A.orient orientation).width,
          (A.orient orientation).entry i l * x.entry l j)
        + beta * y.entry i j }

/-- The body of the `while` loop of `LocalSymvColAccumulateU`, with
`n0 = x0_MR_STAR.Height()`, `n1 = x1_MR_STAR.Height()` and `n2 = x2_MR_STAR.Height()`:
the new `z_MC_STAR` and `z_MR_STAR`. The views alias the vectors. -/
def LocalSymvColAccumulateUStep (orientation : Orientation) (alpha : F)
    (A x_MC_STAR x_MR_STAR : Mat F) (n0 n1 n2 : Nat) (z_MC_STAR z_MR_STAR : Mat F) :
    Mat F × Mat F :=
  let A11 := A.view n0 n0 n1 n1
  let A12 := A.view n0 (n0 + n1) n1 n2
  let x1_MC_STAR := x_MC_STAR.view n0 0 n1 1
  let x1_MR_STAR := x_MR_STAR.view n0 0 n1 1
  let x2_MR_STAR := x_MR_STAR.view (n0 + n1) 0 n2 1
  let D11 := A11
  let D11 := MakeTriangularUpper D11
  let z_MC_STAR := z_MC_STAR.setBlock n0 0
    (LocalGemv .NORMAL alpha D11 x1_MR_STAR 1 (z_MC_STAR.view n0 0 n1 1))
  let D11 := SetDiagonal D11 0
  let z_MR_STAR := z_MR_STAR.setBlock n0 0
    (LocalGemv orientation alpha D11 x1_MC_STAR 1 (z_MR_STAR.view n0 0 n1 1))
  let z_MC_STAR := z_MC_STAR.setBlock n0 0
    (LocalGemv .NORMAL alpha A12 x2_MR_STAR 1 (z_MC_STAR.view n0 0 n1 1))
  let z_MR_STAR := z_MR_STAR.setBlock (n0 + n1) 0
    (LocalGemv orientation alpha A12 x1_MC_STAR 1 (z_MR_STAR.view (n0 + n1) 0 n2 1))
  (z_MC_STAR, z_MR_STAR)

/-- The loop `while( xT_MR_STAR.Height() < x_MR_STAR.Height() )` from
`xT_MR_STAR.Height() = n0`; the block `x1_MR_STAR` has `min( bsize, n - n0 )` rows,
`bsize` being the current blocksize. The result is `none` when the fuel runs out. -/
def LocalSymvColAccumulateULoop (orientation : Orientation) (alpha : F)
    (A x_MC_STAR x_MR_STAR : Mat F) (n bsize : Nat) :
    Nat → Nat → Mat F → Mat F → Option (Mat F × Mat F)
  | 0, n0, z_MC_STAR, z_MR_STAR => if n0 < n then none else some (z_MC_STAR, z_MR_STAR)
  | fuel + 1, n0, z_MC_STAR, z_MR_STAR =>
    if n0 < n then
      let n1 := min bsize (n - n0)
      let n2 := n - (n0 + n1)
      let z := LocalSymvColAccumulateUStep orientation alpha A x_MC_STAR x_MR_STAR n0 n1 n2
        z_MC_STAR z_MR_STAR
      LocalSymvColAccumulateULoop orientation alpha A x_MC_STAR x_MR_STAR n bsize fuel
        (n0 + n1) z.1 z.2
    else some (z_MC_STAR, z_MR_STAR)

/-- `LocalSymvColAccumulateU( alpha, A, x_MC_STAR, x_MR_STAR, z_MC_STAR, z_MR_STAR,
conjugate )` on a single process of an `r x c` grid: the vectors `z_MC_STAR` and
`z_MR_STAR` and the blocksize stack after the call, or the error raised by the
checks made with `debug` (the checks of the grids and of the alignments cannot fail
on one process); `none` when the fuel runs out. `localSymvBlocksize` is
`LocalSymvBlocksize<T>()`. -/
def LocalSymvColAccumulateU (debug : Bool) (r c localSymvBlocksize : Nat) (stack : List Nat)
    (fuel : Nat) (alpha : F) (A x_MC_STAR x_MR_STAR z_MC_STAR z_MR_STAR : Mat F)
    (conjugate : Bool) : Option (Except String (Mat F × Mat F × List Nat)) :=
  if debug && (x_MC_STAR.width != 1 || x_MR_STAR.width != 1 ||
      z_MC_STAR.width != 1 || z_MR_STAR.width != 1) then
    some (.error "Expected x and z to be column vectors")
  else if debug && (A.height != A.width || A.height != x_MC_STAR.height ||
      A.height != x_MR_STAR.height || A.height != z_MC_STAR.height ||
      A.height != z_MR_STAR.height) then
    some (.error "Nonconformal LocalSymvColAccumulateU")
  else
    let orientation := if conjugate then Orientation.ADJOINT else Orientation.TRANSPOSE
    -- We want our local gemvs to be of width blocksize
    let ratio := max r c
    let stack := PushBlocksizeStack (ratio * localSymvBlocksize) stack
    match LocalSymvColAccumulateULoop orientation alpha A x_MC_STAR x_MR_STAR
        x_MR_STAR.height (Blocksize stack) fuel 0 z_MC_STAR z_MR_STAR with
    | none => none
    | some z => some (.ok (z.1, z.2, PopBlocksizeStack stack))

end Symv

end internal

/-- The conjugation that `conjugate` selects: `star` when it is set. -/
def conjIf {F : Type} [Star F] (conjugate : Bool) (a : F) : F :=
  if conjugate then star a else a

/-- A `2 x 2` matrix whose entry below the diagonal is junk. -/
def symvA : Mat ℚ :=
  ⟨2, 2, fun i j => if i = 0 ∧ j = 0 then 1 else if i = 0 ∧ j = 1 then 2
    else if i = 1 ∧ j = 1 then 3 else 99⟩

/-- The column vector with the entries 1 and 1. -/
def symvX : Mat ℚ := ⟨2, 1, fun _ _ => 1⟩

end Elemental

namespace Elemental

/-! ## Distributed matrices and their redistribution -/

/-- Modelled from the spec: the distribution tags of `DistMatrix<T,ColDist,RowDist>`:
cyclic over the grid columns (`MC`) or rows (`MR`), cyclic over all processes in the
column-major (`VC`) or row-major (`VR`) order, replicated (`STAR`), matrix-diagonal
(`MD`) and single-process (`CIRC`). The declarations are among the sources, the code
of the distributions is not. -/
inductive Dist
  | MC | MD | MR | VC | VR | STAR | CIRC
deriving DecidableEq, Repr

/-- Modelled from the spec: the shape of the process grid, `height x width`; a
process is given by its grid row `p` and its grid column `q`. -/
structure Grid where
  height : Nat
  width : Nat
deriving DecidableEq, Repr

namespace Dist

/-- Modelled from the spec: the stride of a distribution, the number of processes
among which the indices are dealt. -/
def stride (g : Grid) : Dist → Nat
  | MC => g.height
  | MR => g.width
  | VC => g.height * g.width
  | VR => g.height * g.width
  | MD => Nat.lcm g.height g.width
  | STAR => 1
  | CIRC => 1

/-- Modelled from the spec: the rank of the process `(p, q)` in a distribution, or
`none` when the process holds no part of the matrix: the grid row for `MC`, the grid
column for `MR`, the column-major and row-major ranks for `VC` and `VR`, the position
`k` on the diagonal path `k -> (k mod r, k mod c)` for `MD`, and the root `(0, 0)`
alone for `CIRC`. -/
def rank (g : Grid) (p q : Nat) : Dist → Option Nat
  | MC => some p
  | MR => some q
  | VC => some (p + q * g.height)
  | VR => some (q + p * g.width)
  | MD => (List.range (Nat.lcm g.height g.width)).find?
      (fun k => decide (k % g.height = p ∧ k % g.width = q))
  | STAR => some 0
  | CIRC => if p = 0 ∧ q = 0 then some 0 else none

/-- Modelled from the spec: the first index that the process `(p, q)` owns, for the
alignment `align` (the rank that owns the index 0): the process owns the indices `i`
with `i mod stride` equal to it. -/
def shift (g : Grid) (d : Dist) (align p q : Nat) : Option Nat :=
  (rank g p q d).map (fun k => (k + (stride g d - align % stride g d)) % stride g d)

/-- Modelled from the spec: the grid row and the grid column that a distribution
fixes for the owner of the index `i` (`none` where it leaves the coordinate free). -/
def ownerCoords (g : Grid) (d : Dist) (align i : Nat) : Option Nat × Option Nat :=
  match d with
  | MC => (some ((i + align) % g.height), none)
  | MR => (none, some ((i + align) % g.width))
  | VC => (some ((i + align) % (g.height * g.width) % g.height),
      some ((i + align) % (g.height * g.width) / g.height))
  | VR => (some ((i + align) % (g.height * g.width) / g.width),
      some ((i + align) % (g.height * g.width) % g.width))
  | MD => (some ((i + align) % Nat.lcm g.height g.width % g.height),
      some ((i + align) % Nat.lcm g.height g.width % g.width))
  | STAR => (none, none)
  | CIRC => (some 0, some 0)

end Dist

/-- Modelled from the spec: the distribution pattern of a matrix, its column and row
distributions with their alignments. -/
structure Layout where
  colDist : Dist
  rowDist : Dist
  colAlign : Nat
  rowAlign : Nat
deriving DecidableEq, Repr

namespace Layout

/-- Modelled from the spec: the supported distribution pairs, those between which
`operator=` is declared in `star_md.hpp`. -/
def supported (L : Layout) : Bool :=
  match L.colDist, L.rowDist with
  | .MC, .MR | .MC, .STAR | .STAR, .MR | .MD, .STAR | .STAR, .MD | .MR, .MC | .MR, .STAR
  | .STAR, .MC | .VC, .STAR | .STAR, .VC | .VR, .STAR | .STAR, .VR | .STAR, .STAR
  | .CIRC, .CIRC => true
  | _, _ => false

/-- Modelled from the spec: whether the process `(p, q)` owns the entry `(i, j)`. -/
def owns (g : Grid) (L : Layout) (p q i j : Nat) : Bool :=
  decide (Dist.shift g L.colDist L.colAlign p q = some (i % Dist.stride g L.colDist) ∧
    Dist.shift g L.rowDist L.rowAlign p q = some (j % Dist.stride g L.rowDist))

/-- Modelled from the spec: a process that owns the entry `(i, j)`; where a
coordinate is left free by both distributions (a replicated dimension) it is 0. -/
def owner (g : Grid) (L : Layout) (i j : Nat) : Nat × Nat :=
  let a := Dist.ownerCoords g L.colDist L.colAlign i
  let b := Dist.ownerCoords g L.rowDist L.rowAlign j
  ((a.1.orElse (fun _ => b.1)).getD 0, (a.2.orElse (fun _ => b.2)).getD 0)

end Layout

/-- Modelled from the spec: the process that owns the diagonal entry `(k, k)` of a
matrix distributed `[MC,MR]` with zero alignments over the grid. -/
def diagonalOwner (g : Grid) (k : Nat) : Nat × Nat :=
  Layout.owner g ⟨.MC, .MR, 0, 0⟩ k k

/-- Modelled from the spec: a distributed matrix, logically `height x width`: every
process `(p, q)` stores its local slice, addressed by the local indices; the entry
`(i, j)` has the local indices `(i / colStride, j / rowStride)` on its owners. -/
structure DistMatrix (T : Type) where
  layout : Layout
  height : Nat
  width : Nat
  localEntry : Nat → Nat → Nat → Nat → T

namespace DistMatrix

variable {T : Type}

/-- Modelled from the spec: the logical entry `(i, j)`, read from the local slice of
the process `owner`. -/
def Get (g : Grid) (A : DistMatrix T) (i j : Nat) : T :=
  A.localEntry (A.layout.owner g i j).1 (A.layout.owner g i j).2
    (i / Dist.stride g A.layout.colDist) (j / Dist.stride g A.layout.rowDist)

/-- Modelled from the spec: the redistribution `B = A` into the distribution
pattern `L`: every process fills each of its local entries with the logical entry
of `A` it stands for (a process that holds no part of `B` keeps what it has). -/
def redistribute (g : Grid) (A : DistMatrix T) (L : Layout) : DistMatrix T :=
  { layout := L
    height := A.height
    width := A.width
    localEntry := fun p q iLoc jLoc =>
      match Dist.shift g L.colDist L.colAlign p q, Dist.shift g L.rowDist L.rowAlign p q with
      | some a, some b =>
        A.Get g (a + iLoc * Dist.stride g L.colDist) (b + jLoc * Dist.stride g L.rowDist)
      | _, _ => A.localEntry p q iLoc jLoc }

/-- The replicated copies of every entry agree: each process of the grid that owns
`(i, j)` holds the logical entry. -/
def Consistent (g : Grid) (A : DistMatrix T) : Prop :=
  ∀ p q i j, p < g.height → q < g.width → i < A.height → j < A.width →
    A.layout.owns g p q i j = true →
    A.localEntry p q (i / Dist.stride g A.layout.colDist) (j / Dist.stride g A.layout.rowDist)
      = A.Get g i j

end DistMatrix

/-- The `2 x 3` grid. -/
def exampleGrid : Grid := ⟨2, 3⟩

/-- A `4 x 4` matrix distributed `[MC,MR]` over the `2 x 3` grid, with the entry
`(i, j)` equal to `10 i + j`. -/
def exampleDistMatrix : DistMatrix Nat :=
  ⟨⟨.MC, .MR, 0, 0⟩, 4, 4, fun p q iLoc jLoc => 10 * (p + iLoc * 2) + (q + jLoc * 3)⟩

end Elemental

namespace Elemental

/-! ## The Householder QR factorization -/

section QR

open Matrix

variable {K : Type}

/-- Modelled from the spec: what `QR` and `qr::ApplyQ` use of the Householder
reflectors: `Col` computes `tau`, `beta` and `v` (with a fuel for its rescaling
loop), `H` is the reflector `I - tau [1; v] [1; v]'` and `Hadj` its adjoint. -/
structure ReflectorKit (K : Type) where
  Col : (n : Nat) → Nat → K → (Fin n → K) → Option (ColResult K n)
  H : (n : Nat) → K → (Fin n → K) → Matrix (Fin (n + 1)) (Fin (n + 1)) K
  Hadj : (n : Nat) → K → (Fin n → K) → Matrix (Fin (n + 1)) (Fin (n + 1)) K

/-- The vector `t` of Householder scalars with `tau` put in front. -/
def tCons (tau : K) (t : Nat → K) : Nat → K
  | 0 => tau
  | k + 1 => t k

/-- Modelled from the spec: `QR( A, t )` (the routine is not among the sources), the
Householder factorization: for the first column `reflector::Col` computes the
reflector from the diagonal entry and the entries below it, `beta` goes to the
diagonal and the Householder vector `v` is packed below it, `tau` goes to `t`, and
the adjoint of the reflector is applied to the remaining columns; the trailing
block is factored in the same way. The blocked update of the trailing columns by
the compact WY form applies the same reflectors. The result is the factored `A`
and `t`, `none` when the fuel of `Col` runs out. -/
def QR [CommRing K] (kit : ReflectorKit K) (fuel : Nat) :
    (m n : Nat) → Matrix (Fin m) (Fin n) K → Option (Matrix (Fin m) (Fin n) K × (Nat → K))
  | 0, _, A => some (A, fun _ => 0)
  | _ + 1, 0, A => some (A, fun _ => 0)
  | m + 1, n + 1, A =>
    match kit.Col m fuel (A 0 0) (fun i => A i.succ 0) with
    | none => none
    | some r =>
      let B := kit.Hadj m r.tau r.x * A
      match QR kit fuel m n (B.submatrix Fin.succ Fin.succ) with
      | none => none
      | some (A1, t1) =>
        some (vecCons (vecCons r.chi (fun j => B 0 j.succ)) (fun i => vecCons (r.x i) (A1 i)),
          tCons r.tau t1)

/-- Modelled from the spec: the product `Q y` of the implicitly stored unitary
factor `Q = H_0 H_1 ...` with a column `y`, the reflectors being read from the
factored `A` (the vectors packed below the diagonal) and from `t`. -/
def applyQVec [CommRing K] (kit : ReflectorKit K) :
    (m n : Nat) → Matrix (Fin m) (Fin n) K → (Nat → K) → (Fin m → K) → Fin m → K
  | 0, _, _, _, y => y
  | _ + 1, 0, _, _, y => y
  | m + 1, n + 1, A, t, y =>
    kit.H m (t 0) (fun i => A i.succ 0) *ᵥ
      vecCons (y 0)
        (applyQVec kit m n (A.submatrix Fin.succ Fin.succ) (fun k => t (k + 1))
          (fun i => y i.succ))

/-- Modelled from the spec: `qr::ApplyQ( LEFT, NORMAL, A, t, B )`, which overwrites
`B` with `Q B`, column by column. -/
def ApplyQ [CommRing K] (kit : ReflectorKit K) {m n c : Nat} (A : Matrix (Fin m) (Fin n) K)
    (t : Nat → K) (B : Matrix (Fin m) (Fin c) K) : Matrix (Fin m) (Fin c) K :=
  fun i j => applyQVec kit m n A t (fun i1 => B i1 j) i

/-- Modelled from the spec: `MakeTriangular( UPPER, A )` on a matrix indexed by
`Fin`: the entries strictly below the diagonal are zeroed. -/
def upperPart [Zero K] {m n : Nat} (A : Matrix (Fin m) (Fin n) K) : Matrix (Fin m) (Fin n) K :=
  fun i j => if (i : Nat) ≤ (j : Nat) then A i j else 0

/-- A kit of reflectors is sound when, from some fuel on, `Col` returns one and the
same reflector, whose adjoint maps `[chi; x]` to `[beta; 0]` and is its inverse. -/
def ReflectorKit.Sound [CommRing K] (kit : ReflectorKit K) : Prop :=
  ∀ (n : Nat) (chi : K) (x : Fin n → K), ∃ (r : ColResult K n) (N : Nat),
    (∀ fuel, N ≤ fuel → kit.Col n fuel chi x = some r) ∧
    kit.Hadj n r.tau r.x *ᵥ vecCons chi x = vecCons r.chi 0 ∧
    kit.H n r.tau r.x * kit.Hadj n r.tau r.x = 1

end QR

section Kits

open Matrix

variable {R : Type} [LinearOrderedField R]

/-- The reflectors of real data: `reflector::Col` and `H = I - tau [1; v] [1; v]^T`. -/
def realKit (sqrt : R → R) (safeMin epsilon : R) : ReflectorKit R :=
  ⟨fun _ fuel chi x => ColReal sqrt safeMin epsilon fuel chi x,
    fun _ tau v => reflectorReal tau v,
    fun _ tau v => (reflectorReal tau v)ᵀ⟩

/-- The reflectors of complex data. -/
def complexKit (sqrt : R → R) (safeMin epsilon : R) : ReflectorKit (Cplx R) :=
  ⟨fun _ fuel chi x => ColComplex sqrt safeMin epsilon fuel chi x,
    fun _ tau v => reflectorComplex tau v,
    fun _ tau v => (reflectorComplex tau v)ᴴ⟩

end Kits

end Elemental

namespace Elemental

/-! ## The work buffers during the sequential `LowerForwardMultiply` -/

section WorkBufferStates

variable {F : Type} [AddCommMonoid F]

/-- The work buffer of the front reached from a node through the child indices of a
path: `[]` is the node itself, `c :: p` the front reached through `p` from child `c`
(`0 x 0` when there is no such front). -/
def SeqNode.workAtPath : List Nat → SeqNode F → Mat F
  | [], n => n.work
  | c :: p, n =>
    match n.children[c]? with
    | some child => SeqNode.workAtPath p child
    | none => Mat.Empty

/-- The states of the loop over the children `c = 0, ..., numChildren-1` that updates
`W`, one after each iteration: `W` with the update rows of child `c` added, and the
children with the work buffers of the children up to `c` emptied. `done` are the
children already emptied, the third list the children from `c` on. -/
def updateStates (numRHS : Nat) :
    Mat F → List (SeqNode F) → List (SeqNode F) → List (List Nat) →
      List (Mat F × List (SeqNode F))
  | _, _, [], _ => []
  | W, done, child :: rest, relInds =>
    let W1 := childUpdate W numRHS child.work child.size (relInds.headD [])
    let done1 := done ++ [child.setWork Mat.Empty]
    (W1, done1 ++ rest) :: updateStates numRHS W1 done1 rest relInds.tail

mutual
/-- The successive states of the subtree of a node during
`LowerForwardMultiply( info, front, X )`, each with the path (from this node) of the
front on which the innermost call is running: the state at the entry of the call;
the states of the calls on the children, in their order; the state after
`W.Resize( front.L.Height(), numRHS )`, the copy of `X.matrix` and
`FrontLowerForwardMultiply( front, W )`; the state after the iteration of the update
loop on each child, which ends with `childW.Empty()`; and the state at the return.
Work buffers change their size at these states only. -/
def LowerForwardMultiplyStates (FLFM : Mat F → Mat F → Nat → Nat → F) :
    SeqNode F → List (List Nat × SeqNode F)
  | .mk size childRelInds L work X children =>
    let children1 := LowerForwardMultiplyChildren FLFM children
    let numRHS := X.width
    let height := L.height
    let sizeT := min size height
    let W0 : Mat F := ⟨height, numRHS, fun i j => if i < sizeT then X.entry i j else 0⟩
    let W1 : Mat F := { W0 with entry := FLFM L W0 }
    ([], .mk size childRelInds L work X children) ::
      ((LowerForwardMultiplyChildrenStates FLFM [] children).map
          (fun s => (s.1, .mk size childRelInds L work X s.2))
        ++ ([], .mk size childRelInds L W1 X children1) ::
          ((updateStates numRHS W1 [] children1 childRelInds).map
              (fun s => ([], .mk size childRelInds L s.1 X s.2))
            ++ [([], LowerForwardMultiply FLFM (.mk size childRelInds L work X children))]))
/-- The states of the children of a node during the loop of recursive calls
`LowerForwardMultiply( *info.children[c], ... )`: `done` are the children whose call
has returned, the second list the children from `c` on; the path of the running
call starts with the index `c` of the child. -/
def LowerForwardMultiplyChildrenStates (FLFM : Mat F → Mat F → Nat → Nat → F) :
    List (SeqNode F) → List (SeqNode F) → List (List Nat × List (SeqNode F))
  | _, [] => []
  | done, child :: rest =>
    (LowerForwardMultiplyStates FLFM child).map
        (fun s => (done.length :: s.1, done ++ s.2 :: rest))
      ++ LowerForwardMultiplyChildrenStates FLFM (done ++ [LowerForwardMultiply FLFM child]) rest
end

/-- The tree at the moment the update loop of the call on a node has made `k`
iterations (for `k = 0`: the calls on all children have returned, `W` has been set
up and multiplied by the front, and nothing of a child has been consumed): `W` holds
the update rows of the children before `k`, whose work buffers have been emptied. -/
def afterUpdates (FLFM : Mat F → Mat F → Nat → Nat → F) : SeqNode F → Nat → SeqNode F
  | .mk size childRelInds L _ X children, k =>
    let children1 := LowerForwardMultiplyChildren FLFM children
    let numRHS := X.width
    let height := L.height
    let sizeT := min size height
    let W0 : Mat F := ⟨height, numRHS, fun i j => if i < sizeT then X.entry i j else 0⟩
    let W1 : Mat F := { W0 with entry := FLFM L W0 }
    .mk size childRelInds L (updateFromChildren W1 numRHS (children1.take k) childRelInds).1 X
      ((children1.take k).map (fun c => c.setWork Mat.Empty) ++ children1.drop k)

end WorkBufferStates

end Elemental

namespace Elemental

section Rank1

open Matrix

variable {K : Type} [CommRing K] {m : Type} [Fintype m] [DecidableEq m]

theorem vecMulVec_mulVec_eq (u w y : m → K) :
    (vecMulVec u w) *ᵥ y = (w ⬝ᵥ y) • u := by
  funext i
  simp only [mulVec, dotProduct, vecMulVec_apply, Pi.smul_apply, smul_eq_mul, Finset.sum_mul]
  refine Finset.sum_congr rfl (fun k _ => ?_)
  ring

theorem vecMulVec_mul_self (u w : m → K) :
    vecMulVec u w * vecMulVec u w = (w ⬝ᵥ u) • vecMulVec u w := by
  ext i j
  simp only [mul_apply, vecMulVec_apply, dotProduct, smul_apply, smul_eq_mul, Finset.sum_mul]
  refine Finset.sum_congr rfl (fun k _ => ?_)
  ring

/-- Applying `I - tau u w'` to a vector. -/
theorem rank1_mulVec (tau : K) (u w y : m → K) :
    (1 - tau • vecMulVec u w) *ᵥ y = y - (tau * (w ⬝ᵥ y)) • u := by
  rw [sub_mulVec, one_mulVec, smul_mulVec_assoc, vecMulVec_mulVec_eq, smul_smul]

/-- The product of `I - sigma u w'` and `I - tau u w'`. -/
theorem rank1_mul (sigma tau : K) (u w : m → K) :
    (1 - sigma • vecMulVec u w) * (1 - tau • vecMulVec u w)
      = 1 - (sigma + tau - sigma * tau * (w ⬝ᵥ u)) • vecMulVec u w := by
  rw [sub_mul, mul_sub, mul_sub, one_mul, mul_one, one_mul, smul_mul_smul_comm,
    vecMulVec_mul_self, smul_smul]
  rw [sub_smul, add_smul]
  abel

theorem rank1_transpose (tau : K) (u : m → K) :
    (1 - tau • vecMulVec u u)ᵀ = 1 - tau • vecMulVec u u := by
  ext i j
  simp only [transpose_apply, sub_apply, smul_apply, vecMulVec_apply, smul_eq_mul, one_apply]
  rw [mul_comm (u j) (u i)]
  simp only [eq_comm]

theorem rank1_conjTranspose [StarRing K] (tau : K) (u : m → K) :
    (1 - tau • vecMulVec u (star u))ᴴ = 1 - star tau • vecMulVec u (star u) := by
  ext i j
  simp only [conjTranspose_apply, sub_apply, smul_apply, vecMulVec_apply, smul_eq_mul,
    one_apply, star_sub, star_mul', Pi.star_apply, star_star]
  rw [mul_comm (star (u j)) (u i)]
  by_cases h : i = j
  · subst h; simp
  · simp [h, Ne.symm h]

end Rank1

end Elemental

namespace Elemental

section ReflectorProofs

variable {R : Type} [LinearOrderedField R] {n : Nat}

theorem sumsq_nonneg (x : Fin n → R) : 0 ≤ ∑ i, x i * x i :=
  Finset.sum_nonneg (fun i _ => mul_self_nonneg (x i))

theorem sumsq_eq_zero_iff (x : Fin n → R) : (∑ i, x i * x i) = 0 ↔ x = 0 := by
  rw [Finset.sum_eq_zero_iff_of_nonneg (fun i _ => mul_self_nonneg (x i))]
  constructor
  · intro h
    funext i
    exact mul_self_eq_zero.mp (h i (Finset.mem_univ i))
  · intro h i _
    simp [h]

theorem IsSqrt.eq_zero_iff {sqrt : R → R} (hs : IsSqrt sqrt) {a : R} (ha : 0 ≤ a) :
    sqrt a = 0 ↔ a = 0 := by
  constructor
  · intro h
    have := (hs a ha).2
    rw [h] at this
    simpa using this.symm
  · intro h
    have := (hs a ha).2
    rw [h] at this
    subst h
    exact mul_self_eq_zero.mp this

theorem IsSqrt.mul_sq {sqrt : R → R} (hs : IsSqrt sqrt) {a t : R} (ha : 0 ≤ a) (ht : 0 ≤ t) :
    sqrt (t * t * a) = t * sqrt a := by
  have h1 := hs a ha
  have h2 := hs (t * t * a) (mul_nonneg (mul_self_nonneg t) ha)
  have h3 : 0 ≤ t * sqrt a := mul_nonneg ht h1.1
  have h4 : sqrt (t * t * a) * sqrt (t * t * a) = (t * sqrt a) * (t * sqrt a) := by
    rw [h2.2]
    calc t * t * a = t * t * (sqrt a * sqrt a) := by rw [h1.2]
      _ = _ := by ring
  exact (mul_self_inj h2.1 h3).mp h4

theorem Nrm2_eq_zero_iff {sqrt : R → R} (hs : IsSqrt sqrt) (x : Fin n → R) :
    Nrm2 sqrt x = 0 ↔ x = 0 := by
  unfold Nrm2
  rw [hs.eq_zero_iff (sumsq_nonneg x), sumsq_eq_zero_iff]

theorem scaleBack_eq (safeInv : R) (count : Nat) (beta : R) :
    scaleBack safeInv count beta = beta * safeInv ^ count := by
  induction count generalizing beta with
  | zero => simp [scaleBack]
  | succ k ih => rw [scaleBack, ih, pow_succ]; ring

/-- The rescaling loop of the real `Col` stops as soon as the scaled `beta` reaches
`safeInv`; it then has multiplied `x`, `alpha` and `beta` by `s ^ c`. -/
theorem rescaleLoop_spec (s safeInv : R) (k : Nat) :
    ∀ (count : Nat) (x : Fin n → R) (alpha beta : R),
      safeInv ≤ |beta * s ^ (k + 1)| →
      ∀ fuel, k + 1 ≤ fuel →
      ∃ c, 1 ≤ c ∧
        rescaleLoop s safeInv fuel count x alpha beta
          = some (count + c, Scale (s ^ c) x, alpha * s ^ c, beta * s ^ c) ∧
        safeInv ≤ |beta * s ^ c| := by
  induction k with
  | zero =>
    intro count x alpha beta h fuel hf
    obtain ⟨f, rfl⟩ : ∃ f, fuel = f + 1 := ⟨fuel - 1, by omega⟩
    refine ⟨1, le_refl _, ?_, by simpa using h⟩
    simp only [zero_add, pow_one] at h
    simp only [rescaleLoop, pow_one, not_lt.mpr h, if_false]
  | succ k ih =>
    intro count x alpha beta h fuel hf
    obtain ⟨f, rfl⟩ : ∃ f, fuel = f + 1 := ⟨fuel - 1, by omega⟩
    by_cases hb : |beta * s| < safeInv
    · have h' : safeInv ≤ |beta * s * s ^ (k + 1)| := by
        have : beta * s * s ^ (k + 1) = beta * s ^ (k + 1 + 1) := by ring
        rw [this]; exact h
      obtain ⟨c, hc1, hc2, hc3⟩ := ih (count + 1) (Scale s x) (alpha * s) (beta * s) h' f (by omega)
      refine ⟨c + 1, by omega, ?_, ?_⟩
      · simp only [rescaleLoop, hb, if_true]
        rw [hc2]
        have e1 : Scale (s ^ c) (Scale s x) = Scale (s ^ (c + 1)) x := by
          funext i; simp only [Scale]; ring
        rw [e1]
        congr 2
        · ring
        · congr 1
          congr 1 <;> ring
      · have : beta * s ^ (c + 1) = beta * s * s ^ c := by ring
        rw [this]; exact hc3
    · refine ⟨1, le_refl _, ?_, by simpa using not_lt.mp hb⟩
      simp only [rescaleLoop, hb, if_false, pow_one]

/-- In an Archimedean field, repeated multiplication by `s > 1` brings any nonzero
`beta` above `safeInv`. -/
theorem exists_pow_ge [Archimedean R] {s : R} (hs : 1 < s) (safeInv : R) {beta : R}
    (hb : beta ≠ 0) : ∃ k : Nat, safeInv ≤ |beta * s ^ (k + 1)| := by
  have hpos : 0 < |beta| := abs_pos.mpr hb
  obtain ⟨k, hk⟩ := pow_unbounded_of_one_lt (safeInv / |beta|) hs
  refine ⟨k, ?_⟩
  rw [abs_mul, abs_pow, abs_of_pos (lt_trans zero_lt_one hs)]
  have h1 : s ^ k ≤ s ^ (k + 1) := pow_le_pow_right₀ hs.le (Nat.le_succ k)
  have h2 : safeInv / |beta| < s ^ (k + 1) := lt_of_lt_of_le hk h1
  rw [div_lt_iff₀ hpos] at h2
  linarith


theorem SafeNorm_Nrm2 {sqrt : R → R} (hs : IsSqrt sqrt) (alpha : R) (x : Fin n → R) :
    0 ≤ SafeNorm sqrt alpha (Nrm2 sqrt x) ∧
    SafeNorm sqrt alpha (Nrm2 sqrt x) * SafeNorm sqrt alpha (Nrm2 sqrt x)
      = alpha * alpha + ∑ i, x i * x i := by
  have h1 := hs _ (sumsq_nonneg x)
  have h2 := hs (alpha * alpha + Nrm2 sqrt x * Nrm2 sqrt x)
    (add_nonneg (mul_self_nonneg _) (mul_self_nonneg _))
  refine ⟨h2.1, ?_⟩
  unfold SafeNorm
  rw [h2.2]
  unfold Nrm2
  rw [h1.2]

theorem signedNorm_mul_self {sqrt : R → R} (hs : IsSqrt sqrt) (alpha : R) (x : Fin n → R) :
    signedNorm sqrt alpha x * signedNorm sqrt alpha x = alpha * alpha + ∑ i, x i * x i := by
  unfold signedNorm
  split_ifs
  · exact (SafeNorm_Nrm2 hs alpha x).2
  · rw [neg_mul_neg]; exact (SafeNorm_Nrm2 hs alpha x).2

theorem SafeNorm_Nrm2_pos {sqrt : R → R} (hs : IsSqrt sqrt) (alpha : R) {x : Fin n → R}
    (hx : x ≠ 0) : 0 < SafeNorm sqrt alpha (Nrm2 sqrt x) := by
  have h := SafeNorm_Nrm2 hs alpha x
  rcases h.1.lt_or_eq with h1 | h1
  · exact h1
  · exfalso
    have h2 := h.2
    rw [← h1] at h2
    have h3 : (∑ i, x i * x i) = 0 := by
      have := sumsq_nonneg x
      nlinarith [mul_self_nonneg alpha]
    exact hx ((sumsq_eq_zero_iff x).mp h3)

theorem signedNorm_ne_zero {sqrt : R → R} (hs : IsSqrt sqrt) (alpha : R) {x : Fin n → R}
    (hx : x ≠ 0) : signedNorm sqrt alpha x ≠ 0 := by
  have := SafeNorm_Nrm2_pos hs alpha hx
  unfold signedNorm
  split_ifs
  · exact this.ne'
  · exact neg_ne_zero.mpr this.ne'

theorem sub_signedNorm_ne_zero {sqrt : R → R} (hs : IsSqrt sqrt) (alpha : R) {x : Fin n → R}
    (hx : x ≠ 0) : alpha - signedNorm sqrt alpha x ≠ 0 := by
  have := SafeNorm_Nrm2_pos hs alpha hx
  unfold signedNorm
  split_ifs with h
  · intro h'; linarith
  · intro h'; push_neg at h; linarith

theorem signedNorm_scale {sqrt : R → R} (hs : IsSqrt sqrt) (alpha : R) (x : Fin n → R)
    {t : R} (ht : 0 < t) :
    signedNorm sqrt (alpha * t) (Scale t x) = signedNorm sqrt alpha x * t := by
  have key : SafeNorm sqrt (alpha * t) (Nrm2 sqrt (Scale t x))
      = SafeNorm sqrt alpha (Nrm2 sqrt x) * t := by
    have h1 := SafeNorm_Nrm2 hs (alpha * t) (Scale t x)
    have h2 := SafeNorm_Nrm2 hs alpha x
    have h3 : 0 ≤ SafeNorm sqrt alpha (Nrm2 sqrt x) * t := mul_nonneg h2.1 ht.le
    refine (mul_self_inj h1.1 h3).mp ?_
    rw [h1.2]
    have : (∑ i, Scale t x i * Scale t x i) = t * t * ∑ i, x i * x i := by
      rw [Finset.mul_sum]
      refine Finset.sum_congr rfl (fun i _ => ?_)
      simp only [Scale]; ring
    rw [this]
    calc alpha * t * (alpha * t) + t * t * ∑ i, x i * x i
        = t * t * (alpha * alpha + ∑ i, x i * x i) := by ring
      _ = t * t * (SafeNorm sqrt alpha (Nrm2 sqrt x) * SafeNorm sqrt alpha (Nrm2 sqrt x)) := by
          rw [h2.2]
      _ = _ := by ring
  unfold signedNorm
  have hiff : alpha * t ≤ 0 ↔ alpha ≤ 0 := by
    constructor
    · intro h
      by_contra h'
      push_neg at h'
      have := mul_pos h' ht
      linarith
    · intro h
      exact mul_nonpos_of_nonpos_of_nonneg h ht.le
  by_cases h : alpha ≤ 0
  · rw [if_pos h, if_pos (hiff.mpr h), key]
  · rw [if_neg h, if_neg (fun h' => h (hiff.mp h')), key, neg_mul]

/-- Closed form of the real `Col` away from the special case: whether or not the
rescaling loop runs, the outcome is `tau = (beta - chi)/beta`, `v = x/(chi - beta)`
with `beta` the signed norm of `[chi; x]`. -/
theorem ColReal_eq [Archimedean R] {sqrt : R → R} (hs : IsSqrt sqrt) {safeMin epsilon : R}
    (h0 : 0 < safeMin) (h1 : safeMin < epsilon) (chi : R) {x : Fin n → R} (hx : x ≠ 0) :
    ∃ N, ∀ fuel, N ≤ fuel →
      ColReal sqrt safeMin epsilon fuel chi x
        = some ⟨(signedNorm sqrt chi x - chi) / signedNorm sqrt chi x, signedNorm sqrt chi x,
            Scale (1 / (chi - signedNorm sqrt chi x)) x⟩ := by
  have heps : 0 < epsilon := lt_trans h0 h1
  have hsafe : 0 < safeMin / epsilon := div_pos h0 heps
  have hsafe1 : safeMin / epsilon < 1 := (div_lt_one heps).mpr h1
  have hinv : 1 < 1 / (safeMin / epsilon) := by
    rw [lt_div_iff₀ hsafe]; simpa using hsafe1
  have hb := signedNorm_ne_zero hs chi hx
  have hn : Nrm2 sqrt x ≠ 0 := fun h => hx ((Nrm2_eq_zero_iff hs x).mp h)
  obtain ⟨k, hk⟩ := exists_pow_ge hinv (safeMin / epsilon) hb
  refine ⟨k + 1, fun fuel hf => ?_⟩
  obtain ⟨c, _, hc, _⟩ := rescaleLoop_spec (1 / (safeMin / epsilon)) (safeMin / epsilon) k 0 x chi
    (signedNorm sqrt chi x) hk fuel hf
  have hfold : (if chi ≤ 0 then SafeNorm sqrt chi (Nrm2 sqrt x)
      else -SafeNorm sqrt chi (Nrm2 sqrt x)) = signedNorm sqrt chi x := rfl
  unfold ColReal
  simp only [if_neg hn, hfold]
  by_cases hlt : |signedNorm sqrt chi x| < safeMin / epsilon
  · rw [if_pos hlt, hc]
    simp only
    have ht : 0 < (1 / (safeMin / epsilon)) ^ c := pow_pos (lt_trans zero_lt_one hinv) c
    have hfold2 : (if chi * (1 / (safeMin / epsilon)) ^ c ≤ 0
        then SafeNorm sqrt (chi * (1 / (safeMin / epsilon)) ^ c)
          (Nrm2 sqrt (Scale ((1 / (safeMin / epsilon)) ^ c) x))
        else -SafeNorm sqrt (chi * (1 / (safeMin / epsilon)) ^ c)
          (Nrm2 sqrt (Scale ((1 / (safeMin / epsilon)) ^ c) x)))
        = signedNorm sqrt (chi * (1 / (safeMin / epsilon)) ^ c)
            (Scale ((1 / (safeMin / epsilon)) ^ c) x) := rfl
    rw [hfold2, signedNorm_scale hs chi x ht, scaleBack_eq]
    have hd := sub_signedNorm_ne_zero hs chi hx
    have hts : (1 / (safeMin / epsilon)) ^ c * (safeMin / epsilon) ^ (0 + c) = 1 := by
      rw [zero_add, ← mul_pow]
      have : 1 / (safeMin / epsilon) * (safeMin / epsilon) = 1 := by
        field_simp
      rw [this, one_pow]
    generalize (1 / (safeMin / epsilon)) ^ c = t at ht hts
    generalize signedNorm sqrt chi x = b at hb hd
    congr 2
    · rw [← sub_mul, mul_div_mul_right _ _ ht.ne']
    · rw [mul_assoc, hts, mul_one]
    · funext i
      simp only [Scale]
      have hd2 : chi * t - b * t ≠ 0 := by
        rw [← sub_mul]; exact mul_ne_zero hd ht.ne'
      field_simp
      ring
  · rw [if_neg hlt]
    simp only [scaleBack]

end ReflectorProofs
end Elemental

namespace Elemental

section ReflectorReal

open Matrix

variable {R : Type} [LinearOrderedField R] {n : Nat}

theorem ColReal_zero (sqrt : R → R) (hs : IsSqrt sqrt) (safeMin epsilon : R) (fuel : Nat)
    (chi : R) : ColReal sqrt safeMin epsilon fuel chi (0 : Fin n → R) = some ⟨2, -chi, 0⟩ := by
  unfold ColReal
  simp only [(Nrm2_eq_zero_iff hs (0 : Fin n → R)).mpr rfl, if_true]

theorem cons_one_dot_cons (v x : Fin n → R) (chi : R) :
    vecCons 1 v ⬝ᵥ vecCons chi x = chi + v ⬝ᵥ x := by
  rw [cons_dotProduct_cons, one_mul]

theorem Scale_dot (a : R) (x y : Fin n → R) : Scale a x ⬝ᵥ y = a * (x ⬝ᵥ y) := by
  simp only [dotProduct, Scale, Finset.mul_sum, mul_assoc]

/-- Algebra of the real reflector: with `beta^2 = alpha^2 + |x|^2`, `beta ≠ 0` and
`alpha ≠ beta`, the reflector built from `tau = (beta-alpha)/beta` and
`v = x/(alpha-beta)` maps `[alpha; x]` to `[beta; 0]`. -/
theorem reflectorReal_apply {alpha beta : R} {x : Fin n → R}
    (hb : beta * beta = alpha * alpha + ∑ i, x i * x i) (hb0 : beta ≠ 0)
    (hd : alpha - beta ≠ 0) :
    (reflectorReal ((beta - alpha) / beta) (Scale (1 / (alpha - beta)) x))ᵀ *ᵥ vecCons alpha x
      = vecCons beta 0 := by
  unfold reflectorReal
  rw [rank1_transpose, rank1_mulVec, cons_one_dot_cons, Scale_dot]
  have hS : x ⬝ᵥ x = beta * beta - alpha * alpha := by
    simp only [dotProduct]; rw [hb]; ring
  rw [hS]
  have hc : (beta - alpha) / beta * (alpha + 1 / (alpha - beta) * (beta * beta - alpha * alpha))
      = alpha - beta := by
    field_simp
    ring
  rw [hc]
  funext i
  refine Fin.cases ?_ (fun j => ?_) i
  · simp
  · simp only [Pi.sub_apply, cons_val_succ, Pi.smul_apply, smul_eq_mul, Scale, Pi.zero_apply]
    field_simp

/-- Algebra of the real reflector: under the same hypotheses it is an involution. -/
theorem reflectorReal_mul_self {alpha beta : R} {x : Fin n → R}
    (hb : beta * beta = alpha * alpha + ∑ i, x i * x i) (hb0 : beta ≠ 0)
    (hd : alpha - beta ≠ 0) :
    reflectorReal ((beta - alpha) / beta) (Scale (1 / (alpha - beta)) x)
      * reflectorReal ((beta - alpha) / beta) (Scale (1 / (alpha - beta)) x) = 1 := by
  unfold reflectorReal
  rw [rank1_mul, cons_dotProduct_cons, Scale_dot]
  have hS : x ⬝ᵥ Scale (1 / (alpha - beta)) x
      = 1 / (alpha - beta) * (beta * beta - alpha * alpha) := by
    rw [dotProduct_comm, Scale_dot]
    simp only [dotProduct]; rw [hb]; ring
  rw [hS]
  have hc : (beta - alpha) / beta + (beta - alpha) / beta
      - (beta - alpha) / beta * ((beta - alpha) / beta)
        * (1 * 1 + 1 / (alpha - beta) * (1 / (alpha - beta) * (beta * beta - alpha * alpha)))
      = 0 := by
    field_simp
    ring
  rw [hc, zero_smul, sub_zero]

/-- The reflector with `tau = 2`, `v = 0` negates the first entry. -/
theorem reflectorReal_two_zero_apply (chi : R) :
    (reflectorReal (2 : R) (0 : Fin n → R))ᵀ *ᵥ vecCons chi 0 = vecCons (-chi) 0 := by
  unfold reflectorReal
  rw [rank1_transpose, rank1_mulVec, cons_one_dot_cons]
  funext i
  refine Fin.cases ?_ (fun j => ?_) i
  · simp; ring
  · simp

theorem reflectorReal_two_zero_mul_self :
    reflectorReal (2 : R) (0 : Fin n → R) * reflectorReal (2 : R) (0 : Fin n → R) = 1 := by
  unfold reflectorReal
  rw [rank1_mul, cons_dotProduct_cons]
  have hc : (2 : R) + 2 - 2 * 2 * (1 * 1 + (0 : Fin n → R) ⬝ᵥ 0) = 0 := by
    simp; norm_num
  rw [hc, zero_smul, sub_zero]

end ReflectorReal
end Elemental

namespace Elemental

namespace Cplx

variable {R : Type}

@[simp] theorem add_re [CommRing R] (a b : Cplx R) : (a + b).re = a.re + b.re := rfl
@[simp] theorem add_im [CommRing R] (a b : Cplx R) : (a + b).im = a.im + b.im := rfl
@[simp] theorem neg_re [CommRing R] (a : Cplx R) : (-a).re = -a.re := rfl
@[simp] theorem neg_im [CommRing R] (a : Cplx R) : (-a).im = -a.im := rfl
@[simp] theorem sub_re [CommRing R] (a b : Cplx R) : (a - b).re = a.re - b.re := by
  rw [sub_eq_add_neg, add_re, neg_re, sub_eq_add_neg]
@[simp] theorem sub_im [CommRing R] (a b : Cplx R) : (a - b).im = a.im - b.im := by
  rw [sub_eq_add_neg, add_im, neg_im, sub_eq_add_neg]
@[simp] theorem mul_re [CommRing R] (a b : Cplx R) : (a * b).re = a.re * b.re - a.im * b.im := rfl
@[simp] theorem mul_im [CommRing R] (a b : Cplx R) : (a * b).im = a.re * b.im + a.im * b.re := rfl
@[simp] theorem zero_re [CommRing R] : (0 : Cplx R).re = 0 := rfl
@[simp] theorem zero_im [CommRing R] : (0 : Cplx R).im = 0 := rfl
@[simp] theorem one_re [CommRing R] : (1 : Cplx R).re = 1 := rfl
@[simp] theorem one_im [CommRing R] : (1 : Cplx R).im = 0 := rfl
@[simp] theorem star_re [CommRing R] (a : Cplx R) : (star a).re = a.re := rfl
@[simp] theorem star_im [CommRing R] (a : Cplx R) : (star a).im = -a.im := rfl
@[simp] theorem ofReal_re [CommRing R] (a : R) : (ofReal a).re = a := rfl
@[simp] theorem ofReal_im [CommRing R] (a : R) : (ofReal a).im = 0 := rfl
@[simp] theorem mulReal_re [CommRing R] (a : Cplx R) (s : R) : (a.mulReal s).re = a.re * s := rfl
@[simp] theorem mulReal_im [CommRing R] (a : Cplx R) (s : R) : (a.mulReal s).im = a.im * s := rfl
@[simp] theorem subReal_re [CommRing R] (a : Cplx R) (s : R) : (a.subReal s).re = a.re - s := rfl
@[simp] theorem subReal_im [CommRing R] (a : Cplx R) (s : R) : (a.subReal s).im = a.im := rfl
@[simp] theorem realDiv_re [Field R] (a : R) (z : Cplx R) :
    (realDiv a z).re = a * z.re / (z.re * z.re + z.im * z.im) := rfl
@[simp] theorem realDiv_im [Field R] (a : R) (z : Cplx R) :
    (realDiv a z).im = -(a * z.im) / (z.re * z.re + z.im * z.im) := rfl

theorem sum_re [CommRing R] {ι : Type} (s : Finset ι) (f : ι → Cplx R) :
    (∑ i in s, f i).re = ∑ i in s, (f i).re := by
  classical
  induction s using Finset.induction_on with
  | empty => simp
  | insert h ih => rw [Finset.sum_insert h, Finset.sum_insert h, add_re, ih]

theorem sum_im [CommRing R] {ι : Type} (s : Finset ι) (f : ι → Cplx R) :
    (∑ i in s, f i).im = ∑ i in s, (f i).im := by
  classical
  induction s using Finset.induction_on with
  | empty => simp
  | insert h ih => rw [Finset.sum_insert h, Finset.sum_insert h, add_im, ih]

end Cplx

section ReflectorComplex

variable {R : Type} [LinearOrderedField R] {n : Nat}

theorem normSqC_nonneg (x : Fin n → Cplx R) : 0 ≤ normSqC x :=
  Finset.sum_nonneg (fun i _ => add_nonneg (mul_self_nonneg _) (mul_self_nonneg _))

theorem normSqC_eq_zero_iff (x : Fin n → Cplx R) : normSqC x = 0 ↔ x = 0 := by
  unfold normSqC
  rw [Finset.sum_eq_zero_iff_of_nonneg
    (fun i _ => add_nonneg (mul_self_nonneg _) (mul_self_nonneg _))]
  constructor
  · intro h
    funext i
    have hi := h i (Finset.mem_univ i)
    have h1 : (x i).re * (x i).re = 0 := by
      nlinarith [mul_self_nonneg (x i).re, mul_self_nonneg (x i).im]
    have h2 : (x i).im * (x i).im = 0 := by
      nlinarith [mul_self_nonneg (x i).re, mul_self_nonneg (x i).im]
    exact Cplx.ext (mul_self_eq_zero.mp h1) (mul_self_eq_zero.mp h2)
  · intro h i _
    simp [h]

theorem Nrm2C_eq_zero_iff {sqrt : R → R} (hs : IsSqrt sqrt) (x : Fin n → Cplx R) :
    Nrm2C sqrt x = 0 ↔ x = 0 := by
  have : Nrm2C sqrt x = sqrt (normSqC x) := rfl
  rw [this, hs.eq_zero_iff (normSqC_nonneg x), normSqC_eq_zero_iff]

theorem SafeNorm3_Nrm2C {sqrt : R → R} (hs : IsSqrt sqrt) (alpha : Cplx R)
    (x : Fin n → Cplx R) :
    0 ≤ SafeNorm3 sqrt alpha.re alpha.im (Nrm2C sqrt x) ∧
    SafeNorm3 sqrt alpha.re alpha.im (Nrm2C sqrt x)
        * SafeNorm3 sqrt alpha.re alpha.im (Nrm2C sqrt x)
      = alpha.re * alpha.re + alpha.im * alpha.im + normSqC x := by
  have h1 := hs _ (normSqC_nonneg x)
  have h2 := hs (alpha.re * alpha.re + alpha.im * alpha.im + Nrm2C sqrt x * Nrm2C sqrt x)
    (add_nonneg (add_nonneg (mul_self_nonneg _) (mul_self_nonneg _)) (mul_self_nonneg _))
  refine ⟨h2.1, ?_⟩
  unfold SafeNorm3
  rw [h2.2]
  have : Nrm2C sqrt x = sqrt (normSqC x) := rfl
  rw [this, h1.2]

theorem signedNormC_mul_self {sqrt : R → R} (hs : IsSqrt sqrt) (alpha : Cplx R)
    (x : Fin n → Cplx R) :
    signedNormC sqrt alpha x * signedNormC sqrt alpha x
      = alpha.re * alpha.re + alpha.im * alpha.im + normSqC x := by
  unfold signedNormC
  split_ifs
  · exact (SafeNorm3_Nrm2C hs alpha x).2
  · rw [neg_mul_neg]; exact (SafeNorm3_Nrm2C hs alpha x).2

theorem SafeNorm3_Nrm2C_pos {sqrt : R → R} (hs : IsSqrt sqrt) {alpha : Cplx R}
    {x : Fin n → Cplx R} (hx : x ≠ 0 ∨ alpha.im ≠ 0) :
    0 < SafeNorm3 sqrt alpha.re alpha.im (Nrm2C sqrt x) := by
  have h := SafeNorm3_Nrm2C hs alpha x
  rcases h.1.lt_or_eq with h1 | h1
  · exact h1
  · exfalso
    have h2 := h.2
    rw [← h1] at h2
    have hn := normSqC_nonneg x
    rcases hx with hx | hx
    · have h3 : normSqC x = 0 := by
        nlinarith [mul_self_nonneg alpha.re, mul_self_nonneg alpha.im]
      exact hx ((normSqC_eq_zero_iff x).mp h3)
    · have h3 : alpha.im * alpha.im = 0 := by
        nlinarith [mul_self_nonneg alpha.re, mul_self_nonneg alpha.im]
      exact hx (mul_self_eq_zero.mp h3)

theorem signedNormC_ne_zero {sqrt : R → R} (hs : IsSqrt sqrt) {alpha : Cplx R}
    {x : Fin n → Cplx R} (hx : x ≠ 0 ∨ alpha.im ≠ 0) : signedNormC sqrt alpha x ≠ 0 := by
  have := SafeNorm3_Nrm2C_pos hs hx
  unfold signedNormC
  split_ifs
  · exact this.ne'
  · exact neg_ne_zero.mpr this.ne'

/-- The squared modulus of `alpha - beta` is nonzero away from the special case. -/
theorem subReal_signedNormC_ne_zero {sqrt : R → R} (hs : IsSqrt sqrt) {alpha : Cplx R}
    {x : Fin n → Cplx R} (hx : x ≠ 0 ∨ alpha.im ≠ 0) :
    (alpha.re - signedNormC sqrt alpha x) * (alpha.re - signedNormC sqrt alpha x)
      + alpha.im * alpha.im ≠ 0 := by
  have hpos := SafeNorm3_Nrm2C_pos hs hx
  have hre : alpha.re - signedNormC sqrt alpha x ≠ 0 := by
    unfold signedNormC
    split_ifs with h
    · intro h'; linarith
    · intro h'; push_neg at h; linarith
  have : 0 < (alpha.re - signedNormC sqrt alpha x) * (alpha.re - signedNormC sqrt alpha x) :=
    mul_self_pos.mpr hre
  have := mul_self_nonneg alpha.im
  intro h
  linarith

theorem signedNormC_scale {sqrt : R → R} (hs : IsSqrt sqrt) (alpha : Cplx R)
    (x : Fin n → Cplx R) {t : R} (ht : 0 < t) :
    signedNormC sqrt (alpha.mulReal t) (ScaleC (Cplx.ofReal t) x)
      = signedNormC sqrt alpha x * t := by
  have key : SafeNorm3 sqrt (alpha.mulReal t).re (alpha.mulReal t).im
        (Nrm2C sqrt (ScaleC (Cplx.ofReal t) x))
      = SafeNorm3 sqrt alpha.re alpha.im (Nrm2C sqrt x) * t := by
    have h1 := SafeNorm3_Nrm2C hs (alpha.mulReal t) (ScaleC (Cplx.ofReal t) x)
    have h2 := SafeNorm3_Nrm2C hs alpha x
    have h3 : 0 ≤ SafeNorm3 sqrt alpha.re alpha.im (Nrm2C sqrt x) * t := mul_nonneg h2.1 ht.le
    refine (mul_self_inj h1.1 h3).mp ?_
    rw [h1.2]
    have : normSqC (ScaleC (Cplx.ofReal t) x) = t * t * normSqC x := by
      unfold normSqC
      rw [Finset.mul_sum]
      refine Finset.sum_congr rfl (fun i _ => ?_)
      simp only [ScaleC, Cplx.mul_re, Cplx.mul_im, Cplx.ofReal_re, Cplx.ofReal_im]; ring
    rw [this]
    simp only [Cplx.mulReal_re, Cplx.mulReal_im]
    calc alpha.re * t * (alpha.re * t) + alpha.im * t * (alpha.im * t) + t * t * normSqC x
        = t * t * (alpha.re * alpha.re + alpha.im * alpha.im + normSqC x) := by ring
      _ = t * t * (SafeNorm3 sqrt alpha.re alpha.im (Nrm2C sqrt x)
            * SafeNorm3 sqrt alpha.re alpha.im (Nrm2C sqrt x)) := by rw [h2.2]
      _ = _ := by ring
  unfold signedNormC
  have hiff : (alpha.mulReal t).re ≤ 0 ↔ alpha.re ≤ 0 := by
    simp only [Cplx.mulReal_re]
    constructor
    · intro h
      by_contra h'
      push_neg at h'
      have := mul_pos h' ht
      linarith
    · intro h
      exact mul_nonpos_of_nonpos_of_nonneg h ht.le
  by_cases h : alpha.re ≤ 0
  · rw [if_pos h, if_pos (hiff.mpr h), key]
  · rw [if_neg h, if_neg (fun h' => h (hiff.mp h')), key, neg_mul]

/-- The rescaling loop of the complex `Col`. -/
theorem rescaleLoopC_spec (s safeInv : R) (k : Nat) :
    ∀ (count : Nat) (x : Fin n → Cplx R) (alpha : Cplx R) (beta : R),
      safeInv ≤ |beta * s ^ (k + 1)| →
      ∀ fuel, k + 1 ≤ fuel →
      ∃ c, 1 ≤ c ∧
        rescaleLoopC s safeInv fuel count x alpha beta
          = some (count + c, ScaleC (Cplx.ofReal (s ^ c)) x, alpha.mulReal (s ^ c),
              beta * s ^ c) ∧
        safeInv ≤ |beta * s ^ c| := by
  induction k with
  | zero =>
    intro count x alpha beta h fuel hf
    obtain ⟨f, rfl⟩ : ∃ f, fuel = f + 1 := ⟨fuel - 1, by omega⟩
    refine ⟨1, le_refl _, ?_, by simpa using h⟩
    simp only [zero_add, pow_one] at h
    simp only [rescaleLoopC, pow_one, not_lt.mpr h, if_false]
  | succ k ih =>
    intro count x alpha beta h fuel hf
    obtain ⟨f, rfl⟩ : ∃ f, fuel = f + 1 := ⟨fuel - 1, by omega⟩
    by_cases hb : |beta * s| < safeInv
    · have h' : safeInv ≤ |beta * s * s ^ (k + 1)| := by
        have : beta * s * s ^ (k + 1) = beta * s ^ (k + 1 + 1) := by ring
        rw [this]; exact h
      obtain ⟨c, hc1, hc2, hc3⟩ :=
        ih (count + 1) (ScaleC (Cplx.ofReal s) x) (alpha.mulReal s) (beta * s) h' f (by omega)
      refine ⟨c + 1, by omega, ?_, ?_⟩
      · simp only [rescaleLoopC, hb, if_true]
        rw [hc2]
        have e1 : ScaleC (Cplx.ofReal (s ^ c)) (ScaleC (Cplx.ofReal s) x)
            = ScaleC (Cplx.ofReal (s ^ (c + 1))) x := by
          funext i
          apply Cplx.ext <;>
            simp only [ScaleC, Cplx.mul_re, Cplx.mul_im, Cplx.ofReal_re, Cplx.ofReal_im] <;> ring
        have e2 : (alpha.mulReal s).mulReal (s ^ c) = alpha.mulReal (s ^ (c + 1)) := by
          apply Cplx.ext <;> simp only [Cplx.mulReal_re, Cplx.mulReal_im] <;> ring
        have e3 : beta * s * s ^ c = beta * s ^ (c + 1) := by ring
        have e4 : count + 1 + c = count + (c + 1) := by ring
        rw [e1, e2, e3, e4]
      · have : beta * s ^ (c + 1) = beta * s * s ^ c := by ring
        rw [this]; exact hc3
    · refine ⟨1, le_refl _, ?_, by simpa using not_lt.mp hb⟩
      simp only [rescaleLoopC, hb, if_false, pow_one]

end ReflectorComplex
end Elemental

namespace Elemental

section ReflectorComplex2

open Matrix

variable {R : Type} [LinearOrderedField R] {n : Nat}

theorem ColComplex_zero (sqrt : R → R) (hs : IsSqrt sqrt) (safeMin epsilon : R) (fuel : Nat)
    (chi : Cplx R) (hchi : chi.im = 0) :
    ColComplex sqrt safeMin epsilon fuel chi (0 : Fin n → Cplx R)
      = some ⟨Cplx.ofReal 2, -chi, 0⟩ := by
  unfold ColComplex
  simp only [(Nrm2C_eq_zero_iff hs (0 : Fin n → Cplx R)).mpr rfl, hchi, and_self, if_true]

/-- Closed form of the complex `Col` away from the special case. -/
theorem ColComplex_eq [Archimedean R] {sqrt : R → R} (hs : IsSqrt sqrt) {safeMin epsilon : R}
    (h0 : 0 < safeMin) (h1 : safeMin < epsilon) {chi : Cplx R} {x : Fin n → Cplx R}
    (hx : x ≠ 0 ∨ chi.im ≠ 0) :
    ∃ N, ∀ fuel, N ≤ fuel →
      ColComplex sqrt safeMin epsilon fuel chi x
        = some ⟨⟨(signedNormC sqrt chi x - chi.re) / signedNormC sqrt chi x,
              -chi.im / signedNormC sqrt chi x⟩,
            Cplx.ofReal (signedNormC sqrt chi x),
            ScaleC (Cplx.realDiv 1 (chi.subReal (signedNormC sqrt chi x))) x⟩ := by
  have heps : 0 < epsilon := lt_trans h0 h1
  have hsafe : 0 < safeMin / epsilon := div_pos h0 heps
  have hsafe1 : safeMin / epsilon < 1 := (div_lt_one heps).mpr h1
  have hinv : 1 < 1 / (safeMin / epsilon) := by
    rw [lt_div_iff₀ hsafe]; simpa using hsafe1
  have hb := signedNormC_ne_zero hs hx
  have hn : ¬(Nrm2C sqrt x = 0 ∧ chi.im = 0) := by
    rintro ⟨h2, h3⟩
    rcases hx with hx | hx
    · exact hx ((Nrm2C_eq_zero_iff hs x).mp h2)
    · exact hx h3
  obtain ⟨k, hk⟩ := exists_pow_ge hinv (safeMin / epsilon) hb
  refine ⟨k + 1, fun fuel hf => ?_⟩
  obtain ⟨c, _, hc, _⟩ := rescaleLoopC_spec (1 / (safeMin / epsilon)) (safeMin / epsilon) k 0 x
    chi (signedNormC sqrt chi x) hk fuel hf
  have hfold : (if chi.re ≤ 0 then SafeNorm3 sqrt chi.re chi.im (Nrm2C sqrt x)
      else -SafeNorm3 sqrt chi.re chi.im (Nrm2C sqrt x)) = signedNormC sqrt chi x := rfl
  unfold ColComplex
  simp only [if_neg hn, hfold]
  by_cases hlt : |signedNormC sqrt chi x| < safeMin / epsilon
  · rw [if_pos hlt, hc]
    simp only
    have ht : 0 < (1 / (safeMin / epsilon)) ^ c := pow_pos (lt_trans zero_lt_one hinv) c
    have hfold2 : (if (chi.mulReal ((1 / (safeMin / epsilon)) ^ c)).re ≤ 0
        then SafeNorm3 sqrt (chi.mulReal ((1 / (safeMin / epsilon)) ^ c)).re
          (chi.mulReal ((1 / (safeMin / epsilon)) ^ c)).im
          (Nrm2C sqrt (ScaleC (Cplx.ofReal ((1 / (safeMin / epsilon)) ^ c)) x))
        else -SafeNorm3 sqrt (chi.mulReal ((1 / (safeMin / epsilon)) ^ c)).re
          (chi.mulReal ((1 / (safeMin / epsilon)) ^ c)).im
          (Nrm2C sqrt (ScaleC (Cplx.ofReal ((1 / (safeMin / epsilon)) ^ c)) x)))
        = signedNormC sqrt (chi.mulReal ((1 / (safeMin / epsilon)) ^ c))
            (ScaleC (Cplx.ofReal ((1 / (safeMin / epsilon)) ^ c)) x) := rfl
    rw [hfold2, signedNormC_scale hs chi x ht, scaleBack_eq]
    have hd := subReal_signedNormC_ne_zero hs hx
    have hts : (1 / (safeMin / epsilon)) ^ c * (safeMin / epsilon) ^ (0 + c) = 1 := by
      rw [zero_add, ← mul_pow]
      have : 1 / (safeMin / epsilon) * (safeMin / epsilon) = 1 := by
        field_simp
      rw [this, one_pow]
    generalize (1 / (safeMin / epsilon)) ^ c = t at ht hts
    generalize signedNormC sqrt chi x = b at hb hd
    have hd2 : (chi.re * t - b * t) * (chi.re * t - b * t) + chi.im * t * (chi.im * t) ≠ 0 := by
      have : (chi.re * t - b * t) * (chi.re * t - b * t) + chi.im * t * (chi.im * t)
          = ((chi.re - b) * (chi.re - b) + chi.im * chi.im) * (t * t) := by ring
      rw [this]
      exact mul_ne_zero hd (mul_ne_zero ht.ne' ht.ne')
    congr 2
    · apply Cplx.ext
      · simp only [Cplx.mulReal_re]
        rw [← sub_mul, mul_div_mul_right _ _ ht.ne']
      · simp only [Cplx.mulReal_im]
        rw [← neg_mul, mul_div_mul_right _ _ ht.ne']
    · rw [mul_assoc, hts, mul_one]
    · funext i
      apply Cplx.ext
      · simp only [ScaleC, Cplx.mul_re, Cplx.mul_im, Cplx.realDiv_re, Cplx.realDiv_im,
          Cplx.subReal_re, Cplx.subReal_im, Cplx.mulReal_re, Cplx.mulReal_im, Cplx.ofReal_re,
          Cplx.ofReal_im]
        field_simp
        ring
      · simp only [ScaleC, Cplx.mul_re, Cplx.mul_im, Cplx.realDiv_re, Cplx.realDiv_im,
          Cplx.subReal_re, Cplx.subReal_im, Cplx.mulReal_re, Cplx.mulReal_im, Cplx.ofReal_re,
          Cplx.ofReal_im]
        field_simp
        ring
  · rw [if_neg hlt]
    simp only [scaleBack]

end ReflectorComplex2
end Elemental

namespace Elemental

section ReflectorComplex3

open Matrix

variable {R : Type} [LinearOrderedField R] {n : Nat}

theorem star_cons_dot_cons (v x : Fin n → Cplx R) (chi : Cplx R) :
    star (vecCons 1 v) ⬝ᵥ vecCons chi x = chi + star v ⬝ᵥ x := by
  simp only [dotProduct, Fin.sum_univ_succ, Pi.star_apply, cons_val_zero, cons_val_succ,
    star_one, one_mul]

theorem star_ScaleC_dot (w : Cplx R) (x : Fin n → Cplx R) :
    star (ScaleC w x) ⬝ᵥ x = star w * Cplx.ofReal (normSqC x) := by
  apply Cplx.ext
  · simp only [dotProduct, Cplx.sum_re, Pi.star_apply, ScaleC, Cplx.mul_re, Cplx.mul_im,
      Cplx.star_re, Cplx.star_im, Cplx.ofReal_re, Cplx.ofReal_im, normSqC, Finset.mul_sum]
    rw [mul_zero, sub_zero]
    refine Finset.sum_congr rfl (fun i _ => ?_)
    ring
  · simp only [dotProduct, Cplx.sum_im, Pi.star_apply, ScaleC, Cplx.mul_re, Cplx.mul_im,
      Cplx.star_re, Cplx.star_im, Cplx.ofReal_re, Cplx.ofReal_im, normSqC, Finset.mul_sum]
    rw [mul_zero, zero_add]
    refine Finset.sum_congr rfl (fun i _ => ?_)
    ring

theorem star_ScaleC_dot_ScaleC (w : Cplx R) (x : Fin n → Cplx R) :
    star (ScaleC w x) ⬝ᵥ ScaleC w x = star w * w * Cplx.ofReal (normSqC x) := by
  have h : ScaleC w x = w • x := by
    funext i; simp [ScaleC]
  rw [h, dotProduct_smul, ← h, star_ScaleC_dot, smul_eq_mul]
  ring

/-- Algebra of the complex reflector: with `beta^2 = |alpha|^2 + |x|^2`, `beta ≠ 0`
and `alpha ≠ beta`, the adjoint of the reflector built from
`tau = (beta - alpha)/beta` and `v = x/(alpha - beta)` maps `[alpha; x]` to `[beta; 0]`. -/
theorem reflectorComplex_apply {alpha : Cplx R} {beta : R} {x : Fin n → Cplx R}
    (hb : beta * beta = alpha.re * alpha.re + alpha.im * alpha.im + normSqC x)
    (hb0 : beta ≠ 0)
    (hd : (alpha.re - beta) * (alpha.re - beta) + alpha.im * alpha.im ≠ 0) :
    (reflectorComplex ⟨(beta - alpha.re) / beta, -alpha.im / beta⟩
        (ScaleC (Cplx.realDiv 1 (alpha.subReal beta)) x))ᴴ *ᵥ vecCons alpha x
      = vecCons (Cplx.ofReal beta) 0 := by
  unfold reflectorComplex
  rw [rank1_conjTranspose, rank1_mulVec, star_cons_dot_cons, star_ScaleC_dot]
  have hS : normSqC x = beta * beta - alpha.re * alpha.re - alpha.im * alpha.im := by
    rw [hb]; ring
  rw [hS]
  have hc : star (⟨(beta - alpha.re) / beta, -alpha.im / beta⟩ : Cplx R)
      * (alpha + star (Cplx.realDiv 1 (alpha.subReal beta))
          * Cplx.ofReal (beta * beta - alpha.re * alpha.re - alpha.im * alpha.im))
      = alpha.subReal beta := by
    apply Cplx.ext
    · simp only [Cplx.mul_re, Cplx.mul_im, Cplx.add_re, Cplx.add_im, Cplx.star_re, Cplx.star_im,
        Cplx.realDiv_re, Cplx.realDiv_im, Cplx.subReal_re, Cplx.subReal_im, Cplx.ofReal_re,
        Cplx.ofReal_im]
      field_simp
      ring
    · simp only [Cplx.mul_re, Cplx.mul_im, Cplx.add_re, Cplx.add_im, Cplx.star_re, Cplx.star_im,
        Cplx.realDiv_re, Cplx.realDiv_im, Cplx.subReal_re, Cplx.subReal_im, Cplx.ofReal_re,
        Cplx.ofReal_im]
      field_simp
      ring
  rw [hc]
  funext i
  refine Fin.cases ?_ (fun j => ?_) i
  · apply Cplx.ext <;> simp
  · apply Cplx.ext
    · simp only [Pi.sub_apply, cons_val_succ, Pi.smul_apply, smul_eq_mul, ScaleC, Pi.zero_apply,
        Cplx.sub_re, Cplx.mul_re, Cplx.mul_im, Cplx.realDiv_re, Cplx.realDiv_im,
        Cplx.subReal_re, Cplx.subReal_im, Cplx.zero_re]
      field_simp
      ring
    · simp only [Pi.sub_apply, cons_val_succ, Pi.smul_apply, smul_eq_mul, ScaleC, Pi.zero_apply,
        Cplx.sub_im, Cplx.mul_re, Cplx.mul_im, Cplx.realDiv_re, Cplx.realDiv_im,
        Cplx.subReal_re, Cplx.subReal_im, Cplx.zero_im]
      field_simp
      ring

/-- Algebra of the complex reflector: under the same hypotheses it is unitary. -/
theorem reflectorComplex_unitary {alpha : Cplx R} {beta : R} {x : Fin n → Cplx R}
    (hb : beta * beta = alpha.re * alpha.re + alpha.im * alpha.im + normSqC x)
    (hb0 : beta ≠ 0)
    (hd : (alpha.re - beta) * (alpha.re - beta) + alpha.im * alpha.im ≠ 0) :
    (reflectorComplex ⟨(beta - alpha.re) / beta, -alpha.im / beta⟩
        (ScaleC (Cplx.realDiv 1 (alpha.subReal beta)) x))ᴴ
      * reflectorComplex ⟨(beta - alpha.re) / beta, -alpha.im / beta⟩
        (ScaleC (Cplx.realDiv 1 (alpha.subReal beta)) x) = 1 := by
  unfold reflectorComplex
  rw [rank1_conjTranspose, rank1_mul, star_cons_dot_cons, star_ScaleC_dot_ScaleC]
  have hS : normSqC x = beta * beta - alpha.re * alpha.re - alpha.im * alpha.im := by
    rw [hb]; ring
  rw [hS]
  have e1 : star (⟨(beta - alpha.re) / beta, -alpha.im / beta⟩ : Cplx R)
      + ⟨(beta - alpha.re) / beta, -alpha.im / beta⟩
      = Cplx.ofReal (2 * (beta - alpha.re) / beta) := by
    apply Cplx.ext
    · simp only [Cplx.add_re, Cplx.star_re, Cplx.ofReal_re]; ring
    · simp only [Cplx.add_im, Cplx.star_im, Cplx.ofReal_im]; ring
  have e2 : star (⟨(beta - alpha.re) / beta, -alpha.im / beta⟩ : Cplx R)
      * ⟨(beta - alpha.re) / beta, -alpha.im / beta⟩
      = Cplx.ofReal (((alpha.re - beta) * (alpha.re - beta) + alpha.im * alpha.im)
          / (beta * beta)) := by
    apply Cplx.ext
    · simp only [Cplx.mul_re, Cplx.star_re, Cplx.star_im, Cplx.ofReal_re]
      field_simp
      ring
    · simp only [Cplx.mul_im, Cplx.star_re, Cplx.star_im, Cplx.ofReal_im]
      ring
  have e3 : star (Cplx.realDiv 1 (alpha.subReal beta)) * Cplx.realDiv 1 (alpha.subReal beta)
      = Cplx.ofReal (1 / ((alpha.re - beta) * (alpha.re - beta) + alpha.im * alpha.im)) := by
    apply Cplx.ext
    · simp only [Cplx.mul_re, Cplx.star_re, Cplx.star_im, Cplx.ofReal_re, Cplx.realDiv_re,
        Cplx.realDiv_im, Cplx.subReal_re, Cplx.subReal_im]
      field_simp
    · simp only [Cplx.mul_im, Cplx.star_re, Cplx.star_im, Cplx.ofReal_im, Cplx.realDiv_re,
        Cplx.realDiv_im, Cplx.subReal_re, Cplx.subReal_im]
      ring
  rw [e1, e2, e3]
  have hc : Cplx.ofReal (2 * (beta - alpha.re) / beta)
      - Cplx.ofReal (((alpha.re - beta) * (alpha.re - beta) + alpha.im * alpha.im)
          / (beta * beta))
        * (1 + Cplx.ofReal (1 / ((alpha.re - beta) * (alpha.re - beta) + alpha.im * alpha.im))
            * Cplx.ofReal (beta * beta - alpha.re * alpha.re - alpha.im * alpha.im)) = 0 := by
    generalize hN : (alpha.re - beta) * (alpha.re - beta) + alpha.im * alpha.im = N at hd
    have hN2 : beta * beta - alpha.re * alpha.re - alpha.im * alpha.im
        = 2 * beta * (beta - alpha.re) - N := by
      rw [← hN]; ring
    rw [hN2]
    apply Cplx.ext
    · simp only [Cplx.mul_re, Cplx.add_re, Cplx.sub_re, Cplx.ofReal_re, Cplx.ofReal_im,
        Cplx.one_re, Cplx.zero_re, Cplx.mul_im, Cplx.add_im, Cplx.one_im]
      field_simp
      ring
    · simp only [Cplx.mul_re, Cplx.add_re, Cplx.sub_im, Cplx.ofReal_re, Cplx.ofReal_im,
        Cplx.one_re, Cplx.zero_im, Cplx.mul_im, Cplx.add_im, Cplx.one_im]
      ring
  rw [hc, zero_smul, sub_zero]

/-- When `alpha` is real the complex reflector is Hermitian. -/
theorem reflectorComplex_hermitian {alpha : Cplx R} (beta : R) (v : Fin n → Cplx R)
    (him : alpha.im = 0) :
    (reflectorComplex ⟨(beta - alpha.re) / beta, -alpha.im / beta⟩ v)ᴴ
      = reflectorComplex ⟨(beta - alpha.re) / beta, -alpha.im / beta⟩ v := by
  unfold reflectorComplex
  rw [rank1_conjTranspose]
  have : star (⟨(beta - alpha.re) / beta, -alpha.im / beta⟩ : Cplx R)
      = ⟨(beta - alpha.re) / beta, -alpha.im / beta⟩ := by
    apply Cplx.ext
    · rfl
    · simp [him]
  rw [this]

/-- The complex reflector with `tau = 2`, `v = 0` negates the first entry. -/
theorem reflectorComplex_two_zero_apply (chi : Cplx R) :
    (reflectorComplex (Cplx.ofReal (2 : R)) (0 : Fin n → Cplx R))ᴴ *ᵥ vecCons chi 0
      = vecCons (-chi) 0 := by
  unfold reflectorComplex
  rw [rank1_conjTranspose, rank1_mulVec, star_cons_dot_cons]
  funext i
  refine Fin.cases ?_ (fun j => ?_) i
  · apply Cplx.ext
    · simp; ring
    · simp; ring
  · apply Cplx.ext <;> simp

theorem reflectorComplex_two_zero_mul_self :
    reflectorComplex (Cplx.ofReal (2 : R)) (0 : Fin n → Cplx R)
      * reflectorComplex (Cplx.ofReal (2 : R)) (0 : Fin n → Cplx R) = 1 := by
  unfold reflectorComplex
  rw [rank1_mul, star_cons_dot_cons]
  have hc : Cplx.ofReal (2 : R) + Cplx.ofReal 2
      - Cplx.ofReal 2 * Cplx.ofReal 2 * (1 + star (0 : Fin n → Cplx R) ⬝ᵥ 0) = 0 := by
    apply Cplx.ext
    · simp; norm_num
    · simp
  rw [hc, zero_smul, sub_zero]

end ReflectorComplex3
end Elemental

namespace Elemental

section ReflectorClaims

open Matrix

variable {R : Type} [LinearOrderedField R] {n : Nat}

theorem IsSqrt_real : IsSqrt Real.sqrt :=
  fun a ha => ⟨Real.sqrt_nonneg a, Real.mul_self_sqrt ha⟩

theorem Nrm2_cons {sqrt : R → R} (hs : IsSqrt sqrt) (chi : R) (x : Fin n → R) :
    Nrm2 sqrt (vecCons chi x) = SafeNorm sqrt chi (Nrm2 sqrt x) := by
  unfold SafeNorm
  rw [show Nrm2 sqrt x * Nrm2 sqrt x = ∑ i, x i * x i from (hs _ (sumsq_nonneg x)).2]
  unfold Nrm2
  rw [Fin.sum_univ_succ]
  simp only [cons_val_zero, cons_val_succ]

theorem Nrm2C_cons {sqrt : R → R} (hs : IsSqrt sqrt) (chi : Cplx R) (x : Fin n → Cplx R) :
    Nrm2C sqrt (vecCons chi x) = SafeNorm3 sqrt chi.re chi.im (Nrm2C sqrt x) := by
  unfold SafeNorm3
  rw [show Nrm2C sqrt x * Nrm2C sqrt x = normSqC x from (hs _ (normSqC_nonneg x)).2]
  unfold Nrm2C normSqC
  rw [Fin.sum_univ_succ]
  simp only [cons_val_zero, cons_val_succ, add_assoc]

/-- C1: for every real `chi` and real vector `x ≠ 0` (of any length), and for every
complex `chi` and complex vector `x` (of any length, the empty one included) with
`x ≠ 0` or `Im(chi) ≠ 0`, `reflector::Col` (exact arithmetic, Euclidean norms, machine
constants with `0 < safeMin < epsilon`) returns, for every sufficiently large
iteration budget of the rescaling loop, `tau`, `beta` and `v` such that the adjoint
of `H = I - tau [1;v] [1;v]'` maps `[chi; x]` to `[beta; 0]`, whether or not the
rescaling loop is entered. -/
theorem Col_reflects [Archimedean R] (sqrt : R → R) (hs : IsSqrt sqrt) (safeMin epsilon : R)
    (h0 : 0 < safeMin) (h1 : safeMin < epsilon) :
    (∀ (n : Nat) (chi : R) (x : Fin n → R), x ≠ 0 →
      ∃ N, ∀ fuel, N ≤ fuel → ∃ r, ColReal sqrt safeMin epsilon fuel chi x = some r ∧
        (reflectorReal r.tau r.x)ᵀ *ᵥ vecCons chi x = vecCons r.chi 0) ∧
    (∀ (n : Nat) (chi : Cplx R) (x : Fin n → Cplx R), x ≠ 0 ∨ chi.im ≠ 0 →
      ∃ N, ∀ fuel, N ≤ fuel → ∃ r, ColComplex sqrt safeMin epsilon fuel chi x = some r ∧
        (reflectorComplex r.tau r.x)ᴴ *ᵥ vecCons chi x = vecCons r.chi 0) := by
  constructor
  · intro n chi x hx
    obtain ⟨N, hN⟩ := ColReal_eq hs h0 h1 chi hx
    refine ⟨N, fun fuel hf => ⟨_, hN fuel hf, ?_⟩⟩
    exact reflectorReal_apply (signedNorm_mul_self hs chi x) (signedNorm_ne_zero hs chi hx)
      (sub_signedNorm_ne_zero hs chi hx)
  · intro n chi x hx
    obtain ⟨N, hN⟩ := ColComplex_eq hs h0 h1 hx
    refine ⟨N, fun fuel hf => ⟨_, hN fuel hf, ?_⟩⟩
    exact reflectorComplex_apply (signedNormC_mul_self hs chi x) (signedNormC_ne_zero hs hx)
      (subReal_signedNormC_ne_zero hs hx)

/-- Witness for C1 over the real numbers, with `safeMin = 1/4` and `epsilon = 1/2`:
the real pair `chi = 3/100`, `x = [4/100]` (the rescaling loop runs), the complex
pair `chi = i`, `x = [0]`, and the complex `chi = i` with the empty vector `x`. -/
theorem Col_reflects_witness :
    ((![4 / 100] : Fin 1 → ℝ) ≠ 0) ∧
    ((![0] : Fin 1 → Cplx ℝ) ≠ 0 ∨ (⟨0, 1⟩ : Cplx ℝ).im ≠ 0) ∧
    ((![] : Fin 0 → Cplx ℝ) ≠ 0 ∨ (⟨0, 1⟩ : Cplx ℝ).im ≠ 0) ∧
    (∃ N, ∀ fuel, N ≤ fuel → ∃ r,
      ColReal Real.sqrt (1 / 4) (1 / 2) fuel (3 / 100) (![4 / 100] : Fin 1 → ℝ) = some r ∧
      (reflectorReal r.tau r.x)ᵀ *ᵥ vecCons (3 / 100) ![4 / 100] = vecCons r.chi 0) ∧
    (∃ N, ∀ fuel, N ≤ fuel → ∃ r,
      ColComplex Real.sqrt (1 / 4) (1 / 2) fuel ⟨0, 1⟩ (![0] : Fin 1 → Cplx ℝ) = some r ∧
      (reflectorComplex r.tau r.x)ᴴ *ᵥ vecCons ⟨0, 1⟩ ![0] = vecCons r.chi 0) ∧
    (∃ N, ∀ fuel, N ≤ fuel → ∃ r,
      ColComplex Real.sqrt (1 / 4) (1 / 2) fuel ⟨0, 1⟩ (![] : Fin 0 → Cplx ℝ) = some r ∧
      (reflectorComplex r.tau r.x)ᴴ *ᵥ vecCons ⟨0, 1⟩ ![] = vecCons r.chi 0) :=
  have hx : (![4 / 100] : Fin 1 → ℝ) ≠ 0 := fun h => by
    have := congrFun h 0
    norm_num at this
  have hxC : (![0] : Fin 1 → Cplx ℝ) ≠ 0 ∨ (⟨0, 1⟩ : Cplx ℝ).im ≠ 0 :=
    Or.inr one_ne_zero
  have hxE : (![] : Fin 0 → Cplx ℝ) ≠ 0 ∨ (⟨0, 1⟩ : Cplx ℝ).im ≠ 0 :=
    Or.inr one_ne_zero
  have h := Col_reflects Real.sqrt IsSqrt_real (1 / 4) (1 / 2) (by norm_num) (by norm_num)
  ⟨hx, hxC, hxE, h.1 1 (3 / 100) ![4 / 100] hx, h.2 1 ⟨0, 1⟩ ![0] hxC, h.2 0 ⟨0, 1⟩ ![] hxE⟩

/-- C7: when the 2-norm of `x` is zero (and, for complex data, `Im(chi) = 0`),
`reflector::Col` returns `tau = 2`, leaves `x` (which is the zero vector) as it is,
overwrites `chi` with `-chi`, and `adjoint(H) [chi; 0] = [-chi; 0]`. -/
theorem Col_zero_vector (sqrt : R → R) (hs : IsSqrt sqrt) (safeMin epsilon : R) (fuel : Nat)
    (chi : R) (x : Fin n → R) (hx : Nrm2 sqrt x = 0)
    (chiC : Cplx R) (xC : Fin n → Cplx R) (hxC : Nrm2C sqrt xC = 0) (him : chiC.im = 0) :
    (ColReal sqrt safeMin epsilon fuel chi x = some ⟨2, -chi, x⟩ ∧ x = 0 ∧
      (reflectorReal (2 : R) x)ᵀ *ᵥ vecCons chi x = vecCons (-chi) 0) ∧
    (ColComplex sqrt safeMin epsilon fuel chiC xC = some ⟨Cplx.ofReal 2, -chiC, xC⟩ ∧ xC = 0 ∧
      (reflectorComplex (Cplx.ofReal (2 : R)) xC)ᴴ *ᵥ vecCons chiC xC = vecCons (-chiC) 0) := by
  have e1 : x = 0 := (Nrm2_eq_zero_iff hs x).mp hx
  have e2 : xC = 0 := (Nrm2C_eq_zero_iff hs xC).mp hxC
  subst e1 e2
  exact ⟨⟨ColReal_zero sqrt hs safeMin epsilon fuel chi, rfl, reflectorReal_two_zero_apply chi⟩,
    ⟨ColComplex_zero sqrt hs safeMin epsilon fuel chiC him, rfl,
      reflectorComplex_two_zero_apply chiC⟩⟩

/-- Witness for C7 over the real numbers: `chi = -3`, `x = [0, 0]` and the complex
pair `chi = 5`, `x = [0, 0]`. -/
theorem Col_zero_vector_witness :
    Nrm2 Real.sqrt (![0, 0] : Fin 2 → ℝ) = 0 ∧
    Nrm2C Real.sqrt (![0, 0] : Fin 2 → Cplx ℝ) = 0 ∧
    (⟨5, 0⟩ : Cplx ℝ).im = 0 ∧
    (ColReal Real.sqrt (1 / 4) (1 / 2) 0 (-3) (![0, 0] : Fin 2 → ℝ)
        = some ⟨2, -(-3), ![0, 0]⟩ ∧ (![0, 0] : Fin 2 → ℝ) = 0 ∧
      (reflectorReal (2 : ℝ) ![0, 0])ᵀ *ᵥ vecCons (-3) ![0, 0] = vecCons (-(-3)) 0) ∧
    (ColComplex Real.sqrt (1 / 4) (1 / 2) 0 ⟨5, 0⟩ (![0, 0] : Fin 2 → Cplx ℝ)
        = some ⟨Cplx.ofReal 2, -⟨5, 0⟩, ![0, 0]⟩ ∧ (![0, 0] : Fin 2 → Cplx ℝ) = 0 ∧
      (reflectorComplex (Cplx.ofReal (2 : ℝ)) ![0, 0])ᴴ *ᵥ vecCons ⟨5, 0⟩ ![0, 0]
        = vecCons (-⟨5, 0⟩) 0) :=
  have hx : Nrm2 Real.sqrt (![0, 0] : Fin 2 → ℝ) = 0 := by
    simp [Nrm2]
  have hxC : Nrm2C Real.sqrt (![0, 0] : Fin 2 → Cplx ℝ) = 0 := by
    simp [Nrm2C, Fin.sum_univ_succ]
  ⟨hx, hxC, rfl, Col_zero_vector Real.sqrt IsSqrt_real (1 / 4) (1 / 2) 0 (-3) ![0, 0] hx
    ⟨5, 0⟩ ![0, 0] hxC rfl⟩

/-- C8: away from the `x = 0` special case (real data: the 2-norm of `x` is not zero;
complex data, of any length, the empty vector included: the 2-norm of `x` is not zero
or `Im(chi) ≠ 0`) the value `beta` written to `chi` is real, its magnitude is the
2-norm of `[chi; x]`, and its sign is opposite to that of `Re(chi)`:
`beta = +|[chi; x]|` when `Re(chi) ≤ 0`, `beta = -|[chi; x]|` otherwise, also when the
rescaling loop runs. -/
theorem Col_beta [Archimedean R] (sqrt : R → R) (hs : IsSqrt sqrt) (safeMin epsilon : R)
    (h0 : 0 < safeMin) (h1 : safeMin < epsilon) :
    (∀ (n : Nat) (chi : R) (x : Fin n → R), Nrm2 sqrt x ≠ 0 →
      ∃ N, ∀ fuel, N ≤ fuel → ∃ r, ColReal sqrt safeMin epsilon fuel chi x = some r ∧
        r.chi = if chi ≤ 0 then Nrm2 sqrt (vecCons chi x) else -Nrm2 sqrt (vecCons chi x)) ∧
    (∀ (n : Nat) (chi : Cplx R) (x : Fin n → Cplx R), ¬(Nrm2C sqrt x = 0 ∧ chi.im = 0) →
      ∃ N, ∀ fuel, N ≤ fuel → ∃ r, ColComplex sqrt safeMin epsilon fuel chi x = some r ∧
        r.chi.im = 0 ∧
        r.chi.re = if chi.re ≤ 0 then Nrm2C sqrt (vecCons chi x)
          else -Nrm2C sqrt (vecCons chi x)) := by
  constructor
  · intro n chi x hx
    have hx1 : x ≠ 0 := fun h => hx ((Nrm2_eq_zero_iff hs x).mpr h)
    obtain ⟨N, hN⟩ := ColReal_eq hs h0 h1 chi hx1
    refine ⟨N, fun fuel hf => ⟨_, hN fuel hf, ?_⟩⟩
    rw [Nrm2_cons hs]
    rfl
  · intro n chi x hx
    have hx1 : x ≠ 0 ∨ chi.im ≠ 0 := by
      by_cases h : x = 0
      · right
        intro h2
        exact hx ⟨(Nrm2C_eq_zero_iff hs x).mpr h, h2⟩
      · exact Or.inl h
    obtain ⟨N, hN⟩ := ColComplex_eq hs h0 h1 hx1
    refine ⟨N, fun fuel hf => ⟨_, hN fuel hf, rfl, ?_⟩⟩
    rw [Nrm2C_cons hs]
    rfl

/-- Witness for C8 over the real numbers, with `safeMin = 1/4` and `epsilon = 1/2`:
the real pair `chi = 3/100`, `x = [4/100]`, the complex pair `chi = i`, `x = [0]`, and
the complex `chi = i` with the empty vector `x`. -/
theorem Col_beta_witness :
    Nrm2 Real.sqrt (![4 / 100] : Fin 1 → ℝ) ≠ 0 ∧
    ¬(Nrm2C Real.sqrt (![0] : Fin 1 → Cplx ℝ) = 0 ∧ (⟨0, 1⟩ : Cplx ℝ).im = 0) ∧
    ¬(Nrm2C Real.sqrt (![] : Fin 0 → Cplx ℝ) = 0 ∧ (⟨0, 1⟩ : Cplx ℝ).im = 0) ∧
    (∃ N, ∀ fuel, N ≤ fuel → ∃ r,
      ColReal Real.sqrt (1 / 4) (1 / 2) fuel (3 / 100) (![4 / 100] : Fin 1 → ℝ) = some r ∧
      r.chi = if (3 / 100 : ℝ) ≤ 0 then Nrm2 Real.sqrt (vecCons (3 / 100) ![4 / 100])
        else -Nrm2 Real.sqrt (vecCons (3 / 100) ![4 / 100])) ∧
    (∃ N, ∀ fuel, N ≤ fuel → ∃ r,
      ColComplex Real.sqrt (1 / 4) (1 / 2) fuel ⟨0, 1⟩ (![0] : Fin 1 → Cplx ℝ) = some r ∧
      r.chi.im = 0 ∧
      r.chi.re = if (⟨0, 1⟩ : Cplx ℝ).re ≤ 0 then Nrm2C Real.sqrt (vecCons ⟨0, 1⟩ ![0])
        else -Nrm2C Real.sqrt (vecCons ⟨0, 1⟩ ![0])) ∧
    (∃ N, ∀ fuel, N ≤ fuel → ∃ r,
      ColComplex Real.sqrt (1 / 4) (1 / 2) fuel ⟨0, 1⟩ (![] : Fin 0 → Cplx ℝ) = some r ∧
      r.chi.im = 0 ∧
      r.chi.re = if (⟨0, 1⟩ : Cplx ℝ).re ≤ 0 then Nrm2C Real.sqrt (vecCons ⟨0, 1⟩ ![])
        else -Nrm2C Real.sqrt (vecCons ⟨0, 1⟩ ![])) :=
  have hx : Nrm2 Real.sqrt (![4 / 100] : Fin 1 → ℝ) ≠ 0 := fun h => by
    have := congrFun ((Nrm2_eq_zero_iff IsSqrt_real _).mp h) 0
    norm_num at this
  have hxC : ¬(Nrm2C Real.sqrt (![0] : Fin 1 → Cplx ℝ) = 0 ∧ (⟨0, 1⟩ : Cplx ℝ).im = 0) :=
    fun h => one_ne_zero h.2
  have hxE : ¬(Nrm2C Real.sqrt (![] : Fin 0 → Cplx ℝ) = 0 ∧ (⟨0, 1⟩ : Cplx ℝ).im = 0) :=
    fun h => one_ne_zero h.2
  have h := Col_beta Real.sqrt IsSqrt_real (1 / 4) (1 / 2) (by norm_num) (by norm_num)
  ⟨hx, hxC, hxE, h.1 1 (3 / 100) ![4 / 100] hx, h.2 1 ⟨0, 1⟩ ![0] hxC, h.2 0 ⟨0, 1⟩ ![] hxE⟩

/-- The complex `Col` on `chi = i` and the empty vector `x` (double precision machine
constants): the general branch is taken, `beta = 1` is written to `chi` and
`tau = 1 - i`. -/
theorem Col_empty_vector_example :
    ∃ v, ColComplex Real.sqrt (1 / 2 ^ 1022) (1 / 2 ^ 53) 0 ⟨0, 1⟩ (![] : Fin 0 → Cplx ℝ)
      = some ⟨⟨(1 - 0) / 1, -1 / 1⟩, Cplx.ofReal 1, v⟩ := by
  have hN : Nrm2C Real.sqrt (![] : Fin 0 → Cplx ℝ) = 0 := by
    simp [Nrm2C]
  have hB : SafeNorm3 Real.sqrt (0 : ℝ) 1 0 = 1 := by
    simp [SafeNorm3]
  have hlt : ¬ |(1 : ℝ)| < 1 / 2 ^ 1022 / (1 / 2 ^ 53) := by
    rw [abs_one, not_lt, div_le_one (by positivity)]
    apply one_div_le_one_div_of_le (by positivity)
    exact pow_le_pow_right₀ (by norm_num) (by norm_num)
  refine ⟨ScaleC (Cplx.realDiv 1 ((⟨0, 1⟩ : Cplx ℝ).subReal 1)) ![], ?_⟩
  unfold ColComplex
  simp only [hN, hB, one_ne_zero, and_false, if_false, le_refl, if_true, hlt, scaleBack]

end ReflectorClaims
end Elemental

namespace Elemental

section ReflectorClaims2

open Matrix

variable {R : Type} [LinearOrderedField R] {n : Nat}

/-- C9, as stated, fails for complex data: for `chi = i` and `x = [0]` (double
precision machine constants) `Col` returns `tau = 1 - i`, `v = 0`, and the square of
`H = I - tau [1;v] [1;v]'` has `-1` in its first diagonal entry. -/
theorem Col_complex_not_involution :
    ∃ r, ColComplex Real.sqrt (1 / 2 ^ 1022) (1 / 2 ^ 53) 0 ⟨0, 1⟩ (![0] : Fin 1 → Cplx ℝ)
        = some r ∧
      reflectorComplex r.tau r.x * reflectorComplex r.tau r.x ≠ 1 := by
  have hN : Nrm2C Real.sqrt (![0] : Fin 1 → Cplx ℝ) = 0 := by
    simp [Nrm2C]
  have hB : SafeNorm3 Real.sqrt (0 : ℝ) 1 0 = 1 := by
    simp [SafeNorm3]
  have hlt : ¬ |(1 : ℝ)| < 1 / 2 ^ 1022 / (1 / 2 ^ 53) := by
    rw [abs_one, not_lt, div_le_one (by positivity)]
    apply one_div_le_one_div_of_le (by positivity)
    exact pow_le_pow_right₀ (by norm_num) (by norm_num)
  have hE : ColComplex Real.sqrt (1 / 2 ^ 1022) (1 / 2 ^ 53) 0 ⟨0, 1⟩
      (![0] : Fin 1 → Cplx ℝ)
      = some ⟨⟨(1 - 0) / 1, -1 / 1⟩, Cplx.ofReal 1,
          ScaleC (Cplx.realDiv 1 ((⟨0, 1⟩ : Cplx ℝ).subReal 1)) ![0]⟩ := by
    unfold ColComplex
    simp only [hN, hB, one_ne_zero, and_false, if_false, le_refl, if_true, hlt, scaleBack]
  refine ⟨_, hE, ?_⟩
  intro h
  have hv : ScaleC (Cplx.realDiv 1 ((⟨0, 1⟩ : Cplx ℝ).subReal 1)) (![0] : Fin 1 → Cplx ℝ)
      = 0 := by
    funext i
    simp [ScaleC]
  have h00 := congrArg Cplx.re (congrFun (congrFun h 0) 0)
  simp only [hv, reflectorComplex, rank1_mul, star_cons_dot_cons] at h00
  simp [vecMulVec_apply] at h00
  norm_num at h00

end ReflectorClaims2
end Elemental

namespace Elemental

section ReflectorClaims3

open Matrix

variable {R : Type} [LinearOrderedField R] {n : Nat}

theorem reflectorComplex_ofReal_hermitian (a : R) (v : Fin n → Cplx R) :
    (reflectorComplex (Cplx.ofReal a) v)ᴴ = reflectorComplex (Cplx.ofReal a) v := by
  unfold reflectorComplex
  rw [rank1_conjTranspose]
  have : star (Cplx.ofReal a) = Cplx.ofReal a := by
    apply Cplx.ext
    · rfl
    · simp
  rw [this]

/-- C9 (amended): for every real `(chi, x)`, `x = 0` included, the reflector built by
`reflector::Col` is an involution, `H * H = I`; for every complex `(chi, x)` it is
unitary, `H' * H = I`, and it is an involution when `Im(chi) = 0`. -/
theorem Col_involution_or_unitary [Archimedean R] (sqrt : R → R) (hs : IsSqrt sqrt)
    (safeMin epsilon : R) (h0 : 0 < safeMin) (h1 : safeMin < epsilon)
    (chi : R) (x : Fin n → R) (chiC : Cplx R) (xC : Fin n → Cplx R) :
    (∃ N, ∀ fuel, N ≤ fuel → ∃ r, ColReal sqrt safeMin epsilon fuel chi x = some r ∧
      reflectorReal r.tau r.x * reflectorReal r.tau r.x = 1) ∧
    (∃ N, ∀ fuel, N ≤ fuel → ∃ r, ColComplex sqrt safeMin epsilon fuel chiC xC = some r ∧
      (reflectorComplex r.tau r.x)ᴴ * reflectorComplex r.tau r.x = 1 ∧
      (chiC.im = 0 → reflectorComplex r.tau r.x * reflectorComplex r.tau r.x = 1)) := by
  constructor
  · by_cases hx : x = 0
    · subst hx
      exact ⟨0, fun fuel _ => ⟨_, ColReal_zero sqrt hs safeMin epsilon fuel chi,
        reflectorReal_two_zero_mul_self⟩⟩
    · obtain ⟨N, hN⟩ := ColReal_eq hs h0 h1 chi hx
      refine ⟨N, fun fuel hf => ⟨_, hN fuel hf, ?_⟩⟩
      exact reflectorReal_mul_self (signedNorm_mul_self hs chi x) (signedNorm_ne_zero hs chi hx)
        (sub_signedNorm_ne_zero hs chi hx)
  · by_cases hxC : xC ≠ 0 ∨ chiC.im ≠ 0
    · obtain ⟨N, hN⟩ := ColComplex_eq hs h0 h1 hxC
      refine ⟨N, fun fuel hf => ⟨_, hN fuel hf, ?_⟩⟩
      have hu := reflectorComplex_unitary (signedNormC_mul_self hs chiC xC)
        (signedNormC_ne_zero hs hxC) (subReal_signedNormC_ne_zero hs hxC)
      refine ⟨hu, fun him => ?_⟩
      rw [reflectorComplex_hermitian _ _ him] at hu
      exact hu
    · push_neg at hxC
      obtain ⟨e, him⟩ := hxC
      subst e
      refine ⟨0, fun fuel _ => ⟨_, ColComplex_zero sqrt hs safeMin epsilon fuel chiC him, ?_⟩⟩
      have hm : reflectorComplex (Cplx.ofReal (2 : R)) (0 : Fin n → Cplx R)
          * reflectorComplex (Cplx.ofReal (2 : R)) (0 : Fin n → Cplx R) = 1 :=
        reflectorComplex_two_zero_mul_self
      refine ⟨?_, fun _ => hm⟩
      rw [reflectorComplex_ofReal_hermitian]
      exact hm

/-- Witness for the amended C9 over the real numbers. -/
theorem Col_involution_or_unitary_witness :
    (∃ N, ∀ fuel, N ≤ fuel → ∃ r,
      ColReal Real.sqrt (1 / 4) (1 / 2) fuel (-3) (![4, 0] : Fin 2 → ℝ) = some r ∧
      reflectorReal r.tau r.x * reflectorReal r.tau r.x = 1) ∧
    (∃ N, ∀ fuel, N ≤ fuel → ∃ r,
      ColComplex Real.sqrt (1 / 4) (1 / 2) fuel ⟨0, 1⟩ (![0, 0] : Fin 2 → Cplx ℝ) = some r ∧
      (reflectorComplex r.tau r.x)ᴴ * reflectorComplex r.tau r.x = 1 ∧
      ((⟨0, 1⟩ : Cplx ℝ).im = 0 → reflectorComplex r.tau r.x * reflectorComplex r.tau r.x = 1)) :=
  Col_involution_or_unitary Real.sqrt IsSqrt_real (1 / 4) (1 / 2) (by norm_num) (by norm_num)
    (-3) ![4, 0] ⟨0, 1⟩ ![0, 0]

end ReflectorClaims3
end Elemental

namespace Elemental

section ChangeFrontTypeProofs

variable {T F : Type} [DecidableEq T] [Zero F]

theorem Mat.Empty_isEmpty : (Mat.Empty : Mat F).IsEmpty := ⟨rfl, rfl⟩

end ChangeFrontTypeProofs
end Elemental

namespace Elemental

section ChangeFrontTypeClaims

variable {T F : Type} [DecidableEq T] [Zero F]

theorem changeFront_none_iff (ops : FrontTypeOps T)
    (TI : Nat → (Nat → Nat → F) → Nat → Nat → F) (hasChild : Bool) (d : FrontData T F)
    (type : T) : changeFront ops TI hasChild d type = none ↔ ¬Available ops d.type type := by
  unfold changeFront Available
  by_cases c1 : type = ops.SYMM_1D ∨ type = ops.ConvertTo1D d.type
  · rw [if_pos c1]
    constructor
    · intro h
      split_ifs at h
    · intro h
      exact absurd (by tauto) h
  · rw [if_neg c1]
    by_cases c2 : type = ops.SYMM_2D ∨ type = ops.ConvertTo2D d.type
    · rw [if_pos c2]
      constructor
      · intro h
        split_ifs at h
      · intro h
        exact absurd (by tauto) h
    · rw [if_neg c2]
      by_cases c3 : ops.SelInvFactorization type = true ∧
          ops.ConvertTo2D type = ops.ConvertTo2D (ops.AppendSelInv d.type)
      · rw [if_pos c3]
        constructor
        · intro h
          cases h
        · intro h
          exact absurd (by tauto) h
      · rw [if_neg c3]
        constructor
        · intro _
          tauto
        · intro _
          rfl

end ChangeFrontTypeClaims
end Elemental

namespace Elemental

section ChangeFrontTypeClaims2

variable {T F : Type} [DecidableEq T] [Zero F]

theorem SymmFrontType.layoutLaws : LayoutLaws SymmFrontType.ops :=
  ⟨rfl, rfl, fun t => by cases t <;> rfl, fun t => by cases t <;> rfl⟩

/-- The call of the witness evaluated: the front with a child ends with `L1D` empty
and `L2D` the factor with its top block inverted, the front without a child with
`L1D` empty and `L2D` the factor itself; the change is not a change of layout
alone. -/
theorem ChangeFrontType_example :
    ¬LayoutChange SymmFrontType.ops exampleFront.data.type .LDL_SELINV_2D ∧
    (ChangeFrontType SymmFrontType.ops (fun _ e => e) exampleFront .LDL_SELINV_2D true).1.fronts
      = [⟨.LDL_SELINV_2D, Mat.Empty, invertTop (fun _ e => e) exampleL, none⟩,
          ⟨.LDL_SELINV_2D, Mat.Empty, exampleL, none⟩] := by
  refine ⟨?_, rfl⟩
  simp [LayoutChange, exampleFront, DistSymmFront.data, SymmFrontType.ops,
    SymmFrontType.ConvertTo1D, SymmFrontType.ConvertTo2D]

/-- C10, as stated, fails when `recurse = true`: the requested type `LDL_2D` is
`ConvertTo2D(front.type)` for the front of type `LDL_1D`, and the call still raises
"Unavailable front type change", from the child of type `LDL_SELINV_1D`. -/
theorem ChangeFrontType_child_error :
    SymmFrontType.LDL_2D = SymmFrontType.ops.ConvertTo2D mixedFront.data.type ∧
    (ChangeFrontType SymmFrontType.ops (fun _ e => e) mixedFront .LDL_2D true).2
      = some "Unavailable front type change" :=
  ⟨rfl, rfl⟩

theorem ChangeFrontType_none_iff (ops : FrontTypeOps T)
    (TI : Nat → (Nat → Nat → F) → Nat → Nat → F) (type : T) (front : DistSymmFront T F) :
    (ChangeFrontType ops TI front type true).2 = none ↔
      ∀ d ∈ front.fronts, Available ops d.type type := by
  induction front with
  | leaf d =>
    unfold ChangeFrontType
    cases h : changeFront ops TI false d type with
    | none =>
      have := (changeFront_none_iff ops TI false d type).mp h
      simp [DistSymmFront.fronts, this]
    | some d1 =>
      have : Available ops d.type type := by
        by_contra hc
        rw [(changeFront_none_iff ops TI false d type).mpr hc] at h
        cases h
      simp [DistSymmFront.fronts, this]
  | node d child ih =>
    unfold ChangeFrontType
    cases h : changeFront ops TI true d type with
    | none =>
      have := (changeFront_none_iff ops TI true d type).mp h
      simp [DistSymmFront.fronts, this]
    | some d1 =>
      have : Available ops d.type type := by
        by_contra hc
        rw [(changeFront_none_iff ops TI true d type).mpr hc] at h
        cases h
      simp only [if_true, DistSymmFront.fronts, List.mem_cons, forall_eq_or_imp, this, true_and]
      exact ih

/-- C10 (amended): if the requested type is none of `SYMM_1D`,
`ConvertTo1D(front.type)`, `SYMM_2D`, `ConvertTo2D(front.type)` and is not a
selective-inversion type with
`ConvertTo2D(type) == ConvertTo2D(AppendSelInv(front.type))`, then `ChangeFrontType`
raises "Unavailable front type change" and leaves the fronts unchanged; for every
other requested type it completes without error when `recurse` is false, and when
`recurse` is true it completes without error exactly when the requested type meets
the same condition at every front reachable through the child links. -/
theorem ChangeFrontType_error (ops : FrontTypeOps T)
    (TI : Nat → (Nat → Nat → F) → Nat → Nat → F) (front : DistSymmFront T F) (type : T)
    (recurse : Bool) :
    (¬Available ops front.data.type type →
      ChangeFrontType ops TI front type recurse
        = (front, some "Unavailable front type change")) ∧
    (Available ops front.data.type type → recurse = false →
      (ChangeFrontType ops TI front type recurse).2 = none) ∧
    (recurse = true →
      ((ChangeFrontType ops TI front type recurse).2 = none ↔
        ∀ d ∈ front.fronts, Available ops d.type type)) := by
  refine ⟨?_, ?_, ?_⟩
  · intro h
    cases front with
    | leaf d =>
      unfold ChangeFrontType
      rw [(changeFront_none_iff ops TI false d type).mpr h]
    | node d child =>
      unfold ChangeFrontType
      rw [(changeFront_none_iff ops TI true d type).mpr h]
  · intro h hr
    subst hr
    cases front with
    | leaf d =>
      unfold ChangeFrontType
      cases h1 : changeFront ops TI false d type with
      | none => exact absurd h ((changeFront_none_iff ops TI false d type).mp h1)
      | some d1 => rfl
    | node d child =>
      unfold ChangeFrontType
      cases h1 : changeFront ops TI true d type with
      | none => exact absurd h ((changeFront_none_iff ops TI true d type).mp h1)
      | some d1 => rfl
  · intro hr
    subst hr
    exact ChangeFrontType_none_iff ops TI type front

end ChangeFrontTypeClaims2
end Elemental

namespace Elemental

section LowerForwardMultiplyProofs

variable {F : Type} [AddCommMonoid F]

theorem updateRow_spec (W : Mat F) (iFront : Nat) (childU : Nat → Nat → F) (iChild numRHS : Nat) :
    (updateRow W iFront childU iChild numRHS).height = W.height ∧
    (updateRow W iFront childU iChild numRHS).width = W.width ∧
    ∀ i j, (updateRow W iFront childU iChild numRHS).entry i j
      = W.entry i j + if i = iFront ∧ j < numRHS then childU iChild j else 0 := by
  unfold updateRow
  induction numRHS with
  | zero => simp
  | succ m ih =>
    rw [List.range_succ, List.foldl_append]
    simp only [List.foldl_cons, List.foldl_nil]
    generalize List.foldl (fun W j => W.Update iFront j (childU iChild j)) W (List.range m) = V
      at ih ⊢
    refine ⟨ih.1, ih.2.1, fun i j => ?_⟩
    simp only [Mat.Update]
    rw [ih.2.2]
    by_cases h1 : i = iFront
    · by_cases h2 : j = m
      · subst h2
        simp [h1]
      · have : j < m + 1 ↔ j < m := by omega
        simp [h1, h2, this]
    · simp [h1]

theorem childUpdate_spec (W : Mat F) (numRHS : Nat) (childW : Mat F) (childSize : Nat)
    (relInds : List Nat) :
    (childUpdate W numRHS childW childSize relInds).height = W.height ∧
    (childUpdate W numRHS childW childSize relInds).width = W.width ∧
    ∀ i j, (childUpdate W numRHS childW childSize relInds).entry i j
      = W.entry i j + ∑ k in Finset.range (childW.height - childSize),
          if i = relInds.getD k 0 ∧ j < numRHS then childW.entry (childSize + k) j else 0 := by
  unfold childUpdate
  simp only
  generalize childW.height - childSize = u
  induction u with
  | zero => simp
  | succ m ih =>
    rw [List.range_succ, List.foldl_append]
    simp only [List.foldl_cons, List.foldl_nil]
    obtain ⟨h1, h2, h3⟩ := updateRow_spec
      (List.foldl (fun W iChild => updateRow W (relInds.getD iChild 0)
        (fun i j => childW.entry (childSize + i) j) iChild numRHS) W (List.range m))
      (relInds.getD m 0) (fun i j => childW.entry (childSize + i) j) m numRHS
    refine ⟨h1.trans ih.1, h2.trans ih.2.1, fun i j => ?_⟩
    rw [h3, ih.2.2, Finset.sum_range_succ, add_assoc]

theorem updateFromChildren_spec (numRHS : Nat) (cs : List (SeqNode F)) :
    ∀ (W : Mat F) (relInds : List (List Nat)),
    (updateFromChildren W numRHS cs relInds).1.height = W.height ∧
    (updateFromChildren W numRHS cs relInds).1.width = W.width ∧
    (∀ i j, (updateFromChildren W numRHS cs relInds).1.entry i j
      = W.entry i j + ∑ c in Finset.range cs.length,
          ∑ k in Finset.range ((workAt cs c).height - sizeAt cs c),
            if i = (relInds.getD c []).getD k 0 ∧ j < numRHS
            then (workAt cs c).entry (sizeAt cs c + k) j else 0) ∧
    (updateFromChildren W numRHS cs relInds).2 = cs.map (fun c => c.setWork Mat.Empty) := by
  induction cs with
  | nil =>
    intro W relInds
    simp [updateFromChildren]
  | cons child rest ih =>
    intro W relInds
    simp only [updateFromChildren]
    obtain ⟨a1, a2, a3, a4⟩ := ih (childUpdate W numRHS child.work child.size (relInds.headD []))
      relInds.tail
    obtain ⟨b1, b2, b3⟩ := childUpdate_spec W numRHS child.work child.size (relInds.headD [])
    refine ⟨a1.trans b1, a2.trans b2, fun i j => ?_, by rw [a4]; rfl⟩
    rw [a3, b3, List.length_cons, Finset.sum_range_succ', add_assoc]
    congr 1
    rw [add_comm]
    congr 1
    · refine Finset.sum_congr rfl (fun c _ => ?_)
      have e1 : workAt (child :: rest) (c + 1) = workAt rest c := by
        simp [workAt]
      have e2 : sizeAt (child :: rest) (c + 1) = sizeAt rest c := by
        simp [sizeAt]
      have e3 : relInds.getD (c + 1) [] = relInds.tail.getD c [] := by
        cases relInds <;> simp
      rw [e1, e2, e3]
    · have e1 : workAt (child :: rest) 0 = child.work := by
        simp [workAt]
      have e2 : sizeAt (child :: rest) 0 = child.size := by
        simp [sizeAt]
      have e3 : relInds.getD 0 [] = relInds.headD [] := by
        cases relInds <;> simp
      rw [e1, e2, e3]

theorem LowerForwardMultiplyChildren_length (FLFM : Mat F → Mat F → Nat → Nat → F)
    (cs : List (SeqNode F)) : (LowerForwardMultiplyChildren FLFM cs).length = cs.length := by
  induction cs with
  | nil => simp [LowerForwardMultiplyChildren]
  | cons c cs ih => simp [LowerForwardMultiplyChildren, ih]

end LowerForwardMultiplyProofs
end Elemental

namespace Elemental

section LowerForwardMultiplyClaims

variable {F : Type} [AddCommMonoid F]

/-- C3: for a sequential node with `X.matrix` of height `info.size = s` and front
height `h ≥ s`, `LowerForwardMultiply` (the children processed first) leaves in
`front.work` the `h x numRHS` matrix `FrontLowerForwardMultiply` makes of `[X; 0]`,
to which, for every child `c` and every update row `k < height(W_c) - size_c`, row
`size_c + k` of the child's work buffer `W_c` has been added at row
`info.childRelInds[c][k]` (contributions to one row accumulate); `X.matrix` is
overwritten with the top `s` rows of that matrix, and the children's work buffers
are emptied. -/
theorem LowerForwardMultiply_work (FLFM : Mat F → Mat F → Nat → Nat → F) (size : Nat)
    (childRelInds : List (List Nat)) (L work X : Mat F) (children : List (SeqNode F))
    (hX : X.height = size) (hs : size ≤ L.height) :
    (LowerForwardMultiply FLFM (.mk size childRelInds L work X children)).work.height
      = L.height ∧
    (LowerForwardMultiply FLFM (.mk size childRelInds L work X children)).work.width
      = X.width ∧
    (∀ i j, (LowerForwardMultiply FLFM (.mk size childRelInds L work X children)).work.entry i j
      = FLFM L (stackZero X L.height) i j
        + ∑ c in Finset.range children.length,
            ∑ k in Finset.range ((workAt (LowerForwardMultiplyChildren FLFM children) c).height
                - sizeAt (LowerForwardMultiplyChildren FLFM children) c),
              if i = (childRelInds.getD c []).getD k 0 ∧ j < X.width
              then (workAt (LowerForwardMultiplyChildren FLFM children) c).entry
                (sizeAt (LowerForwardMultiplyChildren FLFM children) c + k) j
              else 0) ∧
    (LowerForwardMultiply FLFM (.mk size childRelInds L work X children)).X.height = size ∧
    (LowerForwardMultiply FLFM (.mk size childRelInds L work X children)).X.width = X.width ∧
    (∀ i j, (LowerForwardMultiply FLFM (.mk size childRelInds L work X children)).X.entry i j
      = (LowerForwardMultiply FLFM (.mk size childRelInds L work X children)).work.entry i j) ∧
    (LowerForwardMultiply FLFM (.mk size childRelInds L work X children)).children
      = (LowerForwardMultiplyChildren FLFM children).map (fun c => c.setWork Mat.Empty) := by
  have hmin : min size L.height = X.height := by
    rw [hX]; exact min_eq_left hs
  obtain ⟨a1, a2, a3, a4⟩ := updateFromChildren_spec X.width
    (LowerForwardMultiplyChildren FLFM children)
    (⟨L.height, X.width, FLFM L ⟨L.height, X.width,
      fun i j => if i < min size L.height then X.entry i j else 0⟩⟩ : Mat F) childRelInds
  rw [LowerForwardMultiplyChildren_length] at a3
  rw [hmin] at a1 a2 a3 a4
  simp only [LowerForwardMultiply, SeqNode.work, SeqNode.X, SeqNode.children, hmin]
  exact ⟨a1, a2, a3, hX, trivial, fun _ _ => trivial, a4⟩

/-- Witness for C3: the root of the example tree; its work buffer ends as
`[6; 6]`, the product `[1; 1]` plus the two update rows `[5; 5]` of the leaf. -/
theorem LowerForwardMultiply_work_witness :
    exampleRootX.height = 2 ∧ 2 ≤ exampleRootL.height ∧
    (LowerForwardMultiply exampleKernel exampleRoot).work.entry 1 0
      = exampleKernel exampleRootL (stackZero exampleRootX exampleRootL.height) 1 0
        + ∑ c in Finset.range [exampleLeaf].length,
            ∑ k in Finset.range
                ((workAt (LowerForwardMultiplyChildren exampleKernel [exampleLeaf]) c).height
                - sizeAt (LowerForwardMultiplyChildren exampleKernel [exampleLeaf]) c),
              if 1 = (([[0, 1]] : List (List Nat)).getD c []).getD k 0 ∧ 0 < exampleRootX.width
              then (workAt (LowerForwardMultiplyChildren exampleKernel [exampleLeaf]) c).entry
                (sizeAt (LowerForwardMultiplyChildren exampleKernel [exampleLeaf]) c + k) 0
              else 0 :=
  ⟨rfl, le_refl 2,
    (LowerForwardMultiply_work exampleKernel 2 [[0, 1]] exampleRootL Mat.Empty
      exampleRootX [exampleLeaf] rfl (le_refl 2)).2.2.1 1 0⟩

theorem LowerForwardMultiply_example :
    (LowerForwardMultiply exampleKernel exampleRoot).work.entry 0 0 = 6 ∧
    (LowerForwardMultiply exampleKernel exampleRoot).work.entry 1 0 = 6 ∧
    (LowerForwardMultiply exampleKernel exampleRoot).X.entry 1 0 = 6 := by
  simp [LowerForwardMultiply, LowerForwardMultiplyChildren, exampleRoot, exampleLeaf,
    exampleKernel, exampleRootL, exampleRootX, updateFromChildren, childUpdate, updateRow,
    Mat.Update, SeqNode.work, SeqNode.X, SeqNode.size, Finset.sum_range_succ, List.range_succ]
  norm_num

end LowerForwardMultiplyClaims
end Elemental

namespace Elemental

section Trr2kProofs

variable {F : Type} [CommRing F] [StarRing F]

theorem trr2k_block_AB (orientB : Orientation) (hB : orientB ≠ .NORMAL) (A B : Mat F)
    (k nb i j l : Nat) :
    ((A.colRange k nb).orient .NORMAL).entry i l
        * ((Transpose (B.colRange k nb) (orientB == .ADJOINT)).orient .NORMAL).entry l j
      = A.entry i (k + l) * (B.orient orientB).entry (k + l) j := by
  cases orientB
  · exact absurd rfl hB
  · simp [Mat.orient, Mat.colRange, Transpose]
  · simp [Mat.orient, Mat.colRange, Transpose]

theorem trr2k_block_CD (orientC orientD : Orientation) (hC : orientC ≠ .NORMAL)
    (hD : orientD ≠ .NORMAL) (C D : Mat F) (k nb i j l : Nat) :
    ((C.rowRange k nb).orient orientC).entry i l
        * ((Transpose (D.colRange k nb) (orientD == .ADJOINT)).orient .NORMAL).entry l j
      = (C.orient orientC).entry i (k + l) * (D.orient orientD).entry (k + l) j := by
  cases orientC
  · exact absurd rfl hC
  · cases orientD
    · exact absurd rfl hD
    · simp [Mat.orient, Mat.colRange, Mat.rowRange, Transpose]
    · simp [Mat.orient, Mat.colRange, Mat.rowRange, Transpose]
  · cases orientD
    · exact absurd rfl hD
    · simp [Mat.orient, Mat.colRange, Mat.rowRange, Transpose]
    · simp [Mat.orient, Mat.colRange, Mat.rowRange, Transpose]

theorem trr2k_block_width (orientC : Orientation) (hC : orientC ≠ .NORMAL) (C : Mat F)
    (k nb : Nat) : ((C.rowRange k nb).orient orientC).width = nb := by
  cases orientC
  · exact absurd rfl hC
  · rfl
  · rfl

theorem Trr2kNTTTLoop_spec (uplo : UpperOrLower) (orientB orientC orientD : Orientation)
    (hB : orientB ≠ .NORMAL) (hC : orientC ≠ .NORMAL) (hD : orientD ≠ .NORMAL)
    (alpha : F) (A B : Mat F) (beta : F) (C D : Mat F) (r bsize : Nat) (hbs : 1 ≤ bsize) :
    ∀ (fuel k : Nat) (E : Mat F), r - k ≤ fuel →
      ∃ E1, Trr2kNTTTLoop uplo orientB orientC orientD alpha A B beta C D r bsize fuel k E
          = some E1 ∧
        E1.height = E.height ∧ E1.width = E.width ∧
        ∀ i j, E1.entry i j
          = trr2kTarget uplo orientB orientC orientD alpha A B beta C D k r E i j := by
  intro fuel
  induction fuel with
  | zero =>
    intro k E hf
    have hk : ¬ k < r := by omega
    refine ⟨E, by simp [Trr2kNTTTLoop, hk], rfl, rfl, fun i j => ?_⟩
    have : Finset.Ico k r = ∅ := Finset.Ico_eq_empty (by omega)
    simp [trr2kTarget, this]
  | succ fuel ih =>
    intro k E hf
    by_cases hk : k < r
    · simp only [Trr2kNTTTLoop, hk, if_true]
      obtain ⟨E1, h1, h2, h3, h4⟩ := ih (k + bsize)
        (LocalTrr2k uplo .NORMAL .NORMAL orientC .NORMAL alpha
          (A.colRange k (min bsize (r - k)))
          (Transpose (B.colRange k (min bsize (r - k))) (orientB == .ADJOINT)) beta
          (C.rowRange k (min bsize (r - k)))
          (Transpose (D.colRange k (min bsize (r - k))) (orientD == .ADJOINT)) 1 E)
        (by omega)
      refine ⟨E1, h1, h2, h3, fun i j => ?_⟩
      rw [h4]
      unfold trr2kTarget
      simp only [LocalTrr2k]
      by_cases hc : i < E.height ∧ j < E.width ∧ inTriangle uplo i j
      · simp only [hc, and_self, if_true]
        set nb := min bsize (r - k) with hnb
        have hnb1 : k + nb ≤ r := by omega
        have e1 : ∑ l in Finset.Ico (k + bsize) r, A.entry i l * (B.orient orientB).entry l j
            = ∑ l in Finset.Ico (k + nb) r, A.entry i l * (B.orient orientB).entry l j := by
          by_cases hb : bsize ≤ r - k
          · rw [hnb, min_eq_left hb]
          · rw [Finset.Ico_eq_empty (by omega), Finset.Ico_eq_empty (by omega)]
        have e2 : ∑ l in Finset.Ico (k + bsize) r,
              (C.orient orientC).entry i l * (D.orient orientD).entry l j
            = ∑ l in Finset.Ico (k + nb) r,
              (C.orient orientC).entry i l * (D.orient orientD).entry l j := by
          by_cases hb : bsize ≤ r - k
          · rw [hnb, min_eq_left hb]
          · rw [Finset.Ico_eq_empty (by omega), Finset.Ico_eq_empty (by omega)]
        rw [e1, e2]
        rw [← Finset.sum_Ico_consecutive _ (Nat.le_add_right k nb) hnb1,
          ← Finset.sum_Ico_consecutive (fun l => (C.orient orientC).entry i l
            * (D.orient orientD).entry l j) (Nat.le_add_right k nb) hnb1]
        rw [Finset.sum_Ico_eq_sum_range _ k (k + nb),
          Finset.sum_Ico_eq_sum_range (fun l => (C.orient orientC).entry i l
            * (D.orient orientD).entry l j) k (k + nb)]
        have e3 : k + nb - k = nb := by omega
        rw [e3]
        have w1 : ((A.colRange k nb).orient .NORMAL).width = nb := rfl
        have w2 := trr2k_block_width orientC hC C k nb
        rw [w1, w2]
        simp only [trr2k_block_AB orientB hB, trr2k_block_CD orientC orientD hC hD]
        ring
      · simp only [hc, if_false]
    · have hempty : Finset.Ico k r = ∅ := Finset.Ico_eq_empty (by omega)
      refine ⟨E, by simp [Trr2kNTTTLoop, hk], rfl, rfl, fun i j => ?_⟩
      simp [trr2kTarget, hempty]

end Trr2kProofs
end Elemental

namespace Elemental

section Trr2kClaims

variable {F : Type} [CommRing F] [StarRing F]

/-- C5: for every `uplo`, every blocksize `≥ 1` and conformal `A`, `B`, `D` (`n x r`),
`C` (`r x n`), `E` (`n x n`), `Trr2kNTTT` (given at least `r` iterations of fuel)
returns `E` with its `uplo` triangle, diagonal included, equal to that of
`alpha A B' + beta C' D' + E_in`, where `'` is the transpose or the adjoint according
to `orientB`, `orientC`, `orientD`; the other entries of `E` are unchanged, the result
does not depend on the blocksize, and `E` is unchanged when `r = 0`. -/
theorem Trr2kNTTT_correct (uplo : UpperOrLower) (orientB orientC orientD : Orientation)
    (hB : orientB ≠ .NORMAL) (hC : orientC ≠ .NORMAL) (hD : orientD ≠ .NORMAL)
    (alpha beta : F) (A B C D E : Mat F) (n r bsize fuel : Nat) (hbs : 1 ≤ bsize)
    (hA : A.width = r) (hEh : E.height = n) (hEw : E.width = n) (hfuel : r ≤ fuel) :
    ∃ E1, Trr2kNTTT uplo orientB orientC orientD alpha A B beta C D E bsize fuel = some E1 ∧
      E1.height = n ∧ E1.width = n ∧
      (∀ i j, i < n → j < n → inTriangle uplo i j →
        E1.entry i j
          = alpha * (∑ l in Finset.range r, A.entry i l * (B.orient orientB).entry l j)
            + beta * (∑ l in Finset.range r,
                (C.orient orientC).entry i l * (D.orient orientD).entry l j)
            + E.entry i j) ∧
      (∀ i j, ¬(i < n ∧ j < n ∧ inTriangle uplo i j) → E1.entry i j = E.entry i j) ∧
      (r = 0 → E1 = E) := by
  obtain ⟨E1, h1, h2, h3, h4⟩ := Trr2kNTTTLoop_spec uplo orientB orientC orientD hB hC hD
    alpha A B beta C D r bsize hbs fuel 0 E (by omega)
  refine ⟨E1, by unfold Trr2kNTTT; rw [hA]; exact h1, h2.trans hEh, h3.trans hEw, ?_, ?_, ?_⟩
  · intro i j hi hj ht
    rw [h4]
    unfold trr2kTarget
    rw [if_pos ⟨by omega, by omega, ht⟩, Nat.Ico_zero_eq_range]
  · intro i j hn
    rw [h4]
    unfold trr2kTarget
    rw [hEh, hEw, if_neg hn]
  · intro hr
    subst hr
    have : Trr2kNTTTLoop uplo orientB orientC orientD alpha A B beta C D 0 bsize fuel 0 E
        = some E := by
      cases fuel <;> simp [Trr2kNTTTLoop]
    rw [this] at h1
    exact (Option.some.inj h1).symm

/-- Witness for C5: the example data with `uplo = LOWER`, blocksize 2 and
`r = 3`, so that the loop runs twice, the second time on a block of one column. -/
theorem Trr2kNTTT_correct_witness :
    Orientation.TRANSPOSE ≠ .NORMAL ∧ Orientation.ADJOINT ≠ .NORMAL ∧ 1 ≤ 2 ∧
    exampleA.width = 3 ∧ exampleE.height = 2 ∧ exampleE.width = 2 ∧ 3 ≤ 5 ∧
    ∃ E1, Trr2kNTTT .LOWER .TRANSPOSE .ADJOINT .TRANSPOSE 2 exampleA exampleB 3 exampleC
        exampleD exampleE 2 5 = some E1 ∧
      E1.height = 2 ∧ E1.width = 2 ∧
      (∀ i j, i < 2 → j < 2 → inTriangle .LOWER i j →
        E1.entry i j
          = 2 * (∑ l in Finset.range 3,
                exampleA.entry i l * (exampleB.orient .TRANSPOSE).entry l j)
            + 3 * (∑ l in Finset.range 3,
                (exampleC.orient .ADJOINT).entry i l * (exampleD.orient .TRANSPOSE).entry l j)
            + exampleE.entry i j) ∧
      (∀ i j, ¬(i < 2 ∧ j < 2 ∧ inTriangle .LOWER i j) → E1.entry i j = exampleE.entry i j) ∧
      (3 = 0 → E1 = exampleE) :=
  ⟨by decide, by decide, by decide, rfl, rfl, rfl, by decide,
    Trr2kNTTT_correct .LOWER .TRANSPOSE .ADJOINT .TRANSPOSE (by decide) (by decide) (by decide)
      2 3 exampleA exampleB exampleC exampleD exampleE 2 3 2 5 (by decide) rfl rfl rfl
      (by decide)⟩

end Trr2kClaims
end Elemental

namespace Elemental

section HegstProofs

variable {F : Type} [Field F] [StarRing F]

@[simp] theorem Mat.view_height (A : Mat F) (i0 j0 h w : Nat) : (A.view i0 j0 h w).height = h := rfl
@[simp] theorem Mat.view_width (A : Mat F) (i0 j0 h w : Nat) : (A.view i0 j0 h w).width = w := rfl
@[simp] theorem Mat.view_entry (A : Mat F) (i0 j0 h w i j : Nat) :
    (A.view i0 j0 h w).entry i j = A.entry (i0 + i) (j0 + j) := rfl
@[simp] theorem Mat.setBlock_height (A : Mat F) (i0 j0 : Nat) (B : Mat F) :
    (A.setBlock i0 j0 B).height = A.height := rfl
@[simp] theorem Mat.setBlock_width (A : Mat F) (i0 j0 : Nat) (B : Mat F) :
    (A.setBlock i0 j0 B).width = A.width := rfl
@[simp] theorem Mat.zeros_height (h w : Nat) : (Mat.zeros h w : Mat F).height = h := rfl
@[simp] theorem Mat.zeros_width (h w : Nat) : (Mat.zeros h w : Mat F).width = w := rfl
@[simp] theorem Mat.zeros_entry (h w i j : Nat) : (Mat.zeros h w : Mat F).entry i j = 0 := rfl
@[simp] theorem HemmLeftLower_height (alpha : F) (A B : Mat F) (beta : F) (C : Mat F) :
    (HemmLeftLower alpha A B beta C).height = C.height := rfl
@[simp] theorem HemmLeftLower_width (alpha : F) (A B : Mat F) (beta : F) (C : Mat F) :
    (HemmLeftLower alpha A B beta C).width = C.width := rfl
@[simp] theorem HemmRightLower_height (alpha : F) (A B : Mat F) (beta : F) (C : Mat F) :
    (HemmRightLower alpha A B beta C).height = C.height := rfl
@[simp] theorem HemmRightLower_width (alpha : F) (A B : Mat F) (beta : F) (C : Mat F) :
    (HemmRightLower alpha A B beta C).width = C.width := rfl
@[simp] theorem Axpy_height (alpha : F) (X Y : Mat F) : (Axpy alpha X Y).height = Y.height := rfl
@[simp] theorem Axpy_width (alpha : F) (X Y : Mat F) : (Axpy alpha X Y).width = Y.width := rfl
@[simp] theorem Axpy_entry (alpha : F) (X Y : Mat F) (i j : Nat) :
    (Axpy alpha X Y).entry i j = alpha * X.entry i j + Y.entry i j := rfl
@[simp] theorem LocalTriangularRank2KLower_height (alpha : F) (A1 A2 B1 B2 : Mat F) (beta : F)
    (C : Mat F) : (LocalTriangularRank2KLower alpha A1 A2 B1 B2 beta C).height = C.height := rfl
@[simp] theorem LocalTriangularRank2KLower_width (alpha : F) (A1 A2 B1 B2 : Mat F) (beta : F)
    (C : Mat F) : (LocalTriangularRank2KLower alpha A1 A2 B1 B2 beta C).width = C.width := rfl
@[simp] theorem LocalTrmmLeftLowerAdjoint_height (alpha : F) (L X : Mat F) :
    (LocalTrmmLeftLowerAdjoint alpha L X).height = X.height := rfl
@[simp] theorem LocalTrmmLeftLowerAdjoint_width (alpha : F) (L X : Mat F) :
    (LocalTrmmLeftLowerAdjoint alpha L X).width = X.width := rfl
@[simp] theorem LocalTrmmRightLowerNormal_height (alpha : F) (L X : Mat F) :
    (LocalTrmmRightLowerNormal alpha L X).height = X.height := rfl
@[simp] theorem LocalTrmmRightLowerNormal_width (alpha : F) (L X : Mat F) :
    (LocalTrmmRightLowerNormal alpha L X).width = X.width := rfl
@[simp] theorem LocalGemmNormalNormal_height (alpha : F) (A B : Mat F) (beta : F) (C : Mat F) :
    (LocalGemmNormalNormal alpha A B beta C).height = C.height := rfl
@[simp] theorem LocalGemmNormalNormal_width (alpha : F) (A B : Mat F) (beta : F) (C : Mat F) :
    (LocalGemmNormalNormal alpha A B beta C).width = C.width := rfl
@[simp] theorem LocalHegstTrueLower_height (A L : Mat F) :
    (LocalHegstTrueLower A L).height = A.height := rfl
@[simp] theorem LocalHegstTrueLower_width (A L : Mat F) :
    (LocalHegstTrueLower A L).width = A.width := rfl

theorem Mat.setBlock_entry_in (A : Mat F) (i0 j0 : Nat) (B : Mat F) (i j i1 j1 : Nat)
    (hi1 : i1 = i0 + i) (hj1 : j1 = j0 + j) (hi : i < B.height) (hj : j < B.width) :
    (A.setBlock i0 j0 B).entry i1 j1 = B.entry i j := by
  subst hi1 hj1
  simp only [Mat.setBlock]
  rw [if_pos ⟨by omega, by omega, by omega, by omega⟩, Nat.add_sub_cancel_left,
    Nat.add_sub_cancel_left]

theorem Mat.setBlock_entry_out (A : Mat F) (i0 j0 : Nat) (B : Mat F) (i j : Nat)
    (h : i < i0 ∨ i0 + B.height ≤ i ∨ j < j0 ∨ j0 + B.width ≤ j) :
    (A.setBlock i0 j0 B).entry i j = A.entry i j := by
  simp only [Mat.setBlock]
  rw [if_neg (by omega)]

theorem Mat.view_lower_diag (L : Mat F) (k nb i j : Nat) :
    (L.view k k nb nb).lower i j = L.lower (k + i) (k + j) := by
  simp only [Mat.lower, Mat.view_entry]
  by_cases h : j ≤ i
  · rw [if_pos h, if_pos (by omega)]
  · rw [if_neg h, if_neg (by omega)]

theorem Mat.view_hermLower_diag (A : Mat F) (k nb i j : Nat) :
    (A.view k k nb nb).hermLower i j = A.hermLower (k + i) (k + j) := by
  simp only [Mat.hermLower, Mat.view_entry]
  by_cases h : j ≤ i
  · rw [if_pos h, if_pos (by omega)]
  · rw [if_neg h, if_neg (by omega)]

theorem HegstTrueLStep_dims (L : Mat F) (n k nb : Nat) (A : Mat F) :
    (HegstTrueLStep L n k nb A).height = A.height ∧
    (HegstTrueLStep L n k nb A).width = A.width := ⟨rfl, rfl⟩

/-- Entries of the block `A21` after one pass. -/
theorem HegstTrueLStep_A21 (L : Mat F) (n k nb : Nat) (A : Mat F) (i j : Nat)
    (hi : i < n - (k + nb)) (hj : j < nb) :
    (HegstTrueLStep L n k nb A).entry (k + nb + i) (k + j)
      = ∑ m in Finset.range nb, A.entry (k + nb + i) (k + m) * L.lower (k + m) (k + j) := by
  unfold HegstTrueLStep
  simp only []
  rw [Mat.setBlock_entry_in _ _ _ _ i j _ _ rfl rfl (by simpa using hi) (by simpa using hj)]
  simp only [LocalTrmmRightLowerNormal, Mat.view_height, one_mul, Mat.view_lower_diag,
    Mat.view_entry]
  refine Finset.sum_congr rfl (fun m hm => ?_)
  have hm' : m < nb := Finset.mem_range.mp hm
  rw [Mat.setBlock_entry_out _ _ _ _ _ _ (by simp <;> omega),
    Mat.setBlock_entry_out _ _ _ _ _ _ (by simp <;> omega)]

/-- Entries of the block `A11` after one pass. -/
theorem HegstTrueLStep_A11 (L : Mat F) (n k nb : Nat) (A : Mat F) (i j : Nat)
    (hi : i < nb) (hj : j < nb) :
    (HegstTrueLStep L n k nb A).entry (k + i) (k + j)
      = if j ≤ i then
          ∑ p in Finset.range nb, ∑ q in Finset.range nb,
            star (L.lower (k + p) (k + i)) * A.hermLower (k + p) (k + q) * L.lower (k + q) (k + j)
        else A.entry (k + i) (k + j) := by
  unfold HegstTrueLStep
  simp only []
  rw [Mat.setBlock_entry_out _ _ _ _ _ _ (by simp <;> omega)]
  rw [Mat.setBlock_entry_in _ _ _ _ i j _ _ rfl rfl (by simpa using hi) (by simpa using hj)]
  simp only [LocalHegstTrueLower, Mat.view_height, Mat.view_lower_diag, Mat.view_hermLower_diag,
    Mat.view_entry]

/-- Entries of the block `A20` after one pass. -/
theorem HegstTrueLStep_A20 (L : Mat F) (n k nb : Nat) (A : Mat F) (i j : Nat)
    (hi : i < n - (k + nb)) (hj : j < k) :
    (HegstTrueLStep L n k nb A).entry (k + nb + i) j
      = (∑ m in Finset.range nb, A.entry (k + nb + i) (k + m) * L.entry (k + m) j)
        + A.entry (k + nb + i) j := by
  unfold HegstTrueLStep
  simp only []
  rw [Mat.setBlock_entry_out _ _ _ _ _ _ (by simp <;> omega)]
  rw [Mat.setBlock_entry_out _ _ _ _ _ _ (by simp <;> omega)]
  rw [Mat.setBlock_entry_in _ _ _ _ i j _ _ rfl (zero_add j).symm (by simpa using hi)
    (by simpa using hj)]
  simp only [LocalGemmNormalNormal, Mat.view_width, one_mul, Mat.view_entry, zero_add]
  congr 1
  · refine Finset.sum_congr rfl (fun m hm => ?_)
    have hm' : m < nb := Finset.mem_range.mp hm
    rw [Mat.setBlock_entry_out _ _ _ _ _ _ (by simp <;> omega),
      Mat.setBlock_entry_out _ _ _ _ _ _ (by simp <;> omega)]
  · rw [Mat.setBlock_entry_out _ _ _ _ _ _ (by simp <;> omega),
      Mat.setBlock_entry_out _ _ _ _ _ _ (by simp <;> omega)]

/-- Entries of the block `A10` after one pass. -/
theorem HegstTrueLStep_A10 (L : Mat F) (n k nb : Nat) (A : Mat F) (i j : Nat)
    (hi : i < nb) (hj : j < k) :
    (HegstTrueLStep L n k nb A).entry (k + i) j
      = ∑ m in Finset.range nb, star (L.lower (k + m) (k + i))
          * (hegstX L k nb A m j + (hegstX L k nb A m j + A.entry (k + m) j)) := by
  unfold HegstTrueLStep
  simp only []
  rw [Mat.setBlock_entry_out _ _ _ _ _ _ (by simp <;> omega)]
  rw [Mat.setBlock_entry_out _ _ _ _ _ _ (by simp <;> omega)]
  rw [Mat.setBlock_entry_out _ _ _ _ _ _ (by simp <;> omega)]
  rw [Mat.setBlock_entry_in _ _ _ _ i j _ _ rfl (zero_add j).symm (by simpa using hi)
    (by simpa using hj)]
  simp only [LocalTrmmLeftLowerAdjoint, HemmLeftLower, Mat.view_height, one_mul,
    Mat.view_lower_diag, Mat.view_hermLower_diag, Mat.view_entry, Axpy_entry, zero_add,
    Mat.zeros_entry, mul_zero, add_zero, hegstX]

/-- Entries of the block `A00` after one pass. -/
theorem HegstTrueLStep_A00 (L : Mat F) (n k nb : Nat) (A : Mat F) (i j : Nat)
    (hi : i < k) (hj : j < k) :
    (HegstTrueLStep L n k nb A).entry i j
      = if j ≤ i then
          ((∑ m in Finset.range nb,
              star (hegstX L k nb A m i + A.entry (k + m) i) * L.entry (k + m) j)
            + ∑ m in Finset.range nb,
              star (L.entry (k + m) i) * (hegstX L k nb A m j + A.entry (k + m) j))
            + A.entry i j
        else A.entry i j := by
  unfold HegstTrueLStep
  simp only []
  rw [Mat.setBlock_entry_out _ _ _ _ _ _ (by simp <;> omega)]
  rw [Mat.setBlock_entry_out _ _ _ _ _ _ (by simp <;> omega)]
  rw [Mat.setBlock_entry_out _ _ _ _ _ _ (by simp <;> omega)]
  rw [Mat.setBlock_entry_out _ _ _ _ _ _ (by simp <;> omega)]
  rw [Mat.setBlock_entry_in _ _ _ _ i j _ _ (zero_add i).symm (zero_add j).symm
    (by simpa using hi) (by simpa using hj)]
  simp only [LocalTriangularRank2KLower, HemmLeftLower, Mat.view_height, one_mul,
    Mat.view_hermLower_diag, Mat.view_entry, Axpy_entry, zero_add, Axpy_height,
    Mat.zeros_entry, mul_zero, add_zero, hegstX]

/-- One pass does not touch the columns from `k + nb` on. -/
theorem HegstTrueLStep_right (L : Mat F) (n k nb : Nat) (A : Mat F) (i j : Nat)
    (hj : k + nb ≤ j) :
    (HegstTrueLStep L n k nb A).entry i j = A.entry i j := by
  unfold HegstTrueLStep
  simp only []
  rw [Mat.setBlock_entry_out _ _ _ _ _ _ (by simp <;> omega)]
  rw [Mat.setBlock_entry_out _ _ _ _ _ _ (by simp <;> omega)]
  rw [Mat.setBlock_entry_out _ _ _ _ _ _ (by simp <;> omega)]
  rw [Mat.setBlock_entry_out _ _ _ _ _ _ (by simp <;> omega)]
  rw [Mat.setBlock_entry_out _ _ _ _ _ _ (by simp <;> omega)]

end HegstProofs
end Elemental

namespace Elemental

section HegstAlgebra

variable {F : Type} [Field F] [StarRing F]

theorem partialAL_add (a l : Nat → Nat → F) (k nb i j : Nat) :
    partialAL a l (k + nb) i j
      = partialAL a l k i j + ∑ m in Finset.range nb, a i (k + m) * l (k + m) j := by
  unfold partialAL
  rw [Finset.sum_range_add]

theorem partialLAL_add (a l : Nat → Nat → F) (k nb i j : Nat) :
    partialLAL a l (k + nb) i j
      = (∑ p in Finset.range k, star (l p i) * partialAL a l (k + nb) p j)
        + ∑ m in Finset.range nb, star (l (k + m) i) * partialAL a l (k + nb) (k + m) j := by
  unfold partialLAL
  rw [Finset.sum_range_add]

theorem partialAL_zero_of_lower (a l : Nat → Nat → F) (hl : ∀ p q, p < q → l p q = 0)
    (k i j : Nat) (hj : k ≤ j) : partialAL a l k i j = 0 := by
  unfold partialAL
  refine Finset.sum_eq_zero (fun q hq => ?_)
  rw [hl q j (lt_of_lt_of_le (Finset.mem_range.mp hq) hj), mul_zero]

theorem sum_star_lower_zero (l : Nat → Nat → F) (hl : ∀ p q, p < q → l p q = 0)
    (f : Nat → F) (k i : Nat) (hi : k ≤ i) :
    ∑ p in Finset.range k, star (l p i) * f p = 0 := by
  refine Finset.sum_eq_zero (fun p hp => ?_)
  rw [hl p i (lt_of_lt_of_le (Finset.mem_range.mp hp) hi), star_zero, zero_mul]

/-- The new block `A21`. -/
theorem hegst_A21_eq (a l : Nat → Nat → F) (hl : ∀ p q, p < q → l p q = 0)
    (k nb i j : Nat) (hj : k ≤ j) :
    ∑ m in Finset.range nb, a i (k + m) * l (k + m) j = partialAL a l (k + nb) i j := by
  rw [partialAL_add, partialAL_zero_of_lower a l hl k i j hj, zero_add]

/-- The new block `A11`. -/
theorem hegst_A11_eq (a l : Nat → Nat → F) (hl : ∀ p q, p < q → l p q = 0)
    (k nb i j : Nat) (hi : k ≤ i) (hj : k ≤ j) :
    ∑ p in Finset.range nb, ∑ q in Finset.range nb,
        star (l (k + p) i) * a (k + p) (k + q) * l (k + q) j
      = partialLAL a l (k + nb) i j := by
  rw [partialLAL_add, sum_star_lower_zero l hl _ k i hi, zero_add]
  refine Finset.sum_congr rfl (fun m _ => ?_)
  rw [← hegst_A21_eq a l hl k nb (k + m) j hj, Finset.mul_sum]
  refine Finset.sum_congr rfl (fun q _ => ?_)
  ring

/-- The new block `A10`. -/
theorem hegst_A10_eq (a l : Nat → Nat → F) (hl : ∀ p q, p < q → l p q = 0) (h2 : (2 : F) ≠ 0)
    (k nb i j : Nat) (hi : k ≤ i) :
    ∑ m in Finset.range nb, star (l (k + m) i)
        * (1 / 2 * (∑ q in Finset.range nb, a (k + m) (k + q) * l (k + q) j)
          + (1 / 2 * (∑ q in Finset.range nb, a (k + m) (k + q) * l (k + q) j)
            + partialAL a l k (k + m) j))
      = partialLAL a l (k + nb) i j := by
  rw [partialLAL_add, sum_star_lower_zero l hl _ k i hi, zero_add]
  refine Finset.sum_congr rfl (fun m _ => ?_)
  rw [partialAL_add]
  field_simp
  ring

/-- The new lower triangle of `A00`. -/
theorem hegst_A00_eq (a l : Nat → Nat → F) (h2 : (2 : F) ≠ 0) (k nb i j : Nat)
    (ha : ∀ p q, p < k + nb → q < k + nb → star (a p q) = a q p) :
    ((∑ m in Finset.range nb,
        star (1 / 2 * (∑ q in Finset.range nb, a (k + m) (k + q) * l (k + q) i)
          + partialAL a l k (k + m) i) * l (k + m) j)
      + ∑ m in Finset.range nb,
        star (l (k + m) i)
          * (1 / 2 * (∑ q in Finset.range nb, a (k + m) (k + q) * l (k + q) j)
            + partialAL a l k (k + m) j))
      + partialLAL a l k i j
      = partialLAL a l (k + nb) i j := by
  -- the four groups of terms of the right-hand side
  have hR : partialLAL a l (k + nb) i j
      = partialLAL a l k i j
        + (∑ p in Finset.range k, ∑ m in Finset.range nb,
            star (l p i) * a p (k + m) * l (k + m) j)
        + (∑ m in Finset.range nb, star (l (k + m) i) * partialAL a l k (k + m) j)
        + ∑ m in Finset.range nb, ∑ q in Finset.range nb,
            star (l (k + m) i) * a (k + m) (k + q) * l (k + q) j := by
    rw [partialLAL_add]
    have e1 : ∑ p in Finset.range k, star (l p i) * partialAL a l (k + nb) p j
        = partialLAL a l k i j
          + ∑ p in Finset.range k, ∑ m in Finset.range nb,
              star (l p i) * a p (k + m) * l (k + m) j := by
      unfold partialLAL
      rw [← Finset.sum_add_distrib]
      refine Finset.sum_congr rfl (fun p _ => ?_)
      rw [partialAL_add, mul_add, Finset.mul_sum]
      congr 1
      refine Finset.sum_congr rfl (fun m _ => ?_)
      ring
    have e2 : ∑ m in Finset.range nb, star (l (k + m) i) * partialAL a l (k + nb) (k + m) j
        = (∑ m in Finset.range nb, star (l (k + m) i) * partialAL a l k (k + m) j)
          + ∑ m in Finset.range nb, ∑ q in Finset.range nb,
              star (l (k + m) i) * a (k + m) (k + q) * l (k + q) j := by
      rw [← Finset.sum_add_distrib]
      refine Finset.sum_congr rfl (fun m _ => ?_)
      rw [partialAL_add, mul_add, Finset.mul_sum]
      congr 1
      refine Finset.sum_congr rfl (fun q _ => ?_)
      ring
    rw [e1, e2]
    ring
  -- the second sum of the left-hand side
  have hB : ∑ m in Finset.range nb,
        star (l (k + m) i)
          * (1 / 2 * (∑ q in Finset.range nb, a (k + m) (k + q) * l (k + q) j)
            + partialAL a l k (k + m) j)
      = 1 / 2 * (∑ m in Finset.range nb, ∑ q in Finset.range nb,
            star (l (k + m) i) * a (k + m) (k + q) * l (k + q) j)
        + ∑ m in Finset.range nb, star (l (k + m) i) * partialAL a l k (k + m) j := by
    rw [Finset.mul_sum, ← Finset.sum_add_distrib]
    refine Finset.sum_congr rfl (fun m _ => ?_)
    rw [mul_add, Finset.mul_sum, Finset.mul_sum, Finset.mul_sum]
    congr 1
    refine Finset.sum_congr rfl (fun q _ => ?_)
    ring
  -- the first sum of the left-hand side
  have hhalf : star (1 / 2 : F) = 1 / 2 := by
    rw [star_div₀, star_one, star_ofNat]
  have hA : ∑ m in Finset.range nb,
        star (1 / 2 * (∑ q in Finset.range nb, a (k + m) (k + q) * l (k + q) i)
          + partialAL a l k (k + m) i) * l (k + m) j
      = 1 / 2 * (∑ m in Finset.range nb, ∑ q in Finset.range nb,
            star (l (k + m) i) * a (k + m) (k + q) * l (k + q) j)
        + ∑ p in Finset.range k, ∑ m in Finset.range nb,
            star (l p i) * a p (k + m) * l (k + m) j := by
    have s1 : ∀ m, m < nb →
        star (1 / 2 * (∑ q in Finset.range nb, a (k + m) (k + q) * l (k + q) i)
          + partialAL a l k (k + m) i) * l (k + m) j
        = 1 / 2 * (∑ q in Finset.range nb,
              star (l (k + q) i) * a (k + q) (k + m) * l (k + m) j)
          + ∑ p in Finset.range k, star (l p i) * a p (k + m) * l (k + m) j := by
      intro m hm
      rw [star_add, star_mul', hhalf, star_sum, add_mul]
      unfold partialAL
      rw [star_sum, Finset.sum_mul, mul_assoc, Finset.sum_mul]
      congr 1
      · congr 1
        refine Finset.sum_congr rfl (fun q hq => ?_)
        rw [star_mul', ha (k + m) (k + q) (by omega)
          (by have := Finset.mem_range.mp hq; omega)]
        ring
      · refine Finset.sum_congr rfl (fun p hp => ?_)
        rw [star_mul', ha (k + m) p (by omega) (by have := Finset.mem_range.mp hp; omega)]
        ring
    rw [Finset.sum_congr rfl (fun m hm => s1 m (Finset.mem_range.mp hm)),
      Finset.sum_add_distrib, ← Finset.mul_sum]
    congr 1
    · rw [Finset.sum_comm]
    · rw [Finset.sum_comm]
  rw [hR, hA, hB]
  field_simp
  ring

end HegstAlgebra
end Elemental

namespace Elemental

section HegstInvariant

variable {F : Type} [Field F] [StarRing F]

theorem Mat.lower_zero (L : Mat F) (p q : Nat) (h : p < q) : L.lower p q = 0 := by
  unfold Mat.lower
  rw [if_neg (by omega)]

theorem Mat.lower_eq (L : Mat F) (p q : Nat) (h : q ≤ p) : L.lower p q = L.entry p q := by
  unfold Mat.lower
  rw [if_pos h]

theorem Mat.star_hermLower (A : Mat F) (n : Nat) (hA : ∀ i, i < n → star (A.entry i i) = A.entry i i)
    (p q : Nat) (hp : p < n) : star (A.hermLower p q) = A.hermLower q p := by
  unfold Mat.hermLower
  rcases Nat.lt_trichotomy p q with h | h | h
  · rw [if_neg (by omega), if_pos (by omega), star_star]
  · subst h
    rw [if_pos (le_refl p), hA p hp]
  · rw [if_pos (by omega), if_neg (by omega)]

theorem HegstInv.hermLower {A0 L : Mat F} {n k : Nat} {S : Mat F} (h : HegstInv A0 L n k S)
    (p q : Nat) (hp : k ≤ p) (hq : k ≤ q) (hp2 : p < n) (hq2 : q < n) :
    S.hermLower p q = A0.hermLower p q := by
  unfold Mat.hermLower
  by_cases hpq : q ≤ p
  · rw [if_pos hpq, if_pos hpq, h.2.2 p q hpq hp2, if_neg (by omega), if_neg (by omega)]
  · rw [if_neg hpq, if_neg hpq, h.2.2 q p (by omega) hq2, if_neg (by omega), if_neg (by omega)]

theorem HegstInv.hegstX {A0 L : Mat F} {n k nb : Nat} {S : Mat F} (h : HegstInv A0 L n k S)
    (hn : k + nb ≤ n) (m j : Nat) (hm : m < nb) (hj : j ≤ k) :
    hegstX L k nb S m j
      = 1 / 2 * ∑ q in Finset.range nb, A0.hermLower (k + m) (k + q) * L.lower (k + q) j := by
  unfold Elemental.hegstX
  congr 1
  refine Finset.sum_congr rfl (fun q hq => ?_)
  have hq' := Finset.mem_range.mp hq
  rw [h.hermLower (k + m) (k + q) (by omega) (by omega) (by omega) (by omega),
    Mat.lower_eq L (k + q) j (by omega)]

/-- One pass of the loop body of `HegstTrueL` carries the invariant from `k` to
`k + nb`. -/
theorem HegstTrueLStep_inv (A0 L : Mat F) (n k nb : Nat) (S : Mat F) (h2 : (2 : F) ≠ 0)
    (hA : ∀ i, i < n → star (A0.entry i i) = A0.entry i i)
    (hn : k + nb ≤ n) (h : HegstInv A0 L n k S) :
    HegstInv A0 L n (k + nb) (HegstTrueLStep L n k nb S) := by
  have hl : ∀ p q, p < q → L.lower p q = 0 := Mat.lower_zero L
  have ha : ∀ p q, p < k + nb → q < k + nb →
      star (A0.hermLower p q) = A0.hermLower q p :=
    fun p q hp _ => Mat.star_hermLower A0 n hA p q (by omega)
  refine ⟨h.1, h.2.1, fun i j hji hi => ?_⟩
  by_cases hj : k + nb ≤ j
  · -- columns not reached yet
    rw [HegstTrueLStep_right L n k nb S i j hj, h.2.2 i j hji hi, if_neg (by omega),
      if_neg (by omega), if_neg (by omega), if_neg (by omega)]
  · push_neg at hj
    by_cases hi1 : i < k
    · -- the block A00
      rw [HegstTrueLStep_A00 L n k nb S i j hi1 (by omega), if_pos hji, if_pos (by omega)]
      rw [h.2.2 i j hji hi, if_pos hi1]
      rw [← hegst_A00_eq A0.hermLower L.lower h2 k nb i j ha]
      congr 1
      congr 1
      · refine Finset.sum_congr rfl (fun m hm => ?_)
        have hm' := Finset.mem_range.mp hm
        rw [h.hegstX hn m i hm' (by omega), h.2.2 (k + m) i (by omega) (by omega),
          if_neg (by omega), if_pos hi1, Mat.lower_eq L (k + m) j (by omega)]
      · refine Finset.sum_congr rfl (fun m hm => ?_)
        have hm' := Finset.mem_range.mp hm
        rw [h.hegstX hn m j hm' (by omega), h.2.2 (k + m) j (by omega) (by omega),
          if_neg (by omega), if_pos (by omega), Mat.lower_eq L (k + m) i (by omega)]
    · push_neg at hi1
      by_cases hi2 : i < k + nb
      · obtain ⟨i1, rfl⟩ : ∃ i1, i = k + i1 := ⟨i - k, by omega⟩
        rw [if_pos hi2]
        by_cases hj1 : j < k
        · -- the block A10
          rw [HegstTrueLStep_A10 L n k nb S i1 j (by omega) hj1]
          rw [← hegst_A10_eq A0.hermLower L.lower hl h2 k nb (k + i1) j (by omega)]
          refine Finset.sum_congr rfl (fun m hm => ?_)
          have hm' := Finset.mem_range.mp hm
          rw [h.hegstX hn m j hm' (by omega), h.2.2 (k + m) j (by omega) (by omega),
            if_neg (by omega), if_pos hj1]
        · -- the block A11
          push_neg at hj1
          obtain ⟨j1, rfl⟩ : ∃ j1, j = k + j1 := ⟨j - k, by omega⟩
          rw [HegstTrueLStep_A11 L n k nb S i1 j1 (by omega) (by omega), if_pos (by omega)]
          rw [← hegst_A11_eq A0.hermLower L.lower hl k nb (k + i1) (k + j1) (by omega) (by omega)]
          refine Finset.sum_congr rfl (fun p hp => ?_)
          have hp' := Finset.mem_range.mp hp
          refine Finset.sum_congr rfl (fun q hq => ?_)
          have hq' := Finset.mem_range.mp hq
          rw [h.hermLower (k + p) (k + q) (by omega) (by omega) (by omega) (by omega)]
      · push_neg at hi2
        obtain ⟨i1, rfl⟩ : ∃ i1, i = k + nb + i1 := ⟨i - (k + nb), by omega⟩
        rw [if_neg (by omega), if_pos hj]
        by_cases hj1 : j < k
        · -- the block A20
          rw [HegstTrueLStep_A20 L n k nb S i1 j (by omega) hj1]
          rw [partialAL_add, add_comm]
          congr 1
          · rw [h.2.2 (k + nb + i1) j (by omega) hi, if_neg (by omega), if_pos hj1]
          · refine Finset.sum_congr rfl (fun m hm => ?_)
            have hm' := Finset.mem_range.mp hm
            rw [h.2.2 (k + nb + i1) (k + m) (by omega) hi, if_neg (by omega), if_neg (by omega),
              Mat.lower_eq L (k + m) j (by omega)]
            unfold Mat.hermLower
            rw [if_pos (by omega)]
        · -- the block A21
          push_neg at hj1
          obtain ⟨j1, rfl⟩ : ∃ j1, j = k + j1 := ⟨j - k, by omega⟩
          rw [HegstTrueLStep_A21 L n k nb S i1 j1 (by omega) (by omega)]
          rw [← hegst_A21_eq A0.hermLower L.lower hl k nb (k + nb + i1) (k + j1) (by omega)]
          refine Finset.sum_congr rfl (fun m hm => ?_)
          have hm' := Finset.mem_range.mp hm
          rw [h.2.2 (k + nb + i1) (k + m) (by omega) hi, if_neg (by omega), if_neg (by omega)]
          unfold Mat.hermLower
          rw [if_pos (by omega)]

end HegstInvariant
end Elemental

namespace Elemental

section HegstClaims

variable {F : Type} [Field F] [StarRing F]

theorem HegstTrueLLoop_spec (A0 L : Mat F) (n bsize : Nat) (h2 : (2 : F) ≠ 0)
    (hA : ∀ i, i < n → star (A0.entry i i) = A0.entry i i) (hbs : 1 ≤ bsize) :
    ∀ (fuel k : Nat) (S : Mat F), k ≤ n → n - k ≤ fuel → HegstInv A0 L n k S →
      ∃ S1, HegstTrueLLoop L n bsize fuel k S = some S1 ∧ HegstInv A0 L n n S1 := by
  intro fuel
  induction fuel with
  | zero =>
    intro k S hk hf h
    have hkn : k = n := by omega
    subst hkn
    exact ⟨S, by simp [HegstTrueLLoop], h⟩
  | succ fuel ih =>
    intro k S hk hf h
    by_cases hkn : k < n
    · simp only [HegstTrueLLoop, hkn, if_true]
      have hnb : k + min bsize (n - k) ≤ n := by omega
      exact ih (k + min bsize (n - k)) _ hnb (by omega)
        (HegstTrueLStep_inv A0 L n k (min bsize (n - k)) S h2 hA hnb h)
    · have hkn' : k = n := by omega
      subst hkn'
      exact ⟨S, by simp [HegstTrueLLoop], h⟩

theorem congruenceEntry_eq (A L : Mat F) (n i j : Nat) :
    congruenceEntry A L n i j = partialLAL A.hermLower L.lower n i j := by
  unfold congruenceEntry partialLAL partialAL
  refine Finset.sum_congr rfl (fun p _ => ?_)
  rw [Finset.mul_sum]
  refine Finset.sum_congr rfl (fun q _ => ?_)
  ring

/-- C6: for every `n`, every blocksize `≥ 1`, every Hermitian `n x n` matrix `A`
given by its lower triangle (real diagonal) and every lower-triangular `n x n` matrix
`L`, `HegstTrueL` (given `n` iterations of fuel, in a field where `2 ≠ 0`) overwrites
the lower triangle of `A` with the lower triangle of the congruence `L' A L`, the
redistributions being entry-preserving copies and the local kernels exact. -/
theorem HegstTrueL_correct (A L : Mat F) (n bsize fuel : Nat) (h2 : (2 : F) ≠ 0)
    (hbs : 1 ≤ bsize) (hAh : A.height = n) (hAw : A.width = n)
    (hA : ∀ i, i < n → star (A.entry i i) = A.entry i i) (hfuel : n ≤ fuel) :
    ∃ A1, HegstTrueL A L bsize fuel = some A1 ∧ A1.height = n ∧ A1.width = n ∧
      ∀ i j, j ≤ i → i < n → A1.entry i j = congruenceEntry A L n i j := by
  have h0 : HegstInv A L n 0 A := by
    refine ⟨hAh, hAw, fun i j _ _ => ?_⟩
    rw [if_neg (by omega), if_neg (by omega)]
  obtain ⟨S1, h1, h3⟩ := HegstTrueLLoop_spec A L n bsize h2 hA hbs fuel 0 A (by omega)
    (by omega) h0
  refine ⟨S1, by unfold HegstTrueL; rw [hAh]; exact h1, h3.1, h3.2.1, fun i j hji hi => ?_⟩
  rw [h3.2.2 i j hji hi, if_pos hi, congruenceEntry_eq]

/-- Witness for C6: the `2 x 2` example with blocksize 1. -/
theorem HegstTrueL_correct_witness :
    (2 : ℚ) ≠ 0 ∧ 1 ≤ 1 ∧ hegstA.height = 2 ∧ hegstA.width = 2 ∧
    (∀ i, i < 2 → star (hegstA.entry i i) = hegstA.entry i i) ∧ 2 ≤ 2 ∧
    ∃ A1, HegstTrueL hegstA hegstL 1 2 = some A1 ∧ A1.height = 2 ∧ A1.width = 2 ∧
      ∀ i j, j ≤ i → i < 2 → A1.entry i j = congruenceEntry hegstA hegstL 2 i j :=
  ⟨two_ne_zero, le_refl 1, rfl, rfl, fun _ _ => rfl, le_refl 2,
    HegstTrueL_correct hegstA hegstL 2 1 2 two_ne_zero (le_refl 1) rfl rfl (fun _ _ => rfl)
      (le_refl 2)⟩

/-- The congruence of the example: `L' A L` has the lower triangle `18; 7, 3`. -/
theorem HegstTrueL_example :
    congruenceEntry hegstA hegstL 2 0 0 = 18 ∧ congruenceEntry hegstA hegstL 2 1 0 = 7 ∧
    congruenceEntry hegstA hegstL 2 1 1 = 3 := by
  simp [congruenceEntry, Finset.sum_range_succ, Mat.lower, Mat.hermLower, hegstA, hegstL]
  norm_num

end HegstClaims
end Elemental

namespace Elemental

section ForwardSolve

variable {F : Type} [Field F] [StarRing F]

theorem forwardSolve_of_lt (l b : Nat → Nat → F) (m d i j : Nat) (hi : i < m) :
    forwardSolve l b (m + d) i j = forwardSolve l b m i j := by
  induction d with
  | zero => rfl
  | succ d ih =>
    rw [← Nat.add_assoc, forwardSolve, if_neg (by omega), ih]

theorem forwardSolve_eq_row (l b : Nat → Nat → F) (n i j : Nat) (hi : i < n) :
    forwardSolve l b n i j = forwardSolve l b (i + 1) i j := by
  obtain ⟨d, rfl⟩ : ∃ d, n = i + 1 + d := ⟨n - (i + 1), by omega⟩
  exact forwardSolve_of_lt l b (i + 1) d i j (by omega)

theorem forwardSolve_row (l b : Nat → Nat → F) (n i j : Nat) (hi : i < n) :
    forwardSolve l b n i j
      = (b i j - ∑ p in Finset.range i, l i p * forwardSolve l b n p j) / l i i := by
  rw [forwardSolve_eq_row l b n i j hi, forwardSolve, if_pos rfl]
  congr 2
  refine Finset.sum_congr rfl (fun p hp => ?_)
  have hp' := Finset.mem_range.mp hp
  obtain ⟨d, rfl⟩ : ∃ d, n = i + d := ⟨n - i, by omega⟩
  rw [forwardSolve_of_lt l b i d p j hp']

/-- Forward substitution solves the triangular system. -/
theorem forwardSolve_spec (l b : Nat → Nat → F) (n : Nat) (hl : IsLowerInvertible l n)
    (i j : Nat) (hi : i < n) :
    ∑ p in Finset.range n, l i p * forwardSolve l b n p j = b i j := by
  obtain ⟨d, hd⟩ : ∃ d, n = i + 1 + d := ⟨n - (i + 1), by omega⟩
  rw [hd, Finset.sum_range_add, Finset.sum_range_succ, ← hd]
  have hz : ∑ x in Finset.range d, l i (i + 1 + x) * forwardSolve l b n (i + 1 + x) j = 0 := by
    refine Finset.sum_eq_zero (fun x _ => ?_)
    rw [hl.1 i (i + 1 + x) (by omega), zero_mul]
  rw [hz, add_zero, forwardSolve_row l b n i j hi]
  have := hl.2 i hi
  field_simp

/-- A triangular system with zero right-hand side has the zero solution only. -/
theorem lower_cancel (l : Nat → Nat → F) (n : Nat) (hl : IsLowerInvertible l n)
    (z : Nat → F) (h : ∀ i, i < n → ∑ p in Finset.range n, l i p * z p = 0) :
    ∀ i, i < n → z i = 0 := by
  intro i
  induction i using Nat.strong_induction_on with
  | _ i ih =>
    intro hi
    have h1 := h i hi
    obtain ⟨d, hd⟩ : ∃ d, n = i + 1 + d := ⟨n - (i + 1), by omega⟩
    rw [hd, Finset.sum_range_add, Finset.sum_range_succ] at h1
    have hz1 : ∑ x in Finset.range d, l i (i + 1 + x) * z (i + 1 + x) = 0 := by
      refine Finset.sum_eq_zero (fun x _ => ?_)
      rw [hl.1 i (i + 1 + x) (by omega), zero_mul]
    have hz2 : ∑ x in Finset.range i, l i x * z x = 0 := by
      refine Finset.sum_eq_zero (fun x hx => ?_)
      have hx' := Finset.mem_range.mp hx
      rw [ih x hx' (by omega), mul_zero]
    rw [hz1, hz2, zero_add, add_zero] at h1
    exact (mul_eq_zero.mp h1).resolve_left (hl.2 i hi)

/-- Two-sided cancellation: `L Z L' = 0` forces `Z = 0`. -/
theorem lower_cancel_two_sided (l : Nat → Nat → F) (n : Nat) (hl : IsLowerInvertible l n)
    (Z : Nat → Nat → F)
    (h : ∀ i j, i < n → j < n →
      ∑ p in Finset.range n, ∑ q in Finset.range n, l i p * Z p q * star (l j q) = 0) :
    ∀ i j, i < n → j < n → Z i j = 0 := by
  -- first remove the left factor
  have h1 : ∀ j, j < n → ∀ p, p < n → ∑ q in Finset.range n, Z p q * star (l j q) = 0 := by
    intro j hj
    apply lower_cancel l n hl (fun p => ∑ q in Finset.range n, Z p q * star (l j q))
    intro i hi
    rw [← h i j hi hj]
    refine Finset.sum_congr rfl (fun p _ => ?_)
    rw [Finset.mul_sum]
    refine Finset.sum_congr rfl (fun q _ => ?_)
    ring
  -- then the right factor
  intro i j hi hj
  have h2 : ∀ q, q < n → star (Z i q) = 0 := by
    apply lower_cancel l n hl (fun q => star (Z i q))
    intro j1 hj1
    have := congrArg star (h1 j1 hj1 i hi)
    rw [star_sum, star_zero] at this
    rw [← this]
    refine Finset.sum_congr rfl (fun q _ => ?_)
    rw [star_mul', star_star]
    ring
  have := h2 j hj
  rwa [star_eq_zero] at this

end ForwardSolve
end Elemental

namespace Elemental

section TrsmKernels

variable {F : Type} [Field F] [StarRing F]

theorem forwardSolve_congr (l b1 b2 : Nat → Nat → F) (n j : Nat)
    (h : ∀ i, i < n → b1 i j = b2 i j) :
    ∀ i, forwardSolve l b1 n i j = forwardSolve l b2 n i j := by
  induction n with
  | zero => intro i; rfl
  | succ m ih =>
    intro i
    have ih' := ih (fun i hi => h i (by omega))
    rw [forwardSolve, forwardSolve]
    by_cases hi : i = m
    · rw [if_pos hi, if_pos hi, h m (by omega)]
      congr 2
      exact Finset.sum_congr rfl (fun p _ => by rw [ih' p])
    · rw [if_neg hi, if_neg hi, ih' i]

theorem rightSolveAdjoint_spec (l x : Nat → Nat → F) (n : Nat) (hl : IsLowerInvertible l n)
    (i j : Nat) (hj : j < n) :
    ∑ q in Finset.range n, rightSolveAdjoint l x n i q * star (l j q) = x i j := by
  have h := congrArg star (forwardSolve_spec l (fun p q => star (x q p)) n hl j i hj)
  rw [star_sum, star_star] at h
  rw [← h]
  refine Finset.sum_congr rfl (fun q _ => ?_)
  rw [star_mul']
  unfold rightSolveAdjoint
  ring

theorem twoSidedSolve_spec (l a : Nat → Nat → F) (n : Nat) (hl : IsLowerInvertible l n)
    (i j : Nat) (hi : i < n) (hj : j < n) :
    ∑ p in Finset.range n, ∑ q in Finset.range n,
        l i p * twoSidedSolve l a n p q * star (l j q) = a i j := by
  rw [← forwardSolve_spec l a n hl i j hi]
  refine Finset.sum_congr rfl (fun p _ => ?_)
  rw [← rightSolveAdjoint_spec l (forwardSolve l a n) n hl p j hj, Finset.mul_sum]
  refine Finset.sum_congr rfl (fun q _ => ?_)
  unfold twoSidedSolve
  ring

theorem twoSidedSolve_hermitian (l a : Nat → Nat → F) (n : Nat) (hl : IsLowerInvertible l n)
    (ha : ∀ i j, i < n → j < n → star (a i j) = a j i) (i j : Nat) (hi : i < n) (hj : j < n) :
    star (twoSidedSolve l a n i j) = twoSidedSolve l a n j i := by
  have hz := lower_cancel_two_sided l n hl
    (fun p q => star (twoSidedSolve l a n q p) - twoSidedSolve l a n p q) ?_ j i hj hi
  · exact sub_eq_zero.mp hz
  · intro x y hx hy
    have h1 := twoSidedSolve_spec l a n hl x y hx hy
    have h2 := congrArg star (twoSidedSolve_spec l a n hl y x hy hx)
    rw [ha y x hy hx, star_sum] at h2
    simp only [star_sum, star_mul', star_star] at h2
    rw [Finset.sum_comm] at h2
    rw [← sub_self (a x y)]
    nth_rewrite 1 [← h2]
    rw [← h1, ← Finset.sum_sub_distrib]
    refine Finset.sum_congr rfl (fun p _ => ?_)
    rw [← Finset.sum_sub_distrib]
    refine Finset.sum_congr rfl (fun q _ => ?_)
    ring

end TrsmKernels
end Elemental

namespace Elemental

section BlockLemma

variable {F : Type} [Field F] [StarRing F]

theorem sandwich_hermitian (l f : Nat → Nat → F) (m : Nat)
    (hf : ∀ p q, p < m → q < m → star (f p q) = f q p) (i j : Nat) :
    star (sandwich l f m i j) = sandwich l f m j i := by
  unfold sandwich
  rw [star_sum, Finset.sum_comm]
  refine Finset.sum_congr rfl (fun q hq => ?_)
  rw [star_sum]
  refine Finset.sum_congr rfl (fun p hp => ?_)
  rw [star_mul', star_mul', star_star, hf q p (Finset.mem_range.mp hq) (Finset.mem_range.mp hp)]
  ring

theorem sandwich_split (l f : Nat → Nat → F) (nb m2 i j : Nat) :
    sandwich l f (nb + m2) i j
      = (∑ p in Finset.range nb, ∑ q in Finset.range nb, l i p * f p q * star (l j q))
        + (∑ p in Finset.range nb, ∑ q in Finset.range m2,
            l i p * f p (nb + q) * star (l j (nb + q)))
        + (∑ p in Finset.range m2, ∑ q in Finset.range nb,
            l i (nb + p) * f (nb + p) q * star (l j q))
        + ∑ p in Finset.range m2, ∑ q in Finset.range m2,
            l i (nb + p) * f (nb + p) (nb + q) * star (l j (nb + q)) := by
  unfold sandwich
  rw [Finset.sum_range_add]
  simp only [Finset.sum_range_add, Finset.sum_add_distrib]
  ring

/-- The block recursion behind `TwoSidedTrsmLVar5`: if the leading block of `f` is
the two-sided solve of the leading block of `s`, the panel below it solves
`L22 F21 = Z - Y` with `Z L11' = S21` and `Y = L21 F11`, and the trailing block of
`f` is a two-sided solve of the updated trailing block of `s`, then `f` is a two-sided
solve of `s`. -/
theorem sandwich_block (l s f Z : Nat → Nat → F) (nb m2 : Nat) (h2 : (2 : F) ≠ 0)
    (hl : ∀ i p, i < p → l i p = 0)
    (hs : ∀ i j, i < nb + m2 → j < nb + m2 → star (s i j) = s j i)
    (hf : ∀ p q, p < nb + m2 → q < nb + m2 → star (f p q) = f q p)
    (hZ : ∀ r y, r < m2 → y < nb →
      ∑ q in Finset.range nb, Z r q * star (l y q) = s (nb + r) y)
    (h11 : ∀ x y, x < nb → y < nb → sandwich l f nb x y = s x y)
    (h21 : ∀ r y, r < m2 → y < nb →
      ∑ p in Finset.range m2, l (nb + r) (nb + p) * f (nb + p) y
        = Z r y - ∑ x in Finset.range nb, l (nb + r) x * f x y)
    (h22 : ∀ r t, r < m2 → t < m2 →
      ∑ p in Finset.range m2, ∑ q in Finset.range m2,
          l (nb + r) (nb + p) * f (nb + p) (nb + q) * star (l (nb + t) (nb + q))
        = s (nb + r) (nb + t)
          - ((∑ y in Finset.range nb, l (nb + r) y
                * star (Z t y - 1 / 2 * ∑ x in Finset.range nb, l (nb + t) x * f x y))
            + ∑ y in Finset.range nb,
                (Z r y - 1 / 2 * ∑ x in Finset.range nb, l (nb + r) x * f x y)
                  * star (l (nb + t) y))) :
    ∀ i j, i < nb + m2 → j < nb + m2 → sandwich l f (nb + m2) i j = s i j := by
  -- the case of a row in the trailing block and a column in the leading block
  have hRQ : ∀ r y, r < m2 → y < nb → sandwich l f (nb + m2) (nb + r) y = s (nb + r) y := by
    intro r y hr hy
    rw [sandwich_split]
    have z1 : ∑ p in Finset.range nb, ∑ q in Finset.range m2,
        l (nb + r) p * f p (nb + q) * star (l y (nb + q)) = 0 := by
      refine Finset.sum_eq_zero (fun p _ => Finset.sum_eq_zero (fun q _ => ?_))
      rw [hl y (nb + q) (by omega), star_zero, mul_zero]
    have z2 : ∑ p in Finset.range m2, ∑ q in Finset.range m2,
        l (nb + r) (nb + p) * f (nb + p) (nb + q) * star (l y (nb + q)) = 0 := by
      refine Finset.sum_eq_zero (fun p _ => Finset.sum_eq_zero (fun q _ => ?_))
      rw [hl y (nb + q) (by omega), star_zero, mul_zero]
    rw [z1, z2, add_zero, add_zero, ← hZ r y hr hy]
    rw [Finset.sum_comm, Finset.sum_comm (s := Finset.range m2), ← Finset.sum_add_distrib]
    refine Finset.sum_congr rfl (fun q hq => ?_)
    have hq' := Finset.mem_range.mp hq
    have e := h21 r q hr hq'
    rw [← Finset.sum_mul, ← Finset.sum_mul, e, ← add_mul]
    congr 1
    ring
  intro i j hi hj
  by_cases hi1 : i < nb
  · by_cases hj1 : j < nb
    · -- both in the leading block
      rw [sandwich_split, ← h11 i j hi1 hj1]
      have z1 : ∑ p in Finset.range nb, ∑ q in Finset.range m2,
          l i p * f p (nb + q) * star (l j (nb + q)) = 0 := by
        refine Finset.sum_eq_zero (fun p _ => Finset.sum_eq_zero (fun q _ => ?_))
        rw [hl j (nb + q) (by omega), star_zero, mul_zero]
      have z2 : ∑ p in Finset.range m2, ∑ q in Finset.range nb,
          l i (nb + p) * f (nb + p) q * star (l j q) = 0 := by
        refine Finset.sum_eq_zero (fun p _ => Finset.sum_eq_zero (fun q _ => ?_))
        rw [hl i (nb + p) (by omega), zero_mul, zero_mul]
      have z3 : ∑ p in Finset.range m2, ∑ q in Finset.range m2,
          l i (nb + p) * f (nb + p) (nb + q) * star (l j (nb + q)) = 0 := by
        refine Finset.sum_eq_zero (fun p _ => Finset.sum_eq_zero (fun q _ => ?_))
        rw [hl i (nb + p) (by omega), zero_mul, zero_mul]
      rw [z1, z2, z3, add_zero, add_zero, add_zero]
      rfl
    · -- row in the leading block, column in the trailing block
      obtain ⟨t, rfl⟩ : ∃ t, j = nb + t := ⟨j - nb, by omega⟩
      rw [← sandwich_hermitian l f (nb + m2) hf (nb + t) i, hRQ t i (by omega) hi1,
        hs (nb + t) i hj hi]
  · obtain ⟨r, rfl⟩ : ∃ r, i = nb + r := ⟨i - nb, by omega⟩
    by_cases hj1 : j < nb
    · exact hRQ r j (by omega) hj1
    · -- both in the trailing block
      obtain ⟨t, rfl⟩ : ∃ t, j = nb + t := ⟨j - nb, by omega⟩
      have hr : r < m2 := by omega
      have ht : t < m2 := by omega
      rw [sandwich_split, h22 r t hr ht]
      -- abbreviations of the four sums over the leading block
      set Yr : Nat → F := fun y => ∑ x in Finset.range nb, l (nb + r) x * f x y with hYr
      set Yt : Nat → F := fun y => ∑ x in Finset.range nb, l (nb + t) x * f x y with hYt
      have gQQ : ∑ p in Finset.range nb, ∑ q in Finset.range nb,
          l (nb + r) p * f p q * star (l (nb + t) q)
          = ∑ y in Finset.range nb, Yr y * star (l (nb + t) y) := by
        rw [Finset.sum_comm]
        refine Finset.sum_congr rfl (fun y _ => ?_)
        rw [hYr, Finset.sum_mul]
      have gRQ : ∑ p in Finset.range m2, ∑ q in Finset.range nb,
          l (nb + r) (nb + p) * f (nb + p) q * star (l (nb + t) q)
          = ∑ y in Finset.range nb, (Z r y - Yr y) * star (l (nb + t) y) := by
        rw [Finset.sum_comm]
        refine Finset.sum_congr rfl (fun y hy => ?_)
        rw [← Finset.sum_mul, h21 r y hr (Finset.mem_range.mp hy)]
      have gQR : ∑ p in Finset.range nb, ∑ q in Finset.range m2,
          l (nb + r) p * f p (nb + q) * star (l (nb + t) (nb + q))
          = ∑ y in Finset.range nb, l (nb + r) y * star (Z t y - Yt y) := by
        refine Finset.sum_congr rfl (fun y hy => ?_)
        have hy' := Finset.mem_range.mp hy
        rw [← h21 t y ht hy', star_sum, Finset.mul_sum]
        refine Finset.sum_congr rfl (fun q hq => ?_)
        have hq' := Finset.mem_range.mp hq
        rw [star_mul', hf (nb + q) y (by omega) (by omega)]
        ring
      have hsym : ∑ y in Finset.range nb, l (nb + r) y * star (Yt y)
          = ∑ y in Finset.range nb, Yr y * star (l (nb + t) y) := by
        rw [hYr, hYt]
        simp only [star_sum, Finset.mul_sum, Finset.sum_mul]
        rw [Finset.sum_comm]
        refine Finset.sum_congr rfl (fun x hx => ?_)
        refine Finset.sum_congr rfl (fun y hy => ?_)
        rw [star_mul', hf x y (by have := Finset.mem_range.mp hx; omega)
          (by have := Finset.mem_range.mp hy; omega)]
        ring
      rw [gQQ, gRQ, gQR]
      have e1 : ∑ y in Finset.range nb, l (nb + r) y * star (Z t y - 1 / 2 * Yt y)
          = (∑ y in Finset.range nb, l (nb + r) y * star (Z t y))
            - 1 / 2 * ∑ y in Finset.range nb, l (nb + r) y * star (Yt y) := by
        rw [Finset.mul_sum, ← Finset.sum_sub_distrib]
        refine Finset.sum_congr rfl (fun y _ => ?_)
        rw [star_sub, star_mul', star_div₀, star_one, star_ofNat]
        ring
      have e2 : ∑ y in Finset.range nb, (Z r y - 1 / 2 * Yr y) * star (l (nb + t) y)
          = (∑ y in Finset.range nb, Z r y * star (l (nb + t) y))
            - 1 / 2 * ∑ y in Finset.range nb, Yr y * star (l (nb + t) y) := by
        rw [Finset.mul_sum, ← Finset.sum_sub_distrib]
        refine Finset.sum_congr rfl (fun y _ => ?_)
        ring
      have e3 : ∑ y in Finset.range nb, (Z r y - Yr y) * star (l (nb + t) y)
          = (∑ y in Finset.range nb, Z r y * star (l (nb + t) y))
            - ∑ y in Finset.range nb, Yr y * star (l (nb + t) y) := by
        rw [← Finset.sum_sub_distrib]
        refine Finset.sum_congr rfl (fun y _ => ?_)
        ring
      have e4 : ∑ y in Finset.range nb, l (nb + r) y * star (Z t y - Yt y)
          = (∑ y in Finset.range nb, l (nb + r) y * star (Z t y))
            - ∑ y in Finset.range nb, l (nb + r) y * star (Yt y) := by
        rw [← Finset.sum_sub_distrib]
        refine Finset.sum_congr rfl (fun y _ => ?_)
        rw [star_sub]
        ring
      rw [e1, e2, e3, e4, hsym]
      field_simp
      ring

end BlockLemma
end Elemental

namespace Elemental

section TwoSidedTrsmStep

variable {F : Type} [Field F] [StarRing F]

@[simp] theorem TrsmLeftLowerNormal_height (diag : UnitOrNonUnit) (alpha : F) (L X : Mat F) :
    (TrsmLeftLowerNormal diag alpha L X).height = X.height := rfl
@[simp] theorem TrsmLeftLowerNormal_width (diag : UnitOrNonUnit) (alpha : F) (L X : Mat F) :
    (TrsmLeftLowerNormal diag alpha L X).width = X.width := rfl
@[simp] theorem TrsmRightLowerAdjoint_height (diag : UnitOrNonUnit) (alpha : F) (L X : Mat F) :
    (TrsmRightLowerAdjoint diag alpha L X).height = X.height := rfl
@[simp] theorem TrsmRightLowerAdjoint_width (diag : UnitOrNonUnit) (alpha : F) (L X : Mat F) :
    (TrsmRightLowerAdjoint diag alpha L X).width = X.width := rfl
@[simp] theorem TwoSidedTrsmLUnb_height (diag : UnitOrNonUnit) (A L : Mat F) :
    (TwoSidedTrsmLUnb diag A L).height = A.height := rfl
@[simp] theorem TwoSidedTrsmLUnb_width (diag : UnitOrNonUnit) (A L : Mat F) :
    (TwoSidedTrsmLUnb diag A L).width = A.width := rfl
@[simp] theorem Her2kLowerNormal_height (alpha : F) (A B : Mat F) (beta : F) (C : Mat F) :
    (Her2kLowerNormal alpha A B beta C).height = C.height := rfl
@[simp] theorem Her2kLowerNormal_width (alpha : F) (A B : Mat F) (beta : F) (C : Mat F) :
    (Her2kLowerNormal alpha A B beta C).width = C.width := rfl

theorem Mat.view_lowerDiag (diag : UnitOrNonUnit) (L : Mat F) (k nb : Nat) :
    (L.view k k nb nb).lowerDiag diag = trailL diag L k := by
  funext i j
  simp only [Mat.lowerDiag, trailL, Mat.view_entry, Nat.add_lt_add_iff_left,
    Nat.add_left_cancel_iff]

theorem Mat.view_hermLower (S : Mat F) (k nb : Nat) :
    (S.view k k nb nb).hermLower = trailA S k := by
  funext i j
  exact Mat.view_hermLower_diag S k nb i j

theorem trailA_hermitian (S : Mat F) (k nb : Nat)
    (hS : ∀ i, i < nb → star (S.entry (k + i) (k + i)) = S.entry (k + i) (k + i))
    (i j : Nat) (hi : i < nb) (hj : j < nb) : star (trailA S k i j) = trailA S k j i := by
  simp only [trailA, Mat.hermLower]
  by_cases h1 : k + j ≤ k + i
  · by_cases h2 : k + i ≤ k + j
    · have : i = j := by omega
      subst this
      rw [if_pos h1, hS i hi]
    · rw [if_pos h1, if_neg h2]
  · rw [if_neg h1, if_pos (by omega), star_star]

theorem trailL_lower (diag : UnitOrNonUnit) (L : Mat F) (k i p : Nat) (h : i < p) :
    trailL diag L k i p = 0 := by
  simp only [trailL, Mat.lowerDiag]
  rw [if_neg (by omega), if_neg (by omega)]

theorem trailL_entry (diag : UnitOrNonUnit) (L : Mat F) (k i p : Nat) (h : p < i) :
    trailL diag L k i p = L.entry (k + i) (k + p) := by
  simp only [trailL, Mat.lowerDiag]
  rw [if_pos (by omega)]

theorem trailL_add (diag : UnitOrNonUnit) (L : Mat F) (k nb i p : Nat) :
    trailL diag L (k + nb) i p = trailL diag L k (nb + i) (nb + p) := by
  simp only [trailL, Nat.add_assoc]

theorem trailA_add (S : Mat F) (k nb i p : Nat) :
    trailA S (k + nb) i p = trailA S k (nb + i) (nb + p) := by
  simp only [trailA, Nat.add_assoc]

theorem lvar5F11_hermitian (diag : UnitOrNonUnit) (L : Mat F) (k nb : Nat) (S : Mat F)
    (hl : IsLowerInvertible (trailL diag L k) nb)
    (hS : ∀ i, i < nb → star (S.entry (k + i) (k + i)) = S.entry (k + i) (k + i))
    (i j : Nat) (hi : i < nb) (hj : j < nb) :
    star (lvar5F11 diag L k nb S i j) = lvar5F11 diag L k nb S j i :=
  twoSidedSolve_hermitian _ _ nb hl (trailA_hermitian S k nb hS) i j hi hj

/-- The unblocked kernel writes the two-sided solve into the lower triangle. -/
theorem TwoSidedTrsmLUnb_entry (diag : UnitOrNonUnit) (L : Mat F) (k nb : Nat) (S : Mat F)
    (x y : Nat) (h : y ≤ x) :
    (TwoSidedTrsmLUnb diag (S.view k k nb nb) (L.view k k nb nb)).entry x y
      = lvar5F11 diag L k nb S x y := by
  simp only [TwoSidedTrsmLUnb, Mat.view_height]
  rw [if_pos h, Mat.view_lowerDiag, Mat.view_hermLower]
  rfl

/-- The block `A11` after `TwoSidedTrsmLUnb`, read as a Hermitian matrix by `Hemm`. -/
theorem lvar5_A11_hermLower (diag : UnitOrNonUnit) (L : Mat F) (k nb : Nat) (S : Mat F)
    (hl : IsLowerInvertible (trailL diag L k) nb)
    (hS : ∀ i, i < nb → star (S.entry (k + i) (k + i)) = S.entry (k + i) (k + i))
    (x y : Nat) (hx : x < nb) (hy : y < nb) :
    ((S.setBlock k k (TwoSidedTrsmLUnb diag (S.view k k nb nb) (L.view k k nb nb))).view
        k k nb nb).hermLower x y = lvar5F11 diag L k nb S x y := by
  simp only [Mat.hermLower, Mat.view_entry]
  by_cases h : y ≤ x
  · rw [if_pos h, Mat.setBlock_entry_in _ _ _ _ x y _ _ rfl rfl (by simpa using hx)
      (by simpa using hy), TwoSidedTrsmLUnb_entry diag L k nb S x y h]
  · rw [if_neg h, Mat.setBlock_entry_in _ _ _ _ y x _ _ rfl rfl (by simpa using hy)
      (by simpa using hx), TwoSidedTrsmLUnb_entry diag L k nb S y x (by omega),
      lvar5F11_hermitian diag L k nb S hl hS y x hy hx]

/-- The temporary `Y21` of one pass. -/
theorem lvar5_Y21_entry (diag : UnitOrNonUnit) (L : Mat F) (n k nb : Nat) (S : Mat F)
    (hl : IsLowerInvertible (trailL diag L k) nb)
    (hS : ∀ i, i < nb → star (S.entry (k + i) (k + i)) = S.entry (k + i) (k + i))
    (r y : Nat) (hy : y < nb) :
    (HemmRightLower 1
        ((S.setBlock k k (TwoSidedTrsmLUnb diag (S.view k k nb nb) (L.view k k nb nb))).view
          k k nb nb)
        (L.view (k + nb) k (n - (k + nb)) nb) 0 (Mat.zeros (n - (k + nb)) nb)).entry r y
      = lvar5Y diag L k nb S r y := by
  simp only [HemmRightLower, Mat.view_height, one_mul, Mat.zeros_entry, mul_zero, add_zero,
    lvar5Y]
  refine Finset.sum_congr rfl (fun x hx => ?_)
  rw [lvar5_A11_hermLower diag L k nb S hl hS x y (Finset.mem_range.mp hx) hy]
  rfl

/-- The block `A21 inv(L11)'` of one pass. -/
theorem lvar5_Z_entry (diag : UnitOrNonUnit) (L : Mat F) (n k nb : Nat) (S : Mat F)
    (r y : Nat) :
    (TrsmRightLowerAdjoint diag 1 (L.view k k nb nb)
        ((S.setBlock k k (TwoSidedTrsmLUnb diag (S.view k k nb nb) (L.view k k nb nb))).view
          (k + nb) k (n - (k + nb)) nb)).entry r y
      = lvar5Z diag L k nb S r y := by
  simp only [TrsmRightLowerAdjoint, Mat.view_height, one_mul, lvar5Z, rightSolveAdjoint]
  rw [Mat.view_lowerDiag]
  congr 1
  apply forwardSolve_congr
  intro i hi
  simp only [Mat.view_entry]
  rw [Mat.setBlock_entry_out _ _ _ _ _ _ (by simp <;> omega)]

end TwoSidedTrsmStep
end Elemental

namespace Elemental

section TwoSidedTrsmRegions

variable {F : Type} [Field F] [StarRing F]

theorem TwoSidedTrsmLVar5Step_dims (diag : UnitOrNonUnit) (L : Mat F) (n k nb : Nat)
    (S : Mat F) :
    (TwoSidedTrsmLVar5Step diag L n k nb S).height = S.height ∧
    (TwoSidedTrsmLVar5Step diag L n k nb S).width = S.width := ⟨rfl, rfl⟩

/-- One pass leaves the rows and the columns before `k` alone. -/
theorem TwoSidedTrsmLVar5Step_frame (diag : UnitOrNonUnit) (L : Mat F) (n k nb : Nat)
    (S : Mat F) (i j : Nat) (h : i < k ∨ j < k) :
    (TwoSidedTrsmLVar5Step diag L n k nb S).entry i j = S.entry i j := by
  unfold TwoSidedTrsmLVar5Step
  simp only []
  rw [Mat.setBlock_entry_out _ _ _ _ _ _ (by simp <;> omega),
    Mat.setBlock_entry_out _ _ _ _ _ _ (by simp <;> omega),
    Mat.setBlock_entry_out _ _ _ _ _ _ (by simp <;> omega),
    Mat.setBlock_entry_out _ _ _ _ _ _ (by simp <;> omega),
    Mat.setBlock_entry_out _ _ _ _ _ _ (by simp <;> omega),
    Mat.setBlock_entry_out _ _ _ _ _ _ (by simp <;> omega)]

/-- Entries of the lower triangle of the block `A11` after one pass. -/
theorem TwoSidedTrsmLVar5Step_A11 (diag : UnitOrNonUnit) (L : Mat F) (n k nb : Nat)
    (S : Mat F) (x y : Nat) (hx : x < nb) (hy : y ≤ x) :
    (TwoSidedTrsmLVar5Step diag L n k nb S).entry (k + x) (k + y)
      = lvar5F11 diag L k nb S x y := by
  unfold TwoSidedTrsmLVar5Step
  simp only []
  rw [Mat.setBlock_entry_out _ _ _ _ _ _ (by simp <;> omega),
    Mat.setBlock_entry_out _ _ _ _ _ _ (by simp <;> omega),
    Mat.setBlock_entry_out _ _ _ _ _ _ (by simp <;> omega),
    Mat.setBlock_entry_out _ _ _ _ _ _ (by simp <;> omega),
    Mat.setBlock_entry_out _ _ _ _ _ _ (by simp <;> omega),
    Mat.setBlock_entry_in _ _ _ _ x y _ _ rfl rfl (by simpa using hx)
      (by simp only [TwoSidedTrsmLUnb_width, Mat.view_width]; omega),
    TwoSidedTrsmLUnb_entry diag L k nb S x y hy]

/-- Entries of the block `A21` before the last solve of one pass: `Z - Y`. -/
theorem lvar5_A21_before (diag : UnitOrNonUnit) (L : Mat F) (n k nb : Nat) (S : Mat F)
    (h2 : (2 : F) ≠ 0)
    (hl : IsLowerInvertible (trailL diag L k) nb)
    (hS : ∀ i, i < nb → star (S.entry (k + i) (k + i)) = S.entry (k + i) (k + i))
    (r y : Nat) (hr : r < n - (k + nb)) (hy : y < nb) :
    let L21 := L.view (k + nb) k (n - (k + nb)) nb
    let A1 := S.setBlock k k (TwoSidedTrsmLUnb diag (S.view k k nb nb) (L.view k k nb nb))
    let Y21 := HemmRightLower 1 (A1.view k k nb nb) L21 0 (Mat.zeros (n - (k + nb)) nb)
    let A2 := A1.setBlock (k + nb) k
      (TrsmRightLowerAdjoint diag 1 (L.view k k nb nb) (A1.view (k + nb) k (n - (k + nb)) nb))
    let A3 := A2.setBlock (k + nb) k
      (Axpy (-1 / 2) Y21 (A2.view (k + nb) k (n - (k + nb)) nb))
    let A4 := A3.setBlock (k + nb) (k + nb)
      (Her2kLowerNormal (-1) L21 (A3.view (k + nb) k (n - (k + nb)) nb) 1
        (A3.view (k + nb) (k + nb) (n - (k + nb)) (n - (k + nb))))
    let A5 := A4.setBlock (k + nb) k
      (Axpy (-1 / 2) Y21 (A4.view (k + nb) k (n - (k + nb)) nb))
    A3.entry (k + nb + r) (k + y)
        = lvar5Z diag L k nb S r y - 1 / 2 * lvar5Y diag L k nb S r y
      ∧ A5.entry (k + nb + r) (k + y)
        = lvar5Z diag L k nb S r y - lvar5Y diag L k nb S r y := by
  intro L21 A1 Y21 A2 A3 A4 A5
  have hY : Y21.entry r y = lvar5Y diag L k nb S r y :=
    lvar5_Y21_entry diag L n k nb S hl hS r y hy
  have hA2 : A2.entry (k + nb + r) (k + y) = lvar5Z diag L k nb S r y := by
    show (A1.setBlock _ _ _).entry _ _ = _
    rw [Mat.setBlock_entry_in _ _ _ _ r y _ _ rfl rfl (by simpa using hr) (by simpa using hy)]
    exact lvar5_Z_entry diag L n k nb S r y
  have hA3 : A3.entry (k + nb + r) (k + y)
      = lvar5Z diag L k nb S r y - 1 / 2 * lvar5Y diag L k nb S r y := by
    show (A2.setBlock _ _ _).entry _ _ = _
    rw [Mat.setBlock_entry_in _ _ _ _ r y _ _ rfl rfl (by simpa using hr) (by simpa using hy),
      Axpy_entry, Mat.view_entry, hA2, hY]
    ring
  refine ⟨hA3, ?_⟩
  show (A4.setBlock _ _ _).entry _ _ = _
  rw [Mat.setBlock_entry_in _ _ _ _ r y _ _ rfl rfl (by simpa using hr) (by simpa using hy),
    Axpy_entry, Mat.view_entry]
  have hA4 : A4.entry (k + nb + r) (k + y) = A3.entry (k + nb + r) (k + y) := by
    show (A3.setBlock _ _ _).entry _ _ = _
    rw [Mat.setBlock_entry_out _ _ _ _ _ _ (by simp <;> omega)]
  rw [hA4, hA3, hY]
  field_simp
  ring

/-- Entries of the block `A21` after one pass: the solution of `L22 X = Z - Y`. -/
theorem TwoSidedTrsmLVar5Step_A21 (diag : UnitOrNonUnit) (L : Mat F) (n k nb : Nat)
    (S : Mat F) (h2 : (2 : F) ≠ 0)
    (hl : IsLowerInvertible (trailL diag L k) nb)
    (hS : ∀ i, i < nb → star (S.entry (k + i) (k + i)) = S.entry (k + i) (k + i))
    (r y : Nat) (hr : r < n - (k + nb)) (hy : y < nb) :
    (TwoSidedTrsmLVar5Step diag L n k nb S).entry (k + nb + r) (k + y)
      = forwardSolve (trailL diag L (k + nb))
          (fun r y => lvar5Z diag L k nb S r y - lvar5Y diag L k nb S r y)
          (n - (k + nb)) r y := by
  unfold TwoSidedTrsmLVar5Step
  simp only []
  rw [Mat.setBlock_entry_in _ _ _ _ r y _ _ rfl rfl (by simpa using hr) (by simpa using hy)]
  simp only [TrsmLeftLowerNormal, Mat.view_height]
  rw [Mat.view_lowerDiag]
  apply forwardSolve_congr
  intro i hi
  rw [one_mul, Mat.view_entry]
  exact (lvar5_A21_before diag L n k nb S h2 hl hS i y hi hy).2

/-- Entries of the lower triangle of the block `A22` after one pass. -/
theorem TwoSidedTrsmLVar5Step_A22 (diag : UnitOrNonUnit) (L : Mat F) (n k nb : Nat)
    (S : Mat F) (h2 : (2 : F) ≠ 0)
    (hl : IsLowerInvertible (trailL diag L k) nb)
    (hS : ∀ i, i < nb → star (S.entry (k + i) (k + i)) = S.entry (k + i) (k + i))
    (r t : Nat) (hr : r < n - (k + nb)) (ht : t ≤ r) :
    (TwoSidedTrsmLVar5Step diag L n k nb S).entry (k + nb + r) (k + nb + t)
      = S.entry (k + nb + r) (k + nb + t)
        - ((∑ y in Finset.range nb, L.entry (k + nb + r) (k + y)
              * star (lvar5Z diag L k nb S t y - 1 / 2 * lvar5Y diag L k nb S t y))
          + ∑ y in Finset.range nb,
              (lvar5Z diag L k nb S r y - 1 / 2 * lvar5Y diag L k nb S r y)
                * star (L.entry (k + nb + t) (k + y))) := by
  unfold TwoSidedTrsmLVar5Step
  simp only []
  rw [Mat.setBlock_entry_out _ _ _ _ _ _ (by simp <;> omega),
    Mat.setBlock_entry_out _ _ _ _ _ _ (by simp <;> omega),
    Mat.setBlock_entry_in _ _ _ _ r t _ _ rfl rfl (by simpa using hr)
      (by simp only [Her2kLowerNormal_width, Mat.view_width]; omega)]
  simp only [Her2kLowerNormal, Mat.view_width]
  rw [if_pos ht]
  have e1 : ∀ u y, u < n - (k + nb) → y < nb → _ :=
    fun u y hu hy => (lvar5_A21_before diag L n k nb S h2 hl hS u y hu hy).1
  have hs1 : ∀ y, y ∈ Finset.range nb → _ = _ := fun y hy =>
    e1 r y hr (Finset.mem_range.mp hy)
  have hs2 : ∀ y, y ∈ Finset.range nb → _ = _ := fun y hy =>
    e1 t y (by omega) (Finset.mem_range.mp hy)
  simp only [Mat.view_entry]
  rw [Finset.sum_congr rfl (fun y hy => congrArg
      (fun z => L.entry (k + nb + r) (k + y) * star z) (hs2 y hy)),
    Finset.sum_congr rfl (fun y hy => congrArg
      (fun z => z * star (L.entry (k + nb + t) (k + y))) (hs1 y hy))]
  rw [Mat.setBlock_entry_out _ _ _ _ _ _ (by simp <;> omega),
    Mat.setBlock_entry_out _ _ _ _ _ _ (by simp <;> omega),
    Mat.setBlock_entry_out _ _ _ _ _ _ (by simp <;> omega)]
  rw [star_neg, star_one]
  ring

end TwoSidedTrsmRegions
end Elemental

namespace Elemental

section TwoSidedTrsmLoop

variable {F : Type} [Field F] [StarRing F]

theorem sandwich_congr (l f g : Nat → Nat → F) (m : Nat)
    (h : ∀ p q, p < m → q < m → f p q = g p q) (i j : Nat) :
    sandwich l f m i j = sandwich l g m i j := by
  unfold sandwich
  refine Finset.sum_congr rfl (fun p hp => Finset.sum_congr rfl (fun q hq => ?_))
  rw [h p q (Finset.mem_range.mp hp) (Finset.mem_range.mp hq)]

/-- The block recursion in the form that one pass of `TwoSidedTrsmLVar5` produces:
`l21` is the panel of `l` below its leading block, `Y = L21 F11`, and the update of
the trailing block is known on its lower triangle. -/
theorem sandwich_block_lower (l s f Z Y l21 : Nat → Nat → F) (nb m2 : Nat) (h2 : (2 : F) ≠ 0)
    (hl : ∀ i p, i < p → l i p = 0)
    (hs : ∀ i j, i < nb + m2 → j < nb + m2 → star (s i j) = s j i)
    (hf : ∀ p q, p < nb + m2 → q < nb + m2 → star (f p q) = f q p)
    (hl21 : ∀ r y, r < m2 → y < nb → l (nb + r) y = l21 r y)
    (hY : ∀ r y, r < m2 → y < nb → Y r y = ∑ x in Finset.range nb, l21 r x * f x y)
    (hZ : ∀ r y, r < m2 → y < nb →
      ∑ q in Finset.range nb, Z r q * star (l y q) = s (nb + r) y)
    (h11 : ∀ x y, x < nb → y < nb → sandwich l f nb x y = s x y)
    (h21 : ∀ r y, r < m2 → y < nb →
      ∑ p in Finset.range m2, l (nb + r) (nb + p) * f (nb + p) y = Z r y - Y r y)
    (h22 : ∀ r t, r < m2 → t ≤ r →
      sandwich (fun a b => l (nb + a) (nb + b)) (fun a b => f (nb + a) (nb + b)) m2 r t
        = s (nb + r) (nb + t)
          - ((∑ y in Finset.range nb, l21 r y * star (Z t y - 1 / 2 * Y t y))
            + ∑ y in Finset.range nb, (Z r y - 1 / 2 * Y r y) * star (l21 t y))) :
    ∀ i j, i < nb + m2 → j < nb + m2 → sandwich l f (nb + m2) i j = s i j := by
  have hYs : ∀ r y, r < m2 → y < nb →
      ∑ x in Finset.range nb, l (nb + r) x * f x y = Y r y := by
    intro r y hr hy
    rw [hY r y hr hy]
    refine Finset.sum_congr rfl (fun x hx => ?_)
    rw [hl21 r x hr (Finset.mem_range.mp hx)]
  have key : ∀ r t, r < m2 → t < m2 →
      (∑ y in Finset.range nb, l (nb + r) y
          * star (Z t y - 1 / 2 * ∑ x in Finset.range nb, l (nb + t) x * f x y))
        + ∑ y in Finset.range nb,
            (Z r y - 1 / 2 * ∑ x in Finset.range nb, l (nb + r) x * f x y)
              * star (l (nb + t) y)
      = (∑ y in Finset.range nb, l21 r y * star (Z t y - 1 / 2 * Y t y))
        + ∑ y in Finset.range nb, (Z r y - 1 / 2 * Y r y) * star (l21 t y) := by
    intro r t hr ht
    congr 1
    · refine Finset.sum_congr rfl (fun y hy => ?_)
      have hy' := Finset.mem_range.mp hy
      rw [hYs t y ht hy', hl21 r y hr hy']
    · refine Finset.sum_congr rfl (fun y hy => ?_)
      have hy' := Finset.mem_range.mp hy
      rw [hYs r y hr hy', hl21 t y ht hy']
  refine sandwich_block l s f Z nb m2 h2 hl hs hf hZ h11 ?_ ?_
  · intro r y hr hy
    rw [h21 r y hr hy, hYs r y hr hy]
  · intro r t hr ht
    rw [key r t hr ht]
    by_cases htr : t ≤ r
    · exact h22 r t hr htr
    · have hsym := sandwich_hermitian (fun a b => l (nb + a) (nb + b))
        (fun a b => f (nb + a) (nb + b)) m2
        (fun p q hp hq => hf (nb + p) (nb + q) (by omega) (by omega)) t r
      have h := h22 t r ht (by omega)
      have e : ∑ p in Finset.range m2, ∑ q in Finset.range m2,
          l (nb + r) (nb + p) * f (nb + p) (nb + q) * star (l (nb + t) (nb + q))
          = sandwich (fun a b => l (nb + a) (nb + b)) (fun a b => f (nb + a) (nb + b))
              m2 r t := rfl
      rw [e, ← hsym, h, star_sub, star_add, star_sum, star_sum,
        hs (nb + t) (nb + r) (by omega) (by omega)]
      congr 1
      rw [add_comm]
      congr 1
      · refine Finset.sum_congr rfl (fun y _ => ?_)
        rw [star_mul', star_star]
        ring
      · refine Finset.sum_congr rfl (fun y _ => ?_)
        rw [star_mul', star_star]
        ring

theorem trailL_invertible (diag : UnitOrNonUnit) (L : Mat F) (n k m : Nat) (hkm : k + m ≤ n)
    (hd : ∀ i, i < n → L.lowerDiag diag i i ≠ 0) :
    IsLowerInvertible (trailL diag L k) m :=
  ⟨fun i p h => trailL_lower diag L k i p h, fun i hi => hd (k + i) (by omega)⟩

/-- The loop of `TwoSidedTrsmLVar5` from the diagonal position `k`: it returns,
leaves the rows and columns before `k` alone, and the Hermitian matrix `F` stored in
the trailing block of its result satisfies `L F L' = S` for the trailing blocks of
the triangular factor and of the Hermitian matrix stored in `S`. -/
theorem TwoSidedTrsmLVar5Loop_spec (diag : UnitOrNonUnit) (L : Mat F) (n bsize : Nat)
    (h2 : (2 : F) ≠ 0) (hb : 1 ≤ bsize) (hd : ∀ i, i < n → L.lowerDiag diag i i ≠ 0) :
    ∀ (fuel k : Nat) (S : Mat F), k ≤ n → n - k ≤ fuel → S.height = n → S.width = n →
      (∀ i, k ≤ i → i < n → star (S.entry i i) = S.entry i i) →
      ∃ Sf, TwoSidedTrsmLVar5Loop diag L n bsize fuel k S = some Sf
        ∧ Sf.height = n ∧ Sf.width = n
        ∧ (∀ i j, i < k ∨ j < k → Sf.entry i j = S.entry i j)
        ∧ (∀ i, k ≤ i → i < n → star (Sf.entry i i) = Sf.entry i i)
        ∧ ∀ i j, i < n - k → j < n - k →
            sandwich (trailL diag L k) (trailA Sf k) (n - k) i j = trailA S k i j := by
  intro fuel
  induction fuel with
  | zero =>
    intro k S hk hf hh hw hS
    refine ⟨S, ?_, hh, hw, fun _ _ _ => rfl, hS, fun i j hi _ => ?_⟩
    · rw [TwoSidedTrsmLVar5Loop, if_neg (by omega)]
    · omega
  | succ fuel ih =>
    intro k S hk hf hh hw hS
    by_cases hkn : k < n
    · -- one pass, then the rest of the loop
      obtain ⟨nb, hnb⟩ : ∃ nb, nb = min bsize (n - k) := ⟨_, rfl⟩
      have hnb1 : 1 ≤ nb := by rw [hnb]; exact le_min hb (by omega)
      have hnb2 : k + nb ≤ n := by
        have : nb ≤ n - k := by rw [hnb]; exact min_le_right _ _
        omega
      obtain ⟨m2, hm2⟩ : ∃ m2, m2 = n - (k + nb) := ⟨_, rfl⟩
      have hl11 : IsLowerInvertible (trailL diag L k) nb :=
        trailL_invertible diag L n k nb hnb2 hd
      have hl22 : IsLowerInvertible (trailL diag L (k + nb)) m2 :=
        trailL_invertible diag L n (k + nb) m2 (by omega) hd
      have hS11 : ∀ i, i < nb → star (S.entry (k + i) (k + i)) = S.entry (k + i) (k + i) :=
        fun i hi => hS (k + i) (by omega) (by omega)
      have hSall : ∀ i, i < nb + m2 →
          star (S.entry (k + i) (k + i)) = S.entry (k + i) (k + i) :=
        fun i hi => hS (k + i) (by omega) (by omega)
      -- the state after the pass
      obtain ⟨S1, hS1⟩ : ∃ S1, S1 = TwoSidedTrsmLVar5Step diag L n k nb S := ⟨_, rfl⟩
      have hframe1 : ∀ i j, i < k ∨ j < k → S1.entry i j = S.entry i j := by
        intro i j h
        rw [hS1]
        exact TwoSidedTrsmLVar5Step_frame diag L n k nb S i j h
      have hA11 : ∀ x y, x < nb → y ≤ x → S1.entry (k + x) (k + y) = lvar5F11 diag L k nb S x y := by
        intro x y hx hy
        rw [hS1]
        exact TwoSidedTrsmLVar5Step_A11 diag L n k nb S x y hx hy
      have hA21 : ∀ r y, r < m2 → y < nb → S1.entry (k + nb + r) (k + y)
          = forwardSolve (trailL diag L (k + nb))
              (fun r y => lvar5Z diag L k nb S r y - lvar5Y diag L k nb S r y) m2 r y := by
        intro r y hr hy
        rw [hS1, hm2]
        exact TwoSidedTrsmLVar5Step_A21 diag L n k nb S h2 hl11 hS11 r y (by omega) hy
      have hA22 : ∀ r t, r < m2 → t ≤ r → S1.entry (k + nb + r) (k + nb + t)
          = S.entry (k + nb + r) (k + nb + t)
            - ((∑ y in Finset.range nb, L.entry (k + nb + r) (k + y)
                  * star (lvar5Z diag L k nb S t y - 1 / 2 * lvar5Y diag L k nb S t y))
              + ∑ y in Finset.range nb,
                  (lvar5Z diag L k nb S r y - 1 / 2 * lvar5Y diag L k nb S r y)
                    * star (L.entry (k + nb + t) (k + y))) := by
        intro r t hr ht
        rw [hS1]
        exact TwoSidedTrsmLVar5Step_A22 diag L n k nb S h2 hl11 hS11 r t (by omega) ht
      have hS1diag : ∀ i, k + nb ≤ i → i < n → star (S1.entry i i) = S1.entry i i := by
        intro i hi1 hi2
        obtain ⟨r, rfl⟩ : ∃ r, i = k + nb + r := ⟨i - (k + nb), by omega⟩
        rw [hA22 r r (by omega) (le_refl r), star_sub, star_add, star_sum, star_sum,
          hS (k + nb + r) (by omega) hi2]
        congr 1
        rw [add_comm]
        congr 1
        · refine Finset.sum_congr rfl (fun y _ => ?_)
          rw [star_mul', star_star]
          ring
        · refine Finset.sum_congr rfl (fun y _ => ?_)
          rw [star_mul', star_star]
          ring
      obtain ⟨Sf, hrun, hfh, hfw, hframe, hfdiag, hsand⟩ :=
        ih (k + nb) S1 hnb2 (by omega) (by rw [hS1]; exact hh) (by rw [hS1]; exact hw) hS1diag
      have hfdiag2 : ∀ i, k ≤ i → i < n → star (Sf.entry i i) = Sf.entry i i := by
        intro i hi1 hi2
        by_cases hi3 : k + nb ≤ i
        · exact hfdiag i hi3 hi2
        · obtain ⟨x, rfl⟩ : ∃ x, i = k + x := ⟨i - k, by omega⟩
          rw [hframe (k + x) (k + x) (Or.inl (by omega)), hA11 x x (by omega) (le_refl x)]
          exact lvar5F11_hermitian diag L k nb S hl11 hS11 x x (by omega) (by omega)
      have hF11 : ∀ p q, p < nb → q < nb → trailA Sf k p q = lvar5F11 diag L k nb S p q := by
        intro p q hp hq
        simp only [trailA, Mat.hermLower]
        by_cases hqp : q ≤ p
        · rw [if_pos (by omega), hframe (k + p) (k + q) (Or.inr (by omega)), hA11 p q hp hqp]
        · rw [if_neg (by omega), hframe (k + q) (k + p) (Or.inr (by omega)),
            hA11 q p hq (by omega)]
          exact lvar5F11_hermitian diag L k nb S hl11 hS11 q p hq hp
      refine ⟨Sf, ?_, hfh, hfw, ?_, hfdiag2, ?_⟩
      · rw [TwoSidedTrsmLVar5Loop, if_pos hkn]
        simp only []
        rw [← hnb, ← hS1]
        exact hrun
      · intro i j h
        rw [hframe i j (by omega), hframe1 i j h]
      · have hnk : n - k = nb + m2 := by omega
        rw [hnk]
        refine sandwich_block_lower (trailL diag L k) (trailA S k) (trailA Sf k)
          (lvar5Z diag L k nb S) (lvar5Y diag L k nb S)
          (fun r y => L.entry (k + nb + r) (k + y)) nb m2 h2
          (fun i p h => trailL_lower diag L k i p h)
          (trailA_hermitian S k (nb + m2) hSall)
          (trailA_hermitian Sf k (nb + m2) (fun i hi => hfdiag2 (k + i) (by omega) (by omega)))
          ?_ ?_ ?_ ?_ ?_ ?_
        · intro r y _ hy
          beta_reduce
          rw [trailL_entry diag L k (nb + r) y (by omega), Nat.add_assoc]
        · intro r y _ hy
          beta_reduce
          unfold lvar5Y
          refine Finset.sum_congr rfl (fun x hx => ?_)
          rw [hF11 x y (Finset.mem_range.mp hx) hy]
        · intro r y _ hy
          have h := rightSolveAdjoint_spec (trailL diag L k)
            (fun r y => S.entry (k + nb + r) (k + y)) nb hl11 r y hy
          simp only [trailA, Mat.hermLower]
          rw [if_pos (by omega), ← Nat.add_assoc]
          exact h
        · intro x y hx hy
          rw [sandwich_congr (trailL diag L k) (trailA Sf k) (lvar5F11 diag L k nb S) nb hF11]
          exact twoSidedSolve_spec (trailL diag L k) (trailA S k) nb hl11 x y hx hy
        · intro r y hr hy
          have h := forwardSolve_spec (trailL diag L (k + nb))
            (fun r y => lvar5Z diag L k nb S r y - lvar5Y diag L k nb S r y) m2 hl22 r y hr
          beta_reduce at h
          rw [← h]
          refine Finset.sum_congr rfl (fun p hp => ?_)
          have hp' := Finset.mem_range.mp hp
          rw [trailL_add]
          congr 1
          simp only [trailA, Mat.hermLower]
          rw [if_pos (by omega), ← Nat.add_assoc, hframe (k + nb + p) (k + y) (Or.inr (by omega)),
            hA21 p y hp' hy]
        · intro r t hr ht
          have e : sandwich (fun a b => trailL diag L k (nb + a) (nb + b))
              (fun a b => trailA Sf k (nb + a) (nb + b)) m2 r t
              = sandwich (trailL diag L (k + nb)) (trailA Sf (k + nb)) m2 r t := by
            unfold sandwich
            simp only [trailL_add, trailA_add]
          beta_reduce
          rw [e, hm2, hsand r t (by omega) (by omega)]
          simp only [trailA, Mat.hermLower]
          rw [if_pos (by omega), if_pos (by omega), hA22 r t hr ht, Nat.add_assoc, Nat.add_assoc]
    · have hkn2 : k = n := by omega
      refine ⟨S, ?_, hh, hw, fun _ _ _ => rfl, hS, fun i j hi _ => ?_⟩
      · rw [TwoSidedTrsmLVar5Loop, if_neg hkn]
      · omega

end TwoSidedTrsmLoop
end Elemental

namespace Elemental

section TwoSidedTrsmClaims

variable {F : Type} [Field F] [StarRing F]

theorem Mat.lowerDiag_nonUnit (L : Mat F) : L.lowerDiag .NON_UNIT = L.lower := by
  funext i j
  simp only [Mat.lowerDiag, Mat.lower]
  rcases Nat.lt_trichotomy j i with h | h | h
  · rw [if_pos h, if_pos (by omega)]
  · subst h
    rw [if_neg (by omega), if_pos rfl, if_neg (by decide), if_pos (le_refl j)]
  · rw [if_neg (by omega), if_neg (by omega), if_neg (by omega)]

theorem lowerInverse_spec (l : Nat → Nat → F) (n : Nat) (hl : IsLowerInvertible l n)
    (i x : Nat) (hi : i < n) :
    ∑ p in Finset.range n, l i p * lowerInverse l n p x = if i = x then 1 else 0 :=
  forwardSolve_spec l _ n hl i x hi

/-- The matrix `inv(L) A inv(L)'` solves `L F L' = A`. -/
theorem sandwich_lowerInverse (l a : Nat → Nat → F) (n : Nat) (hl : IsLowerInvertible l n)
    (i j : Nat) (hi : i < n) (hj : j < n) :
    sandwich l (fun p q => ∑ x in Finset.range n, ∑ y in Finset.range n,
        lowerInverse l n p x * a x y * star (lowerInverse l n q y)) n i j = a i j := by
  have hA : ∀ p, ∑ q in Finset.range n,
      (∑ x in Finset.range n, ∑ y in Finset.range n,
        lowerInverse l n p x * a x y * star (lowerInverse l n q y)) * star (l j q)
      = ∑ x in Finset.range n, lowerInverse l n p x * a x j := by
    intro p
    have h1 : ∀ q, (∑ x in Finset.range n, ∑ y in Finset.range n,
          lowerInverse l n p x * a x y * star (lowerInverse l n q y)) * star (l j q)
        = ∑ x in Finset.range n, ∑ y in Finset.range n,
            lowerInverse l n p x * a x y * star (l j q * lowerInverse l n q y) := by
      intro q
      rw [Finset.sum_mul]
      refine Finset.sum_congr rfl (fun x _ => ?_)
      rw [Finset.sum_mul]
      refine Finset.sum_congr rfl (fun y _ => ?_)
      rw [star_mul']
      ring
    rw [Finset.sum_congr rfl (fun q _ => h1 q), Finset.sum_comm]
    refine Finset.sum_congr rfl (fun x _ => ?_)
    rw [Finset.sum_comm]
    have h2 : ∀ y, ∑ q in Finset.range n,
          lowerInverse l n p x * a x y * star (l j q * lowerInverse l n q y)
        = if j = y then lowerInverse l n p x * a x y else 0 := by
      intro y
      rw [← Finset.mul_sum, ← star_sum, lowerInverse_spec l n hl j y hj]
      by_cases h : j = y
      · rw [if_pos h, if_pos h, star_one, mul_one]
      · rw [if_neg h, if_neg h, star_zero, mul_zero]
    rw [Finset.sum_congr rfl (fun y _ => h2 y), Finset.sum_ite_eq, if_pos (Finset.mem_range.mpr hj)]
  unfold sandwich
  have hB : ∀ p, ∑ q in Finset.range n, l i p
        * (∑ x in Finset.range n, ∑ y in Finset.range n,
            lowerInverse l n p x * a x y * star (lowerInverse l n q y)) * star (l j q)
      = ∑ x in Finset.range n, (l i p * lowerInverse l n p x) * a x j := by
    intro p
    have e : ∑ x in Finset.range n, (l i p * lowerInverse l n p x) * a x j
        = l i p * ∑ x in Finset.range n, lowerInverse l n p x * a x j := by
      rw [Finset.mul_sum]
      exact Finset.sum_congr rfl (fun x _ => mul_assoc _ _ _)
    rw [e, ← hA p, Finset.mul_sum]
    refine Finset.sum_congr rfl (fun q _ => ?_)
    ring
  rw [Finset.sum_congr rfl (fun p _ => hB p), Finset.sum_comm]
  have hC : ∀ x, ∑ p in Finset.range n, (l i p * lowerInverse l n p x) * a x j
      = if i = x then a x j else 0 := by
    intro x
    rw [← Finset.sum_mul, lowerInverse_spec l n hl i x hi]
    by_cases h : i = x
    · rw [if_pos h, if_pos h, one_mul]
    · rw [if_neg h, if_neg h, zero_mul]
  rw [Finset.sum_congr rfl (fun x _ => hC x), Finset.sum_ite_eq, if_pos (Finset.mem_range.mpr hi)]

/-- C2: for every `n`, every blocksize `bsize >= 1`, every Hermitian `n x n` matrix
given by the lower triangle of `A` (with a real diagonal) and every lower-triangular
`n x n` factor given by the lower triangle of `L` with nonzero diagonal, the local
`TwoSidedTrsmLVar5` with `diag = NON_UNIT` (given `n` iterations of fuel, in a field
where `2 ≠ 0`) returns, and overwrites the lower triangle of `A` with the lower
triangle of `inv(L) A inv(L)'`, the kernels `TwoSidedTrsmLUnb`, `Hemm`, `Trsm`, `Axpy`
and `Her2k` being exact. -/
theorem TwoSidedTrsmLVar5_correct (A L : Mat F) (n bsize fuel : Nat) (h2 : (2 : F) ≠ 0)
    (hbs : 1 ≤ bsize) (hAh : A.height = n) (hAw : A.width = n)
    (hA : ∀ i, i < n → star (A.entry i i) = A.entry i i)
    (hL : ∀ i, i < n → L.entry i i ≠ 0) (hfuel : n ≤ fuel) :
    ∃ A1, TwoSidedTrsmLVar5 .NON_UNIT A L bsize fuel = some A1 ∧ A1.height = n ∧ A1.width = n ∧
      ∀ i j, j ≤ i → i < n → A1.entry i j = invCongruenceEntry A L n i j := by
  have hd : ∀ i, i < n → L.lowerDiag .NON_UNIT i i ≠ 0 := by
    intro i hi
    rw [Mat.lowerDiag_nonUnit, Mat.lower_eq L i i (le_refl i)]
    exact hL i hi
  have hl : IsLowerInvertible L.lower n :=
    ⟨fun i p h => Mat.lower_zero L i p h,
      fun i hi => by rw [Mat.lower_eq L i i (le_refl i)]; exact hL i hi⟩
  obtain ⟨Sf, hrun, hfh, hfw, _, _, hsand⟩ :=
    TwoSidedTrsmLVar5Loop_spec .NON_UNIT L n bsize h2 hbs hd fuel 0 A (Nat.zero_le n)
      (by omega) hAh hAw (fun i _ hi => hA i hi)
  have eL : trailL .NON_UNIT L 0 = L.lower := by
    funext i j
    simp only [trailL, zero_add, Mat.lowerDiag_nonUnit]
  have eA : ∀ S : Mat F, trailA S 0 = S.hermLower := by
    intro S
    funext i j
    simp only [trailA, zero_add]
  rw [eL, eA, eA, Nat.sub_zero] at hsand
  refine ⟨Sf, by unfold TwoSidedTrsmLVar5; rw [hAh]; exact hrun, hfh, hfw, fun i j hji hi => ?_⟩
  have hz := lower_cancel_two_sided L.lower n hl
    (fun p q => Sf.hermLower p q - invCongruenceEntry A L n p q) ?_ i j hi (by omega)
  · have h := sub_eq_zero.mp hz
    rw [← h, Mat.hermLower, if_pos hji]
  · intro x y hx hy
    have h1 := hsand x y hx hy
    have h3 := sandwich_lowerInverse L.lower A.hermLower n hl x y hx hy
    unfold sandwich at h1 h3
    rw [← sub_self (A.hermLower x y)]
    nth_rewrite 1 [← h1]
    rw [← h3, ← Finset.sum_sub_distrib]
    refine Finset.sum_congr rfl (fun p _ => ?_)
    rw [← Finset.sum_sub_distrib]
    refine Finset.sum_congr rfl (fun q _ => ?_)
    unfold invCongruenceEntry
    ring

/-- Witness for C2: the `2 x 2` example with blocksize 1. -/
theorem TwoSidedTrsmLVar5_correct_witness :
    (2 : ℚ) ≠ 0 ∧ 1 ≤ 1 ∧ lvar5A.height = 2 ∧ lvar5A.width = 2 ∧
    (∀ i, i < 2 → star (lvar5A.entry i i) = lvar5A.entry i i) ∧
    (∀ i, i < 2 → lvar5L.entry i i ≠ 0) ∧ 2 ≤ 2 ∧
    ∃ A1, TwoSidedTrsmLVar5 .NON_UNIT lvar5A lvar5L 1 2 = some A1 ∧ A1.height = 2 ∧
      A1.width = 2 ∧
      ∀ i j, j ≤ i → i < 2 → A1.entry i j = invCongruenceEntry lvar5A lvar5L 2 i j :=
  have hL : ∀ i, i < 2 → lvar5L.entry i i ≠ 0 := by
    intro i hi
    interval_cases i <;> simp [lvar5L]
  ⟨two_ne_zero, le_refl 1, rfl, rfl, fun _ _ => rfl, hL, le_refl 2,
    TwoSidedTrsmLVar5_correct lvar5A lvar5L 2 1 2 two_ne_zero (le_refl 1) rfl rfl
      (fun _ _ => rfl) hL (le_refl 2)⟩

/-- The two-sided solve of the example: `A = L L'`, so `inv(L) A inv(L)'` is the
identity, with the lower triangle `1; 0, 1`. -/
theorem TwoSidedTrsmLVar5_example :
    invCongruenceEntry lvar5A lvar5L 2 0 0 = 1 ∧ invCongruenceEntry lvar5A lvar5L 2 1 0 = 0 ∧
    invCongruenceEntry lvar5A lvar5L 2 1 1 = 1 := by
  simp [invCongruenceEntry, lowerInverse, forwardSolve, Finset.sum_range_succ, Mat.lower,
    Mat.hermLower, lvar5A, lvar5L]
  norm_num

end TwoSidedTrsmClaims
end Elemental

namespace Elemental

section RoundTripClaims

variable {T F : Type} [DecidableEq T] [Zero F]

theorem SymmFrontType.roundTripLaws : RoundTripLaws SymmFrontType.ops :=
  ⟨fun t h => by
      cases t <;> simp [SymmFrontType.ops, SymmFrontType.FrontIs1D,
        SymmFrontType.ConvertTo1D, SymmFrontType.ConvertTo2D] at h ⊢,
    fun t h => by
      cases t <;> simp [SymmFrontType.ops, SymmFrontType.FrontIs1D,
        SymmFrontType.ConvertTo1D, SymmFrontType.ConvertTo2D] at h ⊢⟩

/-- A 1D front asked for the 2D variant of its type is switched to 2D. -/
theorem changeFront_to2D {ops : FrontTypeOps T} (hl : LayoutLaws ops)
    (TI : Nat → (Nat → Nat → F) → Nat → Nat → F) (hasChild : Bool) (d : FrontData T F)
    (h1 : ops.FrontIs1D d.type = true) :
    changeFront ops TI hasChild d (ops.ConvertTo2D d.type) = some (switchTo2D d) := by
  have n1 : ¬(ops.ConvertTo2D d.type = ops.SYMM_1D ∨
      ops.ConvertTo2D d.type = ops.ConvertTo1D d.type) := by
    rintro (c | c)
    · have := hl.to2D d.type
      rw [c, hl.symm1D] at this
      cases this
    · have := hl.to2D d.type
      rw [c, hl.to1D] at this
      cases this
  unfold changeFront
  rw [if_neg n1, if_pos (Or.inr rfl), if_pos h1]

/-- A 2D front asked for the 1D variant of its type is switched to 1D. -/
theorem changeFront_to1D (ops : FrontTypeOps T)
    (TI : Nat → (Nat → Nat → F) → Nat → Nat → F) (hasChild : Bool) (d : FrontData T F)
    (h1 : ops.FrontIs1D d.type = false) :
    changeFront ops TI hasChild d (ops.ConvertTo1D d.type) = some (switchTo1D d) := by
  unfold changeFront
  rw [if_pos (Or.inr rfl)]
  simp [h1]

/-- A front of type `ConvertTo2D(t)` asked for the 1D type `t` is switched to 1D. -/
theorem changeFront_back1D {ops : FrontTypeOps T} (hl : LayoutLaws ops)
    (hr : RoundTripLaws ops) (TI : Nat → (Nat → Nat → F) → Nat → Nat → F) (hasChild : Bool)
    (d : FrontData T F) (t : T) (h1 : ops.FrontIs1D t = true)
    (hd : d.type = ops.ConvertTo2D t) :
    changeFront ops TI hasChild d t = some (switchTo1D d) := by
  unfold changeFront
  rw [if_pos (Or.inr (by rw [hd, hr.back1D t h1]))]
  simp [hd, hl.to2D]

/-- A front of type `ConvertTo1D(t)` asked for the 2D type `t` is switched to 2D. -/
theorem changeFront_back2D {ops : FrontTypeOps T} (hl : LayoutLaws ops)
    (hr : RoundTripLaws ops) (TI : Nat → (Nat → Nat → F) → Nat → Nat → F) (hasChild : Bool)
    (d : FrontData T F) (t : T) (h1 : ops.FrontIs1D t = false)
    (hd : d.type = ops.ConvertTo1D t) :
    changeFront ops TI hasChild d t = some (switchTo2D d) := by
  have n1 : ¬(t = ops.SYMM_1D ∨ t = ops.ConvertTo1D d.type) := by
    rintro (c | c)
    · rw [c, hl.symm1D] at h1
      cases h1
    · rw [c, hl.to1D] at h1
      cases h1
  unfold changeFront
  rw [if_neg n1, if_pos (Or.inr (by rw [hd, hr.back2D t h1]))]
  simp [hd, hl.to1D]

/-- The front itself after a call whose test on the front succeeds: the changed
fields with the requested type, whatever happens below; and no error is raised when
`recurse` is false. -/
theorem ChangeFrontType_data (ops : FrontTypeOps T)
    (TI : Nat → (Nat → Nat → F) → Nat → Nat → F) (front : DistSymmFront T F) (type : T)
    (recurse : Bool) (d1 : FrontData T F)
    (h : ∀ hasChild, changeFront ops TI hasChild front.data type = some d1) :
    (ChangeFrontType ops TI front type recurse).1.data = { d1 with type := type } ∧
    (recurse = false → (ChangeFrontType ops TI front type recurse).2 = none) := by
  cases front with
  | leaf d =>
    unfold ChangeFrontType
    rw [show changeFront ops TI false d type = some d1 from h false]
    exact ⟨rfl, fun _ => rfl⟩
  | node d child =>
    unfold ChangeFrontType
    rw [show changeFront ops TI true d type = some d1 from h true]
    cases recurse
    · exact ⟨rfl, fun _ => rfl⟩
    · exact ⟨rfl, fun h => by cases h⟩

/-- C11: for every front without a duplicate whose type `t` is a 1D type,
`ChangeFrontType(front, ConvertTo2D(t))` followed by `ChangeFrontType(front, t)`
(each with any value of `recurse`) moves the factor to `L2D` and back: afterwards
`front.type == t` and `L1D` is the original `L1D`, dimensions and entries, the
redistributions being entry-preserving copies; symmetrically a front of a 2D type
`t` converted to `ConvertTo1D(t)` and back has type `t` and its original `L2D`.
Neither call raises the error on the front itself (none at all when `recurse` is
false). -/
theorem ChangeFrontType_round_trip {ops : FrontTypeOps T} (hl : LayoutLaws ops)
    (hr : RoundTripLaws ops) (TI : Nat → (Nat → Nat → F) → Nat → Nat → F)
    (front : DistSymmFront T F) (rec1 rec2 : Bool) (hdup : front.data.duplicate = none) :
    (ops.FrontIs1D front.data.type = true →
      (ChangeFrontType ops TI front (ops.ConvertTo2D front.data.type) rec1).1.data.type
          = ops.ConvertTo2D front.data.type ∧
      (ChangeFrontType ops TI front (ops.ConvertTo2D front.data.type) rec1).1.data.L2D
          = front.data.L1D ∧
      (ChangeFrontType ops TI
          (ChangeFrontType ops TI front (ops.ConvertTo2D front.data.type) rec1).1
          front.data.type rec2).1.data.type = front.data.type ∧
      (ChangeFrontType ops TI
          (ChangeFrontType ops TI front (ops.ConvertTo2D front.data.type) rec1).1
          front.data.type rec2).1.data.L1D = front.data.L1D ∧
      (rec1 = false →
        (ChangeFrontType ops TI front (ops.ConvertTo2D front.data.type) rec1).2 = none) ∧
      (rec2 = false →
        (ChangeFrontType ops TI
          (ChangeFrontType ops TI front (ops.ConvertTo2D front.data.type) rec1).1
          front.data.type rec2).2 = none)) ∧
    (ops.FrontIs1D front.data.type = false →
      (ChangeFrontType ops TI front (ops.ConvertTo1D front.data.type) rec1).1.data.type
          = ops.ConvertTo1D front.data.type ∧
      (ChangeFrontType ops TI front (ops.ConvertTo1D front.data.type) rec1).1.data.L1D
          = front.data.L2D ∧
      (ChangeFrontType ops TI
          (ChangeFrontType ops TI front (ops.ConvertTo1D front.data.type) rec1).1
          front.data.type rec2).1.data.type = front.data.type ∧
      (ChangeFrontType ops TI
          (ChangeFrontType ops TI front (ops.ConvertTo1D front.data.type) rec1).1
          front.data.type rec2).1.data.L2D = front.data.L2D ∧
      (rec1 = false →
        (ChangeFrontType ops TI front (ops.ConvertTo1D front.data.type) rec1).2 = none) ∧
      (rec2 = false →
        (ChangeFrontType ops TI
          (ChangeFrontType ops TI front (ops.ConvertTo1D front.data.type) rec1).1
          front.data.type rec2).2 = none)) := by
  constructor
  · intro h1
    obtain ⟨a1, a2⟩ := ChangeFrontType_data ops TI front (ops.ConvertTo2D front.data.type) rec1
      (switchTo2D front.data) (fun hc => changeFront_to2D hl TI hc front.data h1)
    have hmid : (ChangeFrontType ops TI front (ops.ConvertTo2D front.data.type) rec1).1.data.type
        = ops.ConvertTo2D front.data.type := by rw [a1]
    obtain ⟨b1, b2⟩ := ChangeFrontType_data ops TI
      (ChangeFrontType ops TI front (ops.ConvertTo2D front.data.type) rec1).1
      front.data.type rec2 _
      (fun hc => changeFront_back1D hl hr TI hc _ front.data.type h1 hmid)
    refine ⟨hmid, ?_, ?_, ?_, a2, b2⟩
    · rw [a1]
      simp [switchTo2D, hdup]
    · rw [b1]
    · rw [b1, a1]
      simp [switchTo1D, switchTo2D, hdup]
  · intro h1
    obtain ⟨a1, a2⟩ := ChangeFrontType_data ops TI front (ops.ConvertTo1D front.data.type) rec1
      (switchTo1D front.data) (fun hc => changeFront_to1D ops TI hc front.data h1)
    have hmid : (ChangeFrontType ops TI front (ops.ConvertTo1D front.data.type) rec1).1.data.type
        = ops.ConvertTo1D front.data.type := by rw [a1]
    obtain ⟨b1, b2⟩ := ChangeFrontType_data ops TI
      (ChangeFrontType ops TI front (ops.ConvertTo1D front.data.type) rec1).1
      front.data.type rec2 _
      (fun hc => changeFront_back2D hl hr TI hc _ front.data.type h1 hmid)
    refine ⟨hmid, ?_, ?_, ?_, a2, b2⟩
    · rw [a1]
      simp [switchTo1D, hdup]
    · rw [b1]
    · rw [b1, a1]
      simp [switchTo1D, switchTo2D, hdup]

/-- Witness for C11: the two-front chain of type `LDL_1D`, converted to `LDL_2D` and
back with `recurse = true`. -/
theorem ChangeFrontType_round_trip_witness :
    exampleFront.data.duplicate = none ∧
    (ChangeFrontType SymmFrontType.ops (fun _ e => e)
        (ChangeFrontType SymmFrontType.ops (fun _ e => e) exampleFront .LDL_2D true).1
        .LDL_1D true).1.data.type = .LDL_1D ∧
    (ChangeFrontType SymmFrontType.ops (fun _ e => e)
        (ChangeFrontType SymmFrontType.ops (fun _ e => e) exampleFront .LDL_2D true).1
        .LDL_1D true).1.data.L1D = exampleL :=
  ⟨rfl,
    ((ChangeFrontType_round_trip SymmFrontType.layoutLaws SymmFrontType.roundTripLaws
      (fun _ e => e) exampleFront true true rfl).1 rfl).2.2.1,
    ((ChangeFrontType_round_trip SymmFrontType.layoutLaws SymmFrontType.roundTripLaws
      (fun _ e => e) exampleFront true true rfl).1 rfl).2.2.2.1⟩

end RoundTripClaims
end Elemental

namespace Elemental

section SequentialOrderProofs

variable {F : Type} [AddCommMonoid F]

theorem SeqNode.descendants_setWork (c : SeqNode F) (w : Mat F) :
    (c.setWork w).descendants = c.descendants := by
  cases c
  simp [SeqNode.setWork, SeqNode.descendants]

theorem SeqNode.work_setWork (c : SeqNode F) (w : Mat F) : (c.setWork w).work = w := by
  cases c
  rfl

theorem SeqNode.mem_descendantsList (cs : List (SeqNode F)) (x : SeqNode F) :
    x ∈ SeqNode.descendantsList cs ↔ ∃ c ∈ cs, x = c ∨ x ∈ c.descendants := by
  induction cs with
  | nil => simp [SeqNode.descendantsList]
  | cons c rest ih =>
    simp only [SeqNode.descendantsList, List.mem_cons, List.mem_append, ih]
    constructor
    · rintro (h | h | ⟨d, hd, h⟩)
      · exact ⟨c, Or.inl rfl, Or.inl h⟩
      · exact ⟨c, Or.inl rfl, Or.inr h⟩
      · exact ⟨d, Or.inr hd, h⟩
    · rintro ⟨d, hd | hd, h⟩
      · subst hd
        rcases h with h | h
        · exact Or.inl h
        · exact Or.inr (Or.inl h)
      · exact Or.inr (Or.inr ⟨d, hd, h⟩)

theorem LowerForwardMultiply_children (FLFM : Mat F → Mat F → Nat → Nat → F) (size : Nat)
    (childRelInds : List (List Nat)) (L work X : Mat F) (children : List (SeqNode F)) :
    (LowerForwardMultiply FLFM (.mk size childRelInds L work X children)).children
      = (LowerForwardMultiplyChildren FLFM children).map (fun c => c.setWork Mat.Empty) := by
  simp only [LowerForwardMultiply, SeqNode.children]
  exact (updateFromChildren_spec X.width _ _ _).2.2.2

theorem SeqNode.descendants_eq (n : SeqNode F) :
    n.descendants = SeqNode.descendantsList n.children := by
  cases n
  simp [SeqNode.descendants, SeqNode.children]

mutual
/-- After the call on a node every front below it has an empty work buffer. -/
theorem LowerForwardMultiply_below_empty (FLFM : Mat F → Mat F → Nat → Nat → F) :
    (n : SeqNode F) → ∀ x ∈ (LowerForwardMultiply FLFM n).descendants, x.work.IsEmpty
  | .mk size childRelInds L work X children => by
    intro x hx
    rw [SeqNode.descendants_eq, LowerForwardMultiply_children,
      SeqNode.mem_descendantsList] at hx
    obtain ⟨c, hc, h⟩ := hx
    rw [List.mem_map] at hc
    obtain ⟨c0, hc0, rfl⟩ := hc
    rcases h with h | h
    · subst h
      rw [SeqNode.work_setWork]
      exact Mat.Empty_isEmpty
    · rw [SeqNode.descendants_setWork] at h
      exact LowerForwardMultiplyChildren_below_empty FLFM children c0 hc0 x h
/-- The same for the fronts below the processed children of a node. -/
theorem LowerForwardMultiplyChildren_below_empty (FLFM : Mat F → Mat F → Nat → Nat → F) :
    (cs : List (SeqNode F)) → ∀ c ∈ LowerForwardMultiplyChildren FLFM cs,
      ∀ x ∈ c.descendants, x.work.IsEmpty
  | [] => by
    intro c hc
    simp [LowerForwardMultiplyChildren] at hc
  | child :: rest => by
    intro c hc x hx
    simp only [LowerForwardMultiplyChildren, List.mem_cons] at hc
    rcases hc with hc | hc
    · subst hc
      exact LowerForwardMultiply_below_empty FLFM child x hx
    · exact LowerForwardMultiplyChildren_below_empty FLFM rest c hc x hx
end

end SequentialOrderProofs
end Elemental

namespace Elemental

section SequentialOrderClaims

variable {F : Type} [AddCommMonoid F]

theorem LowerForwardMultiplyChildren_eq_map (FLFM : Mat F → Mat F → Nat → Nat → F)
    (cs : List (SeqNode F)) :
    LowerForwardMultiplyChildren FLFM cs = cs.map (LowerForwardMultiply FLFM) := by
  induction cs with
  | nil => simp [LowerForwardMultiplyChildren]
  | cons c cs ih => simp [LowerForwardMultiplyChildren, ih]

theorem LowerForwardMultiply_work_dims (FLFM : Mat F → Mat F → Nat → Nat → F)
    (n : SeqNode F) :
    (LowerForwardMultiply FLFM n).work.height = n.L.height ∧
    (LowerForwardMultiply FLFM n).work.width = n.X.width := by
  cases n with
  | mk size childRelInds L work X children =>
    simp only [LowerForwardMultiply, SeqNode.work, SeqNode.L, SeqNode.X]
    exact ⟨(updateFromChildren_spec X.width _ _ _).1, (updateFromChildren_spec X.width _ _ _).2.1⟩

/-- While the call on child `c` runs, the work buffer of an earlier child `c1 < c`
is the buffer that its own call left. -/
theorem beforeChild_workAt (FLFM : Mat F → Mat F → Nat → Nat → F) (root : SeqNode F)
    (c c1 : Nat) (h1 : c1 < c) (h2 : c ≤ root.children.length) :
    workAt (beforeChild FLFM root c).children c1
      = (root.children.map (fun n => (LowerForwardMultiply FLFM n).work)).getD c1 Mat.Empty := by
  cases root with
  | mk size childRelInds L work X children =>
    simp only [SeqNode.children] at h2
    simp only [beforeChild, SeqNode.children, workAt, LowerForwardMultiplyChildren_eq_map,
      List.getD_eq_getElem?_getD, List.map_append, List.map_map, List.map_take]
    rw [List.getElem?_append_left (by simp; omega), List.getElem?_take_of_lt h1]
    simp only [List.getElem?_map]
    rfl

theorem SeqNode.workAtPath_cons (c : Nat) (p : List Nat) (n : SeqNode F) :
    n.workAtPath (c :: p)
      = match n.children[c]? with
        | some child => child.workAtPath p
        | none => Mat.Empty := rfl

theorem SeqNode.children_setWork (n : SeqNode F) (w : Mat F) :
    (n.setWork w).children = n.children := by
  cases n
  rfl

theorem SeqNode.workAtPath_setWork (n : SeqNode F) (w : Mat F) (q : List Nat) (hq : q ≠ []) :
    (n.setWork w).workAtPath q = n.workAtPath q := by
  cases q with
  | nil => exact absurd rfl hq
  | cons c p => rw [SeqNode.workAtPath_cons, SeqNode.workAtPath_cons, SeqNode.children_setWork]

/-- After the call on a node the work buffer of every front below it is empty. -/
theorem LowerForwardMultiply_workAtPath (FLFM : Mat F → Mat F → Nat → Nat → F) :
    ∀ (q : List Nat) (n : SeqNode F), q ≠ [] →
      ((LowerForwardMultiply FLFM n).workAtPath q).IsEmpty := by
  intro q
  induction q with
  | nil => intro n h; exact absurd rfl h
  | cons c p ih =>
    intro n _
    cases n with
    | mk size childRelInds L work X children =>
      rw [SeqNode.workAtPath_cons, LowerForwardMultiply_children,
        LowerForwardMultiplyChildren_eq_map, List.getElem?_map, List.getElem?_map]
      cases children[c]? with
      | none => exact Mat.Empty_isEmpty
      | some x =>
        simp only [Option.map_some']
        cases p with
        | nil =>
          show ((LowerForwardMultiply FLFM x).setWork Mat.Empty).work.IsEmpty
          rw [SeqNode.work_setWork]
          exact Mat.Empty_isEmpty
        | cons c1 p1 =>
          rw [SeqNode.workAtPath_setWork _ _ _ (by simp)]
          exact ih x (by simp)

/-- The children in a state of the update loop are children of the loop, some with
their work buffer emptied. -/
theorem updateStates_mem (numRHS : Nat) :
    ∀ (todo : List (SeqNode F)) (W : Mat F) (done : List (SeqNode F)) (relInds : List (List Nat)),
      ∀ s ∈ updateStates numRHS W done todo relInds, ∀ ch ∈ s.2,
        ch ∈ done ∨ ch ∈ todo ∨ ∃ x ∈ todo, ch = x.setWork Mat.Empty := by
  intro todo
  induction todo with
  | nil =>
    intro W done relInds s hs
    simp [updateStates] at hs
  | cons child rest ih =>
    intro W done relInds s hs ch hch
    simp only [updateStates, List.mem_cons] at hs
    rcases hs with hs | hs
    · subst hs
      simp only [List.mem_append, List.mem_singleton] at hch
      rcases hch with (hch | hch) | hch
      · exact Or.inl hch
      · exact Or.inr (Or.inr ⟨child, List.mem_cons_self _ _, hch⟩)
      · exact Or.inr (Or.inl (List.mem_cons_of_mem _ hch))
    · rcases ih _ _ _ s hs ch hch with h | h | ⟨x, hx, h⟩
      · simp only [List.mem_append, List.mem_singleton] at h
        rcases h with h | h
        · exact Or.inl h
        · exact Or.inr (Or.inr ⟨child, List.mem_cons_self _ _, h⟩)
      · exact Or.inr (Or.inl (List.mem_cons_of_mem _ h))
      · exact Or.inr (Or.inr ⟨x, List.mem_cons_of_mem _ hx, h⟩)

/-- A work buffer may be allocated while the innermost call runs on the front at the
path `p` when it is that of the front itself. -/
theorem allowed_self (p : List Nat) :
    p = p ∨ ∃ a c, p = a ++ [c] ∧ a <+: p ∧ ¬(p <+: p) := Or.inl rfl

theorem allowed_child_nil (c : Nat) :
    [c] = ([] : List Nat) ∨ ∃ a c1, [c] = a ++ [c1] ∧ a <+: ([] : List Nat) ∧ ¬([c] <+: []) :=
  Or.inr ⟨[], c, rfl, List.prefix_refl _, by simp⟩

theorem allowed_sibling {c c0 : Nat} (p : List Nat) (h : c ≠ c0) :
    [c] = c0 :: p ∨ ∃ a c1, [c] = a ++ [c1] ∧ a <+: c0 :: p ∧ ¬([c] <+: c0 :: p) :=
  Or.inr ⟨[], c, rfl, List.nil_prefix, fun hp => h (List.cons_prefix_cons.mp hp).1⟩

theorem allowed_cons (c : Nat) {p q : List Nat}
    (h : q = p ∨ ∃ a c1, q = a ++ [c1] ∧ a <+: p ∧ ¬(q <+: p)) :
    c :: q = c :: p ∨ ∃ a c1, c :: q = a ++ [c1] ∧ a <+: c :: p ∧ ¬(c :: q <+: c :: p) := by
  rcases h with h | ⟨a, c1, h1, h2, h3⟩
  · exact Or.inl (by rw [h])
  · refine Or.inr ⟨c :: a, c1, by rw [h1]; rfl, List.cons_prefix_cons.mpr ⟨rfl, h2⟩, fun hp => ?_⟩
    exact h3 (List.cons_prefix_cons.mp hp).2

mutual
/-- In every state of the call on a node whose subtree starts with empty work
buffers, a work buffer that is not empty is that of the front on which the
innermost call runs or that of a child, off the path, of a front on the path. -/
theorem LowerForwardMultiplyStates_allowed (FLFM : Mat F → Mat F → Nat → Nat → F) :
    (n : SeqNode F) → (∀ q, (n.workAtPath q).IsEmpty) →
      ∀ s ∈ LowerForwardMultiplyStates FLFM n, ∀ q, ¬(s.2.workAtPath q).IsEmpty →
        q = s.1 ∨ ∃ a c, q = a ++ [c] ∧ a <+: s.1 ∧ ¬(q <+: s.1)
  | .mk size childRelInds L work X children => by
    intro hempty s hs q hq
    have hwork : work.IsEmpty := hempty []
    have hchildren : ∀ r ∈ children, ∀ q, (r.workAtPath q).IsEmpty := by
      intro r hr q
      obtain ⟨c, hc⟩ := List.mem_iff_getElem?.mp hr
      have := hempty (c :: q)
      rw [SeqNode.workAtPath_cons] at this
      simp only [SeqNode.children, hc] at this
      exact this
    simp only [LowerForwardMultiplyStates, List.mem_cons, List.mem_append, List.mem_map,
      List.mem_singleton, List.not_mem_nil, or_false] at hs
    rcases hs with hs | ⟨s1, hs1, hs⟩ | hs | ⟨s1, hs1, hs⟩ | hs
    · subst hs
      exact absurd (hempty q) hq
    · subst hs
      cases q with
      | nil => exact absurd hwork hq
      | cons c q1 =>
        rw [SeqNode.workAtPath_cons] at hq
        simp only [SeqNode.children] at hq
        cases hc : s1.2[c]? with
        | none =>
          rw [hc] at hq
          exact absurd Mat.Empty_isEmpty hq
        | some ch =>
          rw [hc] at hq
          exact LowerForwardMultiplyChildrenStates_allowed FLFM children []
            (fun d hd => by simp at hd) hchildren s1 hs1 c ch q1 hc hq
    · subst hs
      cases q with
      | nil => exact allowed_self _
      | cons c q1 =>
        rw [SeqNode.workAtPath_cons] at hq
        simp only [SeqNode.children, LowerForwardMultiplyChildren_eq_map, List.getElem?_map] at hq
        cases hc : children[c]? with
        | none =>
          rw [hc] at hq
          exact absurd Mat.Empty_isEmpty hq
        | some x =>
          rw [hc] at hq
          simp only [Option.map_some'] at hq
          cases q1 with
          | nil => exact allowed_child_nil c
          | cons c1 q2 =>
            exact absurd (LowerForwardMultiply_workAtPath FLFM (c1 :: q2) x (by simp)) hq
    · subst hs
      cases q with
      | nil => exact allowed_self _
      | cons c q1 =>
        rw [SeqNode.workAtPath_cons] at hq
        simp only [SeqNode.children] at hq
        cases hc : s1.2[c]? with
        | none =>
          rw [hc] at hq
          exact absurd Mat.Empty_isEmpty hq
        | some ch =>
          rw [hc] at hq
          simp only at hq
          cases q1 with
          | nil => exact allowed_child_nil c
          | cons c1 q2 =>
            exfalso
            apply hq
            have hmem : ch ∈ s1.2 := List.mem_iff_getElem?.mpr ⟨c, hc⟩
            have honly : ∀ y ∈ LowerForwardMultiplyChildren FLFM children,
                (y.workAtPath (c1 :: q2)).IsEmpty := by
              intro y hy
              rw [LowerForwardMultiplyChildren_eq_map, List.mem_map] at hy
              obtain ⟨x, _, rfl⟩ := hy
              exact LowerForwardMultiply_workAtPath FLFM (c1 :: q2) x (by simp)
            rcases updateStates_mem _ _ _ _ _ s1 hs1 ch hmem with h | h | ⟨y, hy, h⟩
            · simp at h
            · exact honly ch h
            · rw [h, SeqNode.workAtPath_setWork _ _ _ (by simp)]
              exact honly y hy
    · subst hs
      cases q with
      | nil => exact allowed_self _
      | cons c q1 =>
        exact absurd (LowerForwardMultiply_workAtPath FLFM (c :: q1) _ (by simp)) hq
/-- The same for the states of the loop of recursive calls on the children. -/
theorem LowerForwardMultiplyChildrenStates_allowed (FLFM : Mat F → Mat F → Nat → Nat → F) :
    (rest : List (SeqNode F)) → (done : List (SeqNode F)) →
      (∀ d ∈ done, ∀ q, q ≠ [] → (d.workAtPath q).IsEmpty) →
      (∀ r ∈ rest, ∀ q, (r.workAtPath q).IsEmpty) →
      ∀ s ∈ LowerForwardMultiplyChildrenStates FLFM done rest,
        ∀ c ch q, s.2[c]? = some ch → ¬(ch.workAtPath q).IsEmpty →
          c :: q = s.1 ∨ ∃ a c1, c :: q = a ++ [c1] ∧ a <+: s.1 ∧ ¬(c :: q <+: s.1)
  | [], done => by
    intro _ _ s hs
    simp [LowerForwardMultiplyChildrenStates] at hs
  | child :: rest, done => by
    intro hdone hrest s hs c ch q hc hq
    simp only [LowerForwardMultiplyChildrenStates, List.mem_append, List.mem_map] at hs
    rcases hs with ⟨s1, hs1, hs⟩ | hs
    · subst hs
      simp only at hc ⊢
      rcases Nat.lt_trichotomy c done.length with hlt | heq | hgt
      · rw [List.getElem?_append_left hlt] at hc
        have hmem : ch ∈ done := List.mem_iff_getElem?.mpr ⟨c, hc⟩
        cases q with
        | nil => exact allowed_sibling _ (Nat.ne_of_lt hlt)
        | cons c1 q1 => exact absurd (hdone ch hmem (c1 :: q1) (by simp)) hq
      · subst heq
        rw [List.getElem?_append_right (le_refl _)] at hc
        simp only [Nat.sub_self, List.getElem?_cons_zero, Option.some.injEq] at hc
        subst hc
        exact allowed_cons _
          (LowerForwardMultiplyStates_allowed FLFM child
            (hrest child (List.mem_cons_self _ _)) s1 hs1 q hq)
      · rw [List.getElem?_append_right (Nat.le_of_lt hgt)] at hc
        obtain ⟨k, hk⟩ : ∃ k, c - done.length = k + 1 := ⟨c - done.length - 1, by omega⟩
        rw [hk, List.getElem?_cons_succ] at hc
        have hmem : ch ∈ rest := List.mem_iff_getElem?.mpr ⟨k, hc⟩
        exact absurd (hrest ch (List.mem_cons_of_mem _ hmem) q) hq
    · refine LowerForwardMultiplyChildrenStates_allowed FLFM rest
        (done ++ [LowerForwardMultiply FLFM child]) ?_
        (fun r hr => hrest r (List.mem_cons_of_mem _ hr)) s hs c ch q hc hq
      intro d hd q1 hq1
      simp only [List.mem_append, List.mem_singleton] at hd
      rcases hd with hd | hd
      · exact hdone d hd q1 hq1
      · rw [hd]
        exact LowerForwardMultiply_workAtPath FLFM q1 child hq1
end

theorem last_of_states {α : Type} (a : α) (A : List α) (b : α) (B : List α) (z : α) :
    (a :: (A ++ b :: (B ++ [z]))).getLast? = some z := by
  rw [show a :: (A ++ b :: (B ++ [z])) = (a :: (A ++ b :: B)) ++ [z] by simp]
  exact List.getLast?_concat _

/-- The last state of the call on a node is the node that `LowerForwardMultiply`
returns. -/
theorem LowerForwardMultiplyStates_getLast (FLFM : Mat F → Mat F → Nat → Nat → F)
    (n : SeqNode F) :
    (LowerForwardMultiplyStates FLFM n).getLast? = some ([], LowerForwardMultiply FLFM n) := by
  cases n with
  | mk size childRelInds L work X children =>
    simp only [LowerForwardMultiplyStates]
    exact last_of_states _ _ _ _ _

/-- The first state of the call on a node is the node itself. -/
theorem LowerForwardMultiplyStates_head (FLFM : Mat F → Mat F → Nat → Nat → F)
    (n : SeqNode F) : ([], n) ∈ LowerForwardMultiplyStates FLFM n := by
  cases n with
  | mk size childRelInds L work X children =>
    simp only [LowerForwardMultiplyStates]
    exact List.mem_cons_self _ _

/-- The state in which the call on child `c` starts is among the states of the loop
of recursive calls. -/
theorem LowerForwardMultiplyChildrenStates_entry (FLFM : Mat F → Mat F → Nat → Nat → F) :
    ∀ (rest done : List (SeqNode F)) (c : Nat), c < rest.length →
      ([done.length + c], done ++ (LowerForwardMultiplyChildren FLFM (rest.take c) ++ rest.drop c))
        ∈ LowerForwardMultiplyChildrenStates FLFM done rest := by
  intro rest
  induction rest with
  | nil => intro done c hc; simp at hc
  | cons child rest ih =>
    intro done c hc
    simp only [LowerForwardMultiplyChildrenStates, List.mem_append, List.mem_map]
    cases c with
    | zero =>
      left
      refine ⟨([], child), LowerForwardMultiplyStates_head FLFM child, ?_⟩
      simp [LowerForwardMultiplyChildren]
    | succ c =>
      right
      have h := ih (done ++ [LowerForwardMultiply FLFM child]) c
        (by simp only [List.length_cons] at hc; omega)
      have e1 : (done ++ [LowerForwardMultiply FLFM child]).length + c = done.length + (c + 1) := by
        simp only [List.length_append, List.length_singleton]; omega
      rw [e1] at h
      simpa [LowerForwardMultiplyChildren, List.append_assoc] using h

/-- The state `beforeChild` in which the call on child `c` starts is one of the
states of the call on the node. -/
theorem beforeChild_mem_states (FLFM : Mat F → Mat F → Nat → Nat → F) (root : SeqNode F)
    (c : Nat) (hc : c < root.children.length) :
    ([c], beforeChild FLFM root c) ∈ LowerForwardMultiplyStates FLFM root := by
  cases root with
  | mk size childRelInds L work X children =>
    simp only [SeqNode.children] at hc
    simp only [LowerForwardMultiplyStates, beforeChild, List.mem_cons, List.mem_append,
      List.mem_map]
    right
    left
    have h := LowerForwardMultiplyChildrenStates_entry FLFM children [] c hc
    simp only [List.length_nil, zero_add, List.nil_append] at h
    exact ⟨_, h, rfl⟩

/-- Closed form of the states of the update loop: after the iteration on child `k`
of the loop, `W` is the result of the loop on the children up to `k`, and these
children are the ones with emptied work buffers. -/
theorem updateStates_getElem (numRHS : Nat) :
    ∀ (todo : List (SeqNode F)) (W : Mat F) (done : List (SeqNode F)) (relInds : List (List Nat))
      (k : Nat), k < todo.length →
      (updateStates numRHS W done todo relInds)[k]?
        = some ((updateFromChildren W numRHS (todo.take (k + 1)) relInds).1,
            done ++ ((todo.take (k + 1)).map (fun c => c.setWork Mat.Empty)
              ++ todo.drop (k + 1))) := by
  intro todo
  induction todo with
  | nil => intro W done relInds k hk; simp at hk
  | cons child rest ih =>
    intro W done relInds k hk
    cases k with
    | zero =>
      simp [updateStates, updateFromChildren]
    | succ k =>
      simp only [updateStates, List.getElem?_cons_succ]
      rw [ih _ _ _ k (by simp only [List.length_cons] at hk; omega)]
      simp [updateFromChildren, List.append_assoc]

/-- The state in which the update loop has made `k` iterations is one of the states
of the call on the node. -/
theorem afterUpdates_mem_states (FLFM : Mat F → Mat F → Nat → Nat → F) (root : SeqNode F)
    (k : Nat) (hk : k ≤ root.children.length) :
    ([], afterUpdates FLFM root k) ∈ LowerForwardMultiplyStates FLFM root := by
  cases root with
  | mk size childRelInds L work X children =>
    simp only [SeqNode.children] at hk
    simp only [LowerForwardMultiplyStates, afterUpdates, List.mem_cons, List.mem_append,
      List.mem_map]
    right
    right
    cases k with
    | zero =>
      left
      simp [updateFromChildren]
    | succ k =>
      right
      left
      have hlen : k < (LowerForwardMultiplyChildren FLFM children).length := by
        rw [LowerForwardMultiplyChildren_length]; omega
      refine ⟨_, List.mem_iff_getElem?.mpr ⟨k, updateStates_getElem _ _ _ _ _ k hlen⟩, ?_⟩
      simp

/-- The work buffers in the state in which the update loop has made `k` iterations:
that of the node is `height(L) x numRHS`, those of the children before `k` are
empty, and those of the children from `k` on are the buffers their calls left. -/
theorem afterUpdates_work (FLFM : Mat F → Mat F → Nat → Nat → F) (root : SeqNode F)
    (k : Nat) (hk : k ≤ root.children.length) :
    (afterUpdates FLFM root k).work.height = root.L.height ∧
    (afterUpdates FLFM root k).work.width = root.X.width ∧
    (∀ c, c < k → (workAt (afterUpdates FLFM root k).children c).IsEmpty) ∧
    (∀ c, k ≤ c → c < root.children.length →
      workAt (afterUpdates FLFM root k).children c
        = (root.children.map (fun n => (LowerForwardMultiply FLFM n).work)).getD c Mat.Empty) := by
  cases root with
  | mk size childRelInds L work X children =>
    simp only [SeqNode.children] at hk
    have hlen := LowerForwardMultiplyChildren_length FLFM children
    refine ⟨?_, ?_, fun c hc => ?_, fun c hc1 hc2 => ?_⟩
    · simp only [afterUpdates, SeqNode.work, SeqNode.L]
      exact (updateFromChildren_spec X.width _ _ _).1
    · simp only [afterUpdates, SeqNode.work, SeqNode.X]
      exact (updateFromChildren_spec X.width _ _ _).2.1
    · simp only [afterUpdates, SeqNode.children, workAt, List.getD_eq_getElem?_getD,
        List.map_append, List.map_map]
      rw [List.getElem?_append_left (by simp; omega)]
      simp only [List.getElem?_map, List.getElem?_take_of_lt hc]
      rw [List.getElem?_eq_getElem (by omega)]
      simp only [Option.map_some', Option.getD_some, Function.comp_apply,
        SeqNode.work_setWork]
      exact Mat.Empty_isEmpty
    · simp only [SeqNode.children] at hc2
      simp only [afterUpdates, SeqNode.children, workAt, List.getD_eq_getElem?_getD,
        List.map_append, List.map_map, LowerForwardMultiplyChildren_eq_map]
      rw [List.getElem?_append_right (by simp; omega)]
      simp only [List.length_map, List.length_take, List.map_drop, List.getElem?_drop,
        List.getElem?_map]
      rw [Nat.min_eq_left hk, show k + (c - k) = c by omega, Option.map_map]
      rfl

/-- C15 (amended): after the sequential `LowerForwardMultiply` has returned for the
root of an elimination tree, the work buffer of every front other than the root is
empty (`0 x 0`), each parent emptying each child's work buffer right after adding
that child's update rows: in the state in which the update loop has made `k`
iterations the buffers of the children before `k` are empty and those of the
children from `k` on are still the buffers their calls left. The buffer that the call
on a child leaves stays allocated while the calls on the later children run: in the
state in which the call on child `c` starts the buffer of a child `c1 < c` is the
`height(L) x numRHS` buffer that its call left. These states are states of the call
on the root, the last of which is the returned tree. When the tree starts with empty
work buffers, in every state of the call a work buffer that is not empty is that of
the front `p` on which the innermost call is running or that of a child, not itself
on the recursion path, of a front on the path; so the buffer of a front is allocated
only after the calls on all its children have returned. -/
theorem LowerForwardMultiply_frees_work (FLFM : Mat F → Mat F → Nat → Nat → F)
    (root : SeqNode F) :
    (∀ x ∈ (LowerForwardMultiply FLFM root).descendants, x.work.IsEmpty) ∧
    (∀ c c1, c1 < c → c ≤ root.children.length →
      workAt (beforeChild FLFM root c).children c1
        = (root.children.map (fun n => (LowerForwardMultiply FLFM n).work)).getD c1 Mat.Empty ∧
      (workAt (beforeChild FLFM root c).children c1).height
        = (root.children.map (fun n => n.L.height)).getD c1 0 ∧
      (workAt (beforeChild FLFM root c).children c1).width
        = (root.children.map (fun n => n.X.width)).getD c1 0) ∧
    (∀ c, c < root.children.length →
      ([c], beforeChild FLFM root c) ∈ LowerForwardMultiplyStates FLFM root) ∧
    (∀ k, k ≤ root.children.length →
      ([], afterUpdates FLFM root k) ∈ LowerForwardMultiplyStates FLFM root ∧
      (afterUpdates FLFM root k).work.height = root.L.height ∧
      (afterUpdates FLFM root k).work.width = root.X.width ∧
      (∀ c, c < k → (workAt (afterUpdates FLFM root k).children c).IsEmpty) ∧
      (∀ c, k ≤ c → c < root.children.length →
        workAt (afterUpdates FLFM root k).children c
          = (root.children.map (fun n => (LowerForwardMultiply FLFM n).work)).getD c
              Mat.Empty)) ∧
    (LowerForwardMultiplyStates FLFM root).getLast?
      = some ([], LowerForwardMultiply FLFM root) ∧
    ((∀ q, (root.workAtPath q).IsEmpty) →
      ∀ s ∈ LowerForwardMultiplyStates FLFM root, ∀ q, ¬(s.2.workAtPath q).IsEmpty →
        q = s.1 ∨ ∃ a c, q = a ++ [c] ∧ a <+: s.1 ∧ ¬(q <+: s.1)) := by
  refine ⟨LowerForwardMultiply_below_empty FLFM root, fun c c1 h1 h2 => ?_,
    beforeChild_mem_states FLFM root,
    fun k hk => ⟨afterUpdates_mem_states FLFM root k hk, afterUpdates_work FLFM root k hk⟩,
    LowerForwardMultiplyStates_getLast FLFM root,
    fun hempty s hs q hq => LowerForwardMultiplyStates_allowed FLFM root hempty s hs q hq⟩
  have e := beforeChild_workAt FLFM root c c1 h1 h2
  refine ⟨e, ?_, ?_⟩
  · rw [e]
    simp only [List.getD_eq_getElem?_getD, List.getElem?_map]
    rw [List.getElem?_eq_getElem (by omega)]
    simp [(LowerForwardMultiply_work_dims FLFM _).1]
  · rw [e]
    simp only [List.getD_eq_getElem?_getD, List.getElem?_map]
    rw [List.getElem?_eq_getElem (by omega)]
    simp [(LowerForwardMultiply_work_dims FLFM _).2]

theorem exampleFork_empty : ∀ q, (exampleFork.workAtPath q).IsEmpty := by
  intro q
  cases q with
  | nil => exact Mat.Empty_isEmpty
  | cons c p =>
    rw [SeqNode.workAtPath_cons]
    have hleaf : (exampleLeaf.workAtPath p).IsEmpty := by
      cases p with
      | nil => exact Mat.Empty_isEmpty
      | cons c1 p1 =>
        rw [SeqNode.workAtPath_cons]
        simp [exampleLeaf, SeqNode.children, Mat.Empty_isEmpty]
    match c with
    | 0 => simpa [exampleFork, SeqNode.children] using hleaf
    | 1 => simpa [exampleFork, SeqNode.children] using hleaf
    | c + 2 => simp [exampleFork, SeqNode.children, Mat.Empty_isEmpty]

/-- Witness for C15: the tree `exampleFork`, a root over two leaves, which starts with
empty work buffers. -/
theorem LowerForwardMultiply_frees_work_witness :
    (∀ q, (exampleFork.workAtPath q).IsEmpty) ∧
    (∀ s ∈ LowerForwardMultiplyStates exampleKernel exampleFork,
      ∀ q, ¬(s.2.workAtPath q).IsEmpty →
        q = s.1 ∨ ∃ a c, q = a ++ [c] ∧ a <+: s.1 ∧ ¬(q <+: s.1)) :=
  ⟨exampleFork_empty,
    (LowerForwardMultiply_frees_work exampleKernel exampleFork).2.2.2.2.2 exampleFork_empty⟩

/-- The call on `exampleFork` traced: for each state, the path of the running call
and the fronts, among the root `[]` and the leaves `[0]` and `[1]`, whose work buffer
is not empty. While the call on the second leaf runs the buffer of the first leaf is
allocated and that of the root is not. -/
theorem LowerForwardMultiplyStates_example :
    (LowerForwardMultiplyStates exampleKernel exampleFork).map
        (fun s => (s.1, [[], [0], [1]].filter (fun q => decide (¬(s.2.workAtPath q).IsEmpty))))
      = [([], []),
         ([0], []), ([0], [[0]]), ([0], [[0]]),
         ([1], [[0]]), ([1], [[0], [1]]), ([1], [[0], [1]]),
         ([], [[], [0], [1]]), ([], [[], [1]]), ([], [[]]), ([], [[]])] := by
  decide

/-- C15, as stated, fails in its last clause: in the tree `exampleFork`, when the
call on the second child of the root starts, the recursion path is the root and
that child, and the work buffer of the first child, which is not on the path, is
allocated (`3 x 1`, not empty). -/
theorem LowerForwardMultiply_sibling_allocated :
    (workAt (beforeChild exampleKernel exampleFork 1).children 0).height = 3 ∧
    (workAt (beforeChild exampleKernel exampleFork 1).children 0).width = 1 ∧
    ¬(workAt (beforeChild exampleKernel exampleFork 1).children 0).IsEmpty := by
  have h := (LowerForwardMultiply_work_dims exampleKernel exampleLeaf)
  have e : workAt (beforeChild exampleKernel exampleFork 1).children 0
      = (LowerForwardMultiply exampleKernel exampleLeaf).work := by
    simp [beforeChild, exampleFork, workAt, LowerForwardMultiplyChildren, SeqNode.children]
  rw [e]
  refine ⟨h.1, h.2, fun hc => ?_⟩
  have := hc.1
  rw [h.1] at this
  simp [exampleLeaf, SeqNode.L] at this

/-- C12, as stated, fails: at the root of `exampleRoot` the work buffer ends with
the entry 6 in row 0, the front operation applied to `[X; 0]` giving 1 and the update
row of the leaf adding 5; applying the front operation to `[X; 0]` plus the update
rows would give 11. -/
theorem LowerForwardMultiply_not_updates_first :
    (LowerForwardMultiply exampleKernel exampleRoot).work.entry 0 0 = 6 ∧
    (updatesBeforeFront exampleKernel exampleRoot).entry 0 0 = 11 ∧
    (LowerForwardMultiply exampleKernel exampleRoot).work.entry 0 0
      ≠ (updatesBeforeFront exampleKernel exampleRoot).entry 0 0 := by
  have h1 : (LowerForwardMultiply exampleKernel exampleRoot).work.entry 0 0 = 6 := by
    simp [LowerForwardMultiply, LowerForwardMultiplyChildren, exampleRoot, exampleLeaf,
      exampleKernel, exampleRootL, exampleRootX, updateFromChildren, childUpdate, updateRow,
      Mat.Update, SeqNode.work, SeqNode.X, SeqNode.size, Finset.sum_range_succ, List.range_succ]
    norm_num
  have h2 : (updatesBeforeFront exampleKernel exampleRoot).entry 0 0 = 11 := by
    simp [updatesBeforeFront, LowerForwardMultiply, LowerForwardMultiplyChildren, exampleRoot,
      exampleLeaf, exampleKernel, exampleRootL, exampleRootX, updateFromChildren, childUpdate,
      updateRow, Mat.Update, SeqNode.work, SeqNode.X, SeqNode.size, Finset.sum_range_succ,
      List.range_succ]
    norm_num
  refine ⟨h1, h2, ?_⟩
  rw [h1, h2]
  norm_num

end SequentialOrderClaims
end Elemental

namespace Elemental

section DistOrderProofs

variable {T F : Type} [DecidableEq T] [AddCommMonoid F]

theorem unpackRows_spec (W : Mat F) (recvInds : List Nat) (childU : Nat → Nat → F)
    (numRHS : Nat) :
    (unpackRows W recvInds childU numRHS).height = W.height ∧
    (unpackRows W recvInds childU numRHS).width = W.width ∧
    ∀ i j, (unpackRows W recvInds childU numRHS).entry i j
      = W.entry i j + ∑ k in Finset.range recvInds.length,
          if i = recvInds.getD k 0 ∧ j < numRHS then childU k j else 0 := by
  unfold unpackRows
  generalize recvInds.length = u
  induction u with
  | zero => simp
  | succ m ih =>
    rw [List.range_succ, List.foldl_append]
    simp only [List.foldl_cons, List.foldl_nil]
    obtain ⟨h1, h2, h3⟩ := updateRow_spec
      (List.foldl (fun W k => updateRow W (recvInds.getD k 0) childU k numRHS) W (List.range m))
      (recvInds.getD m 0) childU m numRHS
    refine ⟨h1.trans ih.1, h2.trans ih.2.1, fun i j => ?_⟩
    rw [h3, ih.2.2, Finset.sum_range_succ, add_assoc]

/-- The `DistMultiVecNode` overload on a front whose child has another front type:
the error is raised and nothing is touched. -/
theorem LowerForwardMultiplyMultiVec_mismatch (ops : FrontTypeOps T)
    (FLFM : Mat F → Mat F → Nat → Nat → F) (DFLFM : T → Mat F → Mat F → Mat F → Nat → Nat → F)
    (size : Nat) (vecRecvInds matRecvInds : List Nat) (type : T)
    (L1D L2D work1D work2D X : Mat F) (child : DistNode T F) (h : child.type ≠ type) :
    LowerForwardMultiplyMultiVec ops FLFM DFLFM
        (.node size vecRecvInds matRecvInds type L1D L2D work1D work2D X child)
      = (.node size vecRecvInds matRecvInds type L1D L2D work1D work2D X child,
          some "Incompatible front type mixture") := by
  rw [LowerForwardMultiplyMultiVec, if_pos h]

/-- The `DistMultiVecNode` overload on a front whose child has the same front type:
the error of the call is the error of the recursive call on the child. -/
theorem LowerForwardMultiplyMultiVec_error (ops : FrontTypeOps T)
    (FLFM : Mat F → Mat F → Nat → Nat → F) (DFLFM : T → Mat F → Mat F → Mat F → Nat → Nat → F)
    (size : Nat) (vecRecvInds matRecvInds : List Nat) (type : T)
    (L1D L2D work1D work2D X : Mat F) (child : DistNode T F) (h : child.type = type) :
    (LowerForwardMultiplyMultiVec ops FLFM DFLFM
        (.node size vecRecvInds matRecvInds type L1D L2D work1D work2D X child)).2
      = (LowerForwardMultiplyMultiVec ops FLFM DFLFM child).2 := by
  rw [LowerForwardMultiplyMultiVec, if_neg (not_not.mpr h)]
  simp only []
  generalize LowerForwardMultiplyMultiVec ops FLFM DFLFM child = r
  obtain ⟨r1, r2⟩ := r
  cases r2 <;> rfl

theorem LowerForwardMultiplyMultiVec_none_iff (ops : FrontTypeOps T)
    (FLFM : Mat F → Mat F → Nat → Nat → F) (DFLFM : T → Mat F → Mat F → Mat F → Nat → Nat → F)
    (n : DistNode T F) :
    (LowerForwardMultiplyMultiVec ops FLFM DFLFM n).2 = none ↔ n.Uniform := by
  induction n with
  | dup size type w1 w2 d => simp [LowerForwardMultiplyMultiVec, DistNode.Uniform]
  | node size vr mr type L1D L2D w1 w2 X child ih =>
    by_cases h : child.type = type
    · rw [LowerForwardMultiplyMultiVec_error ops FLFM DFLFM size vr mr type L1D L2D w1 w2 X
        child h, ih]
      simp [DistNode.Uniform, h]
    · rw [LowerForwardMultiplyMultiVec_mismatch ops FLFM DFLFM size vr mr type L1D L2D w1 w2 X
        child h]
      simp [DistNode.Uniform, h]

theorem LowerForwardMultiplyMultiVec_message (ops : FrontTypeOps T)
    (FLFM : Mat F → Mat F → Nat → Nat → F) (DFLFM : T → Mat F → Mat F → Mat F → Nat → Nat → F)
    (n : DistNode T F) (e : String)
    (he : (LowerForwardMultiplyMultiVec ops FLFM DFLFM n).2 = some e) :
    e = "Incompatible front type mixture" := by
  induction n with
  | dup size type w1 w2 d => simp [LowerForwardMultiplyMultiVec] at he
  | node size vr mr type L1D L2D w1 w2 X child ih =>
    by_cases h : child.type = type
    · rw [LowerForwardMultiplyMultiVec_error ops FLFM DFLFM size vr mr type L1D L2D w1 w2 X
        child h] at he
      exact ih he
    · rw [LowerForwardMultiplyMultiVec_mismatch ops FLFM DFLFM size vr mr type L1D L2D w1 w2 X
        child h] at he
      simp only [Option.some.injEq] at he
      exact he.symm

/-- The work buffer of a front without a duplicate after the `DistMultiVecNode`
overload, when no error is raised. -/
theorem LowerForwardMultiplyMultiVec_work (ops : FrontTypeOps T)
    (FLFM : Mat F → Mat F → Nat → Nat → F) (DFLFM : T → Mat F → Mat F → Mat F → Nat → Nat → F)
    (size : Nat) (vecRecvInds matRecvInds : List Nat) (type : T)
    (L1D L2D work1D work2D X : Mat F) (child : DistNode T F) (h : child.type = type)
    (hrec : (LowerForwardMultiplyMultiVec ops FLFM DFLFM child).2 = none) :
    (LowerForwardMultiplyMultiVec ops FLFM DFLFM
        (.node size vecRecvInds matRecvInds type L1D L2D work1D work2D X child)).1.work1D
      = unpackRows
          ⟨if ops.FrontIs1D type then L1D.height else L2D.height, X.width,
            DFLFM type L1D L2D
              ⟨if ops.FrontIs1D type then L1D.height else L2D.height, X.width,
                fun i j =>
                  if i < min size (if ops.FrontIs1D type then L1D.height else L2D.height)
                  then X.entry i j else 0⟩⟩
          vecRecvInds
          (fun i j => (LowerForwardMultiplyMultiVec ops FLFM DFLFM child).1.work1D.entry
            ((LowerForwardMultiplyMultiVec ops FLFM DFLFM child).1.size + i) j)
          X.width := by
  rw [LowerForwardMultiplyMultiVec, if_neg (not_not.mpr h)]
  simp only []
  generalize LowerForwardMultiplyMultiVec ops FLFM DFLFM child = r at hrec
  obtain ⟨r1, r2⟩ := r
  simp only at hrec
  subst hrec
  rfl

end DistOrderProofs
end Elemental

namespace Elemental

section DistOrderClaims

variable {T F : Type} [DecidableEq T] [AddCommMonoid F]

/-- C12 (amended): in `LowerForwardMultiply` the front operation
(`FrontLowerForwardMultiply`) is applied to `[X; 0]` alone, and the update rows
coming from the children are accumulated into the result afterwards. For the
sequential overload the work buffer is the front operation on `[X; 0]` plus, for
every child `c` and update row `k`, row `size_c + k` of the child's work buffer at
row `childRelInds[c][k]`; for the `DistMultiVecNode` overload (front without a
duplicate, child of the same type, no error below) it is the front operation on
`[X; 0]` plus, for every received row `k`, row `size + k` of the child's work buffer
at row `childRecvInds[k]`. -/
theorem LowerForwardMultiply_front_first (FLFM : Mat F → Mat F → Nat → Nat → F)
    (size : Nat) (childRelInds : List (List Nat)) (L work X : Mat F)
    (children : List (SeqNode F)) (hX : X.height = size) (hs : size ≤ L.height)
    (ops : FrontTypeOps T) (DFLFM : T → Mat F → Mat F → Mat F → Nat → Nat → F)
    (dsize : Nat) (vecRecvInds matRecvInds : List Nat) (type : T)
    (L1D L2D work1D work2D DX : Mat F) (child : DistNode T F)
    (hDX : DX.height = dsize)
    (hds : dsize ≤ if ops.FrontIs1D type then L1D.height else L2D.height)
    (htype : child.type = type)
    (hrec : (LowerForwardMultiplyMultiVec ops FLFM DFLFM child).2 = none) :
    (∀ i j, (LowerForwardMultiply FLFM (.mk size childRelInds L work X children)).work.entry i j
      = FLFM L (stackZero X L.height) i j
        + ∑ c in Finset.range children.length,
            ∑ k in Finset.range ((workAt (LowerForwardMultiplyChildren FLFM children) c).height
                - sizeAt (LowerForwardMultiplyChildren FLFM children) c),
              if i = (childRelInds.getD c []).getD k 0 ∧ j < X.width
              then (workAt (LowerForwardMultiplyChildren FLFM children) c).entry
                (sizeAt (LowerForwardMultiplyChildren FLFM children) c + k) j
              else 0) ∧
    (LowerForwardMultiplyMultiVec ops FLFM DFLFM
        (.node dsize vecRecvInds matRecvInds type L1D L2D work1D work2D DX child)).2 = none ∧
    (∀ i j, (LowerForwardMultiplyMultiVec ops FLFM DFLFM
        (.node dsize vecRecvInds matRecvInds type L1D L2D work1D work2D DX child)).1.work1D.entry
          i j
      = DFLFM type L1D L2D
          (stackZero DX (if ops.FrontIs1D type then L1D.height else L2D.height)) i j
        + ∑ k in Finset.range vecRecvInds.length,
            if i = vecRecvInds.getD k 0 ∧ j < DX.width
            then (LowerForwardMultiplyMultiVec ops FLFM DFLFM child).1.work1D.entry
              ((LowerForwardMultiplyMultiVec ops FLFM DFLFM child).1.size + k) j
            else 0) := by
  refine ⟨fun i j => ?_, ?_, fun i j => ?_⟩
  · have hmin : min size L.height = X.height := by
      rw [hX]; exact min_eq_left hs
    have a3 := (updateFromChildren_spec X.width
      (LowerForwardMultiplyChildren FLFM children)
      (⟨L.height, X.width, FLFM L ⟨L.height, X.width,
        fun i j => if i < min size L.height then X.entry i j else 0⟩⟩ : Mat F)
      childRelInds).2.2.1 i j
    rw [LowerForwardMultiplyChildren_length, hmin] at a3
    simp only [LowerForwardMultiply, SeqNode.work, hmin]
    exact a3
  · rw [LowerForwardMultiplyMultiVec_error ops FLFM DFLFM dsize vecRecvInds matRecvInds type
      L1D L2D work1D work2D DX child htype]
    exact hrec
  · have hmin : min dsize (if ops.FrontIs1D type then L1D.height else L2D.height)
        = DX.height := by
      rw [hDX]; exact min_eq_left hds
    rw [LowerForwardMultiplyMultiVec_work ops FLFM DFLFM dsize vecRecvInds matRecvInds type
      L1D L2D work1D work2D DX child htype hrec, (unpackRows_spec _ _ _ _).2.2, hmin]
    rfl

/-- Witness for C12: the root of `exampleRoot` (sequential) and the chain
`exampleDist` (distributed). -/
theorem LowerForwardMultiply_front_first_witness :
    exampleRootX.height = 2 ∧ 2 ≤ exampleRootL.height ∧
    (DistNode.dup 1 SymmFrontType.LDL_1D Mat.Empty Mat.Empty distLeaf).type
      = SymmFrontType.LDL_1D ∧
    (LowerForwardMultiplyMultiVec SymmFrontType.ops exampleKernel exampleDistKernel
      exampleDist).2 = none ∧
    (LowerForwardMultiplyMultiVec SymmFrontType.ops exampleKernel exampleDistKernel
      exampleDist).1.work1D.entry 0 0
      = exampleDistKernel .LDL_1D exampleRootL exampleRootL
          (stackZero exampleRootX
            (if SymmFrontType.ops.FrontIs1D .LDL_1D then exampleRootL.height
              else exampleRootL.height)) 0 0
        + ∑ k in Finset.range ([0, 1] : List Nat).length,
            if 0 = ([0, 1] : List Nat).getD k 0 ∧ 0 < exampleRootX.width
            then (LowerForwardMultiplyMultiVec SymmFrontType.ops exampleKernel exampleDistKernel
                (.dup 1 .LDL_1D Mat.Empty Mat.Empty distLeaf)).1.work1D.entry
              ((LowerForwardMultiplyMultiVec SymmFrontType.ops exampleKernel exampleDistKernel
                (.dup 1 .LDL_1D Mat.Empty Mat.Empty distLeaf)).1.size + k) 0
            else 0 :=
  have h := LowerForwardMultiply_front_first exampleKernel 2 [[0, 1]] exampleRootL Mat.Empty
    exampleRootX [exampleLeaf] rfl (le_refl 2) SymmFrontType.ops exampleDistKernel 2 [0, 1]
    [0, 0, 1, 0] .LDL_1D exampleRootL exampleRootL Mat.Empty Mat.Empty exampleRootX
    (.dup 1 .LDL_1D Mat.Empty Mat.Empty distLeaf) rfl (le_refl 2) rfl rfl
  ⟨rfl, le_refl 2, rfl, h.2.1, h.2.2 0 0⟩

/-- The work buffers of the example chain after the `DistMultiVecNode` overload:
rows 0 and 1 hold 11, the front operation giving 1 and the update rows of the
(processed) child adding 10. -/
theorem LowerForwardMultiplyMultiVec_example :
    (LowerForwardMultiplyMultiVec SymmFrontType.ops exampleKernel exampleDistKernel
      exampleDist).1.work1D.entry 0 0 = 11 ∧
    (LowerForwardMultiplyMultiVec SymmFrontType.ops exampleKernel exampleDistKernel
      exampleDist).1.work1D.entry 1 0 = 11 := by
  simp [LowerForwardMultiplyMultiVec, exampleDist, distLeaf, exampleDistKernel, exampleKernel,
    exampleRootL, exampleRootX, LowerForwardMultiply, LowerForwardMultiplyChildren,
    updateFromChildren, unpackRows, updateRow, Mat.Update, DistNode.type, DistNode.work1D,
    DistNode.size, DistNode.emptyWork1D, SeqNode.work, SymmFrontType.ops,
    SymmFrontType.FrontIs1D, Finset.sum_range_succ, List.range_succ]
  norm_num

end DistOrderClaims
end Elemental

namespace Elemental

section DistErrorClaims

variable {T F : Type} [DecidableEq T] [AddCommMonoid F]

/-- C14 (amended): the `DistMultiVecNode` overload of `LowerForwardMultiply` called
on a front without a duplicate whose child front has a front type different from
its own raises the error "Incompatible front type mixture" before the recursive
call and before any child update is combined into the workspace: the tree is left
as it was. When the two types agree, the call raises the error exactly when the
recursive call on the child raises it; so a call raises no error exactly when every
front without a duplicate, here and below, has a child of its own type, and the
only error raised is that one. -/
theorem LowerForwardMultiplyMultiVec_type_check (ops : FrontTypeOps T)
    (FLFM : Mat F → Mat F → Nat → Nat → F) (DFLFM : T → Mat F → Mat F → Mat F → Nat → Nat → F)
    (size : Nat) (vecRecvInds matRecvInds : List Nat) (type : T)
    (L1D L2D work1D work2D X : Mat F) (child : DistNode T F) :
    (child.type ≠ type →
      LowerForwardMultiplyMultiVec ops FLFM DFLFM
          (.node size vecRecvInds matRecvInds type L1D L2D work1D work2D X child)
        = (.node size vecRecvInds matRecvInds type L1D L2D work1D work2D X child,
            some "Incompatible front type mixture")) ∧
    (child.type = type →
      (LowerForwardMultiplyMultiVec ops FLFM DFLFM
          (.node size vecRecvInds matRecvInds type L1D L2D work1D work2D X child)).2
        = (LowerForwardMultiplyMultiVec ops FLFM DFLFM child).2) ∧
    (∀ n : DistNode T F,
      ((LowerForwardMultiplyMultiVec ops FLFM DFLFM n).2 = none ↔ n.Uniform) ∧
      ∀ e, (LowerForwardMultiplyMultiVec ops FLFM DFLFM n).2 = some e →
        e = "Incompatible front type mixture") :=
  ⟨LowerForwardMultiplyMultiVec_mismatch ops FLFM DFLFM size vecRecvInds matRecvInds type
      L1D L2D work1D work2D X child,
    LowerForwardMultiplyMultiVec_error ops FLFM DFLFM size vecRecvInds matRecvInds type
      L1D L2D work1D work2D X child,
    fun n => ⟨LowerForwardMultiplyMultiVec_none_iff ops FLFM DFLFM n,
      LowerForwardMultiplyMultiVec_message ops FLFM DFLFM n⟩⟩

/-- C14, as stated, fails on both counts. In `deepMixedDist` the front and its child
have the same type `LDL_1D`, and the `DistMultiVecNode` overload still raises
"Incompatible front type mixture" (from the recursive call, the child of the child
having the type `LDL_2D`). In `mixedDist` the child front has another type than the
front, and the `DistMatrixNode` overload raises no error. -/
theorem LowerForwardMultiply_mixture_counterexample :
    (DistNode.type mixedDist = DistNode.type deepMixedDist ∧
      (LowerForwardMultiplyMultiVec SymmFrontType.ops exampleKernel exampleDistKernel
        deepMixedDist).2 = some "Incompatible front type mixture") ∧
    ((DistNode.dup 1 SymmFrontType.LDL_2D Mat.Empty Mat.Empty distLeaf).type
        ≠ DistNode.type mixedDist ∧
      (LowerForwardMultiplyMatrix exampleKernel exampleDistKernel mixedDist).2 = none) := by
  refine ⟨⟨rfl, ?_⟩, ?_, rfl⟩
  · simp [LowerForwardMultiplyMultiVec, deepMixedDist, mixedDist, DistNode.type]
  · simp [mixedDist, DistNode.type]

/-- C13 at the failing input: the `DistMatrixNode` overload makes no recursive
call. For every front without a duplicate the child of the result is the child as
it was passed in, with only its work buffers emptied. On `exampleDist` the
right-hand side of the child is still 5 after the call and row 0 of the workspace
holds 1, the update rows having been read from the child's `work2D` before any call
on the child; the `DistMultiVecNode` overload, which recurses first, leaves 10 and
11 there. -/
theorem LowerForwardMultiplyMatrix_no_recursion :
    (∀ (FLFM : Mat ℚ → Mat ℚ → Nat → Nat → ℚ)
        (DFLFM : SymmFrontType → Mat ℚ → Mat ℚ → Mat ℚ → Nat → Nat → ℚ) (size : Nat)
        (vecRecvInds matRecvInds : List Nat) (type : SymmFrontType)
        (L1D L2D work1D work2D X : Mat ℚ) (child : DistNode SymmFrontType ℚ),
      ∃ W X1, (LowerForwardMultiplyMatrix FLFM DFLFM
          (.node size vecRecvInds matRecvInds type L1D L2D work1D work2D X child)).1
        = .node size vecRecvInds matRecvInds type L1D L2D work1D W X1 child.emptyWork2D) ∧
    (∃ t w1 w2 W X1, (LowerForwardMultiplyMatrix exampleKernel exampleDistKernel exampleDist).1
        = .node 2 [0, 1] [0, 0, 1, 0] t exampleRootL exampleRootL w1 W X1
            (.dup 1 .LDL_1D w1 w2 (distLeaf.setWork Mat.Empty)) ∧
      distLeaf.X.entry 0 0 = 5 ∧ W.entry 0 0 = 1) ∧
    (∃ t w1 w2 W X1 d, (LowerForwardMultiplyMultiVec SymmFrontType.ops exampleKernel
          exampleDistKernel exampleDist).1
        = .node 2 [0, 1] [0, 0, 1, 0] t exampleRootL exampleRootL W w2 X1
            (.dup 1 .LDL_1D w1 w2 d) ∧
      d.X.entry 0 0 = 10 ∧ W.entry 0 0 = 11) := by
  refine ⟨fun FLFM DFLFM size vr mr type L1D L2D w1 w2 X child => ⟨_, _, rfl⟩, ?_, ?_⟩
  · refine ⟨_, _, _, _, _, rfl, ?_, ?_⟩
    · simp [distLeaf, SeqNode.X]
    · simp [exampleDistKernel, exampleKernel, exampleRootL, exampleRootX, unpackEntries,
        Mat.Update, DistNode.work2D, DistNode.size, Mat.Empty, Finset.sum_range_succ,
        List.range_succ]
  · refine ⟨_, _, _, _, _, _, rfl, ?_, ?_⟩
    · simp [LowerForwardMultiply, LowerForwardMultiplyChildren, updateFromChildren, distLeaf,
        exampleKernel, SeqNode.X, SeqNode.setWork, Finset.sum_range_succ]
      norm_num
    · simp [exampleDistKernel, exampleKernel, exampleRootL, exampleRootX,
        LowerForwardMultiplyMultiVec, LowerForwardMultiply, LowerForwardMultiplyChildren,
        updateFromChildren, distLeaf, unpackRows, updateRow, Mat.Update, DistNode.work1D, DistNode.size, SeqNode.work,
        SymmFrontType.ops, SymmFrontType.FrontIs1D, Finset.sum_range_succ, List.range_succ]
      norm_num

end DistErrorClaims
end Elemental

namespace Elemental
namespace elem

section MatrixProofs

variable {T B : Type}

theorem IsLocked_eq (v : ViewType) : IsLocked v = v.locked := by
  rcases v with ⟨a, b, c⟩
  cases a <;> cases b <;> cases c <;> rfl

theorem IsOwner_eq (v : ViewType) : IsOwner v = !v.view := by
  rcases v with ⟨a, b, c⟩
  cases a <;> cases b <;> cases c <;> rfl

theorem IsShrinkable_eq (v : ViewType) : IsShrinkable v = !v.fixed := by
  rcases v with ⟨a, b, c⟩
  cases a <;> cases b <;> cases c <;> rfl

theorem Matrix.writeChecks_locked (M : Matrix T) (i j : Int) (h : M.Locked = true) :
    ∃ msg, Matrix.writeChecks true M i j = .error msg := by
  unfold Matrix.writeChecks
  rw [if_pos rfl]
  cases h1 : M.AssertValidEntry i j with
  | ok u => exact ⟨_, by rw [if_pos h]⟩
  | error msg => exact ⟨msg, rfl⟩
  | undefined =>
    unfold Matrix.AssertValidEntry at h1
    split_ifs at h1

/-- With the debug checks, each of the accessors that test `Locked()` raises an
error on a locked matrix, before anything is written. -/
theorem Matrix.locked_accessors_raise [Add T] (ops : ScalarOps T B) (alloc : Int → Int → T)
    (M A : Matrix T) (i j : Int) (alpha : T) (beta : B) (h : M.Locked = true) :
    (∃ msg, Matrix.Set true M i j alpha = .error msg) ∧
    (∃ msg, Matrix.SetRealPart ops true M i j beta = .error msg) ∧
    (∃ msg, Matrix.SetImagPart ops true M i j beta = .error msg) ∧
    (∃ msg, Matrix.Update true M i j alpha = .error msg) ∧
    (∃ msg, Matrix.UpdateRealPart ops true M i j beta = .error msg) ∧
    (∃ msg, Matrix.UpdateImagPart ops true M i j beta = .error msg) ∧
    (∃ msg, Matrix.MakeReal ops true M i j = .error msg) ∧
    (∃ msg, Matrix.Conjugate ops true M i j = .error msg) ∧
    (∃ msg, Matrix.copyAssign true alloc M A = .error msg) ∧
    (∃ msg, Matrix.Buffer true M = .error msg) ∧
    (∃ msg, Matrix.BufferAt true M i j = .error msg) := by
  obtain ⟨msg, hm⟩ := Matrix.writeChecks_locked M i j h
  refine ⟨⟨msg, ?_⟩, ⟨msg, ?_⟩, ⟨msg, ?_⟩, ⟨msg, ?_⟩, ⟨msg, ?_⟩, ⟨msg, ?_⟩, ⟨msg, ?_⟩, ⟨msg, ?_⟩,
    ⟨"Cannot assign to a locked view", ?_⟩,
    ⟨"Cannot return non-const buffer of locked Matrix", ?_⟩,
    ⟨"Cannot return non-const buffer of locked Matrix", ?_⟩⟩
  · simp only [Matrix.Set, hm]
  · simp only [Matrix.SetRealPart, hm]
  · simp only [Matrix.SetImagPart, hm]
  · simp only [Matrix.Update, hm]
  · simp only [Matrix.UpdateRealPart, hm]
  · simp only [Matrix.UpdateImagPart, hm]
  · simp only [Matrix.MakeReal, hm]
  · simp only [Matrix.Conjugate, hm]
  · unfold Matrix.copyAssign
    rw [if_pos (by simp [h])]
  · unfold Matrix.Buffer
    rw [if_pos (by simp [h])]
  · unfold Matrix.BufferAt
    rw [if_pos (by simp [h])]

/-- C16 at the failing input: with the debug checks, `Set`, `SetRealPart`,
`SetImagPart`, `Update`, `UpdateRealPart`, `UpdateImagPart`, `MakeReal`,
`Conjugate`, the copy assignment and `Buffer()` raise an error on every locked
matrix; `SetDiagonal` does not test `Locked()`: on the locked `1 x 1` view
`lockedView`, whose entry is 0, `SetDiagonal( d, 0 )` with `d = [5]` returns without
error and the entry is 5 afterwards. -/
theorem SetDiagonal_locked_writes :
    (∀ (M A : Matrix ℚ) (alloc : Int → Int → ℚ) (i j : Int) (alpha beta : ℚ),
      M.Locked = true →
      (∃ msg, Matrix.Set true M i j alpha = .error msg) ∧
      (∃ msg, Matrix.SetRealPart ratOps true M i j beta = .error msg) ∧
      (∃ msg, Matrix.SetImagPart ratOps true M i j beta = .error msg) ∧
      (∃ msg, Matrix.Update true M i j alpha = .error msg) ∧
      (∃ msg, Matrix.UpdateRealPart ratOps true M i j beta = .error msg) ∧
      (∃ msg, Matrix.UpdateImagPart ratOps true M i j beta = .error msg) ∧
      (∃ msg, Matrix.MakeReal ratOps true M i j = .error msg) ∧
      (∃ msg, Matrix.Conjugate ratOps true M i j = .error msg) ∧
      (∃ msg, Matrix.copyAssign true alloc M A = .error msg) ∧
      (∃ msg, Matrix.Buffer true M = .error msg) ∧
      (∃ msg, Matrix.BufferAt true M i j = .error msg)) ∧
    lockedView.Locked = true ∧
    Matrix.Get true lockedView 0 0 = .ok 0 ∧
    (∃ M1, Matrix.SetDiagonal true lockedView fiveColumn 0 = .ok M1 ∧
      M1.Locked = true ∧ Matrix.Get true M1 0 0 = .ok 5) := by
  refine ⟨fun M A alloc i j alpha beta h =>
    Matrix.locked_accessors_raise ratOps alloc M A i j alpha beta h, by decide, ?_, ?_⟩
  · simp [Matrix.Get, Matrix.readChecks, Matrix.AssertValidEntry, Matrix.Get_, Matrix.load,
      Matrix.ofOption, lockedView, Matrix.Height, Matrix.Width]
  · refine ⟨⟨.LOCKED_VIEW, 1, 1, 1, .buffer (fun k1 => if k1 = 0 then 5 else 0), Memory.none⟩,
      ?_, by decide, ?_⟩
    · rfl
    · simp [Matrix.Get, Matrix.readChecks, Matrix.AssertValidEntry, Matrix.Get_, Matrix.load,
        Matrix.ofOption, Matrix.Height, Matrix.Width]

end MatrixProofs
end elem
end Elemental

namespace Elemental
namespace elem

section MatrixDims

variable {T B : Type}

theorem Matrix.FixedSize_eq (M : Matrix T) : M.FixedSize = M.viewType_.fixed := by
  simp [Matrix.FixedSize, IsShrinkable_eq]

theorem Matrix.Viewing_eq (M : Matrix T) : M.Viewing = M.viewType_.view := by
  simp [Matrix.Viewing, IsOwner_eq]

theorem Matrix.Locked_eq (M : Matrix T) : M.Locked = M.viewType_.locked := by
  simp [Matrix.Locked, IsLocked_eq]

/-- C17 at the failing input: `LockedAttach_` sets the view bit only
(`viewType_ | VIEW`), so after `LockedAttach` on a matrix that is not of fixed size
the matrix is a view with the given height, width and leading dimension, and it is
locked exactly when it was locked before. On a default-constructed matrix (an
unlocked owner) the result has the view type `VIEW`, `Locked()` is false, and a
following `Set( 0, 0, 7 )` is accepted and writes the attached buffer. -/
theorem LockedAttach_owner_not_locked :
    (∀ (M : Matrix ℚ) (debug : Bool) (height width : Int) (buffer : Int → ℚ) (ldim : Int),
      (debug && M.FixedSize) = false →
      ∃ M1, Matrix.LockedAttach debug M height width buffer ldim = .ok M1 ∧
        M1.Viewing = true ∧ M1.Height = height ∧ M1.Width = width ∧ M1.LDim = ldim ∧
        M1.Locked = M.Locked) ∧
    (∃ M1, Matrix.LockedAttach true (Matrix.construct false) 1 1 (fun _ => (0 : ℚ)) 1 = .ok M1 ∧
      M1.viewType_ = .VIEW ∧ M1.Viewing = true ∧ M1.Locked = false ∧
      ∃ M2, Matrix.Set true M1 0 0 7 = .ok M2 ∧ Matrix.Get true M2 0 0 = .ok 7) := by
  constructor
  · intro M debug height width buffer ldim h
    refine ⟨M.LockedAttach_ height width buffer ldim, ?_, ?_, rfl, rfl, rfl, ?_⟩
    · unfold Matrix.LockedAttach
      rw [h]
      rfl
    · rw [Matrix.Viewing_eq]
      simp [Matrix.LockedAttach_, ViewType.or, ViewType.VIEW]
    · rw [Matrix.Locked_eq, Matrix.Locked_eq]
      simp [Matrix.LockedAttach_, ViewType.or, ViewType.VIEW]
  · refine ⟨⟨.VIEW, 1, 1, 1, .buffer (fun _ => 0), Memory.none⟩, rfl, rfl, by decide, by decide,
      ⟨.VIEW, 1, 1, 1, .buffer (fun k1 => if k1 = 0 + 0 * 1 then 7 else 0), Memory.none⟩, rfl, ?_⟩
    simp [Matrix.Get, Matrix.readChecks, Matrix.AssertValidEntry, Matrix.Get_, Matrix.load,
      Matrix.ofOption, Matrix.Height, Matrix.Width]

theorem Matrix.store_dims (M M1 : Matrix T) (k : Int) (a : T) (h : M.store k a = some M1) :
    M1.height_ = M.height_ ∧ M1.width_ = M.width_ ∧ M1.ldim_ = M.ldim_ ∧
    M1.viewType_ = M.viewType_ := by
  unfold Matrix.store at h
  split at h
  · cases h
  · split at h
    · cases h
    · simp only [Option.some.injEq] at h
      subst h
      exact ⟨rfl, rfl, rfl, rfl⟩
  · simp only [Option.some.injEq] at h
    subst h
    exact ⟨rfl, rfl, rfl, rfl⟩

theorem Matrix.foldl_inv {α : Type} (P : Matrix T → Prop)
    (step : Result (Matrix T) → α → Result (Matrix T))
    (hstep : ∀ r a, (∀ M1, r = .ok M1 → P M1) → ∀ M2, step r a = .ok M2 → P M2)
    (l : List α) : ∀ r, (∀ M1, r = .ok M1 → P M1) → ∀ M2, l.foldl step r = .ok M2 → P M2 := by
  induction l with
  | nil =>
    intro r hr M2 h
    exact hr M2 h
  | cons a l ih =>
    intro r hr M2 h
    exact ih (step r a) (hstep r a hr) M2 h

theorem Matrix.copyEntries_dims (M A M1 : Matrix T) (h : Matrix.copyEntries M A = .ok M1) :
    M1.height_ = M.height_ ∧ M1.width_ = M.width_ ∧ M1.ldim_ = M.ldim_ ∧
    M1.viewType_ = M.viewType_ := by
  unfold Matrix.copyEntries at h
  refine Matrix.foldl_inv
    (fun M1 => M1.height_ = M.height_ ∧ M1.width_ = M.width_ ∧ M1.ldim_ = M.ldim_ ∧
      M1.viewType_ = M.viewType_) _ ?_ _ (.ok M) ?_ M1 h
  · intro r j hr M2 h2
    refine Matrix.foldl_inv _ _ ?_ _ r hr M2 h2
    intro r1 i hr1 M3 h3
    cases r1 with
    | ok M4 =>
      simp only at h3
      cases h5 : A.load ((j : Int) * A.LDim + (i : Int)) with
      | none => rw [h5] at h3; cases h3
      | some v =>
        rw [h5] at h3
        simp only at h3
        cases h6 : M4.store ((j : Int) * M.LDim + (i : Int)) v with
        | none => rw [h6] at h3; cases h3
        | some M5 =>
          rw [h6] at h3
          simp only [Matrix.ofOption, Result.ok.injEq] at h3
          subst h3
          obtain ⟨a1, a2, a3, a4⟩ := Matrix.store_dims M4 M5 _ v h6
          obtain ⟨b1, b2, b3, b4⟩ := hr1 M4 rfl
          exact ⟨a1.trans b1, a2.trans b2, a3.trans b3, a4.trans b4⟩
    | error msg => cases h3
    | undefined => cases h3
  · intro M1 h1
    simp only [Result.ok.injEq] at h1
    subst h1
    exact ⟨rfl, rfl, rfl, rfl⟩

theorem Matrix.ResizeTo__valid (alloc : Int → Int → T) (M : Matrix T) (height width : Int)
    (hv : M.ValidLDim) : (M.ResizeTo_ alloc height width).ValidLDim := by
  unfold Matrix.ValidLDim at hv ⊢
  unfold Matrix.ResizeTo_
  by_cases h : height > M.ldim_ ∨ width > M.width_
  · simp only [h, decide_True, if_true]
    exact le_refl _
  · simp only [h, decide_False, Bool.false_eq_true, if_false]
    have h1 : height ≤ M.ldim_ := by
      by_contra hc
      exact h (Or.inl (lt_of_not_le hc))
    have h2 : (1 : Int) ≤ M.ldim_ := le_trans (le_max_right _ _) hv
    exact max_le h1 h2

theorem Matrix.AssertValidDimensionsLDim_ok (height width ldim : Int)
    (h : Matrix.AssertValidDimensionsLDim height width ldim = .ok ()) :
    ldim ≥ max height 1 := by
  unfold Matrix.AssertValidDimensionsLDim Matrix.AssertValidDimensions at h
  by_cases h1 : height < 0 ∨ width < 0
  · rw [if_pos h1] at h
    cases h
  · rw [if_neg h1] at h
    simp only at h
    by_cases h2 : ldim < height
    · rw [if_pos h2] at h
      cases h
    · rw [if_neg h2] at h
      by_cases h3 : ldim = 0
      · rw [if_pos h3] at h
        cases h
      · have : 0 ≤ height := by
          by_contra hc
          exact h1 (Or.inl (lt_of_not_le hc))
        have h4 : height ≤ ldim := le_of_not_lt h2
        have h5 : 1 ≤ ldim := by omega
        exact max_le h4 h5

theorem Matrix.ResizeToLDim__valid (alloc : Int → Int → T) (M : Matrix T)
    (height width ldim : Int) (hl : ldim ≥ max height 1) :
    (M.ResizeToLDim_ alloc height width ldim).ValidLDim := by
  unfold Matrix.ValidLDim
  unfold Matrix.ResizeToLDim_
  by_cases h : height > M.ldim_ ∨ width > M.width_ ∨ ldim ≠ M.ldim_
  · simp only [h, decide_True, if_true]
    exact hl
  · simp only [h, decide_False, Bool.false_eq_true, if_false]
    have h1 : ldim = M.ldim_ := by
      by_contra hc
      exact h (Or.inr (Or.inr hc))
    rw [← h1]
    exact hl

end MatrixDims
end elem
end Elemental

namespace Elemental
namespace elem

section MatrixInvariantClaims

variable {T : Type}

theorem Matrix.copyAssign_valid (alloc : Int → Int → T) (M A M1 : Matrix T)
    (hv : M.ValidLDim) (h : Matrix.copyAssign true alloc M A = .ok M1) : M1.ValidLDim := by
  unfold Matrix.copyAssign at h
  split_ifs at h with c1 c2 c3
  · -- the owner is resized first
    unfold Matrix.ResizeTo at h
    rw [if_pos rfl] at h
    cases h4 : Matrix.AssertValidDimensions A.Height A.Width with
    | ok u =>
      rw [h4] at h
      simp only at h
      split_ifs at h with c5 c6
      simp only at h
      cases h7 : Matrix.Buffer true (M.ResizeTo_ alloc A.Height A.Width) with
      | ok p =>
        rw [h7] at h
        simp only at h
        obtain ⟨a1, _, a3, _⟩ := Matrix.copyEntries_dims _ A M1 h
        have hv1 := Matrix.ResizeTo__valid alloc M A.Height A.Width hv
        unfold Matrix.ValidLDim at hv1 ⊢
        rw [a1, a3]
        exact hv1
      | error msg => rw [h7] at h; cases h
      | undefined => rw [h7] at h; cases h
    | error msg => rw [h4] at h; cases h
    | undefined => rw [h4] at h; cases h
  · simp only at h
    cases h7 : Matrix.Buffer true M with
    | ok p =>
      rw [h7] at h
      simp only at h
      obtain ⟨a1, _, a3, _⟩ := Matrix.copyEntries_dims _ A M1 h
      unfold Matrix.ValidLDim at hv ⊢
      rw [a1, a3]
      exact hv
    | error msg => rw [h7] at h; cases h
    | undefined => rw [h7] at h; cases h

/-- C18 at the failing input: `Control`, `Attach` and `LockedAttach` check no
dimension. On a default-constructed matrix, which satisfies `ldim >= max(height, 1)`,
each of them called with height 2 and leading dimension 1 returns without error
(debug checks enabled) and leaves a matrix with `ldim = 1 < 2 = height`. -/
theorem Attach_breaks_ldim :
    (Matrix.construct false : Matrix ℚ).ValidLDim ∧
    (∃ M1, Matrix.Attach true (Matrix.construct false) 2 1 (fun _ => (0 : ℚ)) 1 = .ok M1 ∧
      M1.Height = 2 ∧ M1.LDim = 1 ∧ ¬M1.ValidLDim) ∧
    (∃ M1, Matrix.LockedAttach true (Matrix.construct false) 2 1 (fun _ => (0 : ℚ)) 1 = .ok M1 ∧
      M1.Height = 2 ∧ M1.LDim = 1 ∧ ¬M1.ValidLDim) ∧
    (∃ M1, Matrix.Control true (Matrix.construct false) 2 1 (fun _ => (0 : ℚ)) 1 = .ok M1 ∧
      M1.Height = 2 ∧ M1.LDim = 1 ∧ ¬M1.ValidLDim) := by
  refine ⟨by unfold Matrix.ValidLDim; decide, ⟨_, rfl, rfl, rfl, ?_⟩, ⟨_, rfl, rfl, rfl, ?_⟩,
    ⟨_, rfl, rfl, rfl, ?_⟩⟩ <;>
  · unfold Matrix.ValidLDim
    decide

/-- The part of the invariant that the code keeps: `ldim >= max(height, 1)` holds
after every constructor (debug checks enabled), and `ResizeTo(h,w)`,
`ResizeTo(h,w,ldim)`, `Empty`, the copy assignment, the move assignment and
`ShallowSwap`, when they complete without error on matrices that satisfy it, leave
matrices that satisfy it. `Control`, `Attach` and `LockedAttach` store the height and
the leading dimension they are given, so the matrix they leave satisfies it exactly
when the arguments do. -/
theorem ValidLDim_preserved (alloc : Int → Int → T) :
    (∀ isFixed, (Matrix.construct isFixed : Matrix T).ValidLDim) ∧
    (∀ height width isFixed M,
      Matrix.constructSized true alloc height width isFixed = .ok M → M.ValidLDim) ∧
    (∀ height width ldim isFixed M,
      Matrix.constructLDim true alloc height width ldim isFixed = .ok M → M.ValidLDim) ∧
    (∀ height width buffer ldim isFixed (M : Matrix T),
      Matrix.constructLockedView true height width buffer ldim isFixed = .ok M →
        M.ValidLDim) ∧
    (∀ height width buffer ldim isFixed (M : Matrix T),
      Matrix.constructView true height width buffer ldim isFixed = .ok M → M.ValidLDim) ∧
    (∀ A M, Matrix.constructCopy true alloc A = .ok M → M.ValidLDim) ∧
    (∀ A : Matrix T, A.ValidLDim →
      (Matrix.constructMove A).1.ValidLDim ∧ (Matrix.constructMove A).2.ValidLDim) ∧
    (∀ M height width M1, M.ValidLDim →
      Matrix.ResizeTo true alloc M height width = .ok M1 → M1.ValidLDim) ∧
    (∀ M height width ldim M1, M.ValidLDim →
      Matrix.ResizeToLDim true alloc M height width ldim = .ok M1 → M1.ValidLDim) ∧
    (∀ M M1 : Matrix T, Matrix.Empty true M = .ok M1 → M1.ValidLDim) ∧
    (∀ M A M1, M.ValidLDim → Matrix.copyAssign true alloc M A = .ok M1 → M1.ValidLDim) ∧
    (∀ M A : Matrix T, M.ValidLDim → A.ValidLDim →
      (Matrix.moveAssign M A).1.ValidLDim ∧ (Matrix.moveAssign M A).2.ValidLDim) ∧
    (∀ M A : Matrix T, M.ValidLDim → A.ValidLDim →
      (Matrix.ShallowSwap M A).1.ValidLDim ∧ (Matrix.ShallowSwap M A).2.ValidLDim) ∧
    (∀ (M : Matrix T) height width buffer ldim M1,
      Matrix.Control true M height width buffer ldim = .ok M1 →
        (M1.ValidLDim ↔ ldim ≥ max height 1)) ∧
    (∀ (M : Matrix T) height width buffer ldim M1,
      Matrix.Attach true M height width buffer ldim = .ok M1 →
        (M1.ValidLDim ↔ ldim ≥ max height 1)) ∧
    (∀ (M : Matrix T) height width buffer ldim M1,
      Matrix.LockedAttach true M height width buffer ldim = .ok M1 →
        (M1.ValidLDim ↔ ldim ≥ max height 1)) := by
  refine ⟨?_, ?_, ?_, ?_, ?_, ?_, ?_, ?_, ?_, ?_, ?_, ?_, ?_, ?_, ?_, ?_⟩
  · intro isFixed
    show (1 : Int) ≥ max (0 : Int) 1
    decide
  · intro height width isFixed M h
    unfold Matrix.constructSized at h
    rw [if_pos rfl] at h
    cases h1 : Matrix.AssertValidDimensions height width with
    | ok u =>
      rw [h1] at h
      simp only [Result.ok.injEq] at h
      subst h
      exact le_refl _
    | error msg => rw [h1] at h; cases h
    | undefined => rw [h1] at h; cases h
  · intro height width ldim isFixed M h
    unfold Matrix.constructLDim at h
    rw [if_pos rfl] at h
    cases h1 : Matrix.AssertValidDimensionsLDim height width ldim with
    | ok u =>
      rw [h1] at h
      simp only [Result.ok.injEq] at h
      subst h
      exact Matrix.AssertValidDimensionsLDim_ok height width ldim h1
    | error msg => rw [h1] at h; cases h
    | undefined => rw [h1] at h; cases h
  · intro height width buffer ldim isFixed M h
    unfold Matrix.constructLockedView at h
    rw [if_pos rfl] at h
    cases h1 : Matrix.AssertValidDimensionsLDim height width ldim with
    | ok u =>
      rw [h1] at h
      simp only [Result.ok.injEq] at h
      subst h
      exact Matrix.AssertValidDimensionsLDim_ok height width ldim h1
    | error msg => rw [h1] at h; cases h
    | undefined => rw [h1] at h; cases h
  · intro height width buffer ldim isFixed M h
    unfold Matrix.constructView at h
    rw [if_pos rfl] at h
    cases h1 : Matrix.AssertValidDimensionsLDim height width ldim with
    | ok u =>
      rw [h1] at h
      simp only [Result.ok.injEq] at h
      subst h
      exact Matrix.AssertValidDimensionsLDim_ok height width ldim h1
    | error msg => rw [h1] at h; cases h
    | undefined => rw [h1] at h; cases h
  · intro A M h
    refine Matrix.copyAssign_valid alloc _ A M ?_ h
    show (1 : Int) ≥ max (0 : Int) 1
    decide
  · intro A hv
    exact ⟨hv, hv⟩
  · intro M height width M1 hv h
    unfold Matrix.ResizeTo at h
    rw [if_pos rfl] at h
    cases h1 : Matrix.AssertValidDimensions height width with
    | ok u =>
      rw [h1] at h
      simp only at h
      split_ifs at h
      simp only [Result.ok.injEq] at h
      subst h
      exact Matrix.ResizeTo__valid alloc M height width hv
    | error msg => rw [h1] at h; cases h
    | undefined => rw [h1] at h; cases h
  · intro M height width ldim M1 _ h
    unfold Matrix.ResizeToLDim at h
    rw [if_pos rfl] at h
    cases h1 : Matrix.AssertValidDimensionsLDim height width ldim with
    | ok u =>
      rw [h1] at h
      simp only at h
      split_ifs at h
      simp only [Result.ok.injEq] at h
      subst h
      exact Matrix.ResizeToLDim__valid alloc M height width ldim
        (Matrix.AssertValidDimensionsLDim_ok height width ldim h1)
    | error msg => rw [h1] at h; cases h
    | undefined => rw [h1] at h; cases h
  · intro M M1 h
    unfold Matrix.Empty at h
    split_ifs at h
    simp only [Result.ok.injEq] at h
    subst h
    show (1 : Int) ≥ max (0 : Int) 1
    decide
  · intro M A M1 hv h
    exact Matrix.copyAssign_valid alloc M A M1 hv h
  · intro M A _ hA
    exact ⟨hA, hA⟩
  · intro M A hM hA
    exact ⟨hA, hM⟩
  · intro M height width buffer ldim M1 h
    unfold Matrix.Control at h
    split_ifs at h
    simp only [Result.ok.injEq] at h
    subst h
    exact Iff.rfl
  · intro M height width buffer ldim M1 h
    unfold Matrix.Attach at h
    split_ifs at h
    simp only [Result.ok.injEq] at h
    subst h
    exact Iff.rfl
  · intro M height width buffer ldim M1 h
    unfold Matrix.LockedAttach at h
    split_ifs at h
    simp only [Result.ok.injEq] at h
    subst h
    exact Iff.rfl

end MatrixInvariantClaims
end elem
end Elemental

namespace Elemental
namespace elem

section MatrixResizeClaims

variable {T : Type}

/-- C19: for every fixed-size matrix (`OWNER_FIXED`, `VIEW_FIXED`,
`LOCKED_VIEW_FIXED`) that satisfies the class invariant `ldim >= max(height, 1)`,
with the debug checks enabled, `ResizeTo(h,w)` and `ResizeTo(h,w,ldim)` either raise
an error or leave the height, the width and the leading dimension as they were, and
`Empty`, `Control`, `Attach`, `LockedAttach` and the copy assignment from a matrix of
other dimensions raise an error. -/
theorem FixedSize_keeps_dimensions (alloc : Int → Int → T) (M : Matrix T)
    (hfixed : M.FixedSize = true) (hvalid : M.ValidLDim) :
    (∀ height width, Matrix.RaisesOrKeeps M (Matrix.ResizeTo true alloc M height width)) ∧
    (∀ height width ldim,
      Matrix.RaisesOrKeeps M (Matrix.ResizeToLDim true alloc M height width ldim)) ∧
    Matrix.RaisesOrKeeps M (Matrix.Empty true M) ∧
    (∀ height width buffer ldim,
      Matrix.RaisesOrKeeps M (Matrix.Control true M height width buffer ldim)) ∧
    (∀ height width buffer ldim,
      Matrix.RaisesOrKeeps M (Matrix.Attach true M height width buffer ldim)) ∧
    (∀ height width buffer ldim,
      Matrix.RaisesOrKeeps M (Matrix.LockedAttach true M height width buffer ldim)) ∧
    (∀ A : Matrix T, A.Height ≠ M.Height ∨ A.Width ≠ M.Width →
      Matrix.RaisesOrKeeps M (Matrix.copyAssign true alloc M A)) ∧
    (∃ msg, Matrix.Empty true M = .error msg) ∧
    (∀ height width buffer ldim, ∃ msg,
      Matrix.Control true M height width buffer ldim = .error msg) ∧
    (∀ height width buffer ldim, ∃ msg,
      Matrix.Attach true M height width buffer ldim = .error msg) ∧
    (∀ height width buffer ldim, ∃ msg,
      Matrix.LockedAttach true M height width buffer ldim = .error msg) ∧
    (∀ A : Matrix T, A.Height ≠ M.Height ∨ A.Width ≠ M.Width →
      ∃ msg, Matrix.copyAssign true alloc M A = .error msg) := by
  have hE : ∃ msg, Matrix.Empty true M = .error msg :=
    ⟨_, by unfold Matrix.Empty; rw [if_pos (by simp [hfixed])]⟩
  have hC : ∀ height width buffer ldim, ∃ msg,
      Matrix.Control true M height width buffer ldim = .error msg :=
    fun _ _ _ _ => ⟨_, by unfold Matrix.Control; rw [if_pos (by simp [hfixed])]⟩
  have hA : ∀ height width buffer ldim, ∃ msg,
      Matrix.Attach true M height width buffer ldim = .error msg :=
    fun _ _ _ _ => ⟨_, by unfold Matrix.Attach; rw [if_pos (by simp [hfixed])]⟩
  have hL : ∀ height width buffer ldim, ∃ msg,
      Matrix.LockedAttach true M height width buffer ldim = .error msg :=
    fun _ _ _ _ => ⟨_, by unfold Matrix.LockedAttach; rw [if_pos (by simp [hfixed])]⟩
  have hne : M.viewType_ ≠ .OWNER := by
    intro hc
    rw [Matrix.FixedSize_eq, hc] at hfixed
    cases hfixed
  have hcopy : ∀ A : Matrix T, A.Height ≠ M.Height ∨ A.Width ≠ M.Width →
      ∃ msg, Matrix.copyAssign true alloc M A = .error msg := by
    intro A hd
    unfold Matrix.copyAssign
    by_cases hl : M.Locked = true
    · exact ⟨_, by rw [if_pos (by simp [hl])]⟩
    · exact ⟨_, by rw [if_neg (by simp [hl]), if_pos (by simp [hne, hd])]⟩
  have h1 : (1 : Int) ≤ M.ldim_ := le_trans (le_max_right _ _) hvalid
  have h2 : M.height_ ≤ M.ldim_ := le_trans (le_max_left _ _) hvalid
  refine ⟨?_, ?_, Or.inl hE, fun a b c d => Or.inl (hC a b c d),
    fun a b c d => Or.inl (hA a b c d), fun a b c d => Or.inl (hL a b c d),
    fun A hd => Or.inl (hcopy A hd), hE, hC, hA, hL, hcopy⟩
  · intro height width
    unfold Matrix.ResizeTo
    rw [if_pos rfl]
    cases h3 : Matrix.AssertValidDimensions height width with
    | ok u =>
      simp only
      by_cases c1 : M.FixedSize = true ∧ (height ≠ M.height_ ∨ width ≠ M.width_)
      · rw [if_pos c1]
        exact Or.inl ⟨_, rfl⟩
      · rw [if_neg c1]
        have c2 : height = M.height_ ∧ width = M.width_ := by
          constructor
          · by_contra hc
            exact c1 ⟨hfixed, Or.inl hc⟩
          · by_contra hc
            exact c1 ⟨hfixed, Or.inr hc⟩
        have c3 : ¬(M.Viewing = true ∧ (height > M.height_ ∨ width > M.width_)) := by
          rintro ⟨_, h | h⟩
          · rw [c2.1] at h
            exact lt_irrefl _ h
          · rw [c2.2] at h
            exact lt_irrefl _ h
        rw [if_neg c3]
        refine Or.inr ⟨_, rfl, ?_⟩
        have c4 : ¬(height > M.ldim_ ∨ width > M.width_) := by
          rintro (h | h)
          · rw [c2.1] at h
            exact absurd h (not_lt.mpr h2)
          · rw [c2.2] at h
            exact lt_irrefl _ h
        simp only [Matrix.ResizeTo_, c4, decide_False, Bool.false_eq_true, if_false]
        exact ⟨c2.1, c2.2, trivial⟩
    | error msg => exact Or.inl ⟨msg, rfl⟩
    | undefined =>
      unfold Matrix.AssertValidDimensions at h3
      split_ifs at h3
  · intro height width ldim
    unfold Matrix.ResizeToLDim
    rw [if_pos rfl]
    cases h3 : Matrix.AssertValidDimensionsLDim height width ldim with
    | ok u =>
      simp only
      by_cases c1 : M.FixedSize = true ∧
          (height ≠ M.height_ ∨ width ≠ M.width_ ∨ ldim ≠ M.ldim_)
      · rw [if_pos c1]
        exact Or.inl ⟨_, rfl⟩
      · rw [if_neg c1]
        have c2 : height = M.height_ ∧ width = M.width_ ∧ ldim = M.ldim_ := by
          refine ⟨?_, ?_, ?_⟩
          · by_contra hc
            exact c1 ⟨hfixed, Or.inl hc⟩
          · by_contra hc
            exact c1 ⟨hfixed, Or.inr (Or.inl hc)⟩
          · by_contra hc
            exact c1 ⟨hfixed, Or.inr (Or.inr hc)⟩
        have c3 : ¬(M.Viewing = true ∧
            (height > M.height_ ∨ width > M.width_ ∨ ldim ≠ M.ldim_)) := by
          rintro ⟨_, h | h | h⟩
          · rw [c2.1] at h
            exact lt_irrefl _ h
          · rw [c2.2.1] at h
            exact lt_irrefl _ h
          · exact h c2.2.2
        rw [if_neg c3]
        refine Or.inr ⟨_, rfl, ?_⟩
        have c4 : ¬(height > M.ldim_ ∨ width > M.width_ ∨ ldim ≠ M.ldim_) := by
          rintro (h | h | h)
          · rw [c2.1] at h
            exact absurd h (not_lt.mpr h2)
          · rw [c2.2.1] at h
            exact lt_irrefl _ h
          · exact h c2.2.2
        simp only [Matrix.ResizeToLDim_, c4, decide_False, Bool.false_eq_true, if_false]
        exact ⟨c2.1, c2.2.1, trivial⟩
    | error msg => exact Or.inl ⟨msg, rfl⟩
    | undefined =>
      unfold Matrix.AssertValidDimensionsLDim Matrix.AssertValidDimensions at h3
      split_ifs at h3

/-- Witness for C19: the fixed-size `2 x 2` owner `fixedOwner`. -/
theorem FixedSize_keeps_dimensions_witness :
    fixedOwner.FixedSize = true ∧ fixedOwner.ValidLDim ∧
    Matrix.RaisesOrKeeps fixedOwner (Matrix.ResizeTo true (fun _ _ => 0) fixedOwner 2 2) ∧
    Matrix.RaisesOrKeeps fixedOwner (Matrix.ResizeTo true (fun _ _ => 0) fixedOwner 1 2) ∧
    ∃ msg, Matrix.Empty true fixedOwner = .error msg :=
  have hv : fixedOwner.ValidLDim := by
    show (2 : Int) ≥ max (2 : Int) 1
    decide
  have h := FixedSize_keeps_dimensions (fun _ _ => (0 : ℚ)) fixedOwner (by decide) hv
  ⟨by decide, hv, h.1 2 2, h.1 1 2, h.2.2.2.2.2.2.2.1⟩

/-- The two cases of the witness: resizing `fixedOwner` to its own size returns and
changes nothing; resizing it to `1 x 2` raises an error. -/
theorem FixedSize_example :
    Matrix.ResizeTo true (fun _ _ => 0) fixedOwner 2 2 = .ok fixedOwner ∧
    Matrix.ResizeTo true (fun _ _ => 0) fixedOwner 1 2
      = .error "Cannot change the size of this matrix" :=
  ⟨rfl, rfl⟩

end MatrixResizeClaims
end elem
end Elemental

namespace Elemental
namespace elem

section MatrixShrinkClaims

variable {T : Type}

/-- C20, as stated, fails for views: `shortView` is not of fixed size and has the
height 1, the width 1 and the leading dimension 2, so `h = 2`, `w = 1` satisfy
`0 <= h <= LDim()` and `0 <= w <= Width()`; with the debug checks `ResizeTo( 2, 1 )`
raises "Cannot increase the size of this matrix" and the height is not set. -/
theorem ResizeTo_view_grow_error :
    shortView.FixedSize = false ∧ (0 : Int) ≤ 2 ∧ 2 ≤ shortView.LDim ∧ (0 : Int) ≤ 1 ∧
    1 ≤ shortView.Width ∧
    Matrix.ResizeTo true (fun _ _ => 0) shortView 2 1
      = .error "Cannot increase the size of this matrix" :=
  ⟨by decide, by decide, by decide, by decide, by decide, rfl⟩

/-- C20 (amended): for a matrix that is not of fixed size, `ResizeTo( h, w )` with
`0 <= h <= LDim()` and `0 <= w <= Width()`, on an owner, or on a view with
`h <= Height()`, or with the debug checks disabled, returns with `Height() == h`,
`Width() == w` and everything else, `LDim()` and the data buffer included, as it
was, so that `Get( i, j )` returns what it returned before for `0 <= i < min(h, old
height)` and `0 <= j < w`. With the debug checks a view asked for more rows or
columns than it has raises "Cannot increase the size of this matrix". The buffer is
re-required, and `ldim` reset to `max(h,1)`, exactly when `h > LDim()` or
`w > Width()`. -/
theorem ResizeTo_shrinks_in_place (debug : Bool) (alloc : Int → Int → T) (M : Matrix T)
    (height width : Int) (hfix : M.FixedSize = false) (h0 : 0 ≤ height)
    (h1 : height ≤ M.LDim) (w0 : 0 ≤ width) (w1 : width ≤ M.Width)
    (hview : debug = false ∨ M.Viewing = false ∨ height ≤ M.Height) :
    Matrix.ResizeTo debug alloc M height width
      = .ok { M with height_ := height, width_ := width } ∧
    (∀ i j, Matrix.Get_ { M with height_ := height, width_ := width } i j = Matrix.Get_ M i j) ∧
    (∀ i j, 0 ≤ i → i < min height M.Height → 0 ≤ j → j < width →
      Matrix.Get debug { M with height_ := height, width_ := width } i j
        = Matrix.Get debug M i j) ∧
    (∀ h w, 0 ≤ h → 0 ≤ w → M.Viewing = true → h > M.Height ∨ w > M.Width →
      Matrix.ResizeTo true alloc M h w = .error "Cannot increase the size of this matrix") ∧
    (∀ h w, h > M.LDim ∨ w > M.Width →
      (M.ResizeTo_ alloc h w).ldim_ = max h 1 ∧
      (M.ResizeTo_ alloc h w).memory_ = M.memory_.Require alloc (max h 1 * w)) ∧
    (∀ h w, ¬(h > M.LDim ∨ w > M.Width) →
      M.ResizeTo_ alloc h w = { M with height_ := h, width_ := w }) := by
  have hnore : ∀ h w, ¬(h > M.LDim ∨ w > M.Width) →
      M.ResizeTo_ alloc h w = { M with height_ := h, width_ := w } := by
    intro h w hc
    have hc1 : ¬(h > M.ldim_ ∨ w > M.width_) := hc
    simp only [Matrix.ResizeTo_, hc1, decide_False, Bool.false_eq_true, if_false]
  have hin : ¬(height > M.LDim ∨ width > M.Width) := by
    rintro (h | h)
    · exact absurd h (not_lt.mpr h1)
    · exact absurd h (not_lt.mpr w1)
  have hfix1 : ∀ h w, ¬(M.FixedSize = true ∧ (h ≠ M.height_ ∨ w ≠ M.width_)) := by
    rintro h w ⟨hc, _⟩
    rw [hfix] at hc
    cases hc
  refine ⟨?_, fun i j => rfl, ?_, ?_, ?_, hnore⟩
  · unfold Matrix.ResizeTo
    cases debug with
    | false =>
      simp only [Bool.false_eq_true, if_false]
      rw [hnore height width hin]
    | true =>
      rw [if_pos rfl]
      have ha : Matrix.AssertValidDimensions height width = .ok () := by
        unfold Matrix.AssertValidDimensions
        rw [if_neg (by rintro (h | h) <;> omega)]
      rw [ha]
      simp only
      rw [if_neg (hfix1 height width)]
      have hc : ¬(M.Viewing = true ∧ (height > M.height_ ∨ width > M.width_)) := by
        rintro ⟨hv, h | h⟩
        · rcases hview with h2 | h2 | h2
          · cases h2
          · rw [hv] at h2
            cases h2
          · exact absurd h (not_lt.mpr h2)
        · exact absurd h (not_lt.mpr w1)
      rw [if_neg hc, hnore height width hin]
  · intro i j i0 i1 j0 j1
    have i2 : i < height := lt_of_lt_of_le i1 (min_le_left _ _)
    have i3 : i < M.Height := lt_of_lt_of_le i1 (min_le_right _ _)
    have j2 : j < M.Width := lt_of_lt_of_le j1 w1
    cases debug with
    | false => rfl
    | true =>
      have e1 : Matrix.AssertValidEntry { M with height_ := height, width_ := width } i j
          = .ok () := by
        unfold Matrix.AssertValidEntry
        rw [if_neg (by rintro (h | h) <;> omega), if_neg (by
          simp only [Matrix.Height, Matrix.Width]
          rintro (h | h) <;> omega)]
      have e2 : Matrix.AssertValidEntry M i j = .ok () := by
        unfold Matrix.AssertValidEntry
        rw [if_neg (by rintro (h | h) <;> omega), if_neg (by
          rintro (h | h) <;> omega)]
      simp only [Matrix.Get, Matrix.readChecks, if_true, e1, e2]
      rfl
  · intro h w hh hw hv hgrow
    unfold Matrix.ResizeTo
    rw [if_pos rfl]
    have ha : Matrix.AssertValidDimensions h w = .ok () := by
      unfold Matrix.AssertValidDimensions
      rw [if_neg (by rintro (h | h) <;> omega)]
    rw [ha]
    simp only
    rw [if_neg (hfix1 h w), if_pos ⟨hv, hgrow⟩]
  · intro h w hc
    have hc1 : h > M.ldim_ ∨ w > M.width_ := hc
    simp only [Matrix.ResizeTo_, hc1, decide_True, if_true, and_self]

/-- Witness for C20: the `2 x 2` owner `exampleOwner` resized to `1 x 1` with the
debug checks. -/
theorem ResizeTo_shrinks_in_place_witness :
    exampleOwner.FixedSize = false ∧ (0 : Int) ≤ 1 ∧ 1 ≤ exampleOwner.LDim ∧
    1 ≤ exampleOwner.Width ∧ exampleOwner.Viewing = false ∧
    Matrix.ResizeTo true (fun _ _ => 0) exampleOwner 1 1
      = .ok { exampleOwner with height_ := 1, width_ := 1 } ∧
    Matrix.Get true { exampleOwner with height_ := 1, width_ := 1 } 0 0
      = Matrix.Get true exampleOwner 0 0 :=
  have h := ResizeTo_shrinks_in_place true (fun _ _ => (0 : ℚ)) exampleOwner 1 1 (by decide)
    (by decide) (by decide) (by decide) (by decide) (Or.inr (Or.inl (by decide)))
  ⟨by decide, by decide, by decide, by decide, by decide, h.1,
    h.2.2.1 0 0 (le_refl 0) (by decide) (le_refl 0) (by decide)⟩

end MatrixShrinkClaims
end elem
end Elemental

namespace Elemental
namespace elem

section FixedValidProofs

variable {T : Type}

theorem Matrix.ResizeTo__viewType (alloc : Int → Int → T) (M : Matrix T) (height width : Int) :
    (M.ResizeTo_ alloc height width).viewType_ = M.viewType_ := by
  by_cases h : height > M.ldim_ ∨ width > M.width_ <;> simp [Matrix.ResizeTo_, h]

theorem Matrix.copyAssign_viewType (alloc : Int → Int → T) (M A M1 : Matrix T)
    (h : Matrix.copyAssign true alloc M A = .ok M1) : M1.viewType_ = M.viewType_ := by
  unfold Matrix.copyAssign at h
  split_ifs at h with c1 c2 c3
  · unfold Matrix.ResizeTo at h
    rw [if_pos rfl] at h
    cases h4 : Matrix.AssertValidDimensions A.Height A.Width with
    | ok u =>
      rw [h4] at h
      simp only at h
      split_ifs at h with c5 c6
      simp only at h
      cases h7 : Matrix.Buffer true (M.ResizeTo_ alloc A.Height A.Width) with
      | ok p =>
        rw [h7] at h
        simp only at h
        obtain ⟨_, _, _, a4⟩ := Matrix.copyEntries_dims _ A M1 h
        rw [a4, Matrix.ResizeTo__viewType]
      | error msg => rw [h7] at h; cases h
      | undefined => rw [h7] at h; cases h
    | error msg => rw [h4] at h; cases h
    | undefined => rw [h4] at h; cases h
  · simp only at h
    cases h7 : Matrix.Buffer true M with
    | ok p =>
      rw [h7] at h
      simp only at h
      exact (Matrix.copyEntries_dims _ A M1 h).2.2.2
    | error msg => rw [h7] at h; cases h
    | undefined => rw [h7] at h; cases h

/-- With the debug checks a matrix of fixed size always satisfies
`ldim >= max(height, 1)`: the constructors establish the invariant, the operations
that can break it (`Control`, `Attach`, `LockedAttach`) raise an error on a matrix of
fixed size and leave a matrix that is not of fixed size otherwise, and the other
operations keep it. -/
theorem FixedValid_preserved (alloc : Int → Int → T) :
    (∀ M height width M1, Matrix.FixedValid M →
      Matrix.ResizeTo true alloc M height width = .ok M1 → Matrix.FixedValid M1) ∧
    (∀ M height width ldim M1,
      Matrix.ResizeToLDim true alloc M height width ldim = .ok M1 → Matrix.FixedValid M1) ∧
    (∀ M M1 : Matrix T, Matrix.Empty true M = .ok M1 → Matrix.FixedValid M1) ∧
    (∀ (M : Matrix T) height width buffer ldim M1,
      Matrix.Control true M height width buffer ldim = .ok M1 → Matrix.FixedValid M1) ∧
    (∀ (M : Matrix T) height width buffer ldim M1,
      Matrix.Attach true M height width buffer ldim = .ok M1 → Matrix.FixedValid M1) ∧
    (∀ (M : Matrix T) height width buffer ldim M1,
      Matrix.LockedAttach true M height width buffer ldim = .ok M1 → Matrix.FixedValid M1) ∧
    (∀ M A M1, Matrix.FixedValid M →
      Matrix.copyAssign true alloc M A = .ok M1 → Matrix.FixedValid M1) ∧
    (∀ M A : Matrix T, Matrix.FixedValid M → Matrix.FixedValid A →
      Matrix.FixedValid (Matrix.moveAssign M A).1 ∧
      Matrix.FixedValid (Matrix.moveAssign M A).2) ∧
    (∀ M A : Matrix T, Matrix.FixedValid M → Matrix.FixedValid A →
      Matrix.FixedValid (Matrix.ShallowSwap M A).1 ∧
      Matrix.FixedValid (Matrix.ShallowSwap M A).2) ∧
    (∀ A : Matrix T, Matrix.FixedValid A →
      Matrix.FixedValid (Matrix.constructMove A).1 ∧
      Matrix.FixedValid (Matrix.constructMove A).2) := by
  refine ⟨?_, ?_, ?_, ?_, ?_, ?_, ?_, ?_, ?_, ?_⟩
  · intro M height width M1 hv h hf
    have hvt : M1.viewType_ = M.viewType_ := by
      unfold Matrix.ResizeTo at h
      rw [if_pos rfl] at h
      cases h1 : Matrix.AssertValidDimensions height width with
      | ok u =>
        rw [h1] at h
        simp only at h
        split_ifs at h
        simp only [Result.ok.injEq] at h
        subst h
        exact Matrix.ResizeTo__viewType alloc M height width
      | error msg => rw [h1] at h; cases h
      | undefined => rw [h1] at h; cases h
    rw [Matrix.FixedSize_eq, hvt, ← Matrix.FixedSize_eq] at hf
    exact (ValidLDim_preserved alloc).2.2.2.2.2.2.2.1 M height width M1 (hv hf) h
  · intro M height width ldim M1 h _
    unfold Matrix.ResizeToLDim at h
    rw [if_pos rfl] at h
    cases h1 : Matrix.AssertValidDimensionsLDim height width ldim with
    | ok u =>
      rw [h1] at h
      simp only at h
      split_ifs at h
      simp only [Result.ok.injEq] at h
      subst h
      exact Matrix.ResizeToLDim__valid alloc M height width ldim
        (Matrix.AssertValidDimensionsLDim_ok height width ldim h1)
    | error msg => rw [h1] at h; cases h
    | undefined => rw [h1] at h; cases h
  · intro M M1 h _
    exact (ValidLDim_preserved alloc).2.2.2.2.2.2.2.2.2.1 M M1 h
  · intro M height width buffer ldim M1 h hf
    unfold Matrix.Control at h
    split_ifs at h with c
    simp only [Result.ok.injEq] at h
    subst h
    rw [Matrix.FixedSize_eq] at hf c
    simp only [Bool.true_and] at c
    simp only [Matrix.Control_, ViewType.and, ViewType.not, ViewType.LOCKED_VIEW] at hf
    simp_all
  · intro M height width buffer ldim M1 h hf
    unfold Matrix.Attach at h
    split_ifs at h with c
    simp only [Result.ok.injEq] at h
    subst h
    rw [Matrix.FixedSize_eq] at hf c
    simp only [Bool.true_and] at c
    simp only [Matrix.Attach_, ViewType.and, ViewType.or, ViewType.not, ViewType.LOCKED_OWNER,
      ViewType.VIEW] at hf
    simp_all
  · intro M height width buffer ldim M1 h hf
    unfold Matrix.LockedAttach at h
    split_ifs at h with c
    simp only [Result.ok.injEq] at h
    subst h
    rw [Matrix.FixedSize_eq] at hf c
    simp only [Bool.true_and] at c
    simp only [Matrix.LockedAttach_, ViewType.or, ViewType.VIEW] at hf
    simp_all
  · intro M A M1 hv h hf
    rw [Matrix.FixedSize_eq, Matrix.copyAssign_viewType alloc M A M1 h,
      ← Matrix.FixedSize_eq] at hf
    exact Matrix.copyAssign_valid alloc M A M1 (hv hf) h
  · intro M A _ hA
    exact ⟨fun hf => hA hf, fun hf => hA hf⟩
  · intro M A hM hA
    exact ⟨fun hf => hA hf, fun hf => hM hf⟩
  · intro A hA
    exact ⟨fun hf => hA hf, fun hf => hA hf⟩

end FixedValidProofs
end elem
end Elemental

namespace Elemental
namespace elem

section EntryChecks

variable {T : Type}

/-- What `AssertValidEntry` accepts: the indices with `0 <= i <= Height()` and
`0 <= j <= Width()`, both bounds included. -/
theorem Matrix.AssertValidEntry_ok_iff (M : Matrix T) (i j : Int) :
    M.AssertValidEntry i j = .ok () ↔ (0 ≤ i ∧ i ≤ M.Height) ∧ (0 ≤ j ∧ j ≤ M.Width) := by
  unfold Matrix.AssertValidEntry
  by_cases h1 : i < 0 ∨ j < 0
  · rw [if_pos h1]
    constructor
    · intro h; cases h
    · rintro ⟨⟨a, _⟩, ⟨b, _⟩⟩; omega
  · rw [if_neg h1]
    by_cases h2 : i > M.Height ∨ j > M.Width
    · rw [if_pos h2]
      constructor
      · intro h; cases h
      · rintro ⟨⟨_, a⟩, ⟨_, b⟩⟩; omega
    · rw [if_neg h2]
      constructor
      · intro _; omega
      · intro _; rfl

end EntryChecks

/-- C27 at the failing input: on the `2 x 2` matrix `exampleOwner`, with the debug
checks enabled, `AssertValidEntry` accepts the row index `2 = Height()` and the
column index `2 = Width()`, `Get( 2, 0 )` returns what `Get( 0, 1 )` returns, and
`Set( 2, 0, 7 )` overwrites the entry `(0, 1)`. -/
theorem AssertValidEntry_accepts_height :
    exampleOwner.Height = 2 ∧ exampleOwner.Width = 2 ∧
    exampleOwner.AssertValidEntry 2 0 = .ok () ∧
    exampleOwner.AssertValidEntry 0 2 = .ok () ∧
    exampleOwner.AssertValidEntry 2 2 = .ok () ∧
    Matrix.Get true exampleOwner 2 0 = Matrix.Get true exampleOwner 0 1 ∧
    (∃ M1, Matrix.Set true exampleOwner 2 0 7 = .ok M1 ∧ Matrix.Get true M1 0 1 = .ok 7) := by
  refine ⟨rfl, rfl, rfl, rfl, rfl, rfl, ⟨_, rfl, rfl⟩⟩

end elem

section SameType

variable {F : Type} [Zero F]

/-- C30: changing a front to the type it already has leaves the front as it was
and raises no error, whatever `TriangularInverse` computes; and changing a front to
the 2D (1D) variant of its type only switches the layout when the front is 1D (2D),
without a call of `TriangularInverse`. -/
theorem ChangeFrontType_same_type
    (TriangularInverse : Nat → (Nat → Nat → F) → Nat → Nat → F)
    (front : DistSymmFront SymmFrontType F) :
    ChangeFrontType SymmFrontType.ops TriangularInverse front front.data.type false
      = (front, none) ∧
    ((ChangeFrontType SymmFrontType.ops TriangularInverse front
        (SymmFrontType.ConvertTo2D front.data.type) false).1.data
      = { (if SymmFrontType.FrontIs1D front.data.type then switchTo2D front.data
            else front.data) with type := SymmFrontType.ConvertTo2D front.data.type } ∧
     (ChangeFrontType SymmFrontType.ops TriangularInverse front
        (SymmFrontType.ConvertTo2D front.data.type) false).2 = none) ∧
    ((ChangeFrontType SymmFrontType.ops TriangularInverse front
        (SymmFrontType.ConvertTo1D front.data.type) false).1.data
      = { (if SymmFrontType.FrontIs1D front.data.type then front.data
            else switchTo1D front.data) with type := SymmFrontType.ConvertTo1D front.data.type } ∧
     (ChangeFrontType SymmFrontType.ops TriangularInverse front
        (SymmFrontType.ConvertTo1D front.data.type) false).2 = none) := by
  cases front with
  | leaf d =>
    obtain ⟨t, L1, L2, dup⟩ := d
    cases t <;>
      simp [ChangeFrontType, changeFront, DistSymmFront.data, SymmFrontType.ops,
        SymmFrontType.FrontIs1D, SymmFrontType.ConvertTo1D, SymmFrontType.ConvertTo2D]
  | node d child =>
    obtain ⟨t, L1, L2, dup⟩ := d
    cases t <;>
      simp [ChangeFrontType, changeFront, DistSymmFront.data, SymmFrontType.ops,
        SymmFrontType.FrontIs1D, SymmFrontType.ConvertTo1D, SymmFrontType.ConvertTo2D]

end SameType

end Elemental

namespace Elemental

open Matrix

section RescaleTermination

variable {R : Type} [LinearOrderedField R] {n : Nat}

theorem one_lt_inv_safeInv {safeInv : R} (h0 : 0 < safeInv) (h1 : safeInv < 1) :
    1 < 1 / safeInv := by
  rw [lt_div_iff₀ h0]; simpa using h1

/-- The rescaling loop of the real `Col` makes exactly `c + 1` iterations when the
scaled `beta` stays below `safeInv` for the first `c` of them and reaches it at the
next one; it then has multiplied `x`, `alpha` and `beta` by `s ^ (c + 1)`. -/
theorem rescaleLoop_exact (s safeInv : R) (c : Nat) :
    ∀ (count : Nat) (x : Fin n → R) (alpha beta : R),
      (∀ j, 1 ≤ j → j < c + 1 → |beta * s ^ j| < safeInv) →
      safeInv ≤ |beta * s ^ (c + 1)| →
      ∀ fuel, c + 1 ≤ fuel →
        rescaleLoop s safeInv fuel count x alpha beta
          = some (count + (c + 1), Scale (s ^ (c + 1)) x, alpha * s ^ (c + 1),
              beta * s ^ (c + 1)) := by
  induction c with
  | zero =>
    intro count x alpha beta _ h fuel hf
    obtain ⟨f, rfl⟩ : ∃ f, fuel = f + 1 := ⟨fuel - 1, by omega⟩
    simp only [zero_add, pow_one] at h
    simp only [rescaleLoop, zero_add, pow_one, not_lt.mpr h, if_false]
  | succ c ih =>
    intro count x alpha beta hlow h fuel hf
    obtain ⟨f, rfl⟩ : ∃ f, fuel = f + 1 := ⟨fuel - 1, by omega⟩
    have hb : |beta * s| < safeInv := by
      have := hlow 1 (le_refl 1) (by omega)
      simpa using this
    have hlow1 : ∀ j, 1 ≤ j → j < c + 1 → |beta * s * s ^ j| < safeInv := by
      intro j hj1 hj2
      have := hlow (j + 1) (by omega) (by omega)
      rwa [pow_succ, mul_comm (s ^ j) s, ← mul_assoc] at this
    have h1 : safeInv ≤ |beta * s * s ^ (c + 1)| := by
      have e : beta * s * s ^ (c + 1) = beta * s ^ (c + 1 + 1) := by ring
      rw [e]; exact h
    have hrec := ih (count + 1) (Scale s x) (alpha * s) (beta * s) hlow1 h1 f (by omega)
    simp only [rescaleLoop, hb, if_true]
    rw [hrec]
    have e1 : Scale (s ^ (c + 1)) (Scale s x) = Scale (s ^ (c + 1 + 1)) x := by
      funext i; simp only [Scale]; ring
    rw [e1]
    congr 2
    · ring
    · congr 1
      congr 1 <;> ring

/-- The same for the rescaling loop of the complex `Col`. -/
theorem rescaleLoopC_exact (s safeInv : R) (c : Nat) :
    ∀ (count : Nat) (x : Fin n → Cplx R) (alpha : Cplx R) (beta : R),
      (∀ j, 1 ≤ j → j < c + 1 → |beta * s ^ j| < safeInv) →
      safeInv ≤ |beta * s ^ (c + 1)| →
      ∀ fuel, c + 1 ≤ fuel →
        rescaleLoopC s safeInv fuel count x alpha beta
          = some (count + (c + 1), ScaleC (Cplx.ofReal (s ^ (c + 1))) x,
              alpha.mulReal (s ^ (c + 1)), beta * s ^ (c + 1)) := by
  induction c with
  | zero =>
    intro count x alpha beta _ h fuel hf
    obtain ⟨f, rfl⟩ : ∃ f, fuel = f + 1 := ⟨fuel - 1, by omega⟩
    simp only [zero_add, pow_one] at h
    simp only [rescaleLoopC, zero_add, pow_one, not_lt.mpr h, if_false]
  | succ c ih =>
    intro count x alpha beta hlow h fuel hf
    obtain ⟨f, rfl⟩ : ∃ f, fuel = f + 1 := ⟨fuel - 1, by omega⟩
    have hb : |beta * s| < safeInv := by
      have := hlow 1 (le_refl 1) (by omega)
      simpa using this
    have hlow1 : ∀ j, 1 ≤ j → j < c + 1 → |beta * s * s ^ j| < safeInv := by
      intro j hj1 hj2
      have := hlow (j + 1) (by omega) (by omega)
      rwa [pow_succ, mul_comm (s ^ j) s, ← mul_assoc] at this
    have h1 : safeInv ≤ |beta * s * s ^ (c + 1)| := by
      have e : beta * s * s ^ (c + 1) = beta * s ^ (c + 1 + 1) := by ring
      rw [e]; exact h
    have hrec := ih (count + 1) (ScaleC (Cplx.ofReal s) x) (alpha.mulReal s) (beta * s) hlow1 h1
      f (by omega)
    simp only [rescaleLoopC, hb, if_true]
    rw [hrec]
    have e1 : ScaleC (Cplx.ofReal (s ^ (c + 1))) (ScaleC (Cplx.ofReal s) x)
        = ScaleC (Cplx.ofReal (s ^ (c + 1 + 1))) x := by
      funext i
      apply Cplx.ext <;>
        simp only [ScaleC, Cplx.mul_re, Cplx.mul_im, Cplx.ofReal_re, Cplx.ofReal_im] <;> ring
    have e2 : (alpha.mulReal s).mulReal (s ^ (c + 1)) = alpha.mulReal (s ^ (c + 1 + 1)) := by
      apply Cplx.ext <;> simp only [Cplx.mulReal_re, Cplx.mulReal_im] <;> ring
    rw [e1, e2]
    congr 2
    · ring
    · congr 1
      congr 1
      ring

/-- In an Archimedean field, repeated multiplication by `s > 1` brings any nonzero
`beta` to `safeInv` or above, and there is a first number of multiplications `c ≥ 1`
at which this happens. -/
theorem exists_first_pow_ge [Archimedean R] {s : R} (hs : 1 < s) (safeInv : R) {beta : R}
    (hb : beta ≠ 0) :
    ∃ c, 1 ≤ c ∧ (∀ j, 1 ≤ j → j < c → |beta * s ^ j| < safeInv) ∧
      safeInv ≤ |beta * s ^ c| := by
  classical
  have hex : ∃ k : Nat, safeInv ≤ |beta * s ^ (k + 1)| := exists_pow_ge hs safeInv hb
  refine ⟨Nat.find hex + 1, by omega, fun j hj1 hj2 => ?_, Nat.find_spec hex⟩
  have hmin := Nat.find_min hex (show j - 1 < Nat.find hex by omega)
  rw [show j - 1 + 1 = j by omega] at hmin
  exact not_le.mp hmin

/-- The rescaling part of the real `Col`, when the loop is entered. -/
theorem ColReal_rescale [Archimedean R] {sqrt : R → R} (hs : IsSqrt sqrt) {safeMin epsilon : R}
    (h0 : 0 < safeMin / epsilon) (h1 : safeMin / epsilon < 1) (chi : R) {x : Fin n → R}
    (hx : x ≠ 0) (hlt : |signedNorm sqrt chi x| < safeMin / epsilon) :
    signedNorm sqrt chi x ≠ 0 ∧
    ∃ c, 1 ≤ c ∧
      (∀ j, 1 ≤ j → j < c →
        |signedNorm sqrt chi x * (1 / (safeMin / epsilon)) ^ j| < safeMin / epsilon) ∧
      safeMin / epsilon ≤ |signedNorm sqrt chi x * (1 / (safeMin / epsilon)) ^ c| ∧
      ∃ N, ∀ fuel, N ≤ fuel →
        rescaleLoop (1 / (safeMin / epsilon)) (safeMin / epsilon) fuel 0 x chi
            (signedNorm sqrt chi x)
          = some (c, Scale ((1 / (safeMin / epsilon)) ^ c) x,
              chi * (1 / (safeMin / epsilon)) ^ c,
              signedNorm sqrt chi x * (1 / (safeMin / epsilon)) ^ c) ∧
        ∃ r, ColReal sqrt safeMin epsilon fuel chi x = some r ∧
          r.chi = signedNorm sqrt (chi * (1 / (safeMin / epsilon)) ^ c)
              (Scale ((1 / (safeMin / epsilon)) ^ c) x) * (safeMin / epsilon) ^ c ∧
          r.chi = signedNorm sqrt chi x := by
  have hinv := one_lt_inv_safeInv h0 h1
  have hb := signedNorm_ne_zero hs chi hx
  have hn : Nrm2 sqrt x ≠ 0 := fun h => hx ((Nrm2_eq_zero_iff hs x).mp h)
  refine ⟨hb, ?_⟩
  obtain ⟨c, hc1, hlow, hge⟩ := exists_first_pow_ge hinv (safeMin / epsilon) hb
  obtain ⟨k, rfl⟩ : ∃ k, c = k + 1 := ⟨c - 1, by omega⟩
  refine ⟨k + 1, hc1, hlow, hge, k + 1, fun fuel hf => ?_⟩
  have hc := rescaleLoop_exact (1 / (safeMin / epsilon)) (safeMin / epsilon) k 0 x chi
    (signedNorm sqrt chi x) hlow hge fuel hf
  rw [zero_add] at hc
  refine ⟨hc, ?_⟩
  have hfold : (if chi ≤ 0 then SafeNorm sqrt chi (Nrm2 sqrt x)
      else -SafeNorm sqrt chi (Nrm2 sqrt x)) = signedNorm sqrt chi x := rfl
  have ht : 0 < (1 / (safeMin / epsilon)) ^ (k + 1) :=
    pow_pos (lt_trans zero_lt_one hinv) (k + 1)
  have hts : (1 / (safeMin / epsilon)) ^ (k + 1) * (safeMin / epsilon) ^ (k + 1) = 1 := by
    rw [← mul_pow]
    have : 1 / (safeMin / epsilon) * (safeMin / epsilon) = 1 := one_div_mul_cancel h0.ne'
    rw [this, one_pow]
  unfold ColReal
  simp only [if_neg hn, hfold]
  rw [if_pos hlt, hc]
  refine ⟨_, rfl, ?_, ?_⟩
  · exact scaleBack_eq _ _ _
  · show scaleBack (safeMin / epsilon) (k + 1)
        (signedNorm sqrt (chi * (1 / (safeMin / epsilon)) ^ (k + 1))
          (Scale ((1 / (safeMin / epsilon)) ^ (k + 1)) x)) = signedNorm sqrt chi x
    rw [scaleBack_eq, signedNorm_scale hs chi x ht, mul_assoc, hts, mul_one]

/-- The rescaling part of the complex `Col`, when the loop is entered. -/
theorem ColComplex_rescale [Archimedean R] {sqrt : R → R} (hs : IsSqrt sqrt)
    {safeMin epsilon : R} (h0 : 0 < safeMin / epsilon) (h1 : safeMin / epsilon < 1)
    {chi : Cplx R} {x : Fin n → Cplx R} (hx : x ≠ 0 ∨ chi.im ≠ 0)
    (hlt : |signedNormC sqrt chi x| < safeMin / epsilon) :
    signedNormC sqrt chi x ≠ 0 ∧
    ∃ c, 1 ≤ c ∧
      (∀ j, 1 ≤ j → j < c →
        |signedNormC sqrt chi x * (1 / (safeMin / epsilon)) ^ j| < safeMin / epsilon) ∧
      safeMin / epsilon ≤ |signedNormC sqrt chi x * (1 / (safeMin / epsilon)) ^ c| ∧
      ∃ N, ∀ fuel, N ≤ fuel →
        rescaleLoopC (1 / (safeMin / epsilon)) (safeMin / epsilon) fuel 0 x chi
            (signedNormC sqrt chi x)
          = some (c, ScaleC (Cplx.ofReal ((1 / (safeMin / epsilon)) ^ c)) x,
              chi.mulReal ((1 / (safeMin / epsilon)) ^ c),
              signedNormC sqrt chi x * (1 / (safeMin / epsilon)) ^ c) ∧
        ∃ r, ColComplex sqrt safeMin epsilon fuel chi x = some r ∧
          r.chi = Cplx.ofReal (signedNormC sqrt (chi.mulReal ((1 / (safeMin / epsilon)) ^ c))
              (ScaleC (Cplx.ofReal ((1 / (safeMin / epsilon)) ^ c)) x)
            * (safeMin / epsilon) ^ c) ∧
          r.chi = Cplx.ofReal (signedNormC sqrt chi x) := by
  have hinv := one_lt_inv_safeInv h0 h1
  have hb := signedNormC_ne_zero hs hx
  have hn : ¬(Nrm2C sqrt x = 0 ∧ chi.im = 0) := by
    rintro ⟨h2, h3⟩
    rcases hx with hx | hx
    · exact hx ((Nrm2C_eq_zero_iff hs x).mp h2)
    · exact hx h3
  refine ⟨hb, ?_⟩
  obtain ⟨c, hc1, hlow, hge⟩ := exists_first_pow_ge hinv (safeMin / epsilon) hb
  obtain ⟨k, rfl⟩ : ∃ k, c = k + 1 := ⟨c - 1, by omega⟩
  refine ⟨k + 1, hc1, hlow, hge, k + 1, fun fuel hf => ?_⟩
  have hc := rescaleLoopC_exact (1 / (safeMin / epsilon)) (safeMin / epsilon) k 0 x chi
    (signedNormC sqrt chi x) hlow hge fuel hf
  rw [zero_add] at hc
  refine ⟨hc, ?_⟩
  have hfold : (if chi.re ≤ 0 then SafeNorm3 sqrt chi.re chi.im (Nrm2C sqrt x)
      else -SafeNorm3 sqrt chi.re chi.im (Nrm2C sqrt x)) = signedNormC sqrt chi x := rfl
  have ht : 0 < (1 / (safeMin / epsilon)) ^ (k + 1) :=
    pow_pos (lt_trans zero_lt_one hinv) (k + 1)
  have hts : (1 / (safeMin / epsilon)) ^ (k + 1) * (safeMin / epsilon) ^ (k + 1) = 1 := by
    rw [← mul_pow]
    have : 1 / (safeMin / epsilon) * (safeMin / epsilon) = 1 := one_div_mul_cancel h0.ne'
    rw [this, one_pow]
  unfold ColComplex
  simp only [if_neg hn, hfold]
  rw [if_pos hlt, hc]
  refine ⟨_, rfl, ?_, ?_⟩
  · exact congrArg Cplx.ofReal (scaleBack_eq _ _ _)
  · show Cplx.ofReal (scaleBack (safeMin / epsilon) (k + 1)
        (signedNormC sqrt (chi.mulReal ((1 / (safeMin / epsilon)) ^ (k + 1)))
          (ScaleC (Cplx.ofReal ((1 / (safeMin / epsilon)) ^ (k + 1))) x)))
      = Cplx.ofReal (signedNormC sqrt chi x)
    rw [scaleBack_eq, signedNormC_scale hs chi x ht, mul_assoc, hts, mul_one]

/-- C25: the rescaling loop of `reflector::Col` terminates. For machine constants
with `0 < safeMin/epsilon < 1` and every input on which the loop is entered (real
`x ≠ 0`, or complex `x`, the empty vector included, with `x ≠ 0` or `Im(chi) ≠ 0`,
and `|beta| < safeMin/epsilon`), `beta` is not zero and there is a number `c ≥ 1`
such that `|beta| (epsilon/safeMin)^j` is below `safeMin/epsilon` for `1 ≤ j < c`
and at least `safeMin/epsilon` for `j = c`; for every iteration budget of at least
some `N` the do-while loop exits after exactly `c` iterations, with `x`, `alpha` and
`beta` multiplied by `(epsilon/safeMin)^c`; `Col` then returns, and the `beta` it
stores is the `beta` recomputed from the scaled `alpha` and `x` times
`(safeMin/epsilon)^c`, which is the `beta` of the input. -/
theorem Col_rescale_terminates [Archimedean R] (sqrt : R → R) (hs : IsSqrt sqrt)
    (safeMin epsilon : R) (h0 : 0 < safeMin / epsilon) (h1 : safeMin / epsilon < 1) :
    (∀ (n : Nat) (chi : R) (x : Fin n → R), x ≠ 0 →
      |signedNorm sqrt chi x| < safeMin / epsilon →
      signedNorm sqrt chi x ≠ 0 ∧
      ∃ c, 1 ≤ c ∧
        (∀ j, 1 ≤ j → j < c →
          |signedNorm sqrt chi x * (1 / (safeMin / epsilon)) ^ j| < safeMin / epsilon) ∧
        safeMin / epsilon ≤ |signedNorm sqrt chi x * (1 / (safeMin / epsilon)) ^ c| ∧
        ∃ N, ∀ fuel, N ≤ fuel →
          rescaleLoop (1 / (safeMin / epsilon)) (safeMin / epsilon) fuel 0 x chi
              (signedNorm sqrt chi x)
            = some (c, Scale ((1 / (safeMin / epsilon)) ^ c) x,
                chi * (1 / (safeMin / epsilon)) ^ c,
                signedNorm sqrt chi x * (1 / (safeMin / epsilon)) ^ c) ∧
          ∃ r, ColReal sqrt safeMin epsilon fuel chi x = some r ∧
            r.chi = signedNorm sqrt (chi * (1 / (safeMin / epsilon)) ^ c)
                (Scale ((1 / (safeMin / epsilon)) ^ c) x) * (safeMin / epsilon) ^ c ∧
            r.chi = signedNorm sqrt chi x) ∧
    (∀ (n : Nat) (chi : Cplx R) (x : Fin n → Cplx R), x ≠ 0 ∨ chi.im ≠ 0 →
      |signedNormC sqrt chi x| < safeMin / epsilon →
      signedNormC sqrt chi x ≠ 0 ∧
      ∃ c, 1 ≤ c ∧
        (∀ j, 1 ≤ j → j < c →
          |signedNormC sqrt chi x * (1 / (safeMin / epsilon)) ^ j| < safeMin / epsilon) ∧
        safeMin / epsilon ≤ |signedNormC sqrt chi x * (1 / (safeMin / epsilon)) ^ c| ∧
        ∃ N, ∀ fuel, N ≤ fuel →
          rescaleLoopC (1 / (safeMin / epsilon)) (safeMin / epsilon) fuel 0 x chi
              (signedNormC sqrt chi x)
            = some (c, ScaleC (Cplx.ofReal ((1 / (safeMin / epsilon)) ^ c)) x,
                chi.mulReal ((1 / (safeMin / epsilon)) ^ c),
                signedNormC sqrt chi x * (1 / (safeMin / epsilon)) ^ c) ∧
          ∃ r, ColComplex sqrt safeMin epsilon fuel chi x = some r ∧
            r.chi = Cplx.ofReal
              (signedNormC sqrt (chi.mulReal ((1 / (safeMin / epsilon)) ^ c))
                (ScaleC (Cplx.ofReal ((1 / (safeMin / epsilon)) ^ c)) x)
              * (safeMin / epsilon) ^ c) ∧
            r.chi = Cplx.ofReal (signedNormC sqrt chi x)) :=
  ⟨fun _ chi _ hx hlt => ColReal_rescale hs h0 h1 chi hx hlt,
    fun _ _ _ hx hlt => ColComplex_rescale hs h0 h1 hx hlt⟩

end RescaleTermination

theorem abs_lt_of_mul_self_lt {b t : ℝ} (ht : 0 < t) (h : b * b < t * t) : |b| < t := by
  rw [abs_lt]
  constructor <;> nlinarith

theorem rescale_example_real :
    |signedNorm Real.sqrt (3 / 100) (![4 / 100] : Fin 1 → ℝ)| < (1 / 4 : ℝ) / (1 / 2) := by
  have h := signedNorm_mul_self IsSqrt_real (3 / 100 : ℝ) (![4 / 100] : Fin 1 → ℝ)
  simp only [Fin.sum_univ_succ, Fin.sum_univ_zero, Matrix.cons_val_zero] at h
  apply abs_lt_of_mul_self_lt (by norm_num)
  rw [h]; norm_num

theorem rescale_example_complex :
    |signedNormC Real.sqrt (⟨0, 1 / 10⟩ : Cplx ℝ) (![0] : Fin 1 → Cplx ℝ)|
      < (1 / 4 : ℝ) / (1 / 2) := by
  have h := signedNormC_mul_self IsSqrt_real (⟨0, 1 / 10⟩ : Cplx ℝ) (![0] : Fin 1 → Cplx ℝ)
  simp only [normSqC, Fin.sum_univ_succ, Fin.sum_univ_zero, Matrix.cons_val_zero] at h
  apply abs_lt_of_mul_self_lt (by norm_num)
  rw [h]
  simp
  norm_num

theorem rescale_example_empty :
    |signedNormC Real.sqrt (⟨0, 1 / 10⟩ : Cplx ℝ) (![] : Fin 0 → Cplx ℝ)|
      < (1 / 4 : ℝ) / (1 / 2) := by
  have h := signedNormC_mul_self IsSqrt_real (⟨0, 1 / 10⟩ : Cplx ℝ) (![] : Fin 0 → Cplx ℝ)
  simp only [normSqC, Finset.univ_eq_empty, Finset.sum_empty] at h
  apply abs_lt_of_mul_self_lt (by norm_num)
  rw [h]
  norm_num

/-- Witness for C25 over the real numbers, with `safeMin = 1/4` and `epsilon = 1/2`:
the real pair `chi = 3/100`, `x = [4/100]`, and the complex `chi = i/10` with the
empty vector `x`; the loop is entered on both. -/
theorem Col_rescale_terminates_witness :
    ((0 : ℝ) < (1 / 4) / (1 / 2)) ∧ ((1 / 4 : ℝ) / (1 / 2) < 1) ∧
    ((![4 / 100] : Fin 1 → ℝ) ≠ 0) ∧
    (|signedNorm Real.sqrt (3 / 100) (![4 / 100] : Fin 1 → ℝ)| < (1 / 4 : ℝ) / (1 / 2)) ∧
    ((![] : Fin 0 → Cplx ℝ) ≠ 0 ∨ (⟨0, 1 / 10⟩ : Cplx ℝ).im ≠ 0) ∧
    (|signedNormC Real.sqrt (⟨0, 1 / 10⟩ : Cplx ℝ) (![] : Fin 0 → Cplx ℝ)|
      < (1 / 4 : ℝ) / (1 / 2)) ∧
    (signedNorm Real.sqrt (3 / 100) (![4 / 100] : Fin 1 → ℝ) ≠ 0 ∧
      ∃ c, 1 ≤ c ∧
        (∀ j, 1 ≤ j → j < c →
          |signedNorm Real.sqrt (3 / 100) (![4 / 100] : Fin 1 → ℝ)
            * (1 / ((1 / 4 : ℝ) / (1 / 2))) ^ j| < (1 / 4 : ℝ) / (1 / 2)) ∧
        (1 / 4 : ℝ) / (1 / 2) ≤ |signedNorm Real.sqrt (3 / 100) (![4 / 100] : Fin 1 → ℝ)
            * (1 / ((1 / 4 : ℝ) / (1 / 2))) ^ c| ∧
        ∃ N, ∀ fuel, N ≤ fuel →
          rescaleLoop (1 / ((1 / 4 : ℝ) / (1 / 2))) ((1 / 4) / (1 / 2)) fuel 0
              (![4 / 100] : Fin 1 → ℝ) (3 / 100)
              (signedNorm Real.sqrt (3 / 100) (![4 / 100] : Fin 1 → ℝ))
            = some (c, Scale ((1 / ((1 / 4 : ℝ) / (1 / 2))) ^ c) ![4 / 100],
                3 / 100 * (1 / ((1 / 4 : ℝ) / (1 / 2))) ^ c,
                signedNorm Real.sqrt (3 / 100) (![4 / 100] : Fin 1 → ℝ)
                  * (1 / ((1 / 4 : ℝ) / (1 / 2))) ^ c) ∧
          ∃ r, ColReal Real.sqrt (1 / 4) (1 / 2) fuel (3 / 100) (![4 / 100] : Fin 1 → ℝ)
              = some r ∧
            r.chi = signedNorm Real.sqrt (3 / 100 * (1 / ((1 / 4 : ℝ) / (1 / 2))) ^ c)
                (Scale ((1 / ((1 / 4 : ℝ) / (1 / 2))) ^ c) ![4 / 100])
              * ((1 / 4 : ℝ) / (1 / 2)) ^ c ∧
            r.chi = signedNorm Real.sqrt (3 / 100) (![4 / 100] : Fin 1 → ℝ)) ∧
    (signedNormC Real.sqrt (⟨0, 1 / 10⟩ : Cplx ℝ) (![] : Fin 0 → Cplx ℝ) ≠ 0 ∧
      ∃ c, 1 ≤ c ∧
        (∀ j, 1 ≤ j → j < c →
          |signedNormC Real.sqrt (⟨0, 1 / 10⟩ : Cplx ℝ) (![] : Fin 0 → Cplx ℝ)
            * (1 / ((1 / 4 : ℝ) / (1 / 2))) ^ j| < (1 / 4 : ℝ) / (1 / 2)) ∧
        (1 / 4 : ℝ) / (1 / 2)
          ≤ |signedNormC Real.sqrt (⟨0, 1 / 10⟩ : Cplx ℝ) (![] : Fin 0 → Cplx ℝ)
            * (1 / ((1 / 4 : ℝ) / (1 / 2))) ^ c| ∧
        ∃ N, ∀ fuel, N ≤ fuel →
          rescaleLoopC (1 / ((1 / 4 : ℝ) / (1 / 2))) ((1 / 4) / (1 / 2)) fuel 0
              (![] : Fin 0 → Cplx ℝ) ⟨0, 1 / 10⟩
              (signedNormC Real.sqrt (⟨0, 1 / 10⟩ : Cplx ℝ) (![] : Fin 0 → Cplx ℝ))
            = some (c, ScaleC (Cplx.ofReal ((1 / ((1 / 4 : ℝ) / (1 / 2))) ^ c)) ![],
                (⟨0, 1 / 10⟩ : Cplx ℝ).mulReal ((1 / ((1 / 4 : ℝ) / (1 / 2))) ^ c),
                signedNormC Real.sqrt (⟨0, 1 / 10⟩ : Cplx ℝ) (![] : Fin 0 → Cplx ℝ)
                  * (1 / ((1 / 4 : ℝ) / (1 / 2))) ^ c) ∧
          ∃ r, ColComplex Real.sqrt (1 / 4) (1 / 2) fuel ⟨0, 1 / 10⟩ (![] : Fin 0 → Cplx ℝ)
              = some r ∧
            r.chi = Cplx.ofReal
              (signedNormC Real.sqrt
                ((⟨0, 1 / 10⟩ : Cplx ℝ).mulReal ((1 / ((1 / 4 : ℝ) / (1 / 2))) ^ c))
                (ScaleC (Cplx.ofReal ((1 / ((1 / 4 : ℝ) / (1 / 2))) ^ c)) ![])
              * ((1 / 4 : ℝ) / (1 / 2)) ^ c) ∧
            r.chi = Cplx.ofReal
              (signedNormC Real.sqrt (⟨0, 1 / 10⟩ : Cplx ℝ) (![] : Fin 0 → Cplx ℝ))) :=
  have hx : (![4 / 100] : Fin 1 → ℝ) ≠ 0 := fun h => by
    have := congrFun h 0
    norm_num at this
  have hxE : (![] : Fin 0 → Cplx ℝ) ≠ 0 ∨ (⟨0, 1 / 10⟩ : Cplx ℝ).im ≠ 0 :=
    Or.inr (by norm_num)
  have h := Col_rescale_terminates Real.sqrt IsSqrt_real (1 / 4) (1 / 2) (by norm_num)
    (by norm_num)
  ⟨by norm_num, by norm_num, hx, rescale_example_real, hxE, rescale_example_empty,
    h.1 1 (3 / 100) ![4 / 100] hx rescale_example_real,
    h.2 0 ⟨0, 1 / 10⟩ ![] hxE rescale_example_empty⟩

/-- The `beta` of the real example `chi = 3/100`, `x = [4/100]`: `-1/20`. -/
theorem signedNorm_example :
    signedNorm Real.sqrt (3 / 100) (![4 / 100] : Fin 1 → ℝ) = -(1 / 20) := by
  have h := signedNorm_mul_self IsSqrt_real (3 / 100 : ℝ) (![4 / 100] : Fin 1 → ℝ)
  simp only [Fin.sum_univ_succ, Fin.sum_univ_zero, Matrix.cons_val_zero] at h
  have hneg : signedNorm Real.sqrt (3 / 100) (![4 / 100] : Fin 1 → ℝ) ≤ 0 := by
    unfold signedNorm
    rw [if_neg (by norm_num)]
    exact neg_nonpos.mpr (SafeNorm_Nrm2 IsSqrt_real _ _).1
  generalize signedNorm Real.sqrt (3 / 100) (![4 / 100] : Fin 1 → ℝ) = b at h hneg
  have h2 : (b - 1 / 20) * (b + 1 / 20) = 0 := by
    have : (b - 1 / 20) * (b + 1 / 20) = b * b - 1 / 400 := by ring
    rw [this, h]; norm_num
  rcases mul_eq_zero.mp h2 with h3 | h3
  · linarith
  · linarith

/-- The rescaling loop traced on the real example with `safeMin = 1/4` and
`epsilon = 1/2`: `|beta| = 1/20` is doubled to `1/10`, `1/5`, `2/5` and `4/5`, so the
loop makes four iterations, and `Col` stores `beta = -1/20` in `chi`, the `beta`
recomputed from the scaled input being `-4/5`. -/
theorem Col_rescale_example :
    ∀ fuel, 4 ≤ fuel →
      rescaleLoop (1 / ((1 / 4 : ℝ) / (1 / 2))) ((1 / 4) / (1 / 2)) fuel 0
          (![4 / 100] : Fin 1 → ℝ) (3 / 100) (-(1 / 20))
        = some (4, Scale ((1 / ((1 / 4 : ℝ) / (1 / 2))) ^ 4) ![4 / 100],
            3 / 100 * (1 / ((1 / 4 : ℝ) / (1 / 2))) ^ 4,
            -(1 / 20) * (1 / ((1 / 4 : ℝ) / (1 / 2))) ^ 4) ∧
      signedNorm Real.sqrt (3 / 100 * (1 / ((1 / 4 : ℝ) / (1 / 2))) ^ 4)
          (Scale ((1 / ((1 / 4 : ℝ) / (1 / 2))) ^ 4) ![4 / 100]) = -(4 / 5) ∧
      ∃ r, ColReal Real.sqrt (1 / 4) (1 / 2) fuel (3 / 100) (![4 / 100] : Fin 1 → ℝ)
          = some r ∧ r.chi = -(1 / 20) := by
  intro fuel hf
  have hlow : ∀ j, 1 ≤ j → j < 3 + 1 →
      |(-(1 / 20) : ℝ) * (1 / ((1 / 4 : ℝ) / (1 / 2))) ^ j| < (1 / 4 : ℝ) / (1 / 2) := by
    intro j hj1 hj2
    interval_cases j <;> norm_num [abs_lt]
  have hge : (1 / 4 : ℝ) / (1 / 2)
      ≤ |(-(1 / 20) : ℝ) * (1 / ((1 / 4 : ℝ) / (1 / 2))) ^ (3 + 1)| := by
    norm_num [le_abs]
  have hc := rescaleLoop_exact (1 / ((1 / 4 : ℝ) / (1 / 2))) ((1 / 4 : ℝ) / (1 / 2)) 3 0
    (![4 / 100] : Fin 1 → ℝ) (3 / 100) (-(1 / 20)) hlow hge fuel hf
  have hs : signedNorm Real.sqrt (3 / 100 * (1 / ((1 / 4 : ℝ) / (1 / 2))) ^ 4)
      (Scale ((1 / ((1 / 4 : ℝ) / (1 / 2))) ^ 4) ![4 / 100]) = -(4 / 5) := by
    rw [signedNorm_scale IsSqrt_real _ _ (by norm_num), signedNorm_example]
    norm_num
  refine ⟨hc, hs, ?_⟩
  have hx : (![4 / 100] : Fin 1 → ℝ) ≠ 0 := fun h => by
    have := congrFun h 0
    norm_num at this
  have hn : Nrm2 Real.sqrt (![4 / 100] : Fin 1 → ℝ) ≠ 0 :=
    fun h => hx ((Nrm2_eq_zero_iff IsSqrt_real _).mp h)
  have hfold : (if (3 / 100 : ℝ) ≤ 0
      then SafeNorm Real.sqrt (3 / 100) (Nrm2 Real.sqrt (![4 / 100] : Fin 1 → ℝ))
      else -SafeNorm Real.sqrt (3 / 100) (Nrm2 Real.sqrt (![4 / 100] : Fin 1 → ℝ)))
      = -(1 / 20) := signedNorm_example
  have hlt : |(-(1 / 20) : ℝ)| < (1 / 4 : ℝ) / (1 / 2) := by
    norm_num [abs_lt]
  unfold ColReal
  simp only [if_neg hn, hfold]
  rw [if_pos hlt, hc]
  refine ⟨_, rfl, ?_⟩
  show scaleBack ((1 / 4 : ℝ) / (1 / 2)) (0 + (3 + 1))
      (signedNorm Real.sqrt (3 / 100 * (1 / ((1 / 4 : ℝ) / (1 / 2))) ^ (3 + 1))
        (Scale ((1 / ((1 / 4 : ℝ) / (1 / 2))) ^ (3 + 1)) ![4 / 100])) = -(1 / 20)
  rw [scaleBack_eq, hs]
  norm_num

end Elemental

namespace Elemental

section TwoSidedTrsmPanelProofs

variable {F : Type} [Field F] [StarRing F]

@[simp] theorem LocalTrr2kLower_height (alpha : F) (A B C D : Mat F) (beta : F) (E : Mat F) :
    (LocalTrr2kLower alpha A B C D beta E).height = E.height := rfl
@[simp] theorem LocalTrr2kLower_width (alpha : F) (A B C D : Mat F) (beta : F) (E : Mat F) :
    (LocalTrr2kLower alpha A B C D beta E).width = E.width := rfl

/-- The block `A21` is not touched by the update of `A11`. -/
theorem Mat.view_setBlock_below (S B : Mat F) (k nb m : Nat) (hB : B.height = nb) :
    (S.setBlock k k B).view (k + nb) k m nb = S.view (k + nb) k m nb := by
  unfold Mat.view
  congr 1
  funext i j
  rw [Mat.setBlock_entry_out _ _ _ _ _ _ (by omega)]

/-- `Hemm` reads the same Hermitian matrix from the transformed block `A11` and from
the view of `A` into which it has been copied. -/
theorem HemmRightLower_view_setBlock (S B L21 C : Mat F) (k nb : Nat) (hB : B.height = nb)
    (hBw : B.width = nb) (r y : Nat) (hy : y < nb) :
    (HemmRightLower 1 B L21 0 C).entry r y
      = (HemmRightLower 1 ((S.setBlock k k B).view k k nb nb) L21 0 C).entry r y := by
  simp only [HemmRightLower, Mat.view_height, hB]
  congr 2
  refine Finset.sum_congr rfl (fun l hl => ?_)
  have hl1 := Finset.mem_range.mp hl
  congr 1
  simp only [Mat.hermLower, Mat.view_entry]
  by_cases h : y ≤ l
  · rw [if_pos h, if_pos h, Mat.setBlock_entry_in _ _ _ _ l y _ _ rfl rfl (by omega) (by omega)]
  · rw [if_neg h, if_neg h, Mat.setBlock_entry_in _ _ _ _ y l _ _ rfl rfl (by omega) (by omega)]

/-- The block `A21` through one pass of the local algorithm: `Z - Y21/2` when the
rank-2k update reads it, `Z - Y21` when the last solve reads it. -/
theorem lvar5_panel_local (diag : UnitOrNonUnit) (L : Mat F) (n k nb : Nat) (S : Mat F)
    (h2 : (2 : F) ≠ 0) (r y : Nat) (hr : r < n - (k + nb)) (hy : y < nb) :
    let L21 := L.view (k + nb) k (n - (k + nb)) nb
    let A1 := S.setBlock k k (TwoSidedTrsmLUnb diag (S.view k k nb nb) (L.view k k nb nb))
    let Y21 := HemmRightLower 1 (A1.view k k nb nb) L21 0 (Mat.zeros (n - (k + nb)) nb)
    let A2 := A1.setBlock (k + nb) k
      (TrsmRightLowerAdjoint diag 1 (L.view k k nb nb) (A1.view (k + nb) k (n - (k + nb)) nb))
    let A3 := A2.setBlock (k + nb) k
      (Axpy (-1 / 2) Y21 (A2.view (k + nb) k (n - (k + nb)) nb))
    let A4 := A3.setBlock (k + nb) (k + nb)
      (Her2kLowerNormal (-1) L21 (A3.view (k + nb) k (n - (k + nb)) nb) 1
        (A3.view (k + nb) (k + nb) (n - (k + nb)) (n - (k + nb))))
    let A5 := A4.setBlock (k + nb) k
      (Axpy (-1 / 2) Y21 (A4.view (k + nb) k (n - (k + nb)) nb))
    A3.entry (k + nb + r) (k + y) = (panelMinus (1 / 2) diag L n k nb S).entry r y
      ∧ A5.entry (k + nb + r) (k + y) = (panelMinus 1 diag L n k nb S).entry r y := by
  intro L21 A1 Y21 A2 A3 A4 A5
  have hA2 : A2.entry (k + nb + r) (k + y) = (panelZ21 diag L n k nb S).entry r y := by
    show (A1.setBlock _ _ _).entry _ _ = _
    rw [Mat.setBlock_entry_in _ _ _ _ r y _ _ rfl rfl (by simpa using hr) (by simpa using hy)]
    show (TrsmRightLowerAdjoint diag 1 _ ((S.setBlock k k _).view _ _ _ _)).entry r y = _
    rw [Mat.view_setBlock_below _ _ _ _ _ (by simp)]
    rfl
  have hA3 : A3.entry (k + nb + r) (k + y)
      = (panelMinus (1 / 2) diag L n k nb S).entry r y := by
    show (A2.setBlock _ _ _).entry _ _ = _
    rw [Mat.setBlock_entry_in _ _ _ _ r y _ _ rfl rfl (by simpa using hr) (by simpa using hy),
      Axpy_entry, Mat.view_entry, hA2]
    show _ = (panelZ21 diag L n k nb S).entry r y
      - 1 / 2 * (panelY21 diag L n k nb S).entry r y
    show -1 / 2 * (panelY21 diag L n k nb S).entry r y + _ = _
    ring
  refine ⟨hA3, ?_⟩
  show (A4.setBlock _ _ _).entry _ _ = _
  rw [Mat.setBlock_entry_in _ _ _ _ r y _ _ rfl rfl (by simpa using hr) (by simpa using hy),
    Axpy_entry, Mat.view_entry]
  have hA4 : A4.entry (k + nb + r) (k + y) = A3.entry (k + nb + r) (k + y) := by
    show (A3.setBlock _ _ _).entry _ _ = _
    rw [Mat.setBlock_entry_out _ _ _ _ _ _ (by simp <;> omega)]
  rw [hA4, hA3]
  show -1 / 2 * (panelY21 diag L n k nb S).entry r y
      + ((panelZ21 diag L n k nb S).entry r y - 1 / 2 * (panelY21 diag L n k nb S).entry r y)
    = (panelZ21 diag L n k nb S).entry r y - 1 * (panelY21 diag L n k nb S).entry r y
  field_simp
  ring

theorem Mat.setBlock_congr (A B1 B2 : Mat F) (i0 j0 : Nat) (hh : B1.height = B2.height)
    (hw : B1.width = B2.width)
    (he : ∀ i j, i < B1.height → j < B1.width → B1.entry i j = B2.entry i j) :
    A.setBlock i0 j0 B1 = A.setBlock i0 j0 B2 := by
  unfold Mat.setBlock
  congr 1
  funext i j
  rw [← hh, ← hw]
  by_cases h : i0 ≤ i ∧ i < i0 + B1.height ∧ j0 ≤ j ∧ j < j0 + B1.width
  · rw [if_pos h, if_pos h]
    exact he _ _ (by omega) (by omega)
  · rw [if_neg h, if_neg h]

/-- The update `LocalTrr2k( LOWER, -1, L21, A21', A21, L21', 1, A22 )` of the
distributed algorithm is the update `Her2k( LOWER, NORMAL, -1, L21, A21, 1, A22 )` of
the local one. -/
theorem LocalTrr2kLower_eq_Her2k (L21 A21 E : Mat F) (hw : A21.width = L21.width) :
    LocalTrr2kLower (-1) L21 A21.adjoint A21 L21.adjoint 1 E
      = Her2kLowerNormal (-1) L21 A21 1 E := by
  unfold LocalTrr2kLower Her2kLowerNormal
  congr 1
  funext i j
  by_cases h : j ≤ i
  · rw [if_pos h, if_pos h]
    simp only [Mat.adjoint, hw, star_neg, star_one]
    ring
  · rw [if_neg h, if_neg h]

/-- On a single process one pass of the distributed `TwoSidedTrsmLVar5` computes
what one pass of the local algorithm computes. -/
theorem TwoSidedTrsmLVar5DistStep_eq (diag : UnitOrNonUnit) (L : Mat F) (n k nb : Nat)
    (S : Mat F) :
    TwoSidedTrsmLVar5DistStep diag L n k nb S = TwoSidedTrsmLVar5Step diag L n k nb S := by
  unfold TwoSidedTrsmLVar5DistStep TwoSidedTrsmLVar5Step
  simp only []
  have hY : ∀ r y, y < nb →
      (HemmRightLower 1 (TwoSidedTrsmLUnb diag (S.view k k nb nb) (L.view k k nb nb))
        (L.view (k + nb) k (n - (k + nb)) nb) 0 (Mat.zeros (n - (k + nb)) nb)).entry r y
      = (HemmRightLower 1
          ((S.setBlock k k (TwoSidedTrsmLUnb diag (S.view k k nb nb) (L.view k k nb nb))).view
            k k nb nb)
          (L.view (k + nb) k (n - (k + nb)) nb) 0 (Mat.zeros (n - (k + nb)) nb)).entry r y :=
    fun r y hy => HemmRightLower_view_setBlock S _ _ _ k nb (by simp) (by simp) r y hy
  generalize HemmRightLower 1 (TwoSidedTrsmLUnb diag (S.view k k nb nb) (L.view k k nb nb))
    (L.view (k + nb) k (n - (k + nb)) nb) 0 (Mat.zeros (n - (k + nb)) nb) = Yd at hY ⊢
  generalize HemmRightLower 1
    ((S.setBlock k k (TwoSidedTrsmLUnb diag (S.view k k nb nb) (L.view k k nb nb))).view
      k k nb nb)
    (L.view (k + nb) k (n - (k + nb)) nb) 0 (Mat.zeros (n - (k + nb)) nb) = Yl at hY ⊢
  generalize (S.setBlock k k (TwoSidedTrsmLUnb diag (S.view k k nb nb)
    (L.view k k nb nb))).setBlock (k + nb) k _ = A2
  have hstep : ∀ X : Mat F,
      X.setBlock (k + nb) k (Axpy (-1 / 2) Yd (X.view (k + nb) k (n - (k + nb)) nb))
        = X.setBlock (k + nb) k (Axpy (-1 / 2) Yl (X.view (k + nb) k (n - (k + nb)) nb)) :=
    fun X => Mat.setBlock_congr _ _ _ _ _ rfl rfl (fun i j _ hj => by
      simp only [Axpy_entry]
      rw [hY i j (by simpa using hj)])
  rw [hstep A2]
  generalize A2.setBlock (k + nb) k _ = A3
  rw [LocalTrr2kLower_eq_Her2k (L.view (k + nb) k (n - (k + nb)) nb)
    (A3.view (k + nb) k (n - (k + nb)) nb) _ rfl]
  generalize A3.setBlock (k + nb) (k + nb) _ = A4
  rw [hstep A4]

/-- Entries of the lower triangle of `A22` after one pass of the local algorithm. -/
theorem TwoSidedTrsmLVar5Step_A22_panel (diag : UnitOrNonUnit) (L : Mat F) (n k nb : Nat)
    (S : Mat F) (h2 : (2 : F) ≠ 0) (r t : Nat) (hr : r < n - (k + nb)) (ht : t ≤ r) :
    (TwoSidedTrsmLVar5Step diag L n k nb S).entry (k + nb + r) (k + nb + t)
      = S.entry (k + nb + r) (k + nb + t)
        - ((∑ y in Finset.range nb, L.entry (k + nb + r) (k + y)
              * star ((panelMinus (1 / 2) diag L n k nb S).entry t y))
          + ∑ y in Finset.range nb, (panelMinus (1 / 2) diag L n k nb S).entry r y
              * star (L.entry (k + nb + t) (k + y))) := by
  unfold TwoSidedTrsmLVar5Step
  simp only []
  rw [Mat.setBlock_entry_out _ _ _ _ _ _ (by simp <;> omega),
    Mat.setBlock_entry_out _ _ _ _ _ _ (by simp <;> omega),
    Mat.setBlock_entry_in _ _ _ _ r t _ _ rfl rfl (by simpa using hr)
      (by simp only [Her2kLowerNormal_width, Mat.view_width]; omega)]
  simp only [Her2kLowerNormal, Mat.view_width]
  rw [if_pos ht]
  have e1 : ∀ u y, u < n - (k + nb) → y < nb → _ :=
    fun u y hu hy => (lvar5_panel_local diag L n k nb S h2 u y hu hy).1
  have hs1 : ∀ y, y ∈ Finset.range nb → _ = _ := fun y hy =>
    e1 r y hr (Finset.mem_range.mp hy)
  have hs2 : ∀ y, y ∈ Finset.range nb → _ = _ := fun y hy =>
    e1 t y (by omega) (Finset.mem_range.mp hy)
  simp only [Mat.view_entry]
  rw [Finset.sum_congr rfl (fun y hy => congrArg
      (fun z => L.entry (k + nb + r) (k + y) * star z) (hs2 y hy)),
    Finset.sum_congr rfl (fun y hy => congrArg
      (fun z => z * star (L.entry (k + nb + t) (k + y))) (hs1 y hy))]
  rw [Mat.setBlock_entry_out _ _ _ _ _ _ (by simp <;> omega),
    Mat.setBlock_entry_out _ _ _ _ _ _ (by simp <;> omega),
    Mat.setBlock_entry_out _ _ _ _ _ _ (by simp <;> omega)]
  rw [star_neg, star_one]
  ring

/-- The block `A21` after one pass of the local algorithm: the last solve applied to
`Z - Y21`. -/
theorem TwoSidedTrsmLVar5Step_A21_panel (diag : UnitOrNonUnit) (L : Mat F) (n k nb : Nat)
    (S : Mat F) (h2 : (2 : F) ≠ 0) (r y : Nat) (hr : r < n - (k + nb)) (hy : y < nb) :
    (TwoSidedTrsmLVar5Step diag L n k nb S).entry (k + nb + r) (k + y)
      = (TrsmLeftLowerNormal diag 1 (L.view (k + nb) (k + nb) (n - (k + nb)) (n - (k + nb)))
          (panelMinus 1 diag L n k nb S)).entry r y := by
  unfold TwoSidedTrsmLVar5Step
  simp only []
  rw [Mat.setBlock_entry_in _ _ _ _ r y _ _ rfl rfl (by simpa using hr) (by simpa using hy)]
  simp only [TrsmLeftLowerNormal, Mat.view_height]
  apply forwardSolve_congr
  intro i hi
  rw [Mat.view_entry]
  exact congrArg (fun z => 1 * z) (lvar5_panel_local diag L n k nb S h2 i y hi hy).2

/-- C24: in one pass of `TwoSidedTrsmLVar5`, local and distributed (single process,
redistributions as copies), with `Y21 = L21 A11` computed by `Hemm` from the block
`A11` already transformed and `Z = A21 inv(L11)'`, the lower triangle of `A22` becomes
`A22 - (L21 W' + W L21')` with `W = Z - Y21/2`, and the block `A21` becomes the result
of the last solve with `L22` applied to `Z - Y21`. -/
theorem TwoSidedTrsmLVar5_half_split (diag : UnitOrNonUnit) (L : Mat F) (n k nb : Nat)
    (S : Mat F) (h2 : (2 : F) ≠ 0) :
    ((∀ r t, r < n - (k + nb) → t ≤ r →
        (TwoSidedTrsmLVar5Step diag L n k nb S).entry (k + nb + r) (k + nb + t)
          = S.entry (k + nb + r) (k + nb + t)
            - ((∑ y in Finset.range nb, L.entry (k + nb + r) (k + y)
                  * star ((panelMinus (1 / 2) diag L n k nb S).entry t y))
              + ∑ y in Finset.range nb, (panelMinus (1 / 2) diag L n k nb S).entry r y
                  * star (L.entry (k + nb + t) (k + y)))) ∧
      (∀ r y, r < n - (k + nb) → y < nb →
        (TwoSidedTrsmLVar5Step diag L n k nb S).entry (k + nb + r) (k + y)
          = (TrsmLeftLowerNormal diag 1
              (L.view (k + nb) (k + nb) (n - (k + nb)) (n - (k + nb)))
              (panelMinus 1 diag L n k nb S)).entry r y)) ∧
    ((∀ r t, r < n - (k + nb) → t ≤ r →
        (TwoSidedTrsmLVar5DistStep diag L n k nb S).entry (k + nb + r) (k + nb + t)
          = S.entry (k + nb + r) (k + nb + t)
            - ((∑ y in Finset.range nb, L.entry (k + nb + r) (k + y)
                  * star ((panelMinus (1 / 2) diag L n k nb S).entry t y))
              + ∑ y in Finset.range nb, (panelMinus (1 / 2) diag L n k nb S).entry r y
                  * star (L.entry (k + nb + t) (k + y)))) ∧
      (∀ r y, r < n - (k + nb) → y < nb →
        (TwoSidedTrsmLVar5DistStep diag L n k nb S).entry (k + nb + r) (k + y)
          = (TrsmLeftLowerNormal diag 1
              (L.view (k + nb) (k + nb) (n - (k + nb)) (n - (k + nb)))
              (panelMinus 1 diag L n k nb S)).entry r y)) := by
  rw [TwoSidedTrsmLVar5DistStep_eq]
  exact ⟨⟨fun r t hr ht => TwoSidedTrsmLVar5Step_A22_panel diag L n k nb S h2 r t hr ht,
      fun r y hr hy => TwoSidedTrsmLVar5Step_A21_panel diag L n k nb S h2 r y hr hy⟩,
    ⟨fun r t hr ht => TwoSidedTrsmLVar5Step_A22_panel diag L n k nb S h2 r t hr ht,
      fun r y hr hy => TwoSidedTrsmLVar5Step_A21_panel diag L n k nb S h2 r y hr hy⟩⟩

end TwoSidedTrsmPanelProofs

/-- Witness for C24 on the rational `2 x 2` example, first pass with blocksize 1:
the entry `(1, 1)` after the rank-2k update and the panel entry `(1, 0)`. -/
theorem TwoSidedTrsmLVar5_half_split_witness :
    ((2 : ℚ) ≠ 0) ∧
    ((∀ r t, r < 2 - (0 + 1) → t ≤ r →
        (TwoSidedTrsmLVar5Step .NON_UNIT lvar5L 2 0 1 lvar5A).entry (0 + 1 + r) (0 + 1 + t)
          = lvar5A.entry (0 + 1 + r) (0 + 1 + t)
            - ((∑ y in Finset.range 1, lvar5L.entry (0 + 1 + r) (0 + y)
                  * star ((panelMinus (1 / 2) .NON_UNIT lvar5L 2 0 1 lvar5A).entry t y))
              + ∑ y in Finset.range 1,
                  (panelMinus (1 / 2) .NON_UNIT lvar5L 2 0 1 lvar5A).entry r y
                  * star (lvar5L.entry (0 + 1 + t) (0 + y)))) ∧
      (∀ r y, r < 2 - (0 + 1) → y < 1 →
        (TwoSidedTrsmLVar5Step .NON_UNIT lvar5L 2 0 1 lvar5A).entry (0 + 1 + r) (0 + y)
          = (TrsmLeftLowerNormal .NON_UNIT 1
              (lvar5L.view (0 + 1) (0 + 1) (2 - (0 + 1)) (2 - (0 + 1)))
              (panelMinus 1 .NON_UNIT lvar5L 2 0 1 lvar5A)).entry r y)) :=
  ⟨two_ne_zero, (TwoSidedTrsmLVar5_half_split .NON_UNIT lvar5L 2 0 1 lvar5A two_ne_zero).1⟩

theorem panelY21_example : (panelY21 .NON_UNIT lvar5L 2 0 1 lvar5A).entry 0 0 = 1 := by
  simp [panelY21, lvar5L, lvar5A, HemmRightLower, TwoSidedTrsmLUnb, Mat.setBlock, Mat.view,
    Mat.zeros, Mat.hermLower, Mat.lowerDiag, forwardSolve, Finset.sum_range_succ]
  norm_num

theorem panelZ21_example : (panelZ21 .NON_UNIT lvar5L 2 0 1 lvar5A).entry 0 0 = 1 := by
  simp [panelZ21, lvar5L, lvar5A, TrsmRightLowerAdjoint, Mat.view, Mat.lowerDiag, forwardSolve,
    Finset.sum_range_succ]

/-- The first pass on the rational `2 x 2` example with blocksize 1: `Y21 = 1`,
`Z = 1`, the rank-2k update leaves `A22 = 10 - (1/2 + 1/2) = 9`, and the panel after
the last solve is `(1 - 1)/3 = 0`; the distributed pass agrees. -/
theorem TwoSidedTrsmLVar5_half_split_example :
    (panelY21 .NON_UNIT lvar5L 2 0 1 lvar5A).entry 0 0 = 1 ∧
    (panelZ21 .NON_UNIT lvar5L 2 0 1 lvar5A).entry 0 0 = 1 ∧
    (TwoSidedTrsmLVar5Step .NON_UNIT lvar5L 2 0 1 lvar5A).entry 1 1 = 9 ∧
    (TwoSidedTrsmLVar5Step .NON_UNIT lvar5L 2 0 1 lvar5A).entry 1 0 = 0 ∧
    (TwoSidedTrsmLVar5DistStep .NON_UNIT lvar5L 2 0 1 lvar5A).entry 1 1 = 9 ∧
    (TwoSidedTrsmLVar5DistStep .NON_UNIT lvar5L 2 0 1 lvar5A).entry 1 0 = 0 := by
  have hP : (panelMinus (1 / 2) .NON_UNIT lvar5L 2 0 1 lvar5A).entry 0 0 = 1 / 2 := by
    show (panelZ21 .NON_UNIT lvar5L 2 0 1 lvar5A).entry 0 0
      - 1 / 2 * (panelY21 .NON_UNIT lvar5L 2 0 1 lvar5A).entry 0 0 = 1 / 2
    rw [panelY21_example, panelZ21_example]; norm_num
  have hQ : (panelMinus 1 .NON_UNIT lvar5L 2 0 1 lvar5A).entry 0 0 = 0 := by
    show (panelZ21 .NON_UNIT lvar5L 2 0 1 lvar5A).entry 0 0
      - 1 * (panelY21 .NON_UNIT lvar5L 2 0 1 lvar5A).entry 0 0 = 0
    rw [panelY21_example, panelZ21_example]; norm_num
  have h22 : (TwoSidedTrsmLVar5Step .NON_UNIT lvar5L 2 0 1 lvar5A).entry 1 1 = 9 := by
    have h := TwoSidedTrsmLVar5Step_A22_panel .NON_UNIT lvar5L 2 0 1 lvar5A two_ne_zero 0 0
      (by norm_num) (le_refl 0)
    simp only [Finset.sum_range_one, hP] at h
    rw [show (1 : Nat) = 0 + 1 + 0 from rfl, h]
    simp [lvar5L, lvar5A]
    norm_num
  have h21 : (TwoSidedTrsmLVar5Step .NON_UNIT lvar5L 2 0 1 lvar5A).entry 1 0 = 0 := by
    have h := TwoSidedTrsmLVar5Step_A21_panel .NON_UNIT lvar5L 2 0 1 lvar5A two_ne_zero 0 0
      (by norm_num) (by norm_num)
    rw [show (1 : Nat) = 0 + 1 + 0 from rfl, h]
    simp [TrsmLeftLowerNormal, forwardSolve, hQ]
  refine ⟨panelY21_example, panelZ21_example, h22, h21, ?_, ?_⟩
  · rw [TwoSidedTrsmLVar5DistStep_eq]; exact h22
  · rw [TwoSidedTrsmLVar5DistStep_eq]; exact h21

end Elemental

namespace Elemental

theorem LastOffset_two_two : LastOffset 2 2 = 0 := by decide

/-- C26 at the failing input: for the upper-triangular `U` with the rows `1, 1` and
`0, 2` and the blocksize 2 (one block), `TriangEigenvecs` returns without error and
leaves the unit upper-triangular `X` with the rows `1, -1` and `0, 1`; its second
column is not an eigenvector of `U`: the entry `(0, 1)` of `U X` is `0` and that of
`X diag(U)` is `-2`. -/
theorem TriangEigenvecs_wrong_sign :
    ∃ U1 X1, TriangEigenvecs true 2 1 exampleU (Mat.zeros 2 2) = some (.ok (U1, X1)) ∧
      (X1.entry 0 0 = 1 ∧ X1.entry 0 1 = -1 ∧ X1.entry 1 0 = 0 ∧ X1.entry 1 1 = 1) ∧
      (∑ l in Finset.range 2, exampleU.entry 0 l * X1.entry l 1) = 0 ∧
      X1.entry 0 1 * exampleU.entry 1 1 = -2 ∧
      (∑ l in Finset.range 2, exampleU.entry 0 l * X1.entry l 1)
        ≠ X1.entry 0 1 * exampleU.entry 1 1 := by
  refine ⟨_, _, rfl, ⟨?_, ?_, ?_, ?_⟩, ?_, ?_, ?_⟩ <;>
    simp [FillDiagonal, Mat.setBlock, GemmNormalNormal, Mat.view, Mat.writeThrough,
      triang_eigvec.UnblockedMultishiftSolve, SetDiagonal, ShiftDiagonal, TrsvUpperNormal,
      backSolve, GetDiagonal, exampleU, MakeTrapezoidalUpper, List.range_succ,
      LastOffset_two_two, Finset.sum_range_succ] <;> norm_num

/-- C28 at the failing input: for a `2 x 2` matrix and the blocksize 1, with the
debug checks enabled, the second call of `UnblockedMultishiftSolve` (the block
`k = 0`) gets the two shifts and a block `X1` of width 1, and `TriangEigenvecs` ends
with the error `Incompatible number of shifts`. -/
theorem TriangEigenvecs_incompatible_shifts :
    TriangEigenvecs true 1 2 exampleU (Mat.zeros 2 2)
      = some (.error "Incompatible number of shifts") ∧
    (GetDiagonal exampleU).height = 2 ∧
    ((MakeTrapezoidalUpper exampleU 1).view 0 0 (min 1 (2 - 0)) (0 + min 1 (2 - 0))).width = 1 :=
  ⟨rfl, rfl, rfl⟩

end Elemental

namespace Elemental

section TriangEigenvecsShifts

variable {F : Type} [Field F]

theorem LastOffset_bounds (n b : Int) (hb : 0 < b) (hn : b < n) :
    b ≤ LastOffset n b ∧ LastOffset n b < n ∧ n - LastOffset n b ≤ b := by
  have h1 := Int.emod_nonneg n hb.ne'
  have h2 := Int.emod_lt_of_pos n hb
  have h3 := Int.emod_add_ediv n b
  unfold LastOffset
  by_cases h : n % b = 0
  · rw [if_pos h]
    rw [h, zero_add] at h3
    have h4 : 2 ≤ n / b := by
      by_contra hc
      have h5 : n / b ≤ 1 := by omega
      have : b * (n / b) ≤ b * 1 := Int.mul_le_mul_of_nonneg_left h5 hb.le
      omega
    have : b * 2 ≤ b * (n / b) := Int.mul_le_mul_of_nonneg_left h4 hb.le
    omega
  · rw [if_neg h]
    have h4 : 1 ≤ n / b := by
      by_contra hc
      have h5 : n / b ≤ 0 := by omega
      have : b * (n / b) ≤ b * 0 := Int.mul_le_mul_of_nonneg_left h5 hb.le
      omega
    have : b * 1 ≤ b * (n / b) := Int.mul_le_mul_of_nonneg_left h4 hb.le
    omega

/-- With the debug checks, a pass of the loop of `TriangEigenvecs` goes through the
check of `UnblockedMultishiftSolve` exactly when the number of shifts is the width
`k + nb` of the block `X1`. -/
theorem TriangEigenvecsStep_debug (shifts : Mat F) (m bsize k : Nat) (U X : Mat F) :
    (shifts.height = k + min bsize (m - k) →
      ∃ r, TriangEigenvecsStep true shifts m bsize k U X = .ok r) ∧
    (shifts.height ≠ k + min bsize (m - k) →
      TriangEigenvecsStep true shifts m bsize k U X
        = .error "Incompatible number of shifts") := by
  constructor
  · intro h
    unfold TriangEigenvecsStep triang_eigvec.UnblockedMultishiftSolve
    simp only [Mat.view, Bool.true_and, bne_iff_ne, ne_eq, h, not_true_eq_false, if_false]
    exact ⟨_, rfl⟩
  · intro h
    unfold TriangEigenvecsStep triang_eigvec.UnblockedMultishiftSolve
    simp only [Mat.view, Bool.true_and, bne_iff_ne, ne_eq, h, not_false_eq_true, if_true]

/-- With the debug checks enabled, `TriangEigenvecs` on an `m x m` matrix ends with
the error `Incompatible number of shifts` whenever there is more than one block
(`1 <= bsize < m`): the first pass has `k + nb = m`, the second one `k + nb < m`. -/
theorem TriangEigenvecs_debug_error (U X : Mat F) (m bsize fuel : Nat) (hb : 1 ≤ bsize)
    (hm : bsize < m) (hU : U.height = m) (hUw : U.width = m) (hX : X.height = m)
    (hf : 2 ≤ fuel) :
    TriangEigenvecs true bsize fuel U X = some (.error "Incompatible number of shifts") := by
  obtain ⟨f, rfl⟩ : ∃ f, fuel = f + 2 := ⟨fuel - 2, by omega⟩
  obtain ⟨h1, h2, h3⟩ := LastOffset_bounds (m : Int) (bsize : Int) (by omega) (by omega)
  have hs : (GetDiagonal U).height = m := by simp [GetDiagonal, hU, hUw]
  unfold TriangEigenvecs
  simp only [hX]
  generalize LastOffset (m : Int) (bsize : Int) = k0 at h1 h2 h3
  obtain ⟨k, rfl⟩ : ∃ k : Nat, k0 = (k : Int) := ⟨k0.toNat, by omega⟩
  have hk1 : bsize ≤ k := by omega
  have hk2 : k < m := by omega
  have hk3 : m - k ≤ bsize := by omega
  rw [TriangEigenvecsLoop, if_pos (by omega), Int.toNat_ofNat]
  obtain ⟨r, hr⟩ := (TriangEigenvecsStep_debug (GetDiagonal U) m bsize k U
    (MakeTrapezoidalUpper U 1)).1 (by rw [hs, Nat.min_eq_right hk3]; omega)
  rw [hr]
  simp only
  have hk4 : ((k : Int) - (bsize : Int)) = ((k - bsize : Nat) : Int) := by omega
  rw [TriangEigenvecsLoop, hk4, if_pos (by omega), Int.toNat_ofNat]
  rw [(TriangEigenvecsStep_debug (GetDiagonal U) m bsize (k - bsize) r.1 r.2).2
    (by rw [hs, Nat.min_eq_left (by omega)]; omega)]

end TriangEigenvecsShifts

end Elemental

namespace Elemental
namespace internal

section SymvProofs

variable {F : Type} [CommRing F] [StarRing F]

theorem orient_entry (conjugate : Bool) (A : Mat F) (i l : Nat) :
    (A.orient (if conjugate then Orientation.ADJOINT else Orientation.TRANSPOSE)).entry i l
      = conjIf conjugate (A.entry l i) := by
  cases conjugate <;> rfl

theorem orient_width (conjugate : Bool) (A : Mat F) :
    (A.orient (if conjugate then Orientation.ADJOINT else Orientation.TRANSPOSE)).width
      = A.height := by
  cases conjugate <;> rfl

theorem conjIf_zero (conjugate : Bool) : conjIf conjugate (0 : F) = 0 := by
  cases conjugate <;> simp [conjIf]

/-- The vector `z_MC_STAR` after one pass. -/
theorem LocalSymvColAccumulateUStep_MC (conjugate : Bool) (alpha : F)
    (A xMC xMR : Mat F) (n0 n1 n2 : Nat) (zMC zMR : Mat F) (i c : Nat) :
    (LocalSymvColAccumulateUStep
        (if conjugate then Orientation.ADJOINT else Orientation.TRANSPOSE) alpha A xMC xMR
        n0 n1 n2 zMC zMR).1.entry i c
      = if n0 ≤ i ∧ i < n0 + n1 ∧ c = 0 then
          zMC.entry i 0 + alpha * ∑ j in Finset.Ico n0 (n0 + n1 + n2),
            (if i ≤ j then A.entry i j * xMR.entry j 0 else 0)
        else zMC.entry i c := by
  unfold LocalSymvColAccumulateUStep
  simp only [Mat.setBlock, LocalGemv, Mat.view, Mat.orient, MakeTriangularUpper]
  by_cases h : n0 ≤ i ∧ i < n0 + n1 ∧ c = 0
  · obtain ⟨h1, h2, rfl⟩ := h
    obtain ⟨a, rfl⟩ : ∃ a, i = n0 + a := ⟨i - n0, by omega⟩
    have ha : a < n1 := by omega
    have hc : n0 ≤ n0 + a ∧ n0 + a < n0 + n1 ∧ 0 ≤ 0 ∧ 0 < 0 + 1 := ⟨h1, h2, le_refl _, by omega⟩
    simp only [Nat.add_sub_cancel_left, Nat.sub_zero, Nat.zero_add, Nat.add_zero]
    rw [if_pos hc, if_pos hc, if_pos ⟨h1, h2, trivial⟩,
      ← Finset.sum_Ico_consecutive _ (Nat.le_add_right n0 n1) (Nat.le_add_right (n0 + n1) n2),
      Finset.sum_Ico_eq_sum_range, Finset.sum_Ico_eq_sum_range]
    simp only [Nat.add_sub_cancel_left]
    have e1 : ∀ x, (if n0 + a ≤ n0 + x then A.entry (n0 + a) (n0 + x) * xMR.entry (n0 + x) 0
        else 0) = (if a ≤ x then A.entry (n0 + a) (n0 + x) else 0) * xMR.entry (n0 + x) 0 := by
      intro x
      by_cases hx : a ≤ x
      · rw [if_pos hx, if_pos (by omega)]
      · rw [if_neg hx, if_neg (by omega), zero_mul]
    have e2 : ∀ x, (if n0 + a ≤ n0 + n1 + x
        then A.entry (n0 + a) (n0 + n1 + x) * xMR.entry (n0 + n1 + x) 0 else 0)
        = A.entry (n0 + a) (n0 + n1 + x) * xMR.entry (n0 + n1 + x) 0 := by
      intro x
      rw [if_pos (by omega)]
    simp only [e1, e2]
    ring
  · rw [if_neg h, if_neg (by omega), if_neg (by omega)]

/-- The vector `z_MR_STAR` after one pass. -/
theorem LocalSymvColAccumulateUStep_MR (conjugate : Bool) (alpha : F)
    (A xMC xMR : Mat F) (n0 n1 n2 : Nat) (zMC zMR : Mat F) (j c : Nat) :
    (LocalSymvColAccumulateUStep
        (if conjugate then Orientation.ADJOINT else Orientation.TRANSPOSE) alpha A xMC xMR
        n0 n1 n2 zMC zMR).2.entry j c
      = if n0 ≤ j ∧ j < n0 + n1 + n2 ∧ c = 0 then
          zMR.entry j 0 + alpha * ∑ i in Finset.Ico n0 (n0 + n1),
            (if i < j then conjIf conjugate (A.entry i j) * xMC.entry i 0 else 0)
        else zMR.entry j c := by
  unfold LocalSymvColAccumulateUStep
  simp only [Mat.setBlock, LocalGemv, orient_entry, orient_width]
  simp only [Mat.view, MakeTriangularUpper, SetDiagonal]
  by_cases hc0 : c = 0
  · subst hc0
    simp only [Nat.sub_zero, Nat.zero_add, Nat.add_zero, le_refl, Nat.lt_one_iff, and_true,
      true_and, min_self]
    rw [Finset.sum_Ico_eq_sum_range]
    simp only [Nat.add_sub_cancel_left]
    by_cases h2 : n0 + n1 ≤ j ∧ j < n0 + n1 + n2
    · obtain ⟨b, rfl⟩ : ∃ b, j = n0 + n1 + b := ⟨j - (n0 + n1), by omega⟩
      rw [if_pos h2, if_neg (by omega), if_pos ⟨by omega, h2.2⟩]
      simp only [Nat.add_sub_cancel_left]
      have e : ∀ x, x ∈ Finset.range n1 →
          conjIf conjugate (A.entry (n0 + x) (n0 + n1 + b)) * xMC.entry (n0 + x) 0
          = (if n0 + x < n0 + n1 + b
              then conjIf conjugate (A.entry (n0 + x) (n0 + n1 + b)) * xMC.entry (n0 + x) 0
              else 0) := by
        intro x hx
        have := Finset.mem_range.mp hx
        rw [if_pos (by omega)]
      rw [Finset.sum_congr rfl e]
      ring
    · rw [if_neg h2]
      by_cases h1 : n0 ≤ j ∧ j < n0 + n1
      · obtain ⟨a, rfl⟩ : ∃ a, j = n0 + a := ⟨j - n0, by omega⟩
        rw [if_pos h1, if_pos ⟨h1.1, by omega⟩]
        simp only [Nat.add_sub_cancel_left]
        have e : ∀ x, x ∈ Finset.range n1 →
            conjIf conjugate (if x = a ∧ x < n1 then 0
              else if x ≤ a then A.entry (n0 + x) (n0 + a) else 0) * xMC.entry (n0 + x) 0
            = (if n0 + x < n0 + a
                then conjIf conjugate (A.entry (n0 + x) (n0 + a)) * xMC.entry (n0 + x) 0
                else 0) := by
          intro x hx
          have := Finset.mem_range.mp hx
          rcases lt_trichotomy x a with hxa | hxa | hxa
          · have h3 : ¬(x = a ∧ x < n1) := by omega
            have h4 : n0 + x < n0 + a := by omega
            rw [if_neg h3, if_pos hxa.le, if_pos h4]
          · have h3 : x = a ∧ x < n1 := ⟨hxa, this⟩
            have h4 : ¬(n0 + x < n0 + a) := by omega
            rw [if_pos h3, if_neg h4, conjIf_zero, zero_mul]
          · have h3 : ¬(x = a ∧ x < n1) := by omega
            have h4 : ¬(n0 + x < n0 + a) := by omega
            have h5 : ¬(x ≤ a) := by omega
            rw [if_neg h3, if_neg h5, if_neg h4, conjIf_zero, zero_mul]
        rw [Finset.sum_congr rfl e]
        ring
      · rw [if_neg h1, if_neg (by omega)]
  · rw [if_neg (by omega), if_neg (by omega), if_neg (by omega)]

theorem LocalSymvColAccumulateUStep_dims (o : Orientation) (alpha : F)
    (A xMC xMR : Mat F) (n0 n1 n2 : Nat) (zMC zMR : Mat F) :
    (LocalSymvColAccumulateUStep o alpha A xMC xMR n0 n1 n2 zMC zMR).1.height = zMC.height ∧
    (LocalSymvColAccumulateUStep o alpha A xMC xMR n0 n1 n2 zMC zMR).1.width = zMC.width ∧
    (LocalSymvColAccumulateUStep o alpha A xMC xMR n0 n1 n2 zMC zMR).2.height = zMR.height ∧
    (LocalSymvColAccumulateUStep o alpha A xMC xMR n0 n1 n2 zMC zMR).2.width = zMR.width :=
  ⟨rfl, rfl, rfl, rfl⟩

/-- The loop of `LocalSymvColAccumulateU` from the row `n0` on: with a blocksize of
at least 1 and enough fuel it returns, having added to the rows `n0 <= i < n` of
`z_MC_STAR` the products with the upper triangle and to those of `z_MR_STAR` the
products with the transposed (adjoint) strictly upper triangle, restricted to the
rows and columns from `n0` on. -/
theorem LocalSymvColAccumulateULoop_spec (conjugate : Bool) (alpha : F)
    (A xMC xMR : Mat F) (n bsize : Nat) (hb : 1 ≤ bsize) :
    ∀ (fuel n0 : Nat) (zMC zMR : Mat F), n0 ≤ n → n - n0 ≤ fuel →
      ∃ z, LocalSymvColAccumulateULoop
          (if conjugate then Orientation.ADJOINT else Orientation.TRANSPOSE) alpha A xMC xMR
          n bsize fuel n0 zMC zMR = some z ∧
        (∀ i c, z.1.entry i c
          = if n0 ≤ i ∧ i < n ∧ c = 0 then
              zMC.entry i 0 + alpha * ∑ j in Finset.Ico n0 n,
                (if i ≤ j then A.entry i j * xMR.entry j 0 else 0)
            else zMC.entry i c) ∧
        (∀ j c, z.2.entry j c
          = if n0 ≤ j ∧ j < n ∧ c = 0 then
              zMR.entry j 0 + alpha * ∑ i in Finset.Ico n0 n,
                (if i < j then conjIf conjugate (A.entry i j) * xMC.entry i 0 else 0)
            else zMR.entry j c) ∧
        z.1.height = zMC.height ∧ z.1.width = zMC.width ∧
        z.2.height = zMR.height ∧ z.2.width = zMR.width := by
  intro fuel
  induction fuel with
  | zero =>
    intro n0 zMC zMR h1 h2
    have : n0 = n := by omega
    subst this
    refine ⟨(zMC, zMR), ?_, ?_, ?_, rfl, rfl, rfl, rfl⟩
    · simp [LocalSymvColAccumulateULoop]
    · intro i c; rw [if_neg (by omega)]
    · intro j c; rw [if_neg (by omega)]
  | succ fuel ih =>
    intro n0 zMC zMR h1 h2
    by_cases hn : n0 < n
    · have hn1 : 1 ≤ min bsize (n - n0) := by
        rw [Nat.le_min]; exact ⟨hb, by omega⟩
      have hn1' : min bsize (n - n0) ≤ n - n0 := Nat.min_le_right _ _
      generalize hg : min bsize (n - n0) = n1 at hn1 hn1'
      have hsum : n0 + n1 + (n - (n0 + n1)) = n := by omega
      obtain ⟨z, hz, hz1, hz2, hd⟩ := ih (n0 + n1)
        (LocalSymvColAccumulateUStep
          (if conjugate then Orientation.ADJOINT else Orientation.TRANSPOSE) alpha A xMC xMR
          n0 n1 (n - (n0 + n1)) zMC zMR).1
        (LocalSymvColAccumulateUStep
          (if conjugate then Orientation.ADJOINT else Orientation.TRANSPOSE) alpha A xMC xMR
          n0 n1 (n - (n0 + n1)) zMC zMR).2 (by omega) (by omega)
      refine ⟨z, ?_, ?_, ?_, hd⟩
      · rw [LocalSymvColAccumulateULoop, if_pos hn]
        simp only [hg]
        exact hz
      · intro i c
        rw [hz1 i c, LocalSymvColAccumulateUStep_MC, LocalSymvColAccumulateUStep_MC, hsum]
        by_cases hc : c = 0
        · subst hc
          by_cases hi : n0 + n1 ≤ i ∧ i < n
          · rw [if_pos ⟨hi.1, hi.2, rfl⟩, if_neg (by omega), if_pos ⟨by omega, hi.2, rfl⟩,
              ← Finset.sum_Ico_consecutive _ (Nat.le_add_right n0 n1) (by omega : n0 + n1 ≤ n)]
            have e : (∑ j in Finset.Ico n0 (n0 + n1),
                (if i ≤ j then A.entry i j * xMR.entry j 0 else 0)) = 0 := by
              refine Finset.sum_eq_zero (fun j hj => ?_)
              have := Finset.mem_Ico.mp hj
              rw [if_neg (by omega)]
            rw [e, zero_add]
          · rw [if_neg (by omega)]
            by_cases hi2 : n0 ≤ i ∧ i < n0 + n1
            · rw [if_pos ⟨hi2.1, hi2.2, rfl⟩, if_pos ⟨hi2.1, by omega, rfl⟩]
            · rw [if_neg (by omega), if_neg (by omega)]
        · rw [if_neg (by omega), if_neg (by omega), if_neg (by omega)]
      · intro j c
        rw [hz2 j c, LocalSymvColAccumulateUStep_MR, LocalSymvColAccumulateUStep_MR, hsum]
        by_cases hc : c = 0
        · subst hc
          by_cases hj : n0 ≤ j ∧ j < n
          · have hA : n0 ≤ j ∧ j < n ∧ 0 = 0 := ⟨hj.1, hj.2, rfl⟩
            rw [if_pos hA, if_pos hA,
              ← Finset.sum_Ico_consecutive _ (Nat.le_add_right n0 n1) (by omega : n0 + n1 ≤ n)]
            by_cases hj2 : n0 + n1 ≤ j
            · have hB : n0 + n1 ≤ j ∧ j < n ∧ 0 = 0 := ⟨hj2, hj.2, rfl⟩
              rw [if_pos hB]
              ring
            · have hB : ¬(n0 + n1 ≤ j ∧ j < n ∧ 0 = 0) := by omega
              rw [if_neg hB]
              have e : (∑ i in Finset.Ico (n0 + n1) n,
                  (if i < j then conjIf conjugate (A.entry i j) * xMC.entry i 0 else 0)) = 0 := by
                refine Finset.sum_eq_zero (fun i hi => ?_)
                have := Finset.mem_Ico.mp hi
                rw [if_neg (by omega)]
              rw [e, add_zero]
          · have hA : ¬(n0 ≤ j ∧ j < n ∧ 0 = 0) := by omega
            have hB : ¬(n0 + n1 ≤ j ∧ j < n ∧ 0 = 0) := by omega
            rw [if_neg hA, if_neg hB, if_neg hA]
        · have hA : ¬(n0 ≤ j ∧ j < n ∧ c = 0) := by omega
          have hB : ¬(n0 + n1 ≤ j ∧ j < n ∧ c = 0) := by omega
          rw [if_neg hA, if_neg hB, if_neg hA]
    · have : n0 = n := by omega
      subst this
      refine ⟨(zMC, zMR), ?_, ?_, ?_, rfl, rfl, rfl, rfl⟩
      · rw [LocalSymvColAccumulateULoop, if_neg hn]
      · intro i c; rw [if_neg (by omega)]
      · intro j c; rw [if_neg (by omega)]

/-- With the blocksize 0 the loop never advances: it returns for no amount of
fuel. -/
theorem LocalSymvColAccumulateULoop_zero (o : Orientation) (alpha : F) (A xMC xMR : Mat F)
    (n n0 : Nat) (hn : n0 < n) :
    ∀ (fuel : Nat) (zMC zMR : Mat F),
      LocalSymvColAccumulateULoop o alpha A xMC xMR n 0 fuel n0 zMC zMR = none := by
  intro fuel
  induction fuel with
  | zero => intro zMC zMR; rw [LocalSymvColAccumulateULoop, if_pos hn]
  | succ fuel ih =>
    intro zMC zMR
    rw [LocalSymvColAccumulateULoop, if_pos hn]
    simp only [Nat.zero_min, Nat.add_zero]
    exact ih _ _

/-- What `LocalSymvColAccumulateU` returns when its checks pass, the blocksize
`max(r,c) * LocalSymvBlocksize` is at least 1 and the fuel suffices. -/
theorem LocalSymvColAccumulateU_spec (debug : Bool) (r c b : Nat) (stack : List Nat)
    (fuel : Nat) (alpha : F) (A xMC xMR zMC zMR : Mat F) (conjugate : Bool) (n : Nat)
    (hb : 1 ≤ max r c * b) (hA : A.height = n ∧ A.width = n)
    (hxC : xMC.height = n ∧ xMC.width = 1) (hxR : xMR.height = n ∧ xMR.width = 1)
    (hzC : zMC.height = n ∧ zMC.width = 1) (hzR : zMR.height = n ∧ zMR.width = 1)
    (hf : n ≤ fuel) :
    ∃ z : Mat F × Mat F,
      LocalSymvColAccumulateU debug r c b stack fuel alpha A xMC xMR zMC zMR conjugate
        = some (.ok (z.1, z.2, stack)) ∧
      (∀ i k, z.1.entry i k
        = if i < n ∧ k = 0 then
            zMC.entry i 0 + alpha * ∑ j in Finset.range n,
              (if i ≤ j then A.entry i j * xMR.entry j 0 else 0)
          else zMC.entry i k) ∧
      (∀ j k, z.2.entry j k
        = if j < n ∧ k = 0 then
            zMR.entry j 0 + alpha * ∑ i in Finset.range n,
              (if i < j then conjIf conjugate (A.entry i j) * xMC.entry i 0 else 0)
          else zMR.entry j k) ∧
      z.1.height = zMC.height ∧ z.1.width = zMC.width ∧
      z.2.height = zMR.height ∧ z.2.width = zMR.width := by
  obtain ⟨z, hz, hz1, hz2, hd⟩ := LocalSymvColAccumulateULoop_spec conjugate alpha A xMC xMR n
    (max r c * b) hb fuel 0 zMC zMR (Nat.zero_le _) (by omega)
  refine ⟨z, ?_, ?_, ?_, hd⟩
  · unfold LocalSymvColAccumulateU
    rw [if_neg (by simp [hxC.2, hxR.2, hzC.2, hzR.2]),
      if_neg (by simp [hA.1, hA.2, hxC.1, hxR.1, hzC.1, hzR.1])]
    simp only [PushBlocksizeStack, Blocksize, PopBlocksizeStack, List.head?_cons,
      Option.getD_some, List.tail_cons, hxR.1]
    rw [hz]
  · intro i k
    rw [hz1 i k, Finset.range_eq_Ico]
    simp only [Nat.zero_le, true_and]
  · intro j k
    rw [hz2 j k, Finset.range_eq_Ico]
    simp only [Nat.zero_le, true_and]

theorem Mat.ext_entry {A B : Mat F} (hh : A.height = B.height) (hw : A.width = B.width)
    (he : ∀ i j, A.entry i j = B.entry i j) : A = B := by
  obtain ⟨h1, w1, e1⟩ := A
  obtain ⟨h2, w2, e2⟩ := B
  simp only at hh hw he
  subst hh hw
  have : e1 = e2 := funext (fun i => funext (fun j => he i j))
  subst this
  rfl

/-- C29, for a blocksize of at least 1: on a single process, for a square `n x n`
matrix `A`, column vectors of height `n`, a blocksize
`max(r,c) * LocalSymvBlocksize >= 1` and enough fuel, `LocalSymvColAccumulateU`
returns without error, leaves the blocksize stack as it found it, adds `alpha U x`
to `z[MC,*]` (with the entries of `x[MR,*]`) and `alpha op(U0) x` to `z[MR,*]` (with
the entries of `x[MC,*]`), `U` being the upper triangle of `A` with its diagonal,
`U0` the strictly upper triangle and `op` the transpose, or the adjoint when
`conjugate` is set; when `x[MC,*]` and `x[MR,*]` hold the same vector the sum
`z[MC,*] + z[MR,*]` grows by `alpha S x`, `S` having the upper triangle of `A` and
below it the transposed (conjugated) entries; and a matrix that agrees with `A` on
and above the diagonal gives the same result. -/
theorem LocalSymvColAccumulateU_correct (debug : Bool) (r c b : Nat) (stack : List Nat)
    (fuel : Nat) (alpha : F) (A xMC xMR zMC zMR : Mat F) (conjugate : Bool) (n : Nat)
    (hb : 1 ≤ max r c * b) (hA : A.height = n ∧ A.width = n)
    (hxC : xMC.height = n ∧ xMC.width = 1) (hxR : xMR.height = n ∧ xMR.width = 1)
    (hzC : zMC.height = n ∧ zMC.width = 1) (hzR : zMR.height = n ∧ zMR.width = 1)
    (hf : n ≤ fuel) :
    ∃ z : Mat F × Mat F,
      LocalSymvColAccumulateU debug r c b stack fuel alpha A xMC xMR zMC zMR conjugate
        = some (.ok (z.1, z.2, stack)) ∧
      (∀ i, i < n → z.1.entry i 0 = zMC.entry i 0 + alpha * ∑ j in Finset.range n,
          (if i ≤ j then A.entry i j * xMR.entry j 0 else 0)) ∧
      (∀ j, j < n → z.2.entry j 0 = zMR.entry j 0 + alpha * ∑ i in Finset.range n,
          (if i < j then conjIf conjugate (A.entry i j) * xMC.entry i 0 else 0)) ∧
      ((∀ i, i < n → xMC.entry i 0 = xMR.entry i 0) →
        ∀ i, i < n → z.1.entry i 0 + z.2.entry i 0
          = zMC.entry i 0 + zMR.entry i 0 + alpha * ∑ j in Finset.range n,
              (if i ≤ j then A.entry i j else conjIf conjugate (A.entry j i))
                * xMR.entry j 0) ∧
      (∀ A1 : Mat F, A1.height = n → A1.width = n →
        (∀ i j, i ≤ j → A1.entry i j = A.entry i j) →
        LocalSymvColAccumulateU debug r c b stack fuel alpha A1 xMC xMR zMC zMR conjugate
          = some (.ok (z.1, z.2, stack))) := by
  obtain ⟨z, hz, hz1, hz2, hd⟩ := LocalSymvColAccumulateU_spec debug r c b stack fuel alpha A
    xMC xMR zMC zMR conjugate n hb hA hxC hxR hzC hzR hf
  have h1 : ∀ i, i < n → z.1.entry i 0 = zMC.entry i 0 + alpha * ∑ j in Finset.range n,
      (if i ≤ j then A.entry i j * xMR.entry j 0 else 0) := by
    intro i hi
    rw [hz1 i 0, if_pos ⟨hi, rfl⟩]
  have h2 : ∀ j, j < n → z.2.entry j 0 = zMR.entry j 0 + alpha * ∑ i in Finset.range n,
      (if i < j then conjIf conjugate (A.entry i j) * xMC.entry i 0 else 0) := by
    intro j hj
    rw [hz2 j 0, if_pos ⟨hj, rfl⟩]
  refine ⟨z, hz, h1, h2, ?_, ?_⟩
  · intro hx i hi
    rw [h1 i hi, h2 i hi]
    have e : (∑ j in Finset.range n,
          (if i ≤ j then A.entry i j else conjIf conjugate (A.entry j i)) * xMR.entry j 0)
        = (∑ j in Finset.range n, (if i ≤ j then A.entry i j * xMR.entry j 0 else 0))
          + ∑ j in Finset.range n,
              (if j < i then conjIf conjugate (A.entry j i) * xMC.entry j 0 else 0) := by
      rw [← Finset.sum_add_distrib]
      refine Finset.sum_congr rfl (fun j hj => ?_)
      have hj1 := Finset.mem_range.mp hj
      by_cases hij : i ≤ j
      · rw [if_pos hij, if_pos hij, if_neg (by omega), add_zero]
      · rw [if_neg hij, if_neg hij, if_pos (by omega), zero_add, hx j hj1]
    rw [e]
    ring
  · intro A1 hA1 hA1w hagree
    obtain ⟨z1, hz1a, hz1b, hz1c, hd1⟩ := LocalSymvColAccumulateU_spec debug r c b stack fuel
      alpha A1 xMC xMR zMC zMR conjugate n hb ⟨hA1, hA1w⟩ hxC hxR hzC hzR hf
    have e1 : z1.1 = z.1 := by
      apply Mat.ext_entry (by rw [hd1.1, hd.1]) (by rw [hd1.2.1, hd.2.1])
      intro i k
      rw [hz1b i k, hz1 i k]
      by_cases h : i < n ∧ k = 0
      · rw [if_pos h, if_pos h]
        congr 2
        refine Finset.sum_congr rfl (fun j _ => ?_)
        by_cases hij : i ≤ j
        · rw [if_pos hij, if_pos hij, hagree i j hij]
        · rw [if_neg hij, if_neg hij]
      · rw [if_neg h, if_neg h]
    have e2 : z1.2 = z.2 := by
      apply Mat.ext_entry (by rw [hd1.2.2.1, hd.2.2.1]) (by rw [hd1.2.2.2, hd.2.2.2])
      intro j k
      rw [hz1c j k, hz2 j k]
      by_cases h : j < n ∧ k = 0
      · rw [if_pos h, if_pos h]
        congr 2
        refine Finset.sum_congr rfl (fun i _ => ?_)
        by_cases hij : i < j
        · rw [if_pos hij, if_pos hij, hagree i j hij.le]
        · rw [if_neg hij, if_neg hij]
      · rw [if_neg h, if_neg h]
    rw [hz1a, e1, e2]

end SymvProofs
/-- C29 fails for the blocksize 0: on the `2 x 2` example the loop never advances, and
`LocalSymvColAccumulateU` returns for no amount of fuel. -/
theorem LocalSymvColAccumulateU_zero_blocksize :
    symvA.height = 2 ∧ symvA.width = 2 ∧
    ∀ fuel, LocalSymvColAccumulateU true 1 1 0 [] fuel (1 : ℚ) symvA symvX symvX
      (Mat.zeros 2 1) (Mat.zeros 2 1) false = none := by
  refine ⟨rfl, rfl, fun fuel => ?_⟩
  unfold LocalSymvColAccumulateU
  rw [if_neg (by decide), if_neg (by decide)]
  simp only [PushBlocksizeStack, Blocksize, List.head?_cons, Option.getD_some, Nat.mul_zero]
  rw [LocalSymvColAccumulateULoop_zero _ _ _ _ _ _ 0 (by decide)]

/-- Witness for the amended C29 on the rational `2 x 2` example with `x = (1, 1)`,
zero `z` and the blocksize 1. -/
theorem LocalSymvColAccumulateU_correct_witness :
    (1 ≤ max 1 1 * 1) ∧ (symvA.height = 2 ∧ symvA.width = 2) ∧
    (symvX.height = 2 ∧ symvX.width = 1) ∧
    ((Mat.zeros 2 1 : Mat ℚ).height = 2 ∧ (Mat.zeros 2 1 : Mat ℚ).width = 1) ∧ 2 ≤ 2 ∧
    ∃ z : Mat ℚ × Mat ℚ,
      LocalSymvColAccumulateU true 1 1 1 [] 2 (1 : ℚ) symvA symvX symvX
        (Mat.zeros 2 1) (Mat.zeros 2 1) false = some (.ok (z.1, z.2, [])) ∧
      (∀ i, i < 2 → z.1.entry i 0 = (Mat.zeros 2 1 : Mat ℚ).entry i 0
        + 1 * ∑ j in Finset.range 2,
          (if i ≤ j then symvA.entry i j * symvX.entry j 0 else 0)) ∧
      (∀ j, j < 2 → z.2.entry j 0 = (Mat.zeros 2 1 : Mat ℚ).entry j 0
        + 1 * ∑ i in Finset.range 2,
          (if i < j then conjIf false (symvA.entry i j) * symvX.entry i 0 else 0)) :=
  ⟨by decide, ⟨rfl, rfl⟩, ⟨rfl, rfl⟩, ⟨rfl, rfl⟩, le_refl 2,
    (LocalSymvColAccumulateU_correct true 1 1 1 [] 2 (1 : ℚ) symvA symvX symvX (Mat.zeros 2 1)
      (Mat.zeros 2 1) false 2 (by decide) ⟨rfl, rfl⟩ ⟨rfl, rfl⟩ ⟨rfl, rfl⟩ ⟨rfl, rfl⟩ ⟨rfl, rfl⟩
      (le_refl 2)).imp (fun _ h => ⟨h.1, h.2.1, h.2.2.1⟩)⟩

/-- The example evaluated: `U x = (3, 3)` and `U0' x = (0, 2)`, so that the sum is
`S x = (3, 5)` for the symmetric `S` with the rows `1, 2` and `2, 3`; the junk entry
99 below the diagonal plays no part. -/
theorem LocalSymvColAccumulateU_example :
    ∃ z : Mat ℚ × Mat ℚ,
      LocalSymvColAccumulateU true 1 1 1 [] 2 (1 : ℚ) symvA symvX symvX
        (Mat.zeros 2 1) (Mat.zeros 2 1) false = some (.ok (z.1, z.2, [])) ∧
      z.1.entry 0 0 = 3 ∧ z.1.entry 1 0 = 3 ∧ z.2.entry 0 0 = 0 ∧ z.2.entry 1 0 = 2 := by
  obtain ⟨z, hz, h1, h2, _⟩ := LocalSymvColAccumulateU_spec true 1 1 1 [] 2 (1 : ℚ) symvA symvX
    symvX (Mat.zeros 2 1) (Mat.zeros 2 1) false 2 (by decide) ⟨rfl, rfl⟩ ⟨rfl, rfl⟩ ⟨rfl, rfl⟩
    ⟨rfl, rfl⟩ ⟨rfl, rfl⟩ (le_refl 2)
  refine ⟨z, hz, ?_, ?_, ?_, ?_⟩
  · rw [h1 0 0]; simp [Finset.sum_range_succ, symvA, symvX, Mat.zeros]; norm_num
  · rw [h1 1 0]; simp [Finset.sum_range_succ, symvA, symvX, Mat.zeros]
  · rw [h2 0 0]; simp [Finset.sum_range_succ, symvA, symvX, Mat.zeros, conjIf]
  · rw [h2 1 0]; simp [Finset.sum_range_succ, symvA, symvX, Mat.zeros, conjIf]

end internal
end Elemental

namespace Elemental

theorem diagonalOwner_eq (g : Grid) (k : Nat) :
    diagonalOwner g k = (k % g.height, k % g.width) := by
  simp [diagonalOwner, Layout.owner, Dist.ownerCoords]

/-- On a grid whose dimensions are not coprime the diagonal never reaches the
process `(1, 0)`. -/
theorem diagonalOwner_misses (g : Grid) (hr : 0 < g.height)
    (hd : Nat.gcd g.height g.width ≠ 1) (k : Nat) : diagonalOwner g k ≠ (1, 0) := by
  rw [diagonalOwner_eq]
  intro h
  have h1 : k % g.height = 1 := congrArg Prod.fst h
  have h2 : k % g.width = 0 := congrArg Prod.snd h
  have hd0 : Nat.gcd g.height g.width ≠ 0 := by
    intro h0
    have := Nat.eq_zero_of_gcd_eq_zero_left h0
    omega
  have hd2 : 2 ≤ Nat.gcd g.height g.width := by omega
  have e1 : k % Nat.gcd g.height g.width = 1 := by
    rw [← Nat.mod_mod_of_dvd k (Nat.gcd_dvd_left g.height g.width), h1]
    exact Nat.mod_eq_of_lt hd2
  have e2 : k % Nat.gcd g.height g.width = 0 := by
    rw [← Nat.mod_mod_of_dvd k (Nat.gcd_dvd_right g.height g.width), h2]
    exact Nat.zero_mod _
  omega

/-- On a grid with coprime dimensions every process owns exactly one of the first
`r * c` diagonal entries. -/
theorem diagonalOwner_unique (g : Grid) (hr : 0 < g.height) (hc : 0 < g.width)
    (hco : Nat.gcd g.height g.width = 1) (p q : Nat) (hp : p < g.height) (hq : q < g.width) :
    ∃! k, k < g.height * g.width ∧ diagonalOwner g k = (p, q) := by
  have co : Nat.Coprime g.height g.width := hco
  have hlt : (Nat.chineseRemainder co p q : Nat) < g.height * g.width :=
    Nat.chineseRemainder_lt_mul co p q (by omega) (by omega)
  have hk1 : (Nat.chineseRemainder co p q : Nat) ≡ p [MOD g.height] :=
    (Nat.chineseRemainder co p q).2.1
  have hk2 : (Nat.chineseRemainder co p q : Nat) ≡ q [MOD g.width] :=
    (Nat.chineseRemainder co p q).2.2
  generalize (Nat.chineseRemainder co p q : Nat) = k at hlt hk1 hk2
  refine ⟨k, ⟨hlt, ?_⟩, ?_⟩
  · rw [diagonalOwner_eq]
    have e1 : k % g.height = p := by
      have := hk1
      unfold Nat.ModEq at this
      rw [this, Nat.mod_eq_of_lt hp]
    have e2 : k % g.width = q := by
      have := hk2
      unfold Nat.ModEq at this
      rw [this, Nat.mod_eq_of_lt hq]
    rw [e1, e2]
  · rintro k1 ⟨hk1lt, hk1o⟩
    rw [diagonalOwner_eq] at hk1o
    have e1 : k1 % g.height = p := congrArg Prod.fst hk1o
    have e2 : k1 % g.width = q := congrArg Prod.snd hk1o
    have m1 : k1 ≡ k [MOD g.height] := by
      unfold Nat.ModEq
      rw [e1]
      have := hk1
      unfold Nat.ModEq at this
      rw [this, Nat.mod_eq_of_lt hp]
    have m2 : k1 ≡ k [MOD g.width] := by
      unfold Nat.ModEq
      rw [e2]
      have := hk2
      unfold Nat.ModEq at this
      rw [this, Nat.mod_eq_of_lt hq]
    have m3 : k1 ≡ k [MOD g.height * g.width] :=
      (Nat.modEq_and_modEq_iff_modEq_mul co).mp ⟨m1, m2⟩
    exact Nat.ModEq.eq_of_lt_of_lt m3 hk1lt hlt

/-- C21: with the diagonal entry `(k, k)` owned by the process `(k mod r, k mod c)`
of an `r x c` grid, the diagonal reaches every process if and only if `r` and `c`
are coprime, and then each process owns exactly one of the first `r * c` diagonal
entries. -/
theorem diagonal_covers_grid_iff_coprime (g : Grid) (hr : 0 < g.height) (hc : 0 < g.width) :
    (∀ k, diagonalOwner g k = (k % g.height, k % g.width)) ∧
    ((∀ p q, p < g.height → q < g.width → ∃ k, diagonalOwner g k = (p, q))
      ↔ Nat.gcd g.height g.width = 1) ∧
    (Nat.gcd g.height g.width = 1 → ∀ p q, p < g.height → q < g.width →
      ∃! k, k < g.height * g.width ∧ diagonalOwner g k = (p, q)) := by
  refine ⟨diagonalOwner_eq g, ⟨?_, ?_⟩, fun hco p q hp hq =>
    diagonalOwner_unique g hr hc hco p q hp hq⟩
  · intro h
    by_contra hd
    have hd0 : Nat.gcd g.height g.width ≠ 0 := by
      intro h0
      have := Nat.eq_zero_of_gcd_eq_zero_left h0
      omega
    have h2 : 2 ≤ g.height :=
      le_trans (by omega) (Nat.le_of_dvd hr (Nat.gcd_dvd_left g.height g.width))
    obtain ⟨k, hk⟩ := h 1 0 (by omega) hc
    exact diagonalOwner_misses g hr hd k hk
  · intro hco p q hp hq
    obtain ⟨k, ⟨_, hk⟩, _⟩ := diagonalOwner_unique g hr hc hco p q hp hq
    exact ⟨k, hk⟩

/-- Witness for C21 on the `2 x 3` grid. -/
theorem diagonal_covers_grid_iff_coprime_witness :
    0 < exampleGrid.height ∧ 0 < exampleGrid.width ∧
    ((∀ p q, p < exampleGrid.height → q < exampleGrid.width →
        ∃ k, diagonalOwner exampleGrid k = (p, q))
      ↔ Nat.gcd exampleGrid.height exampleGrid.width = 1) :=
  ⟨by decide, by decide,
    (diagonal_covers_grid_iff_coprime exampleGrid (by decide) (by decide)).2.1⟩

/-- On the `2 x 3` grid the six first diagonal entries visit the six processes; on
the `2 x 2` grid the diagonal stays on the processes `(0, 0)` and `(1, 1)`. -/
theorem diagonalOwner_example :
    (List.range 6).map (diagonalOwner exampleGrid)
      = [(0, 0), (1, 1), (0, 2), (1, 0), (0, 1), (1, 2)] ∧
    (List.range 4).map (diagonalOwner ⟨2, 2⟩) = [(0, 0), (1, 1), (0, 0), (1, 1)] := by
  decide

end Elemental

namespace Elemental

theorem mod_shift (s i a : Nat) (hs : 0 < s) :
    ((i + a) % s + (s - a % s)) % s = i % s := by
  have ha : a % s < s := Nat.mod_lt a hs
  have hi : i % s < s := Nat.mod_lt i hs
  rw [Nat.add_mod i a s]
  generalize a % s = b at ha
  generalize i % s = u at hi
  by_cases h : u + b < s
  · rw [Nat.mod_eq_of_lt h]
    have : u + b + (s - b) = u + s := by omega
    rw [this, Nat.add_mod_right, Nat.mod_eq_of_lt hi]
  · have h1 : (u + b) % s = u + b - s := by
      rw [Nat.mod_eq_sub_mod (by omega), Nat.mod_eq_of_lt (by omega)]
    rw [h1]
    have : u + b - s + (s - b) = u := by omega
    rw [this, Nat.mod_eq_of_lt hi]

theorem eq_of_mod_eq_of_lt_lcm (r c k k1 : Nat) (hk : k < Nat.lcm r c) (hk1 : k1 < Nat.lcm r c)
    (h1 : k1 % r = k % r) (h2 : k1 % c = k % c) : k1 = k := by
  rcases Nat.le_total k1 k with h | h
  · have d1 : r ∣ k - k1 := (Nat.modEq_iff_dvd' h).mp h1
    have d2 : c ∣ k - k1 := (Nat.modEq_iff_dvd' h).mp h2
    have d3 := Nat.lcm_dvd d1 d2
    have := Nat.eq_zero_of_dvd_of_lt d3 (by omega)
    omega
  · have d1 : r ∣ k1 - k := (Nat.modEq_iff_dvd' h).mp h1.symm
    have d2 : c ∣ k1 - k := (Nat.modEq_iff_dvd' h).mp h2.symm
    have d3 := Nat.lcm_dvd d1 d2
    have := Nat.eq_zero_of_dvd_of_lt d3 (by omega)
    omega

/-- The position on the diagonal path of the process `(k mod r, k mod c)` is `k`. -/
theorem Dist.rank_MD (g : Grid) (k : Nat) (hk : k < Nat.lcm g.height g.width) :
    Dist.rank g (k % g.height) (k % g.width) .MD = some k := by
  unfold Dist.rank
  cases hf : (List.range (Nat.lcm g.height g.width)).find?
      (fun k1 => decide (k1 % g.height = k % g.height ∧ k1 % g.width = k % g.width)) with
  | none =>
    rw [List.find?_eq_none] at hf
    have := hf k (List.mem_range.mpr hk)
    simp at this
  | some k1 =>
    have hp := List.find?_some hf
    have hm := List.mem_range.mp (List.mem_of_find?_eq_some hf)
    simp only [decide_eq_true_eq] at hp
    rw [eq_of_mod_eq_of_lt_lcm g.height g.width k k1 hk hm hp.1 hp.2]

/-- A process whose coordinates are those that a distribution fixes for the owner of
the index `i` owns the index `i`. -/
theorem Dist.shift_owner (g : Grid) (hr : 0 < g.height) (hc : 0 < g.width) (d : Dist)
    (align i p q : Nat)
    (h1 : ∀ a, (Dist.ownerCoords g d align i).1 = some a → p = a)
    (h2 : ∀ b, (Dist.ownerCoords g d align i).2 = some b → q = b) :
    Dist.shift g d align p q = some (i % Dist.stride g d) := by
  have hrc : 0 < g.height * g.width := Nat.mul_pos hr hc
  have hl : 0 < Nat.lcm g.height g.width := Nat.lcm_pos hr hc
  cases d with
  | MC =>
    have := h1 _ rfl
    subst this
    simp only [Dist.shift, Dist.rank, Dist.stride, Option.map_some']
    rw [mod_shift _ _ _ hr]
  | MR =>
    have := h2 _ rfl
    subst this
    simp only [Dist.shift, Dist.rank, Dist.stride, Option.map_some']
    rw [mod_shift _ _ _ hc]
  | VC =>
    have e1 := h1 _ rfl
    have e2 := h2 _ rfl
    subst e1 e2
    simp only [Dist.shift, Dist.rank, Dist.stride, Option.map_some']
    rw [Nat.mod_add_div', mod_shift _ _ _ hrc]
  | VR =>
    have e1 := h1 _ rfl
    have e2 := h2 _ rfl
    subst e1 e2
    simp only [Dist.shift, Dist.rank, Dist.stride, Option.map_some']
    rw [Nat.mod_add_div', mod_shift _ _ _ hrc]
  | MD =>
    have e1 := h1 _ rfl
    have e2 := h2 _ rfl
    subst e1 e2
    simp only [Dist.shift, Dist.stride]
    rw [Dist.rank_MD g _ (Nat.mod_lt _ hl), Option.map_some', mod_shift _ _ _ hl]
  | STAR =>
    simp [Dist.shift, Dist.rank, Dist.stride, Nat.mod_one]
  | CIRC =>
    have e1 := h1 _ rfl
    have e2 := h2 _ rfl
    subst e1 e2
    simp [Dist.shift, Dist.rank, Dist.stride, Nat.mod_one]

/-- In a supported distribution pattern the process `owner` owns the entry. -/
theorem Layout.owner_owns (g : Grid) (hr : 0 < g.height) (hc : 0 < g.width) (L : Layout)
    (hL : L.supported = true) (i j : Nat) :
    Dist.shift g L.colDist L.colAlign (L.owner g i j).1 (L.owner g i j).2
        = some (i % Dist.stride g L.colDist) ∧
    Dist.shift g L.rowDist L.rowAlign (L.owner g i j).1 (L.owner g i j).2
        = some (j % Dist.stride g L.rowDist) := by
  obtain ⟨cd, rd, ca, ra⟩ := L
  constructor
  · apply Dist.shift_owner g hr hc
    · intro a ha
      cases cd <;> cases rd <;>
        simp_all [Layout.supported, Layout.owner, Dist.ownerCoords]
    · intro b hb
      cases cd <;> cases rd <;>
        simp_all [Layout.supported, Layout.owner, Dist.ownerCoords]
  · apply Dist.shift_owner g hr hc
    · intro a ha
      cases cd <;> cases rd <;>
        simp_all [Layout.supported, Layout.owner, Dist.ownerCoords]
    · intro b hb
      cases cd <;> cases rd <;>
        simp_all [Layout.supported, Layout.owner, Dist.ownerCoords]

/-- The logical entries of a redistributed matrix are those of its source. -/
theorem DistMatrix.Get_redistribute {T : Type} (g : Grid) (hr : 0 < g.height)
    (hc : 0 < g.width) (A : DistMatrix T) (L : Layout) (hL : L.supported = true) (i j : Nat) :
    (A.redistribute g L).Get g i j = A.Get g i j := by
  obtain ⟨h1, h2⟩ := Layout.owner_owns g hr hc L hL i j
  unfold DistMatrix.Get DistMatrix.redistribute
  simp only [h1, h2]
  rw [Nat.mod_add_div', Nat.mod_add_div']
  rfl

/-- C23: for supported distribution patterns `D1` (that of `A`) and `D2`, on every
grid, redistributing `A` to `D2` and back to `D1` gives a matrix with the pattern
and the dimensions of `A` whose local entry for `(i, j)` on every process that owns
`(i, j)` is that of `A`, the replicated copies of `A` being equal. -/
theorem redistribute_round_trip {T : Type} (g : Grid) (hr : 0 < g.height) (hc : 0 < g.width)
    (A : DistMatrix T) (D2 : Layout) (h1 : A.layout.supported = true)
    (h2 : D2.supported = true) (hA : A.Consistent g) :
    ((A.redistribute g D2).redistribute g A.layout).layout = A.layout ∧
    ((A.redistribute g D2).redistribute g A.layout).height = A.height ∧
    ((A.redistribute g D2).redistribute g A.layout).width = A.width ∧
    (∀ i j, ((A.redistribute g D2).redistribute g A.layout).Get g i j = A.Get g i j) ∧
    (∀ p q i j, p < g.height → q < g.width → i < A.height → j < A.width →
      A.layout.owns g p q i j = true →
      ((A.redistribute g D2).redistribute g A.layout).localEntry p q
          (i / Dist.stride g A.layout.colDist) (j / Dist.stride g A.layout.rowDist)
        = A.localEntry p q
          (i / Dist.stride g A.layout.colDist) (j / Dist.stride g A.layout.rowDist)) := by
  refine ⟨rfl, rfl, rfl, ?_, ?_⟩
  · intro i j
    rw [DistMatrix.Get_redistribute g hr hc _ _ h1, DistMatrix.Get_redistribute g hr hc _ _ h2]
  · intro p q i j hp hq hi hj ho
    rw [hA p q i j hp hq hi hj ho]
    have ho1 := ho
    simp only [Layout.owns, decide_eq_true_eq] at ho1
    show (match Dist.shift g A.layout.colDist A.layout.colAlign p q,
        Dist.shift g A.layout.rowDist A.layout.rowAlign p q with
      | some a, some b =>
        (A.redistribute g D2).Get g (a + i / Dist.stride g A.layout.colDist
            * Dist.stride g A.layout.colDist)
          (b + j / Dist.stride g A.layout.rowDist * Dist.stride g A.layout.rowDist)
      | _, _ => (A.redistribute g D2).localEntry p q _ _) = _
    rw [ho1.1, ho1.2]
    simp only
    rw [Nat.mod_add_div', Nat.mod_add_div', DistMatrix.Get_redistribute g hr hc _ _ h2]

theorem exampleDistMatrix_consistent : exampleDistMatrix.Consistent exampleGrid :=
  fun p q i j hp hq hi hj =>
    (by decide : ∀ p < 2, ∀ q < 3, ∀ i < 4, ∀ j < 4,
      exampleDistMatrix.layout.owns exampleGrid p q i j = true →
      exampleDistMatrix.localEntry p q (i / 2) (j / 3) = exampleDistMatrix.Get exampleGrid i j)
      p hp q hq i hi j hj

/-- Witness for C23: the `4 x 4` matrix distributed `[MC,MR]` over the `2 x 3` grid,
sent to `[VC,STAR]` and back. -/
theorem redistribute_round_trip_witness :
    0 < exampleGrid.height ∧ 0 < exampleGrid.width ∧
    exampleDistMatrix.layout.supported = true ∧
    (⟨.VC, .STAR, 0, 0⟩ : Layout).supported = true ∧
    exampleDistMatrix.Consistent exampleGrid ∧
    (∀ i j, ((exampleDistMatrix.redistribute exampleGrid ⟨.VC, .STAR, 0, 0⟩).redistribute
        exampleGrid exampleDistMatrix.layout).Get exampleGrid i j
      = exampleDistMatrix.Get exampleGrid i j) :=
  ⟨by decide, by decide, rfl, rfl, exampleDistMatrix_consistent,
    (redistribute_round_trip exampleGrid (by decide) (by decide) exampleDistMatrix
      ⟨.VC, .STAR, 0, 0⟩ rfl rfl exampleDistMatrix_consistent).2.2.2.1⟩

/-- The entry `(3, 2)` of the example lives on the process `(1, 2)` under `[MC,MR]`
and on the process `(1, 1)` (rank 3) under `[VC,STAR]`, and it is 32 before and
after the round trip. -/
theorem redistribute_example :
    Layout.owner exampleGrid ⟨.MC, .MR, 0, 0⟩ 3 2 = (1, 2) ∧
    Layout.owner exampleGrid ⟨.VC, .STAR, 0, 0⟩ 3 2 = (1, 1) ∧
    exampleDistMatrix.Get exampleGrid 3 2 = 32 ∧
    ((exampleDistMatrix.redistribute exampleGrid ⟨.VC, .STAR, 0, 0⟩).redistribute
        exampleGrid exampleDistMatrix.layout).localEntry 1 2 1 0 = 32 := by
  decide

end Elemental

namespace Elemental

open Matrix

section QRProofs

variable {K : Type} [CommRing K]

theorem applyQVec_zero (kit : ReflectorKit K) :
    ∀ (m n : Nat) (A : Matrix (Fin m) (Fin n) K) (t : Nat → K),
      applyQVec kit m n A t (fun _ => 0) = fun _ => 0 := by
  intro m
  induction m with
  | zero => intro n A t; rfl
  | succ m ih =>
    intro n A t
    cases n with
    | zero => rfl
    | succ n =>
      rw [applyQVec, ih]
      have : (vecCons (0 : K) (fun _ : Fin m => (0 : K))) = 0 := by
        funext i
        refine Fin.cases ?_ (fun j => ?_) i <;> simp
      rw [this, mulVec_zero]
      rfl

theorem vecCons_col {m : Nat} (y : Fin (m + 1) → K) :
    vecCons (y 0) (fun i => y i.succ) = y := by
  funext i
  refine Fin.cases ?_ (fun j => ?_) i <;> simp

/-- With sound reflectors and enough fuel `QR` returns, and `Q` applied to each
column of the upper triangle of the factored matrix gives back the column of the
original matrix. -/
theorem QR_columns (kit : ReflectorKit K) (hk : kit.Sound) :
    ∀ (m n : Nat) (A : Matrix (Fin m) (Fin n) K),
      ∃ (Af : Matrix (Fin m) (Fin n) K) (t : Nat → K) (N : Nat),
        (∀ fuel, N ≤ fuel → QR kit fuel m n A = some (Af, t)) ∧
        ∀ j, applyQVec kit m n Af t (fun i => upperPart Af i j) = fun i => A i j := by
  intro m
  induction m with
  | zero =>
    intro n A
    refine ⟨A, fun _ => 0, 0, fun fuel _ => rfl, fun j => ?_⟩
    funext i
    exact i.elim0
  | succ m ih =>
    intro n A
    cases n with
    | zero =>
      exact ⟨A, fun _ => 0, 0, fun fuel _ => rfl, fun j => j.elim0⟩
    | succ n =>
      obtain ⟨r, N1, hcol, hann, hinv⟩ := hk m (A 0 0) (fun i => A i.succ 0)
      obtain ⟨A1, t1, N2, hrec, hcols⟩ := ih n
        ((kit.Hadj m r.tau r.x * A).submatrix Fin.succ Fin.succ)
      obtain ⟨Af, hAf⟩ : ∃ Af : Matrix (Fin (m + 1)) (Fin (n + 1)) K,
          Af = vecCons (vecCons r.chi (fun j => (kit.Hadj m r.tau r.x * A) 0 j.succ))
            (fun i => vecCons (r.x i) (A1 i)) := ⟨_, rfl⟩
      have e00 : Af 0 0 = r.chi := by rw [hAf]; rfl
      have e0s : ∀ j : Fin n, Af 0 j.succ = (kit.Hadj m r.tau r.x * A) 0 j.succ := by
        intro j; rw [hAf]; rfl
      have es0 : ∀ i : Fin m, Af i.succ 0 = r.x i := by
        intro i; rw [hAf]; rfl
      have ess : ∀ (i : Fin m) (j : Fin n), Af i.succ j.succ = A1 i j := by
        intro i j; rw [hAf]; rfl
      refine ⟨Af, tCons r.tau t1, max N1 N2, ?_, ?_⟩
      · intro fuel hf
        rw [QR, hcol fuel (le_trans (le_max_left _ _) hf)]
        simp only
        rw [hrec fuel (le_trans (le_max_right _ _) hf), hAf]
      · intro j
        rw [applyQVec]
        have hA1 : Matrix.submatrix Af Fin.succ Fin.succ = A1 := by
          funext i j1
          exact ess i j1
        have hx : (fun i : Fin m => Af i.succ 0) = r.x := funext es0
        have ht : (fun k => tCons r.tau t1 (k + 1)) = t1 := rfl
        have ht0 : tCons r.tau t1 0 = r.tau := rfl
        rw [hA1, hx, ht, ht0]
        have hback : ∀ y : Fin (m + 1) → K,
            kit.H m r.tau r.x *ᵥ (kit.Hadj m r.tau r.x *ᵥ y) = y := by
          intro y
          rw [mulVec_mulVec, hinv, one_mulVec]
        refine Fin.cases ?_ (fun j1 => ?_) j
        · -- the first column
          have h0 : (fun i : Fin m => upperPart Af i.succ 0) = fun _ => 0 := by
            funext i
            simp [upperPart]
          have h00 : upperPart Af 0 0 = r.chi := by
            simp [upperPart, e00]
          rw [h0, h00, applyQVec_zero]
          have : (vecCons r.chi (fun _ : Fin m => (0 : K))) = vecCons r.chi 0 := rfl
          rw [this, ← hann, hback]
          exact vecCons_col (fun i => A i 0)
        · -- a later column
          have h0 : (fun i : Fin m => upperPart Af i.succ j1.succ)
              = fun i => upperPart A1 i j1 := by
            funext i
            simp [upperPart, ess]
          have h00 : upperPart Af 0 j1.succ = (kit.Hadj m r.tau r.x * A) 0 j1.succ := by
            simp [upperPart, e0s]
          rw [h0, h00, hcols j1]
          have e : vecCons ((kit.Hadj m r.tau r.x * A) 0 j1.succ)
              (fun i => (kit.Hadj m r.tau r.x * A).submatrix Fin.succ Fin.succ i j1)
              = kit.Hadj m r.tau r.x *ᵥ (fun i => A i j1.succ) := by
            rw [← vecCons_col (kit.Hadj m r.tau r.x *ᵥ (fun i => A i j1.succ))]
            rfl
          rw [e, hback]

/-- With sound reflectors and enough fuel `QR` returns the factored matrix and `t`,
and `ApplyQ( LEFT, NORMAL, A, t, . )` applied to the upper triangle of the factored
matrix gives the original matrix. -/
theorem QR_ApplyQ (kit : ReflectorKit K) (hk : kit.Sound) (m n : Nat)
    (A : Matrix (Fin m) (Fin n) K) :
    ∃ (Af : Matrix (Fin m) (Fin n) K) (t : Nat → K) (N : Nat),
      (∀ fuel, N ≤ fuel → QR kit fuel m n A = some (Af, t)) ∧
      ApplyQ kit Af t (upperPart Af) = A := by
  obtain ⟨Af, t, N, h1, h2⟩ := QR_columns kit hk m n A
  refine ⟨Af, t, N, h1, ?_⟩
  funext i j
  exact congrFun (h2 j) i

end QRProofs

section KitProofs

variable {R : Type} [LinearOrderedField R]

theorem reflectorReal_transpose {n : Nat} (tau : R) (v : Fin n → R) :
    (reflectorReal tau v)ᵀ = reflectorReal tau v := by
  unfold reflectorReal
  exact rank1_transpose tau _

/-- The reflectors that the real `Col` computes are sound. -/
theorem realKit_sound [Archimedean R] {sqrt : R → R} (hs : IsSqrt sqrt) {safeMin epsilon : R}
    (h0 : 0 < safeMin) (h1 : safeMin < epsilon) : (realKit sqrt safeMin epsilon).Sound := by
  intro n chi x
  by_cases hx : x = 0
  · subst hx
    refine ⟨⟨2, -chi, 0⟩, 0, fun fuel _ => ColReal_zero sqrt hs safeMin epsilon fuel chi, ?_, ?_⟩
    · exact reflectorReal_two_zero_apply chi
    · show reflectorReal (2 : R) (0 : Fin n → R) * (reflectorReal (2 : R) (0 : Fin n → R))ᵀ = 1
      rw [reflectorReal_transpose]
      exact reflectorReal_two_zero_mul_self
  · obtain ⟨N, hN⟩ := ColReal_eq hs h0 h1 chi hx
    refine ⟨_, N, hN, ?_, ?_⟩
    · exact reflectorReal_apply (signedNorm_mul_self hs chi x) (signedNorm_ne_zero hs chi hx)
        (sub_signedNorm_ne_zero hs chi hx)
    · show reflectorReal _ _ * (reflectorReal _ _)ᵀ = 1
      rw [reflectorReal_transpose]
      exact reflectorReal_mul_self (signedNorm_mul_self hs chi x) (signedNorm_ne_zero hs chi hx)
        (sub_signedNorm_ne_zero hs chi hx)

/-- The reflectors that the complex `Col` computes are sound. -/
theorem complexKit_sound [Archimedean R] {sqrt : R → R} (hs : IsSqrt sqrt)
    {safeMin epsilon : R} (h0 : 0 < safeMin) (h1 : safeMin < epsilon) :
    (complexKit sqrt safeMin epsilon).Sound := by
  intro n chi x
  by_cases hxC : x ≠ 0 ∨ chi.im ≠ 0
  · obtain ⟨N, hN⟩ := ColComplex_eq hs h0 h1 hxC
    refine ⟨_, N, hN, ?_, ?_⟩
    · exact reflectorComplex_apply (signedNormC_mul_self hs chi x) (signedNormC_ne_zero hs hxC)
        (subReal_signedNormC_ne_zero hs hxC)
    · show reflectorComplex _ _ * (reflectorComplex _ _)ᴴ = 1
      rw [Matrix.mul_eq_one_comm]
      exact reflectorComplex_unitary (signedNormC_mul_self hs chi x)
        (signedNormC_ne_zero hs hxC) (subReal_signedNormC_ne_zero hs hxC)
  · push_neg at hxC
    obtain ⟨e, him⟩ := hxC
    subst e
    refine ⟨⟨Cplx.ofReal 2, -chi, 0⟩, 0,
      fun fuel _ => ColComplex_zero sqrt hs safeMin epsilon fuel chi him, ?_, ?_⟩
    · exact reflectorComplex_two_zero_apply chi
    · show reflectorComplex (Cplx.ofReal (2 : R)) (0 : Fin n → Cplx R)
        * (reflectorComplex (Cplx.ofReal (2 : R)) (0 : Fin n → Cplx R))ᴴ = 1
      rw [reflectorComplex_ofReal_hermitian]
      exact reflectorComplex_two_zero_mul_self

/-- C22: for every `m x n` matrix `A`, real or complex, in exact arithmetic with
machine constants `0 < safeMin < epsilon`, the Householder `QR( A, t )` returns for
every sufficiently large iteration budget of `reflector::Col`, and
`qr::ApplyQ( LEFT, NORMAL, A, t, . )` applied to the upper triangle of the factored
`A` gives the original matrix: `A = Q R` entry by entry. -/
theorem QR_reconstructs [Archimedean R] (sqrt : R → R) (hs : IsSqrt sqrt)
    (safeMin epsilon : R) (h0 : 0 < safeMin) (h1 : safeMin < epsilon) (m n : Nat)
    (A : Matrix (Fin m) (Fin n) R) (AC : Matrix (Fin m) (Fin n) (Cplx R)) :
    (∃ (Af : Matrix (Fin m) (Fin n) R) (t : Nat → R) (N : Nat),
      (∀ fuel, N ≤ fuel → QR (realKit sqrt safeMin epsilon) fuel m n A = some (Af, t)) ∧
      ApplyQ (realKit sqrt safeMin epsilon) Af t (upperPart Af) = A) ∧
    (∃ (Af : Matrix (Fin m) (Fin n) (Cplx R)) (t : Nat → Cplx R) (N : Nat),
      (∀ fuel, N ≤ fuel → QR (complexKit sqrt safeMin epsilon) fuel m n AC = some (Af, t)) ∧
      ApplyQ (complexKit sqrt safeMin epsilon) Af t (upperPart Af) = AC) :=
  ⟨QR_ApplyQ _ (realKit_sound hs h0 h1) m n A, QR_ApplyQ _ (complexKit_sound hs h0 h1) m n AC⟩

end KitProofs

/-- Witness for C22 over the real numbers: the matrix with the rows `3, 1` and `4, 2`,
and the complex matrix with the rows `i, 1` and `0, 2`. -/
theorem QR_reconstructs_witness :
    ((0 : ℝ) < 1 / 4) ∧ ((1 / 4 : ℝ) < 1 / 2) ∧
    (∃ (Af : Matrix (Fin 2) (Fin 2) ℝ) (t : Nat → ℝ) (N : Nat),
      (∀ fuel, N ≤ fuel →
        QR (realKit Real.sqrt (1 / 4) (1 / 2)) fuel 2 2 !![3, 1; 4, 2] = some (Af, t)) ∧
      ApplyQ (realKit Real.sqrt (1 / 4) (1 / 2)) Af t (upperPart Af) = !![3, 1; 4, 2]) ∧
    (∃ (Af : Matrix (Fin 2) (Fin 2) (Cplx ℝ)) (t : Nat → Cplx ℝ) (N : Nat),
      (∀ fuel, N ≤ fuel →
        QR (complexKit Real.sqrt (1 / 4) (1 / 2)) fuel 2 2 !![⟨0, 1⟩, 1; 0, 2] = some (Af, t)) ∧
      ApplyQ (complexKit Real.sqrt (1 / 4) (1 / 2)) Af t (upperPart Af)
        = !![⟨0, 1⟩, 1; 0, 2]) :=
  ⟨by norm_num, by norm_num,
    QR_reconstructs Real.sqrt IsSqrt_real (1 / 4) (1 / 2) (by norm_num) (by norm_num) 2 2
      !![3, 1; 4, 2] !![⟨0, 1⟩, 1; 0, 2]⟩

end Elemental
